import Mathlib

/-!
Block-template assembler: package selection (`miner.cpp`).

Shallow embedding of `BlockAssembler::addPackageTxs` and the helpers it calls
(`onlyUnconfirmed`, `TestPackage`, `TestPackageTransactions`, `AddToBlock`,
`UpdatePackagesForAdded`, `SkipMapTxEntry`, `SortForBlock`).

Conventions.
* A mempool iterator (`CTxMemPool::txiter`) is a handle: the position of the entry in the
  arena `CTxMemPool.mapTx`.  The identity order of handles stands for the order of
  `CompareIteratorByHash`.
* `CTxMemPool::setEntries` is a list without repetitions.
* Unsigned machine integers are natural numbers, reduced modulo `2^64` / `2^32` at the
  operations of the source; `CAmount` values are integers.
* The `while` loop is a step function on an explicit state; `run k` performs `k` iterations.
-/

namespace Miner

/-! ## Data model -/

/-- Modulus of `uint64_t` arithmetic. -/
abbrev U64 : Nat := 18446744073709551616

/-- Modulus of `unsigned int` arithmetic. -/
abbrev U32 : Nat := 4294967296

/-- Transaction reference stored in `pblock->vtx`: an empty placeholder, a quorum commitment
inserted by `CreateNewBlock`, the shared transaction of the mempool entry `iter`, the
coinbase built by `CreateNewBlock` from the reward `blockReward`, or the coinstake produced
by the wallet. -/
inductive CTransactionRef where
  | null
  | commitment (llmqType : Nat)
  | pool (iter : Nat)
  | coinbase (blockReward : Int)
  | coinstake
  deriving DecidableEq

/-- Modelled from the spec: `CTxMemPoolEntry` (declared in `txmempool.h`, which is not part of
the sources).  One record per mempool transaction: its own size, paid fee, modified fee and
sigop count, the stored ancestor aggregates, the set of in-mempool ancestors that the mempool
view reports for it, and the outcome of the two external validity predicates for the block
under construction (`IsFinalTx(tx, nHeight, nLockTimeCutoff)` and `IsTxSafeForMining(hash)`). -/
structure CTxMemPoolEntry where
  nTxSize : Nat
  nFee : Int
  nModifiedFee : Int
  sigOpCount : Nat
  nCountWithAncestors : Nat
  nSizeWithAncestors : Nat
  nModFeesWithAncestors : Int
  nSigOpCountWithAncestors : Nat
  ancestors : List Nat
  isFinalTx : Bool
  isTxSafeForMining : Bool

/-- Entry read through a handle that is not in the arena (never produced by the selector). -/
def CTxMemPoolEntry.absent : CTxMemPoolEntry :=
  { nTxSize := 0, nFee := 0, nModifiedFee := 0, sigOpCount := 0, nCountWithAncestors := 0,
    nSizeWithAncestors := 0, nModFeesWithAncestors := 0, nSigOpCountWithAncestors := 0,
    ancestors := [], isFinalTx := false, isTxSafeForMining := false }

/-- Mempool snapshot: the arena of entries; the handle of an entry is its position. -/
structure CTxMemPool where
  mapTx : List CTxMemPoolEntry

/-- Number of entries of the snapshot. -/
def CTxMemPool.size (mp : CTxMemPool) : Nat := mp.mapTx.length

/-- Dereference of a handle. -/
def CTxMemPool.entry (mp : CTxMemPool) (it : Nat) : CTxMemPoolEntry :=
  mp.mapTx.getD it CTxMemPoolEntry.absent

/-- Modelled from the spec: `calculateMempoolAncestors(entry)`, the set of in-mempool
ancestors of the entry (the entry itself excluded by the caller's later insert), as a set. -/
def CTxMemPool.CalculateMemPoolAncestors (mp : CTxMemPool) (it : Nat) : List Nat :=
  (mp.entry it).ancestors.dedup

/-- Modelled from the spec: `calculateDescendants(entry)`, the entries of the snapshot that
have `it` among their ancestors, together with `it` itself. -/
def CTxMemPool.CalculateDescendants (mp : CTxMemPool) (it : Nat) : List Nat :=
  (List.range mp.size).filter (fun d => decide (d = it) || decide (it ∈ (mp.entry d).ancestors))

/-- Modelled from the spec: the comparator of the ancestor-score index (§4.2).  Feerates are
compared by cross-multiplication, higher feerate first; ties are broken by ancestor count
descending, then by identity ascending.  `true` when `a` sorts strictly before `b`. -/
def scoreBefore (feeA : Int) (sizeA cntA idA : Nat) (feeB : Int) (sizeB cntB idB : Nat) : Bool :=
  if feeA * (sizeB : Int) = feeB * (sizeA : Int) then
    (if cntA = cntB then decide (idA < idB) else decide (cntB < cntA))
  else decide (feeB * (sizeA : Int) < feeA * (sizeB : Int))

/-- Modelled from the spec: `ModifiedEntry` (`CTxMemPoolModifiedEntry` of `miner.h`, not part
of the sources): the adjusted ancestor aggregates of the entry the row is keyed by. -/
structure CTxMemPoolModifiedEntry where
  nSizeWithAncestors : Nat
  nModFeesWithAncestors : Int
  nSigOpCountWithAncestors : Nat
  deriving DecidableEq

/-- Constructor `CTxMemPoolModifiedEntry(entry)`: a row initialised from the stored
aggregates of the entry. -/
def CTxMemPool.modifiedEntryOf (mp : CTxMemPool) (it : Nat) : CTxMemPoolModifiedEntry :=
  { nSizeWithAncestors := (mp.entry it).nSizeWithAncestors,
    nModFeesWithAncestors := (mp.entry it).nModFeesWithAncestors,
    nSigOpCountWithAncestors := (mp.entry it).nSigOpCountWithAncestors }

/-- Modelled from the spec: `CompareModifiedEntry`, the comparator of §4.2 applied to the
adjusted aggregates of two rows (given with their keys). -/
def CompareModifiedEntry (mp : CTxMemPool) (a b : Nat × CTxMemPoolModifiedEntry) : Bool :=
  scoreBefore a.2.nModFeesWithAncestors a.2.nSizeWithAncestors (mp.entry a.1).nCountWithAncestors a.1
    b.2.nModFeesWithAncestors b.2.nSizeWithAncestors (mp.entry b.1).nCountWithAncestors b.1

/-- Order of the mempool's ancestor-score index: `a` does not sort after `b`. -/
def CTxMemPool.scoreLE (mp : CTxMemPool) (a b : Nat) : Prop :=
  CompareModifiedEntry mp (b, mp.modifiedEntryOf b) (a, mp.modifiedEntryOf a) = false

instance CTxMemPool.scoreLE_decidable (mp : CTxMemPool) : DecidableRel mp.scoreLE :=
  fun a b => inferInstanceAs (Decidable (CompareModifiedEntry mp (b, mp.modifiedEntryOf b)
    (a, mp.modifiedEntryOf a) = false))

/-- Iteration order of `mapTx.get<ancestor_score>()`: all handles, best ancestor score first. -/
def CTxMemPool.ancestorScoreIndex (mp : CTxMemPool) : List Nat :=
  (List.range mp.size).insertionSort mp.scoreLE

/-- The modified-package index, keyed by entry handle. -/
abbrev indexed_modified_transaction_set := Nat → Option CTxMemPoolModifiedEntry

/-- The empty modified index. -/
def emptyModified : indexed_modified_transaction_set := fun _ => none

/-- Lookup-and-replace of the row of `it`. -/
def modifiedSet (m : indexed_modified_transaction_set) (it : Nat)
    (r : CTxMemPoolModifiedEntry) : indexed_modified_transaction_set :=
  fun k => if k = it then some r else m k

/-- Row removal `mapModifiedTx.erase(it)`. -/
def modifiedErase (m : indexed_modified_transaction_set) (it : Nat) :
    indexed_modified_transaction_set :=
  fun k => if k = it then none else m k

/-- Rows of the modified index with their keys, in identity order. -/
def modifiedRows (mp : CTxMemPool) (m : indexed_modified_transaction_set) :
    List (Nat × CTxMemPoolModifiedEntry) :=
  (List.range mp.size).filterMap (fun k => (m k).map (fun r => (k, r)))

/-- Order of the ancestor-score index of the modified set. -/
def modScoreLE (mp : CTxMemPool) (a b : Nat × CTxMemPoolModifiedEntry) : Prop :=
  CompareModifiedEntry mp b a = false

instance modScoreLE_decidable (mp : CTxMemPool) : DecidableRel (modScoreLE mp) :=
  fun a b => inferInstanceAs (Decidable (CompareModifiedEntry mp b a = false))

/-- Result of `mapModifiedTx.get<ancestor_score>().begin()`: the best row, if any. -/
def modifiedBegin (mp : CTxMemPool) (m : indexed_modified_transaction_set) :
    Option (Nat × CTxMemPoolModifiedEntry) :=
  ((modifiedRows mp m).insertionSort (modScoreLE mp)).head?

/-- Minimum feerate; `GetFee` is the fee the rate asks for a given size (`policy/feerate`
is not part of the sources, so the function is a parameter). -/
structure CFeeRate where
  GetFee : Nat → Int

/-- Constants of one template build: the clamped `nBlockMaxSize`, `blockMinFeeRate`, and the
value of `MaxBlockSigOps(fDIP0001ActiveAtTip)`. -/
structure Params where
  nBlockMaxSize : Nat
  blockMinFeeRate : CFeeRate
  MaxBlockSigOps : Nat

/-- Scratch state of the assembler together with the lists of the template it fills. -/
structure BlockAssembler where
  vtx : List CTransactionRef
  vTxFees : List Int
  vTxSigOps : List Int
  inBlock : List Nat
  nBlockSize : Nat
  nBlockSigOps : Nat
  nBlockTx : Nat
  nFees : Int

/-- How the loop of `addPackageTxs` stands. -/
inductive LoopStatus where
  | running
  | exhausted
  | returned
  | gaveUp
  | assertFailed
  deriving DecidableEq

/-- Record of one committed package (history variable, not part of the source state): the
anchor, the source of the candidate, the aggregates the gates were evaluated on, and the
entries handed to `AddToBlock` in order. -/
structure PackageRecord where
  iter : Nat
  fUsingModified : Bool
  packageSize : Nat
  packageFees : Int
  packageSigOps : Nat
  sortedEntries : List Nat
  deriving DecidableEq

/-- State of `addPackageTxs`: the assembler, the locals of the function, and the history of
committed packages (`committed`) and the largest `nBlockSize` / `nBlockSigOps` seen after any
`AddToBlock` (`peakBlockSize`, `peakBlockSigOps`; history variables as well). -/
structure SelectorState extends BlockAssembler where
  mapModifiedTx : indexed_modified_transaction_set
  failedTx : List Nat
  mi : List Nat
  nConsecutiveFailed : Nat
  nPackagesSelected : Nat
  nDescendantsUpdated : Nat
  status : LoopStatus
  committed : List PackageRecord
  peakBlockSize : Nat
  peakBlockSigOps : Nat

/-! ## Operations -/

/-- Insertion into a `setEntries`. -/
def setInsert (it : Nat) (s : List Nat) : List Nat :=
  if it ∈ s then s else s ++ [it]

/-- `BlockAssembler::onlyUnconfirmed`: drop the members that are already in the block. -/
def onlyUnconfirmed (inBlock : List Nat) (testSet : List Nat) : List Nat :=
  testSet.filter (fun it => decide (it ∉ inBlock))

/-- `BlockAssembler::TestPackage`. -/
def TestPackage (cfg : Params) (nBlockSize nBlockSigOps : Nat) (packageSize packageSigOps : Nat) :
    Bool :=
  if (nBlockSize + packageSize) % U64 ≥ cfg.nBlockMaxSize then false
  else if (nBlockSigOps + packageSigOps) % U32 ≥ cfg.MaxBlockSigOps then false
  else true

/-- `BlockAssembler::TestPackageTransactions`. -/
def TestPackageTransactions (mp : CTxMemPool) (package : List Nat) : Bool :=
  package.all (fun it => (mp.entry it).isFinalTx && (mp.entry it).isTxSafeForMining)

/-- `BlockAssembler::AddToBlock`. -/
def AddToBlock (mp : CTxMemPool) (a : BlockAssembler) (iter : Nat) : BlockAssembler :=
  { vtx := a.vtx ++ [CTransactionRef.pool iter],
    vTxFees := a.vTxFees ++ [(mp.entry iter).nFee],
    vTxSigOps := a.vTxSigOps ++ [((mp.entry iter).sigOpCount : Int)],
    inBlock := setInsert iter a.inBlock,
    nBlockSize := (a.nBlockSize + (mp.entry iter).nTxSize) % U64,
    nBlockSigOps := (a.nBlockSigOps + (mp.entry iter).sigOpCount) % U32,
    nBlockTx := (a.nBlockTx + 1) % U64,
    nFees := a.nFees + (mp.entry iter).nFee }

/-- Modelled from the spec: `update_for_parent_inclusion(it)` (`miner.h`), the adjustment
`(−X.size, −X.modifiedFee, −X.sigOps)` applied to a row, in the row's machine types. -/
def update_for_parent_inclusion (mp : CTxMemPool) (it : Nat) (e : CTxMemPoolModifiedEntry) :
    CTxMemPoolModifiedEntry :=
  { nSizeWithAncestors := (e.nSizeWithAncestors + (U64 - (mp.entry it).nTxSize % U64)) % U64,
    nModFeesWithAncestors := e.nModFeesWithAncestors - (mp.entry it).nModifiedFee,
    nSigOpCountWithAncestors :=
      (e.nSigOpCountWithAncestors + (U32 - (mp.entry it).sigOpCount % U32)) % U32 }

/-- The row inserted for a descendant without a row (lines 396-400): `modEntry(desc)` with
the size, the modified fee and the sigop count of `it` subtracted. -/
def newModifiedEntry (mp : CTxMemPool) (it desc : Nat) : CTxMemPoolModifiedEntry :=
  { nSizeWithAncestors :=
      ((mp.modifiedEntryOf desc).nSizeWithAncestors + (U64 - (mp.entry it).nTxSize % U64)) % U64,
    nModFeesWithAncestors :=
      (mp.modifiedEntryOf desc).nModFeesWithAncestors - (mp.entry it).nModifiedFee,
    nSigOpCountWithAncestors :=
      ((mp.modifiedEntryOf desc).nSigOpCountWithAncestors +
        (U32 - (mp.entry it).sigOpCount % U32)) % U32 }

/-- Body of the inner loop of `UpdatePackagesForAdded` for one descendant `desc` of `it`. -/
def updateDescendant (mp : CTxMemPool) (alreadyAdded : List Nat) (it : Nat)
    (acc : Nat × indexed_modified_transaction_set) (desc : Nat) :
    Nat × indexed_modified_transaction_set :=
  if desc ∈ alreadyAdded then acc
  else
    (acc.1 + 1,
      match acc.2 desc with
      | none => modifiedSet acc.2 desc (newModifiedEntry mp it desc)
      | some r => modifiedSet acc.2 desc (update_for_parent_inclusion mp it r))

/-- Body of the outer loop of `UpdatePackagesForAdded` for one added entry `it`. -/
def updateForAdded (mp : CTxMemPool) (alreadyAdded : List Nat)
    (acc : Nat × indexed_modified_transaction_set) (it : Nat) :
    Nat × indexed_modified_transaction_set :=
  (mp.CalculateDescendants it).foldl (updateDescendant mp alreadyAdded it) acc

/-- `BlockAssembler::UpdatePackagesForAdded`: returns `nDescendantsUpdated` and the updated
modified index. -/
def UpdatePackagesForAdded (mp : CTxMemPool) (alreadyAdded : List Nat)
    (mapModifiedTx : indexed_modified_transaction_set) :
    Nat × indexed_modified_transaction_set :=
  alreadyAdded.foldl (updateForAdded mp alreadyAdded) (0, mapModifiedTx)

/-- `BlockAssembler::SkipMapTxEntry`. -/
def SkipMapTxEntry (it : Nat) (mapModifiedTx : indexed_modified_transaction_set)
    (inBlock failedTx : List Nat) : Bool :=
  (mapModifiedTx it).isSome || decide (it ∈ inBlock) || decide (it ∈ failedTx)

/-- Modelled from the spec: `CompareTxIterByAncestorCount` (`miner.h`): ancestor count
ascending, equal counts by identity. -/
def CTxMemPool.countLE (mp : CTxMemPool) (a b : Nat) : Prop :=
  (mp.entry a).nCountWithAncestors < (mp.entry b).nCountWithAncestors ∨
    ((mp.entry a).nCountWithAncestors = (mp.entry b).nCountWithAncestors ∧ a ≤ b)

instance CTxMemPool.countLE_decidable (mp : CTxMemPool) : DecidableRel mp.countLE :=
  fun a b => inferInstanceAs (Decidable
    ((mp.entry a).nCountWithAncestors < (mp.entry b).nCountWithAncestors ∨
      ((mp.entry a).nCountWithAncestors = (mp.entry b).nCountWithAncestors ∧ a ≤ b)))

/-- `BlockAssembler::SortForBlock`. -/
def SortForBlock (mp : CTxMemPool) (package : List Nat) : List Nat :=
  package.insertionSort mp.countLE

/-- `MAX_CONSECUTIVE_FAILURES` of `addPackageTxs`. -/
def MAX_CONSECUTIVE_FAILURES : Nat := 1000

/-- The failure path shared by the resource gate and the validity gate: a candidate taken
from the modified index loses its row and is recorded in `failedTx`. -/
def markFailed (s : SelectorState) (iter : Nat) (fUsingModified : Bool) : SelectorState :=
  if fUsingModified then
    { s with mapModifiedTx := modifiedErase s.mapModifiedTx iter,
             failedTx := setInsert iter s.failedTx }
  else s

/-- One pass of the commit loop `for (i ...) { AddToBlock(sortedEntries[i]);
mapModifiedTx.erase(sortedEntries[i]); }`. -/
def addEntry (mp : CTxMemPool) (s : SelectorState) (it : Nat) : SelectorState :=
  { s with toBlockAssembler := AddToBlock mp s.toBlockAssembler it,
           mapModifiedTx := modifiedErase s.mapModifiedTx it,
           peakBlockSize := max s.peakBlockSize (AddToBlock mp s.toBlockAssembler it).nBlockSize,
           peakBlockSigOps :=
             max s.peakBlockSigOps (AddToBlock mp s.toBlockAssembler it).nBlockSigOps }

/-- The commit of a package (lines 554-570 of `miner.cpp`). -/
def commitPackage (mp : CTxMemPool) (s : SelectorState) (iter : Nat) (fUsingModified : Bool)
    (packageSize : Nat) (packageFees : Int) (packageSigOps : Nat) (ancestors : List Nat) :
    SelectorState :=
  let sortedEntries := SortForBlock mp ancestors
  let s1 := sortedEntries.foldl (addEntry mp) { s with nConsecutiveFailed := 0 }
  let upd := UpdatePackagesForAdded mp ancestors s1.mapModifiedTx
  { s1 with nPackagesSelected := s1.nPackagesSelected + 1,
            nDescendantsUpdated := s1.nDescendantsUpdated + upd.1,
            mapModifiedTx := upd.2,
            committed := s1.committed ++
              [{ iter := iter, fUsingModified := fUsingModified, packageSize := packageSize,
                 packageFees := packageFees, packageSigOps := packageSigOps,
                 sortedEntries := sortedEntries }] }

/-- The part of the loop body after the candidate has been chosen (lines 501-570). -/
def evaluateCandidate (mp : CTxMemPool) (cfg : Params) (s : SelectorState) (iter : Nat)
    (fUsingModified : Bool) (packageSize : Nat) (packageFees : Int) (packageSigOps : Nat) :
    SelectorState :=
  if iter ∈ s.inBlock then { s with status := LoopStatus.assertFailed }
  else if packageFees < cfg.blockMinFeeRate.GetFee packageSize then
    { s with status := LoopStatus.returned }
  else if TestPackage cfg s.nBlockSize s.nBlockSigOps packageSize packageSigOps = false then
    let s1 := markFailed s iter fUsingModified
    let s2 := { s1 with nConsecutiveFailed := s1.nConsecutiveFailed + 1 }
    if MAX_CONSECUTIVE_FAILURES < s2.nConsecutiveFailed ∧
        (cfg.nBlockMaxSize + (U32 - 1000)) % U32 < s2.nBlockSize then
      { s2 with status := LoopStatus.gaveUp }
    else s2
  else
    let ancestors := setInsert iter (onlyUnconfirmed s.inBlock (mp.CalculateMemPoolAncestors iter))
    if TestPackageTransactions mp ancestors = false then markFailed s iter fUsingModified
    else commitPackage mp s iter fUsingModified packageSize packageFees packageSigOps ancestors

/-- Evaluation of a candidate taken from the modified index. -/
def evaluateModified (mp : CTxMemPool) (cfg : Params) (s : SelectorState)
    (modit : Nat × CTxMemPoolModifiedEntry) : SelectorState :=
  evaluateCandidate mp cfg s modit.1 true modit.2.nSizeWithAncestors
    modit.2.nModFeesWithAncestors modit.2.nSigOpCountWithAncestors

/-- Evaluation of the candidate under the mempool cursor; the cursor has been advanced. -/
def evaluateMapTx (mp : CTxMemPool) (cfg : Params) (s : SelectorState) (it : Nat)
    (rest : List Nat) : SelectorState :=
  evaluateCandidate mp cfg { s with mi := rest } it false (mp.entry it).nSizeWithAncestors
    (mp.entry it).nModFeesWithAncestors (mp.entry it).nSigOpCountWithAncestors

/-- One iteration of the `while` loop of `addPackageTxs` (lines 466-571); a state whose loop
has ended is left as it is. -/
def step (mp : CTxMemPool) (cfg : Params) (s : SelectorState) : SelectorState :=
  match s.status with
  | LoopStatus.running =>
    match s.mi, modifiedBegin mp s.mapModifiedTx with
    | [], none => { s with status := LoopStatus.exhausted }
    | [], some modit => evaluateModified mp cfg s modit
    | it :: rest, none =>
      if SkipMapTxEntry it s.mapModifiedTx s.inBlock s.failedTx then { s with mi := rest }
      else evaluateMapTx mp cfg s it rest
    | it :: rest, some modit =>
      if SkipMapTxEntry it s.mapModifiedTx s.inBlock s.failedTx then { s with mi := rest }
      else if CompareModifiedEntry mp modit (it, mp.modifiedEntryOf it) then
        evaluateModified mp cfg s modit
      else evaluateMapTx mp cfg s it rest
  | _ => s

/-- State of `addPackageTxs` on entry to the loop (lines 449-464). -/
def addPackageTxsInit (mp : CTxMemPool) (a : BlockAssembler) (nPackagesSelected
    nDescendantsUpdated : Nat) : SelectorState :=
  { toBlockAssembler := a,
    mapModifiedTx := (UpdatePackagesForAdded mp a.inBlock emptyModified).2,
    failedTx := [],
    mi := mp.ancestorScoreIndex,
    nConsecutiveFailed := 0,
    nPackagesSelected := nPackagesSelected,
    nDescendantsUpdated := nDescendantsUpdated,
    status := LoopStatus.running,
    committed := [],
    peakBlockSize := a.nBlockSize,
    peakBlockSigOps := a.nBlockSigOps }

/-- The state after `k` iterations of the loop. -/
def run (mp : CTxMemPool) (cfg : Params) : Nat → SelectorState → SelectorState
  | 0, s => s
  | k + 1, s => run mp cfg k (step mp cfg s)

/-- `BlockAssembler::resetBlock`. -/
def resetBlock (a : BlockAssembler) : BlockAssembler :=
  { a with inBlock := [], nBlockSize := 1000, nBlockSigOps := 100, nBlockTx := 0, nFees := 0 }

/-- All entries handed to `AddToBlock` so far, in commit order. -/
def committedEntries (s : SelectorState) : List Nat :=
  (s.committed.map (fun r => r.sortedEntries)).flatten

/-- Number of loop iterations that is enough for every run on the snapshot `mp`. -/
def fuelBound (mp : CTxMemPool) : Nat := (mp.size + 2) * mp.size + 2 * mp.size + 1

/-- `BlockAssembler::addPackageTxs`: the state in which the loop has ended (`fuelBound`
iterations are performed; the loop is over before they are used up). -/
def addPackageTxs (mp : CTxMemPool) (cfg : Params) (a : BlockAssembler)
    (nPackagesSelected nDescendantsUpdated : Nat) : SelectorState :=
  run mp cfg (fuelBound mp) (addPackageTxsInit mp a nPackagesSelected nDescendantsUpdated)

/-- Number of entries of the snapshot that are not in the block. -/
def unconfirmedCount (mp : CTxMemPool) (inBlock : List Nat) : Nat :=
  ((List.range mp.size).filter (fun h => decide (h ∉ inBlock))).length

/-- Number of rows of the modified index. -/
def rowCount (mp : CTxMemPool) (m : indexed_modified_transaction_set) : Nat :=
  ((List.range mp.size).filter (fun h => (m h).isSome)).length

/-- Termination measure of the loop: a commit lowers the first summand, a failed candidate of
the modified index lowers the second, an advance of the mempool cursor lowers the third. -/
def loopMeasure (mp : CTxMemPool) (s : SelectorState) : Nat :=
  (mp.size + 2) * unconfirmedCount mp s.inBlock + rowCount mp s.mapModifiedTx + s.mi.length

/-- Number of entries that can still be the anchor of a candidate before the next commit:
those with a row in the modified index, and those still ahead of the mempool cursor that are
neither in the block nor recorded as failed. -/
def pendingCount (mp : CTxMemPool) (s : SelectorState) : Nat :=
  ((List.range mp.size).filter (fun x => (s.mapModifiedTx x).isSome ||
    (decide (x ∈ s.mi) && !decide (x ∈ s.failedTx) && !decide (x ∈ s.inBlock)))).length

/-- Effect of one `upsert` of §4.3 on the row of `desc`: the row (a fresh one built from the
stored aggregates when there is none) reduced by the contribution of the parent `it`. -/
def adjustRow (mp : CTxMemPool) (desc : Nat) (row : Option CTxMemPoolModifiedEntry) (it : Nat) :
    Option CTxMemPoolModifiedEntry :=
  some (update_for_parent_inclusion mp it (row.getD (mp.modifiedEntryOf desc)))

/-- The package that a candidate anchored at `iter` commits when `inBlock` is the set of
entries already in the block (lines 537-543): the anchor and its ancestors not in `inBlock`. -/
def packageOf (mp : CTxMemPool) (inBlock : List Nat) (iter : Nat) : List Nat :=
  setInsert iter (onlyUnconfirmed inBlock (mp.CalculateMemPoolAncestors iter))

/-- Sum of the sizes of a list of entries. -/
def sizeSum (mp : CTxMemPool) (l : List Nat) : Nat := (l.map (fun x => (mp.entry x).nTxSize)).sum

/-- Sum of the sigop counts of a list of entries. -/
def sigOpSum (mp : CTxMemPool) (l : List Nat) : Nat :=
  (l.map (fun x => (mp.entry x).sigOpCount)).sum

/-- Sum of the modified fees of a list of entries. -/
def modFeeSum (mp : CTxMemPool) (l : List Nat) : Int :=
  (l.map (fun x => (mp.entry x).nModifiedFee)).sum

/-- Every row of the modified index is an upper bound, in size and in sigops, on the package
that its entry would commit with the block set `inBlock`, and is bounded by the stored
aggregates of the entry. -/
def RowsCover (mp : CTxMemPool) (inBlock : List Nat) (m : indexed_modified_transaction_set) :
    Prop :=
  ∀ D r, m D = some r →
    sizeSum mp (packageOf mp inBlock D) ≤ r.nSizeWithAncestors ∧
    r.nSizeWithAncestors ≤ (mp.entry D).nSizeWithAncestors ∧
    sigOpSum mp (packageOf mp inBlock D) ≤ r.nSigOpCountWithAncestors ∧
    r.nSigOpCountWithAncestors ≤ (mp.entry D).nSigOpCountWithAncestors

/-- The stored size and sigop aggregates of every entry are the sums over the entry and its
in-mempool ancestors. -/
def AggregatesConsistent (mp : CTxMemPool) : Prop :=
  ∀ D, (mp.entry D).nSizeWithAncestors = sizeSum mp (packageOf mp [] D) ∧
    (mp.entry D).nSigOpCountWithAncestors = sigOpSum mp (packageOf mp [] D)

/-- The resource gate does not wrap around: the limits plus a stored aggregate fit the
machine types of `TestPackage`. -/
def NoWrap (mp : CTxMemPool) (cfg : Params) : Prop :=
  ∀ D, cfg.nBlockMaxSize + (mp.entry D).nSizeWithAncestors < U64 ∧
    cfg.MaxBlockSigOps + (mp.entry D).nSigOpCountWithAncestors < U32

/-! ## Concrete snapshots -/

/-- A final, safe mempool entry without sigops whose modified fee is its paid fee. -/
def plainEntry (size : Nat) (fee : Int) (ancestors : List Nat) (count sizeWithAncestors : Nat)
    (feesWithAncestors : Int) : CTxMemPoolEntry :=
  { nTxSize := size, nFee := fee, nModifiedFee := fee, sigOpCount := 0,
    nCountWithAncestors := count, nSizeWithAncestors := sizeWithAncestors,
    nModFeesWithAncestors := feesWithAncestors, nSigOpCountWithAncestors := 0,
    ancestors := ancestors, isFinalTx := true, isTxSafeForMining := true }

/-- Feerate of `rate` satoshis per byte. -/
def perByte (rate : Int) : CFeeRate := { GetFee := fun size => rate * (size : Int) }

/-- Build constants with the given block size limit and minimum feerate (per byte). -/
def paramsOf (nBlockMaxSize : Nat) (rate : Int) : Params :=
  { nBlockMaxSize := nBlockMaxSize, blockMinFeeRate := perByte rate, MaxBlockSigOps := 40000 }

/-- The assembler as `CreateNewBlock` hands it to `addPackageTxs` when no quorum commitment
was inserted: `resetBlock` has run and slot 0 holds the coinbase placeholder. -/
def freshAssembler : BlockAssembler :=
  { vtx := [CTransactionRef.null], vTxFees := [-1], vTxSigOps := [-1], inBlock := [],
    nBlockSize := 1000, nBlockSigOps := 100, nBlockTx := 0, nFees := 0 }

/-- Scenario 3 of the specification (child pays for parent): entry 0 is the parent
(size 500, fee 0), entry 1 the child (size 250, fee 1000). -/
def cpfpPool : CTxMemPool :=
  { mapTx := [plainEntry 500 0 [] 1 500 0, plainEntry 250 1000 [0] 2 750 1000] }

/-- Two children of one parent: entry 0 is the parent (size 100, fee 0), entries 1 and 2 are
children of it with fees 1000 and 900 (size 100 each). -/
def siblingsPool : CTxMemPool :=
  { mapTx := [plainEntry 100 0 [] 1 100 0, plainEntry 100 1000 [0] 2 200 1000,
      plainEntry 100 900 [0] 2 200 900] }

/-- One child of two parents: entries 0 and 2 are the parents (size 100; fees 1000 and 100),
entry 1 is the child (size 10000, fee 100000). -/
def twoParentsPool : CTxMemPool :=
  { mapTx := [plainEntry 100 1000 [] 1 100 1000,
      plainEntry 10000 100000 [0, 2] 3 10200 101100,
      plainEntry 100 100 [] 1 100 100] }

/-- A single entry for which `IsTxSafeForMining` is false. -/
def unsafePool : CTxMemPool :=
  { mapTx := [{ plainEntry 200 1000 [] 1 200 1000 with isTxSafeForMining := false }] }

/-- The ancestor feerate recorded for `r2` does not exceed the one recorded for `r1`
(package fees over package size at commit time, compared by cross-multiplication). -/
def PackageRecord.feerateGE (r1 r2 : PackageRecord) : Prop :=
  r2.packageFees * (r1.packageSize : Int) ≤ r1.packageFees * (r2.packageSize : Int)

instance PackageRecord.feerateGE_decidable : DecidableRel PackageRecord.feerateGE :=
  fun r1 r2 => inferInstanceAs (Decidable
    (r2.packageFees * (r1.packageSize : Int) ≤ r1.packageFees * (r2.packageSize : Int)))

/-- The ancestor feerates of a sequence of committed packages are non-increasing: each
package's feerate is at most the feerate of the package committed just before it. -/
def FeeratesNonIncreasing : List PackageRecord → Prop
  | [] => True
  | [_] => True
  | r1 :: r2 :: rest => r1.feerateGE r2 ∧ FeeratesNonIncreasing (r2 :: rest)

instance FeeratesNonIncreasing_decidable :
    (l : List PackageRecord) → Decidable (FeeratesNonIncreasing l)
  | [] => isTrue trivial
  | [_] => isTrue trivial
  | r1 :: r2 :: rest =>
    @instDecidableAnd _ _ (PackageRecord.feerateGE_decidable r1 r2)
      (FeeratesNonIncreasing_decidable (r2 :: rest))

/-- The stored ancestor feerate of `y` does not exceed the one of `x`. -/
def CTxMemPool.feerateGE (mp : CTxMemPool) (x y : Nat) : Prop :=
  (mp.entry y).nModFeesWithAncestors * ((mp.entry x).nSizeWithAncestors : Int) ≤
    (mp.entry x).nModFeesWithAncestors * ((mp.entry y).nSizeWithAncestors : Int)

/-- The committed packages whose candidate came from the mempool cursor. -/
def cursorPackages (l : List PackageRecord) : List PackageRecord :=
  l.filter (fun r => !r.fUsingModified)

/-- The ancestors of `D` that are in the block. -/
def inBlockAncestors (mp : CTxMemPool) (inBlock : List Nat) (D : Nat) : List Nat :=
  (mp.CalculateMemPoolAncestors D).filter (fun x => decide (x ∈ inBlock))

/-- Modified-index soundness of one row: the row of `D` holds the stored aggregates of `D`
minus the contributions of the ancestors of `D` that are in the block (size and sigops in
the unsigned 64-bit and 32-bit arithmetic of the row, fees as integers). -/
def RowSound (mp : CTxMemPool) (inBlock : List Nat) (D : Nat) (r : CTxMemPoolModifiedEntry) :
    Prop :=
  (r.nSizeWithAncestors : Int) =
      (((mp.entry D).nSizeWithAncestors : Int) -
        (sizeSum mp (inBlockAncestors mp inBlock D) : Int)) % (U64 : Int) ∧
    r.nModFeesWithAncestors =
      (mp.entry D).nModFeesWithAncestors - modFeeSum mp (inBlockAncestors mp inBlock D) ∧
    (r.nSigOpCountWithAncestors : Int) =
      (((mp.entry D).nSigOpCountWithAncestors : Int) -
        (sigOpSum mp (inBlockAncestors mp inBlock D) : Int)) % (U32 : Int)

instance RowSound_decidable (mp : CTxMemPool) (inBlock : List Nat) (D : Nat)
    (r : CTxMemPoolModifiedEntry) : Decidable (RowSound mp inBlock D r) :=
  inferInstanceAs (Decidable (_ ∧ _ ∧ _))

/-- An unsafe parent with a child, and an independent entry: entry 0 (size 200, fee 1000) is
not safe for mining, entry 1 (size 200, fee 5000) is its child, entry 2 (size 200, fee 100)
has no ancestors. -/
def unsafeParentPool : CTxMemPool :=
  { mapTx := [{ plainEntry 200 1000 [] 1 200 1000 with isTxSafeForMining := false },
      plainEntry 200 5000 [0] 2 400 6000,
      plainEntry 200 100 [] 1 200 100] }

/-! ## Block header, constructor and extra nonce -/

/-- `CBlockHeader::POS_BIT`. -/
def POS_BIT : Nat := 0x10000000

/-- Conversion of an `int32_t` value to `uint32_t`. -/
def toUInt32 (v : Int) : Nat := (v % (U32 : Int)).toNat

/-- `CBlockHeader`: the serialised fields and the memory-only `posPubKey` (`none` is the
invalid key `CPubKey()`).  Hashes are numbers below `2^256`, `posBlockSig` is a list of
bytes. -/
structure CBlockHeader where
  nVersion : Int
  hashPrevBlock : Nat
  hashMerkleRoot : Nat
  nTime : Nat
  nBits : Nat
  nNonce : Nat
  posStakeHash : Nat
  posStakeN : Nat
  posBlockSig : List Nat
  posPubKey : Option Nat
  deriving DecidableEq

/-- `CBlockHeader::IsProofOfStake`: `(nVersion & POS_BIT) != 0`. -/
def CBlockHeader.IsProofOfStake (h : CBlockHeader) : Bool :=
  decide (toUInt32 h.nVersion &&& POS_BIT ≠ 0)

/-- `CBlockHeader::IsProofOfWork`. -/
def CBlockHeader.IsProofOfWork (h : CBlockHeader) : Bool := !h.IsProofOfStake

/-- `BlockAssembler::Options`. -/
structure Options where
  blockMinFeeRate : CFeeRate
  nBlockMaxSize : Nat

/-- The constructor `BlockAssembler::BlockAssembler(params, options)` (lines 91-96).
`MaxBlockSize` and `MaxBlockSigOps` are the values of `MaxBlockSize(fDIP0001ActiveAtTip)` and
`MaxBlockSigOps(fDIP0001ActiveAtTip)`; the subtraction and both casts are in `unsigned int`. -/
def BlockAssembler.construct (MaxBlockSize MaxBlockSigOps : Nat) (options : Options) : Params :=
  { blockMinFeeRate := options.blockMinFeeRate,
    nBlockMaxSize :=
      max (1000 % U32) (min ((MaxBlockSize + (U32 - 1000)) % U32) (options.nBlockMaxSize % U32)),
    MaxBlockSigOps := MaxBlockSigOps }

/-- `IncrementExtraNonce` (lines 574-591) on the function-static `hashPrevBlock`, the
`hashPrevBlock` of the block passed in and the counter of the caller; the result is the new
value of the static and of the counter.  The rebuilt coinbase script and merkle root are not
part of the model. -/
def IncrementExtraNonce (hashPrevBlock : Nat) (pblockHashPrevBlock : Nat) (nExtraNonce : Nat) :
    Nat × Nat :=
  if hashPrevBlock ≠ pblockHashPrevBlock then (pblockHashPrevBlock, (0 + 1) % U32)
  else (hashPrevBlock, (nExtraNonce + 1) % U32)

/-- One invocation of `IncrementExtraNonce`: the caller (a miner thread or `generateBlocks`,
each with a counter of its own) and the `hashPrevBlock` of its block. -/
structure ExtraNonceCall where
  caller : Nat
  hashPrevBlock : Nat
  deriving DecidableEq

/-- The function-static `hashPrevBlock` of `IncrementExtraNonce` and the counters of the
callers. -/
structure ExtraNonceState where
  hashPrevBlock : Nat
  nExtraNonce : Nat → Nat

/-- The state before any call: the static is the null hash, every counter is 0 (lines 136 of
`rpc/mining.cpp` and 620 of `miner.cpp`). -/
def ExtraNonceState.initial : ExtraNonceState := { hashPrevBlock := 0, nExtraNonce := fun _ => 0 }

/-- The effect of one invocation on the shared static and on the counter of the caller. -/
def ExtraNonceState.call (s : ExtraNonceState) (c : ExtraNonceCall) : ExtraNonceState :=
  let r := IncrementExtraNonce s.hashPrevBlock c.hashPrevBlock (s.nExtraNonce c.caller)
  { hashPrevBlock := r.1,
    nExtraNonce := fun who => if who = c.caller then r.2 else s.nExtraNonce who }

/-- A sequence of invocations, in the order in which they hold `cs_main`. -/
def ExtraNonceState.calls (s : ExtraNonceState) (l : List ExtraNonceCall) : ExtraNonceState :=
  l.foldl ExtraNonceState.call s

/-- The `hashPrevBlock` of the previous invocation made by `caller`, if there was one. -/
def previousOwn (l : List ExtraNonceCall) (caller : Nat) : Option Nat :=
  ((l.filter (fun c => decide (c.caller = caller))).getLast?).map (fun c => c.hashPrevBlock)

/-- The `hashPrevBlock` of the previous invocation made by any caller; `init` if there was
none. -/
def previousAny (init : Nat) (l : List ExtraNonceCall) : Nat :=
  match l.getLast? with
  | some c => c.hashPrevBlock
  | none => init

/-! ## Model of `CreateNewBlock` -/

/-- What `CreateNewBlock` reads from outside the assembler and the mempool: the header as
filled in by lines 160-172, the height and bits of the tip, `fDIP0003Active_context`, the
configured quorum types, `GetMinableCommitmentTx` (the total size of the commitment it
returns for a quorum type and height, if any), `GetBlockSubsidy`, whether the merkle roots of
the coinbase payload can be computed, whether a wallet is supplied and unlocked, whether the
kernel search of lines 280-285 finds a stake, and the legacy sigop counts of the finished
coinstake and coinbase. -/
structure ChainContext where
  pblock : CBlockHeader
  tipHeight : Nat
  tipBits : Nat
  fDIP0003Active_context : Bool
  llmqs : List Nat
  GetMinableCommitmentTx : Nat → Nat → Option Nat
  GetBlockSubsidy : Nat → Nat → Int
  cbTxMerkleRootsOk : Bool
  walletUnlocked : Bool
  fStakeFound : Bool
  stakeSigOps : Int
  coinbaseSigOps : Int

/-- The template returned by `CreateNewBlock`. -/
structure CBlockTemplate where
  vtx : List CTransactionRef
  vTxFees : List Int
  vTxSigOps : List Int
  sign_block : Bool
  deriving DecidableEq

/-- How a call of `CreateNewBlock` ends: it returns a template, throws the
`std::runtime_error` of lines 248 and 252, or fails an assertion. -/
inductive CreateNewBlockResult where
  | returned (t : CBlockTemplate)
  | threw
  | assertFailed
  deriving DecidableEq

/-- Lines 136-138: `resetBlock` and a new, empty template. -/
def startTemplate (a : BlockAssembler) : BlockAssembler :=
  { resetBlock a with vtx := [], vTxFees := [], vTxSigOps := [] }

/-- Lines 175-177 (and 181-183): a placeholder transaction with fee and sigops `-1`. -/
def reserveSlot (a : BlockAssembler) : BlockAssembler :=
  { a with vtx := a.vtx ++ [CTransactionRef.null], vTxFees := a.vTxFees ++ [-1],
           vTxSigOps := a.vTxSigOps ++ [-1] }

/-- Lines 179-184: the coinstake placeholder of a proof-of-stake block. -/
def reserveCoinstake (ctx : ChainContext) (a : BlockAssembler) : BlockAssembler :=
  if ctx.pblock.IsProofOfStake then reserveSlot a else a

/-- Lines 195-202: the body of the loop over the quorum types. -/
def addCommitment (ctx : ChainContext) (a : BlockAssembler) (llmqType : Nat) : BlockAssembler :=
  match ctx.GetMinableCommitmentTx llmqType (ctx.tipHeight + 1) with
  | some totalSize =>
    { a with vtx := a.vtx ++ [CTransactionRef.commitment llmqType],
             vTxFees := a.vTxFees ++ [0],
             vTxSigOps := a.vTxSigOps ++ [0],
             nBlockSize := (a.nBlockSize + totalSize) % U64,
             nBlockTx := (a.nBlockTx + 1) % U64 }
  | none => a

/-- Lines 193-204. -/
def addCommitments (ctx : ChainContext) (a : BlockAssembler) : BlockAssembler :=
  if ctx.fDIP0003Active_context then ctx.llmqs.foldl (addCommitment ctx) a else a

/-- The assembler when `addPackageTxs` is called (line 208). -/
def beforeSelection (ctx : ChainContext) (a : BlockAssembler) : BlockAssembler :=
  addCommitments ctx (reserveCoinstake ctx (reserveSlot (startTemplate a)))

/-- Line 223: `nFees + GetBlockSubsidy(pindexPrev->nBits, pindexPrev->nHeight, ...)`, the
value assigned to `coinbaseTx.vout[0].nValue` in line 226. -/
def blockReward (ctx : ChainContext) (a : BlockAssembler) : Int :=
  a.nFees + ctx.GetBlockSubsidy ctx.tipBits ctx.tipHeight

/-- Lines 287-296: a found stake fills slot 1, otherwise slot 1 is erased from the three
lists. -/
def stakeSlot (ctx : ChainContext) (a : BlockAssembler) : BlockAssembler :=
  if ctx.fStakeFound then
    { a with vtx := a.vtx.set 1 CTransactionRef.coinstake,
             vTxFees := a.vTxFees.set 1 0,
             vTxSigOps := a.vTxSigOps.set 1 ctx.stakeSigOps }
  else
    { a with vtx := a.vtx.eraseIdx 1, vTxFees := a.vTxFees.eraseIdx 1,
             vTxSigOps := a.vTxSigOps.eraseIdx 1 }

/-- Lines 268-297: the proof-of-stake path; `none` when one of its assertions fails. -/
def stakePath (ctx : ChainContext) (a : BlockAssembler) : Option BlockAssembler :=
  if ctx.pblock.IsProofOfStake then
    if ctx.walletUnlocked then some (stakeSlot ctx a) else none
  else some a

/-- Lines 301-304: the coinbase goes into slot 0 and its fee and sigops are filled in. -/
def completeBlock (ctx : ChainContext) (reward : Int) (a : BlockAssembler) : BlockAssembler :=
  { a with vtx := a.vtx.set 0 (CTransactionRef.coinbase reward),
           vTxFees := a.vTxFees.set 0 (-a.nFees),
           vTxSigOps := a.vTxSigOps.set 0 ctx.coinbaseSigOps }

/-- The selection of `CreateNewBlock`: the state in which `addPackageTxs` (line 208) ends. -/
def selection (mp : CTxMemPool) (cfg : Params) (ctx : ChainContext) (a : BlockAssembler) :
    SelectorState :=
  addPackageTxs mp cfg (beforeSelection ctx a) 0 0

/-- `BlockAssembler::CreateNewBlock` (lines 131-324) on the assembler `a`. -/
def CreateNewBlock (mp : CTxMemPool) (cfg : Params) (ctx : ChainContext) (a : BlockAssembler) :
    CreateNewBlockResult :=
  let s := selection mp cfg ctx a
  if s.status = LoopStatus.assertFailed then CreateNewBlockResult.assertFailed
  else if ctx.fDIP0003Active_context && !ctx.cbTxMerkleRootsOk then CreateNewBlockResult.threw
  else
    match stakePath ctx s.toBlockAssembler with
    | none => CreateNewBlockResult.assertFailed
    | some a1 =>
      let a2 := completeBlock ctx (blockReward ctx s.toBlockAssembler) a1
      CreateNewBlockResult.returned
        { vtx := a2.vtx, vTxFees := a2.vTxFees, vTxSigOps := a2.vTxSigOps,
          sign_block := ctx.pblock.IsProofOfStake && ctx.fStakeFound }

/-- The three lists of the template have one length. -/
def Aligned (a : BlockAssembler) : Prop :=
  a.vTxFees.length = a.vtx.length ∧ a.vTxSigOps.length = a.vtx.length

/-- Slot `i` is reserved: it holds the placeholder transaction, fee `-1` and sigops `-1`. -/
def SlotReserved (a : BlockAssembler) (i : Nat) : Prop :=
  a.vtx[i]? = some CTransactionRef.null ∧ a.vTxFees[i]? = some (-1) ∧
    a.vTxSigOps[i]? = some (-1)

/-- Scenario 2 of the specification: entry 0 is T1 (size 200, fee 200), entry 1 is T2
(size 200, fee 1000); no dependencies. -/
def twoFeeratesPool : CTxMemPool :=
  { mapTx := [plainEntry 200 200 [] 1 200 200, plainEntry 200 1000 [] 1 200 1000] }

/-- A proof-of-work header on parent 7. -/
def powHeader : CBlockHeader :=
  { nVersion := 536870912, hashPrevBlock := 7, hashMerkleRoot := 0, nTime := 1600000000,
    nBits := 504365040, nNonce := 0, posStakeHash := 0, posStakeN := 0, posBlockSig := [],
    posPubKey := none }

/-- A proof-of-stake header on parent 7. -/
def posHeader : CBlockHeader := { powHeader with nVersion := 805306368 }

/-- A chain context at tip height 100 before the special-transaction rules, with subsidy
`subsidy`. -/
def plainContext (subsidy : Int) : ChainContext :=
  { pblock := powHeader, tipHeight := 100, tipBits := 504365040,
    fDIP0003Active_context := false, llmqs := [],
    GetMinableCommitmentTx := fun _ _ => none,
    GetBlockSubsidy := fun _ _ => subsidy, cbTxMerkleRootsOk := true, walletUnlocked := false,
    fStakeFound := false, stakeSigOps := 0, coinbaseSigOps := 1 }

/-! ## Model of the mining RPCs -/

/-- A JSON value returned by the RPC handlers: `null` or a string. -/
inductive UniValue where
  | null
  | str (s : String)
  deriving DecidableEq

/-- The RPC error codes thrown by `submitblock`. -/
inductive RPCErrorCode where
  | RPC_DESERIALIZATION_ERROR
  | RPC_VERIFY_ERROR
  deriving DecidableEq

/-- An exception made by `JSONRPCError(code, message)`. -/
structure JSONRPCError where
  code : RPCErrorCode
  message : String
  deriving DecidableEq

/-- What `BIP22ValidationResult` reads from a `CValidationState`: the answers of `IsValid`,
`IsError` and `IsInvalid` and the reject reason. -/
structure CValidationState where
  IsValid : Bool
  IsError : Bool
  IsInvalid : Bool
  GetRejectReason : String
  deriving DecidableEq

/-- `BIP22ValidationResult` (lines 329-345 of `rpc/mining.cpp`). -/
def BIP22ValidationResult (state : CValidationState) : Except JSONRPCError UniValue :=
  if state.IsValid then Except.ok UniValue.null
  else if state.IsError then
    Except.error ⟨RPCErrorCode.RPC_VERIFY_ERROR, state.GetRejectReason⟩
  else if state.IsInvalid then
    if state.GetRejectReason.isEmpty then Except.ok (UniValue.str "rejected")
    else Except.ok (UniValue.str state.GetRejectReason)
  else Except.ok (UniValue.str "valid?")

/-- What `submitblock` reads about the block index entry found for the hash of the block:
`pindex->IsValid(BLOCK_VALID_SCRIPTS)` and `pindex->nStatus & BLOCK_FAILED_MASK`. -/
structure CBlockIndexStatus where
  validScripts : Bool
  failed : Bool
  deriving DecidableEq

/-- The inputs of one `submitblock` call: whether `DecodeHexBlk` succeeds, `HasCoinBase` of
the decoded block, the entry of `mapBlockIndex` for its hash (if any), the result of
`ProcessNewBlock`, and what the `submitblock_StateCatcher` holds afterwards (`found` and the
state captured by `BlockChecked` for the hash of the block). -/
structure SubmitBlockInput where
  decoded : Bool
  HasCoinBase : Bool
  pindex : Option CBlockIndexStatus
  fAccepted : Bool
  found : Bool
  state : CValidationState

/-- `submitblock` (lines 798-859 of `rpc/mining.cpp`) for a request with one or two
parameters. -/
def submitblock (i : SubmitBlockInput) : Except JSONRPCError UniValue :=
  if !i.decoded then
    Except.error ⟨RPCErrorCode.RPC_DESERIALIZATION_ERROR, "Block decode failed"⟩
  else if !i.HasCoinBase then
    Except.error ⟨RPCErrorCode.RPC_DESERIALIZATION_ERROR, "Block does not start with a coinbase"⟩
  else
    match i.pindex with
    | some pindex =>
      if pindex.validScripts then Except.ok (UniValue.str "duplicate")
      else if pindex.failed then Except.ok (UniValue.str "duplicate-invalid")
      else if i.fAccepted && !i.found then Except.ok (UniValue.str "duplicate-inconclusive")
      else Except.ok (UniValue.str "duplicate")
    | none =>
      if !i.found then Except.ok (UniValue.str "inconclusive")
      else BIP22ValidationResult i.state

/-- A `submitblock` call for a block that is not indexed and is rejected with the reason
"bad-txns". -/
def rejectedSubmission : SubmitBlockInput :=
  { decoded := true, HasCoinBase := true, pindex := none, fAccepted := false, found := true,
    state := { IsValid := false, IsError := false, IsInvalid := true,
               GetRejectReason := "bad-txns" } }

/-- `nInnerLoopCount` of `generateBlocks`. -/
def nInnerLoopCount : Nat := 0x10000

/-- What `generateBlocks` reads from one template: whether the block is proof of work, the
answer of `CheckProof` when the nonce of the block is `n`, whether `ProcessNewBlock` accepts
the block, and the hash of the block when its nonce is `n`. -/
structure MiningTemplate where
  IsProofOfWork : Bool
  CheckProof : Nat → Bool
  ProcessNewBlock : Bool
  GetHash : Nat → Nat

/-- How the loop of `generateBlocks` stands: still running, ended with the array returned, or
ended by a `JSONRPCError`. -/
inductive GenerateStatus where
  | running
  | returned
  | threw
  deriving DecidableEq

/-- State of `generateBlocks`: `nHeight`, `nMaxTries`, `blockHashes`, the number of templates
created so far, and the number of nonces ground and failed proof checks so far (`nTried`, a
history variable). -/
structure GenerateState where
  nHeight : Int
  nMaxTries : Nat
  blockHashes : List Nat
  nTemplates : Nat
  nTried : Nat
  status : GenerateStatus

/-- The nonce loop of line 150, `while (nMaxTries > 0 && pblock->nNonce < nInnerLoopCount &&
!CheckProof(...)) { ++pblock->nNonce; --nMaxTries; }`: the values of `nMaxTries` and of the
nonce when it ends.  The nonce grows in every pass, so `fuel = nInnerLoopCount` passes are
enough from nonce 0. -/
def grind (CheckProof : Nat → Bool) : Nat → Nat → Nat → Nat × Nat
  | 0, nMaxTries, nNonce => (nMaxTries, nNonce)
  | fuel + 1, nMaxTries, nNonce =>
    if 0 < nMaxTries ∧ nNonce < nInnerLoopCount ∧ CheckProof nNonce = false then
      grind CheckProof fuel (nMaxTries - 1) ((nNonce + 1) % U32)
    else (nMaxTries, nNonce)

/-- Lines 169-172: the block is handed to `ProcessNewBlock`; a block that is not accepted
ends the call with an error, an accepted one is counted and its hash recorded. -/
def submitGenerated (t : MiningTemplate) (nNonce : Nat) (s : GenerateState) : GenerateState :=
  if t.ProcessNewBlock then
    { s with nHeight := s.nHeight + 1, blockHashes := s.blockHashes ++ [t.GetHash nNonce] }
  else { s with status := GenerateStatus.threw }

/-- One pass of the loop `while (nHeight < nHeightEnd)` of `generateBlocks` (lines 138-179).
`CreateNewBlock n` is the template that the `n`-th call of `CreateNewBlock` returns (`none`
for a null template); the nonce of a new template is 0 (line 171 of `miner.cpp`). -/
def generateStep (CreateNewBlock : Nat → Option MiningTemplate) (nHeightEnd : Int)
    (s : GenerateState) : GenerateState :=
  match s.status with
  | GenerateStatus.running =>
    if s.nHeight < nHeightEnd then
      match CreateNewBlock s.nTemplates with
      | none => { s with status := GenerateStatus.threw }
      | some t =>
        let s0 := { s with nTemplates := s.nTemplates + 1 }
        if t.IsProofOfWork then
          let g := grind t.CheckProof nInnerLoopCount s0.nMaxTries 0
          let s1 := { s0 with nMaxTries := g.1, nTried := s0.nTried + g.2 }
          if g.1 = 0 then { s1 with status := GenerateStatus.returned }
          else if g.2 = nInnerLoopCount then s1
          else submitGenerated t g.2 s1
        else if t.CheckProof 0 = false then
          let s1 := { s0 with nMaxTries := (s0.nMaxTries + (U64 - 1)) % U64,
                              nTried := s0.nTried + 1 }
          if s1.nMaxTries = 0 then { s1 with status := GenerateStatus.returned } else s1
        else submitGenerated t 0 s0
    else { s with status := GenerateStatus.returned }
  | _ => s

/-- The state of `generateBlocks` on entry to the loop (lines 124-137); `nHeight` is the
height of the active chain. -/
def generateInit (nHeight : Int) (nMaxTries : Nat) : GenerateState :=
  { nHeight := nHeight, nMaxTries := nMaxTries, blockHashes := [], nTemplates := 0, nTried := 0,
    status := GenerateStatus.running }

/-- `generateBlocks` (lines 121-184) after `k` passes of its loop. -/
def generateBlocks (CreateNewBlock : Nat → Option MiningTemplate) (nHeight nGenerate : Int)
    (nMaxTries : Nat) : Nat → GenerateState
  | 0 => generateInit nHeight nMaxTries
  | k + 1 => generateStep CreateNewBlock (nHeight + nGenerate)
      (generateBlocks CreateNewBlock nHeight nGenerate nMaxTries k)

/-- A proof-of-stake template whose proof check fails (no kernel was found). -/
def failingStake : MiningTemplate :=
  { IsProofOfWork := false, CheckProof := fun _ => false, ProcessNewBlock := true,
    GetHash := fun _ => 11 }

/-- A proof-of-stake template whose proof check succeeds and whose block is accepted. -/
def goodStake : MiningTemplate :=
  { IsProofOfWork := false, CheckProof := fun _ => true, ProcessNewBlock := true,
    GetHash := fun _ => 12 }

/-- A proof-of-work template whose proof check succeeds at nonce 3 and whose block is
accepted. -/
def goodWork : MiningTemplate :=
  { IsProofOfWork := true, CheckProof := fun n => decide (n = 3), ProcessNewBlock := true,
    GetHash := fun n => 100 + n }

/-- Three failing proof-of-stake templates, then good ones. -/
def stakeTemplates (n : Nat) : Option MiningTemplate :=
  if n < 3 then some failingStake else some goodStake

/-- What `getblocktemplate` reads from a transaction of the template block: its hash,
`IsCoinBase`, and the `prevout.hash` of each input. -/
structure CTransaction where
  GetHash : Nat
  IsCoinBase : Bool
  vin : List Nat
  deriving DecidableEq

/-- An entry of the `transactions` array of the `getblocktemplate` result: `hash`,
`depends`, and the position `index_in_template` at which `fee` and `sigops` are read from
`vTxFees` and `vTxSigOps`. -/
structure TemplateEntry where
  hash : Nat
  depends : List Nat
  index_in_template : Nat
  deriving DecidableEq

/-- State of the loop over `pblock->vtx` in `getblocktemplate` (lines 626-655 of
`rpc/mining.cpp`): the counter `i`, the map `setTxIndex` and the array `transactions`. -/
structure TransactionsLoop where
  i : Nat
  setTxIndex : Nat → Option Nat
  transactions : List TemplateEntry

/-- One pass of the loop (lines 629-655): the transaction is recorded in `setTxIndex` under
the current counter, and unless it is a coinbase an entry is appended whose `depends` holds
`setTxIndex[in.prevout.hash]` for every input whose `prevout.hash` is a key of the map. -/
def transactionsStep (s : TransactionsLoop) (tx : CTransaction) : TransactionsLoop :=
  let setTxIndex := fun h => if h = tx.GetHash then some s.i else s.setTxIndex h
  if tx.IsCoinBase then { s with i := s.i + 1, setTxIndex := setTxIndex }
  else
    { i := s.i + 1, setTxIndex := setTxIndex,
      transactions := s.transactions ++
        [{ hash := tx.GetHash, depends := tx.vin.filterMap setTxIndex,
           index_in_template := s.i }] }

/-- The `transactions` array that `getblocktemplate` builds from the block `vtx`. -/
def templateTransactions (vtx : List CTransaction) : List TemplateEntry :=
  (vtx.foldl transactionsStep { i := 0, setTxIndex := fun _ => none, transactions := [] }).transactions

/-- A template block: a coinbase, a transaction, a child of it, and a child of both. -/
def dependsBlock : List CTransaction :=
  [{ GetHash := 900, IsCoinBase := true, vin := [0] },
   { GetHash := 901, IsCoinBase := false, vin := [77] },
   { GetHash := 902, IsCoinBase := false, vin := [901, 78] },
   { GetHash := 903, IsCoinBase := false, vin := [902, 901] }]

/-- What the loop over `pblock->vtx` has established after the transactions `pre`: the
counter is their number, every value of `setTxIndex` is the position of a transaction with
that hash, there is one entry for each transaction behind the first, and every entry
describes its transaction with `depends` pointing at earlier positions other than 0 whose
transactions are spent by it. -/
def TransactionsInv (pre : List CTransaction) (s : TransactionsLoop) : Prop :=
  s.i = pre.length ∧
  (∀ h j, s.setTxIndex h = some j → ∃ tx, pre[j]? = some tx ∧ tx.GetHash = h) ∧
  (∀ q e, s.transactions[q]? = some e → ∃ tx, pre[q + 1]? = some tx ∧ e.hash = tx.GetHash ∧
    e.index_in_template = q + 1 ∧
    ∀ d ∈ e.depends, 1 ≤ d ∧ d < q + 1 ∧ ∃ tx1, pre[d]? = some tx1 ∧ tx1.GetHash ∈ tx.vin) ∧
  s.transactions.length + 1 = pre.length

/-! ## Model of the block serialisation -/

/-- Modelled from the spec: the stream types of `serialize.h` (not part of the sources);
`SER_GETHASH` is the "get-hash" flag of a stream type. -/
def SER_NETWORK : Nat := 1

/-- Modelled from the spec: the stream type of disk serialisation (`serialize.h`). -/
def SER_DISK : Nat := 2

/-- Modelled from the spec: the "get-hash" flag of a stream type (`serialize.h`). -/
def SER_GETHASH : Nat := 4

/-- Modelled from the spec: the serialisation of a fixed-width field of `k` bytes
(`serialize.h` is not part of the sources): the `k` low bytes of the value, lowest first. -/
def toLE : Nat → Nat → List Nat
  | 0, _ => []
  | k + 1, n => (n % 256) :: toLE k (n / 256)

/-- The value of a sequence of bytes, lowest first. -/
def fromLE : List Nat → Nat
  | [] => 0
  | b :: bs => b + 256 * fromLE bs

/-- Modelled from the spec: the deserialisation of a fixed-width field of `k` bytes; it fails
when the stream holds fewer bytes. -/
def readLE (k : Nat) (s : List Nat) : Option (Nat × List Nat) :=
  if s.length < k then none else some (fromLE (s.take k), s.drop k)

/-- Conversion of a `uint32_t` value to `int32_t`. -/
def toInt32 (u : Nat) : Int := if u < 2147483648 then (u : Int) else (u : Int) - (U32 : Int)

/-- The serialiser and deserialiser that `READWRITE` uses for a member of type `α` whose
encoding is defined outside the sources (`std::vector<unsigned char>`,
`std::vector<CTransactionRef>`): `read` returns the value and the rest of the stream. -/
structure Codec (α : Type) where
  write : α → List Nat
  read : List Nat → Option (α × List Nat)

/-- The codec reads back the value `v` from any stream that starts with its encoding. -/
def Codec.RoundTrips {α : Type} (c : Codec α) (v : α) : Prop :=
  ∀ rest, c.read (c.write v ++ rest) = some (v, rest)

/-- The six fields of the base header as `CBlockHeader::SerializationOp` writes them (lines
58-63 of `primitives/block.h`). -/
def CBlockHeader.baseBytes (h : CBlockHeader) : List Nat :=
  toLE 4 (toUInt32 h.nVersion) ++ toLE 32 h.hashPrevBlock ++ toLE 32 h.hashMerkleRoot ++
    toLE 4 h.nTime ++ toLE 4 h.nBits ++ toLE 4 h.nNonce

/-- The proof-of-stake extension as `CBlockHeader::SerializationOp` writes it to a stream of
type `nType` (lines 66-71): `posBlockSig` is left out when the type has `SER_GETHASH`. -/
def CBlockHeader.posBytes (sig : Codec (List Nat)) (nType : Nat) (h : CBlockHeader) : List Nat :=
  toLE 32 h.posStakeHash ++ toLE 4 h.posStakeN ++
    (if nType &&& SER_GETHASH = 0 then sig.write h.posBlockSig else [])

/-- `CBlockHeader::SerializationOp` (lines 56-77 of `primitives/block.h`) for writing to a
stream of type `nType`. -/
def CBlockHeader.Serialize (sig : Codec (List Nat)) (nType : Nat) (h : CBlockHeader) : List Nat :=
  h.baseBytes ++ (if h.IsProofOfStake then h.posBytes sig nType else [])

/-- `CBlockHeader::SerializationOp` for reading from the stream `s` of type `nType` into the
header `h`: the result is the header read and the rest of the stream, `none` when the stream
ends early.  The test of line 65 is on the version just read. -/
def CBlockHeader.Unserialize (sig : Codec (List Nat)) (nType : Nat) (h : CBlockHeader)
    (s : List Nat) : Option (CBlockHeader × List Nat) :=
  (readLE 4 s).bind fun r1 =>
  (readLE 32 r1.2).bind fun r2 =>
  (readLE 32 r2.2).bind fun r3 =>
  (readLE 4 r3.2).bind fun r4 =>
  (readLE 4 r4.2).bind fun r5 =>
  (readLE 4 r5.2).bind fun r6 =>
    let h1 := { h with nVersion := toInt32 r1.1, hashPrevBlock := r2.1, hashMerkleRoot := r3.1,
                       nTime := r4.1, nBits := r5.1, nNonce := r6.1 }
    if h1.IsProofOfStake then
      (readLE 32 r6.2).bind fun r7 =>
      (readLE 4 r7.2).bind fun r8 =>
        if nType &&& SER_GETHASH = 0 then
          (sig.read r8.2).bind fun r9 =>
            some ({ h1 with posStakeHash := r7.1, posStakeN := r8.1, posBlockSig := r9.1,
                            posPubKey := none }, r9.2)
        else
          some ({ h1 with posStakeHash := r7.1, posStakeN := r8.1, posPubKey := none }, r8.2)
    else some (h1, r6.2)

/-- `CBlockHeader::SetNull`: the header of a freshly constructed object. -/
def CBlockHeader.SetNull : CBlockHeader :=
  { nVersion := 0, hashPrevBlock := 0, hashMerkleRoot := 0, nTime := 0, nBits := 0, nNonce := 0,
    posStakeHash := 0, posStakeN := 0, posBlockSig := [], posPubKey := none }

/-- `CBlock`: a header, the transactions and the memory-only `fChecked`. -/
structure CBlock extends CBlockHeader where
  vtx : List CTransaction
  fChecked : Bool
  deriving DecidableEq

/-- `CBlock::SetNull`: a freshly constructed block. -/
def CBlock.SetNull : CBlock :=
  { toCBlockHeader := CBlockHeader.SetNull, vtx := [], fChecked := false }

/-- `CBlock::SerializationOp` (lines 163-167) for writing. -/
def CBlock.Serialize (sig : Codec (List Nat)) (txs : Codec (List CTransaction)) (nType : Nat)
    (b : CBlock) : List Nat :=
  b.toCBlockHeader.Serialize sig nType ++ txs.write b.vtx

/-- `CBlock::SerializationOp` for reading into the block `b`. -/
def CBlock.Unserialize (sig : Codec (List Nat)) (txs : Codec (List CTransaction)) (nType : Nat)
    (b : CBlock) (s : List Nat) : Option (CBlock × List Nat) :=
  (b.toCBlockHeader.Unserialize sig nType s).bind fun r1 =>
  (txs.read r1.2).bind fun r2 =>
    some ({ b with toCBlockHeader := r1.1, vtx := r2.1 }, r2.2)

/-- Modelled from the spec: `CVectorWriter` (`streams.h`, not part of the sources) constructed
on the vector `vchData` at position `nPos`, after `data` has been written to it: the bytes
overwrite the vector from `nPos` on and those that do not fit are appended. -/
def CVectorWriter (vchData : List Nat) (nPos : Nat) (data : List Nat) : List Nat :=
  vchData.take nPos ++ data ++ vchData.drop (nPos + data.length)

/-- The bytes that `CBlockHeader::GetHash` (lines 18-34 of `primitives/block.cpp`) hands to
`HashX11`: the vector `vch(80)` after `ss << *this` on a `CVectorWriter` of type
`SER_NETWORK` at position 0. -/
def CBlockHeader.hashedBytes (sig : Codec (List Nat)) (h : CBlockHeader) : List Nat :=
  CVectorWriter (List.replicate 80 0) 0 (h.Serialize sig SER_NETWORK)

/-- `CBlockHeader::GetHash`; `HashX11` is a parameter. -/
def CBlockHeader.GetHash (HashX11 : List Nat → Nat) (sig : Codec (List Nat))
    (h : CBlockHeader) : Nat :=
  HashX11 (h.hashedBytes sig)

/-- `CBlockHeader::SignBlock` (lines 73-94 of `primitives/block.cpp`): the result and the
header afterwards.  `GetKey` is `keystore.GetKey` on the id of a public key and
`SignCompact key hash` the compact signature made by `key` (`none` when signing fails). -/
def CBlockHeader.SignBlock (HashX11 : List Nat → Nat) (sig : Codec (List Nat))
    (GetID : Nat → Nat) (GetKey : Nat → Option Nat) (SignCompact : Nat → Nat → Option (List Nat))
    (h : CBlockHeader) : Bool × CBlockHeader :=
  if h.IsProofOfStake then
    match h.posPubKey with
    | none => (false, h)
    | some pub =>
      match GetKey (GetID pub) with
      | none => (false, h)
      | some key =>
        match SignCompact key (h.GetHash HashX11 sig) with
        | none => (false, h)
        | some s => (true, { h with posBlockSig := s })
  else (true, h)

/-- `CBlockHeader::CheckBlockSignature` (lines 96-114): the result and the header afterwards
(`posPubKey` is mutable).  `RecoverCompact hash sig` is the public key recovered from a
compact signature (`none` when the recovered key is not valid). -/
def CBlockHeader.CheckBlockSignature (HashX11 : List Nat → Nat) (sig : Codec (List Nat))
    (GetID : Nat → Nat) (RecoverCompact : Nat → List Nat → Option Nat) (h : CBlockHeader)
    (key_id : Nat) : Bool × CBlockHeader :=
  if !h.IsProofOfStake then (true, h)
  else if h.posBlockSig.isEmpty then (false, h)
  else
    match RecoverCompact (h.GetHash HashX11 sig) h.posBlockSig with
    | none => (false, { h with posPubKey := none })
    | some pub => (decide (GetID pub = key_id), { h with posPubKey := some pub })

/-- A codec for byte vectors of fewer than 253 bytes: the length as one byte, then the
bytes. -/
def shortBytes : Codec (List Nat) :=
  { write := fun v => v.length :: v,
    read := fun s =>
      match s with
      | [] => none
      | n :: t => if t.length < n then none else some (t.take n, t.drop n) }

/-- A codec for transaction vectors that knows the empty vector and the vector of the
coinbase of `dependsBlock`. -/
def coinbaseOnly : Codec (List CTransaction) :=
  { write := fun v => if v = [] then [0] else [1, 132, 3],
    read := fun s =>
      match s with
      | 0 :: t => some ([], t)
      | 1 :: 132 :: 3 :: t => some ([{ GetHash := 900, IsCoinBase := true, vin := [0] }], t)
      | _ => none }

/-- A stand-in for `HashX11` that tells apart all byte sequences of one length. -/
def plainHash (bytes : List Nat) : Nat := fromLE bytes

/-- A stand-in for compact signatures: the signature made by `key` names the key and the
hash modulo 251. -/
def plainSignCompact (key hash : Nat) : Option (List Nat) := some [key, hash % 251]

/-- Recovery for `plainSignCompact`: the key named by the signature when the hash is the
signed one, another key otherwise. -/
def plainRecoverCompact (hash : Nat) (s : List Nat) : Option Nat :=
  match s with
  | [key, c] => some (key + (hash + 251 - c) % 251)
  | _ => none

/-- A proof-of-stake header with the key 5 and no signature yet. -/
def stakeHeader : CBlockHeader :=
  { posHeader with posStakeHash := 77, posStakeN := 1, posPubKey := some 5 }

/-- A proof-of-stake block with a signature and a coinbase. -/
def stakeBlock : CBlock :=
  { toCBlockHeader := { stakeHeader with posBlockSig := [9, 8, 7] },
    vtx := [{ GetHash := 900, IsCoinBase := true, vin := [0] }], fChecked := true }

/-- The fields of the header are values of their machine types: `nVersion` an `int32_t`,
the hashes 256-bit numbers, the others `uint32_t`. -/
def CBlockHeader.InRange (h : CBlockHeader) : Prop :=
  -2147483648 ≤ h.nVersion ∧ h.nVersion < 2147483648 ∧ h.hashPrevBlock < 256 ^ 32 ∧
  h.hashMerkleRoot < 256 ^ 32 ∧ h.nTime < 256 ^ 4 ∧ h.nBits < 256 ^ 4 ∧ h.nNonce < 256 ^ 4 ∧
  h.posStakeHash < 256 ^ 32 ∧ h.posStakeN < 256 ^ 4

/-- The header `stakeHeader` with another `posStakeN`. -/
def stakeHeaderOther : CBlockHeader := { stakeHeader with posStakeN := 2 }

/-- The header `stakeHeader` after `SignBlock` with the key 5. -/
def signedStakeHeader : CBlockHeader :=
  (stakeHeader.SignBlock plainHash shortBytes (fun pub => pub) (fun id => some id)
    plainSignCompact).2

/-- Scenario 4 of the specification: entry 0 is T1 (size 400, fee 800), entry 1 is T2
(size 400, fee 100); no dependencies. -/
def resourceCapPool : CTxMemPool :=
  { mapTx := [plainEntry 400 800 [] 1 400 800, plainEntry 400 100 [] 1 400 100] }

/-- A snapshot with a tie between a modified row and a mempool entry: entry 0 is a parent
(size 100, fee 1000) of entry 2 (size 100, fee 200), entry 3 (size 100, fee 200) is the parent
of entry 1 (size 100, fee 200).  Once entry 0 is in the block the row of entry 2 holds
200/100, the stored ancestor feerate of entry 1 is 400/200, and both have two ancestors
counted. -/
def tiePool : CTxMemPool :=
  { mapTx := [plainEntry 100 1000 [] 1 100 1000, plainEntry 100 200 [3] 2 200 400,
      plainEntry 100 200 [0] 2 200 1200, plainEntry 100 200 [] 1 100 200] }

/-- `UpdateTime` (lines 71-84): the header afterwards and the value returned.
`nMedianTimePast` is `pindexPrev->GetMedianTimePast()`, `nAdjustedTime` the value of
`GetAdjustedTime()`; the assignment to `nTime` converts the 64-bit time to `uint32_t`.
`GetNextWorkRequired` gives the bits for the header when minimum-difficulty blocks are
allowed. -/
def UpdateTime (pblock : CBlockHeader) (nMedianTimePast nAdjustedTime : Int)
    (fPowAllowMinDifficultyBlocks : Bool) (GetNextWorkRequired : CBlockHeader → Nat) :
    CBlockHeader × Int :=
  let nOldTime : Int := (pblock.nTime : Int)
  let nNewTime : Int := max (nMedianTimePast + 1) nAdjustedTime
  let p1 := if nOldTime < nNewTime then { pblock with nTime := toUInt32 nNewTime } else pblock
  let p2 := if fPowAllowMinDifficultyBlocks then { p1 with nBits := GetNextWorkRequired p1 }
    else p1
  (p2, nNewTime - nOldTime)

/-- The header of the template as far as its time is concerned: lines 171-172 of
`CreateNewBlock` set the nonce and the adjusted time (`nAdjustedTime1`), line 264 runs
`UpdateTime` (reading the clock as `nAdjustedTime2`), and in a proof-of-stake block whose
kernel search runs (`fSearch`, the test of line 280) the wallet's `CreateCoinStake` receives
the block and may change it. -/
def templateHeader (pblock : CBlockHeader) (nMedianTimePast nAdjustedTime1 nAdjustedTime2 : Int)
    (fPowAllowMinDifficultyBlocks : Bool) (GetNextWorkRequired : CBlockHeader → Nat)
    (fSearch : Bool) (CreateCoinStake : CBlockHeader → CBlockHeader) : CBlockHeader :=
  let p1 := { pblock with nNonce := 0, nTime := toUInt32 nAdjustedTime1 }
  let p2 := (UpdateTime p1 nMedianTimePast nAdjustedTime2 fPowAllowMinDifficultyBlocks
    GetNextWorkRequired).1
  if p2.IsProofOfStake && fSearch then CreateCoinStake p2 else p2

/-! ## Model of the miner drivers -/

/-- The process-wide state that `GenerateCosanta` reads and writes: the flags `isPoW` and
`isLastPoW`, `pow_cpu`, and the function-static `minerThreads` (`none` is `NULL`, `some n` a
thread group with `n` workers). -/
structure MinerControl where
  isPoW : Bool
  isLastPoW : Bool
  pow_cpu : Int
  minerThreads : Option Nat
  deriving DecidableEq

/-- The state at process start (lines 63-67 of `miner.cpp`). -/
def MinerControl.initial : MinerControl :=
  { isPoW := false, isLastPoW := false, pow_cpu := 0, minerThreads := none }

/-- `GenerateCosanta` (lines 676-702).  `genproclimit` is the value of the `-genproclimit`
argument and `hardware_concurrency` that of `boost::thread::hardware_concurrency()`. -/
def GenerateCosanta (fGenerate : Bool) (genproclimit : Int) (hardware_concurrency : Nat)
    (s : MinerControl) : MinerControl :=
  let s1 := { s with isPoW := true }
  let nThreads : Int := if genproclimit < 0 then (hardware_concurrency : Int) else genproclimit
  let s2 :=
    match s1.minerThreads with
    | some _ => { s1 with isPoW := false, isLastPoW := false, minerThreads := none }
    | none => s1
  if nThreads = 0 ∨ fGenerate = false then s2
  else { s2 with pow_cpu := nThreads, minerThreads := some nThreads.toNat }

/-- What the `PoSMiner` loop does at the end of the part of an iteration that decides on the
backoff: sleep for some seconds and start over, or go on to `CreateNewBlock`. -/
inductive PoSMinerAction where
  | sleep_for (seconds : Nat)
  | CreateNewBlock
  deriving DecidableEq

/-- The locals of `PoSMiner` that live across iterations (lines 713-715). -/
structure PoSMinerState where
  fMintableCoins : Bool
  nMintableLastCheck : Int
  last_height : Int
  deriving DecidableEq

/-- The locals of `PoSMiner` on entry to the loop. -/
def PoSMinerState.initial : PoSMinerState :=
  { fMintableCoins := false, nMintableLastCheck := 0, last_height := -1 }

/-- What one iteration of the `PoSMiner` loop reads: the clock (`GetTime n` is the value of
the `n`-th call of `GetTime()` in the iteration, counted from 0), `MintableCoins()`, the tip
(`none` when there is none, else its height and whether it is a proof-of-stake block),
`IsPoSEnforcedHeight` of the next height, the lock state and the balance of the wallet,
`nReserveBalance`, the masternode sync state, the height of the tip when line 745 reads it
(the height of a block is not negative), `nHashInterval` and `nLastCoinStakeSearchTime`. -/
structure PoSMinerInput where
  GetTime : Nat → Int
  MintableCoins : Bool
  tip : Option (Nat × Bool)
  IsPoSEnforcedHeight : Bool
  IsLocked : Bool
  GetBalance : Int
  nReserveBalance : Int
  IsSynced : Bool
  tipHeight : Nat
  nHashInterval : Nat
  nLastCoinStakeSearchTime : Int

/-- Lines 718-757 of `PoSMiner`: the locals after the iteration and the action taken
(`nMintableLastCheck` is an `int` that receives the 64-bit clock).  The rest of the iteration
(lines 759-785) assigns to none of the locals. -/
def PoSMinerStep (s : PoSMinerState) (i : PoSMinerInput) : PoSMinerState × PoSMinerAction :=
  let s1 :=
    if i.GetTime 0 - s.nMintableLastCheck > 60 then
      { s with nMintableLastCheck := toInt32 (toUInt32 (i.GetTime 1)),
               fMintableCoins := i.MintableCoins }
    else s
  match i.tip with
  | none => (s1, PoSMinerAction.sleep_for 1)
  | some pindexPrev =>
    if i.IsPoSEnforcedHeight = false ∧ pindexPrev.2 = false then
      (s1, PoSMinerAction.sleep_for 10)
    else if i.IsLocked = true ∨ s1.fMintableCoins = false ∨ i.nReserveBalance ≥ i.GetBalance ∨
        i.IsSynced = false then
      (s1, PoSMinerAction.sleep_for 10)
    else if s1.last_height = (i.tipHeight : Int) ∧
        i.GetTime 2 - ((max i.nHashInterval 1 : Nat) : Int) < i.nLastCoinStakeSearchTime then
      (s1, PoSMinerAction.sleep_for 5)
    else (s1, PoSMinerAction.CreateNewBlock)

/-- The locals of `PoSMiner` after the iterations that read `inputs`, in order. -/
def PoSMinerRun (inputs : List PoSMinerInput) : PoSMinerState :=
  inputs.foldl (fun s i => (PoSMinerStep s i).1) PoSMinerState.initial

/-- An iteration at tip height 100 in which staking is possible and the next kernel attempt
is not yet due (clock 1000, last search at 1000, `nHashInterval` 22). -/
def notDueInput : PoSMinerInput :=
  { GetTime := fun _ => 1000, MintableCoins := true, tip := some (100, true),
    IsPoSEnforcedHeight := true, IsLocked := false, GetBalance := 500, nReserveBalance := 0,
    IsSynced := true, tipHeight := 100, nHashInterval := 22,
    nLastCoinStakeSearchTime := 1000 }

/-- What a run of the `CosantaMiner` loop reads: `isPoW n` is the value of the `n`-th read of
the flag `isPoW` by this worker (counted from 0), and `CreateNewBlock k` is the `k`-th
template it builds (`none` when `pblocktemplate.get()` is null). -/
structure WorkerEnv where
  isPoW : Nat → Bool
  CreateNewBlock : Nat → Option MiningTemplate

/-- Whether the worker is still in its `while (isPoW)` loop. -/
inductive WorkerStatus where
  | running
  | left
  deriving DecidableEq

/-- State of a `CosantaMiner` worker between two passes of its outer loop: how often it has
read `isPoW`, how many templates it has built, the calls of `ProcessNewBlock` so far (the
number of the template and the nonce of the block handed over), and whether it is still in
the loop. -/
structure WorkerState where
  nReads : Nat
  nTemplates : Nat
  submitted : List (Nat × Nat)
  status : WorkerStatus
  deriving DecidableEq

/-- The worker on entry to `while (isPoW)`. -/
def WorkerState.initial : WorkerState :=
  { nReads := 0, nTemplates := 0, submitted := [], status := WorkerStatus.running }

/-- The nonce loop of line 637, `while (isPoW && pblock->nNonce < nInnerLoopCount &&
!CheckProof(...)) { ++pblock->nNonce; ... }`: the number of reads of `isPoW` and the nonce
when it ends.  Every evaluation of the condition reads the flag once.  The nonce grows in
every pass, so `fuel = nInnerLoopCount + 1` evaluations are enough from nonce 0. -/
def workerGrind (isPoW : Nat → Bool) (CheckProof : Nat → Bool) : Nat → Nat → Nat → Nat × Nat
  | 0, nReads, nNonce => (nReads, nNonce)
  | fuel + 1, nReads, nNonce =>
    if isPoW nReads = true ∧ nNonce < nInnerLoopCount ∧ CheckProof nNonce = false then
      workerGrind isPoW CheckProof fuel (nReads + 1) ((nNonce + 1) % U32)
    else (nReads + 1, nNonce)

/-- Lines 657-663: the block of template `k` is handed to `ProcessNewBlock` with its nonce;
the answer is only logged. -/
def workerSubmit (k nNonce : Nat) (s : WorkerState) : WorkerState :=
  { s with submitted := s.submitted ++ [(k, nNonce)] }

/-- One pass of `while (isPoW)` in `CosantaMiner` (lines 622-664). -/
def workerStep (e : WorkerEnv) (s : WorkerState) : WorkerState :=
  match s.status with
  | WorkerStatus.left => s
  | WorkerStatus.running =>
    let s0 := { s with nReads := s.nReads + 1 }
    if e.isPoW s.nReads = true then
      match e.CreateNewBlock s.nTemplates with
      | none => { s0 with status := WorkerStatus.left }
      | some t =>
        let s1 := { s0 with nTemplates := s.nTemplates + 1 }
        if t.IsProofOfWork = true then
          let g := workerGrind e.isPoW t.CheckProof (nInnerLoopCount + 1) s1.nReads 0
          let s2 := { s1 with nReads := g.1 + 1 }
          if e.isPoW g.1 = false then { s2 with status := WorkerStatus.left }
          else if g.2 = nInnerLoopCount then s2
          else workerSubmit s.nTemplates g.2 s2
        else if t.CheckProof 0 = false then
          let s2 := { s1 with nReads := s1.nReads + 1 }
          if e.isPoW s1.nReads = false then { s2 with status := WorkerStatus.left }
          else s2
        else workerSubmit s.nTemplates 0 s1
    else { s0 with status := WorkerStatus.left }

/-- The worker after `k` passes of its outer loop. -/
def workerRun (e : WorkerEnv) : Nat → WorkerState
  | 0 => WorkerState.initial
  | k + 1 => workerStep e (workerRun e k)

/-- A proof-of-work template whose proof is found at nonce 3. -/
def hitTemplate : MiningTemplate :=
  { IsProofOfWork := true, CheckProof := fun n => n == 3, ProcessNewBlock := true,
    GetHash := fun n => n }

/-- A proof-of-work template with no proof among the 65536 nonces. -/
def missTemplate : MiningTemplate :=
  { IsProofOfWork := true, CheckProof := fun _ => false, ProcessNewBlock := true,
    GetHash := fun n => n }

/-- A worker whose flag is cleared after 12 reads and whose templates all hit at nonce 3. -/
def stoppedWorker : WorkerEnv :=
  { isPoW := fun n => decide (n < 12), CreateNewBlock := fun _ => some hitTemplate }

/-- A worker whose flag stays set and whose templates never hit. -/
def grindingWorker : WorkerEnv :=
  { isPoW := fun _ => true, CreateNewBlock := fun _ => some missTemplate }

/-- The adjusted ancestor feerate of the row `r` of `D` does not exceed the stored ancestor
feerate of `D` (fees over size, compared by cross-multiplication). -/
def RowFeerateLE (mp : CTxMemPool) (D : Nat) (r : CTxMemPoolModifiedEntry) : Prop :=
  r.nModFeesWithAncestors * ((mp.entry D).nSizeWithAncestors : Int) ≤
    (mp.entry D).nModFeesWithAncestors * (r.nSizeWithAncestors : Int)

instance RowFeerateLE_decidable (mp : CTxMemPool) (D : Nat) (r : CTxMemPoolModifiedEntry) :
    Decidable (RowFeerateLE mp D r) :=
  inferInstanceAs (Decidable (_ ≤ _))

/-- The candidate that one iteration of the loop of `addPackageTxs` chooses (lines 466-499):
the anchor, `fUsingModified`, and the aggregates the gates are evaluated on (the best row of
the modified index, or the stored aggregates of the entry under the mempool cursor); `none`
when the iteration only advances the cursor or ends the loop. -/
def chosenCandidate (mp : CTxMemPool) (s : SelectorState) :
    Option (Nat × Bool × CTxMemPoolModifiedEntry) :=
  match s.mi, modifiedBegin mp s.mapModifiedTx with
  | [], none => none
  | [], some modit => some (modit.1, true, modit.2)
  | it :: _, none =>
    if SkipMapTxEntry it s.mapModifiedTx s.inBlock s.failedTx then none
    else some (it, false, mp.modifiedEntryOf it)
  | it :: _, some modit =>
    if SkipMapTxEntry it s.mapModifiedTx s.inBlock s.failedTx then none
    else if CompareModifiedEntry mp modit (it, mp.modifiedEntryOf it) then
      some (modit.1, true, modit.2)
    else some (it, false, mp.modifiedEntryOf it)

/-- The anchor of the candidate package that the iteration starting in `s` rejects, if it
rejects one: the loop is running, the chosen candidate passes the assertion and the minimum
feerate test (lines 501-517), and fails the resource gate `TestPackage` (line 519) or the
validity gate `TestPackageTransactions` (line 541). -/
def rejectedAnchor (mp : CTxMemPool) (cfg : Params) (s : SelectorState) : Option Nat :=
  match s.status, chosenCandidate mp s with
  | LoopStatus.running, some (iter, _, r) =>
    if iter ∉ s.inBlock ∧
        ¬ r.nModFeesWithAncestors < cfg.blockMinFeeRate.GetFee r.nSizeWithAncestors ∧
        (TestPackage cfg s.nBlockSize s.nBlockSigOps r.nSizeWithAncestors
            r.nSigOpCountWithAncestors = false ∨
          TestPackageTransactions mp (packageOf mp s.inBlock iter) = false) then some iter
    else none
  | _, _ => none

/-- The entry `T` cannot enter the block any more: `T` or one of its ancestors is outside
the block and is not final or not safe for mining, or `T` is outside the block and what is
left of its package (`T` and its ancestors outside the block) does not fit the remaining
size or the remaining sigops of the block. -/
def Doomed (mp : CTxMemPool) (cfg : Params) (s : SelectorState) (T : Nat) : Prop :=
  (∃ Z, (Z = T ∨ Z ∈ (mp.entry T).ancestors) ∧ Z ∉ s.inBlock ∧
      ((mp.entry Z).isFinalTx && (mp.entry Z).isTxSafeForMining) = false) ∨
    (T ∉ s.inBlock ∧
      (cfg.nBlockMaxSize ≤ s.nBlockSize + sizeSum mp (packageOf mp s.inBlock T) ∨
        cfg.MaxBlockSigOps ≤ s.nBlockSigOps + sigOpSum mp (packageOf mp s.inBlock T)))

/-- The invariant of the loop of `addPackageTxs` behind the fate of rejected anchors: the
block is closed under ancestors and no row belongs to an entry of the block; the rows of
entries outside `failedTx` are sound and an entry outside `failedTx` without a row has no
ancestor in the block; the rows cover the packages of their entries and the block is within
the budget; and every entry of `failedTx` is doomed. -/
def RejectionInvariant (mp : CTxMemPool) (cfg : Params) (s : SelectorState) : Prop :=
  ((∀ x ∈ s.inBlock, ∀ y ∈ (mp.entry x).ancestors, y ∈ s.inBlock) ∧
      (∀ D r, s.mapModifiedTx D = some r →
        D ∉ s.inBlock ∧ ∃ A, A ∈ (mp.entry D).ancestors ∧ A ∈ s.inBlock) ∧
      s.status ≠ LoopStatus.assertFailed) ∧
    ((∀ D, D < mp.size → s.mapModifiedTx D = none → D ∉ s.failedTx → D ∉ s.inBlock →
        inBlockAncestors mp s.inBlock D = []) ∧
      (∀ D r, s.mapModifiedTx D = some r → D ∉ s.failedTx → D ∉ s.inBlock →
        RowSound mp s.inBlock D r) ∧
      (∀ D r, s.mapModifiedTx D = some r → D < mp.size)) ∧
    (RowsCover mp s.inBlock s.mapModifiedTx ∧
      s.nBlockSize ≤ cfg.nBlockMaxSize ∧ s.nBlockSigOps ≤ cfg.MaxBlockSigOps ∧
      s.peakBlockSize ≤ cfg.nBlockMaxSize ∧ s.peakBlockSigOps ≤ cfg.MaxBlockSigOps) ∧
    (∀ T ∈ s.failedTx, Doomed mp cfg s T)

/-- Where the execution of `addPackageTxs` stands between two of its statements.
`added x`: in the commit loop, between `AddToBlock(x)` (line 562) and
`mapModifiedTx.erase(x)` (line 564).  `erased`: in the commit loop, after an `erase`.
`updating`: inside `UpdatePackagesForAdded`, on entry and after each of its inserts and
modifications of a row (also in the call of line 455).  `outside`: anywhere else, that is,
not between the first `AddToBlock` of a commit and the return of the call of
`UpdatePackagesForAdded` that follows it, and not inside the call of line 455. -/
inductive ProgramPoint where
  | outside
  | added (x : Nat)
  | erased
  | updating
  deriving DecidableEq

/-- The pairs `(it, desc)` that the two nested loops of `UpdatePackagesForAdded` visit, in
order. -/
def updatePairs (mp : CTxMemPool) (alreadyAdded : List Nat) : List (Nat × Nat) :=
  alreadyAdded.flatMap (fun it => (mp.CalculateDescendants it).map (fun desc => (it, desc)))

/-- The states inside a call `UpdatePackagesForAdded(alreadyAdded, mapModifiedTx)` made in
the state `s`: on entry and after the body of the inner loop for each pair. -/
def updatePoints (mp : CTxMemPool) (alreadyAdded : List Nat) (s : SelectorState) :
    List (ProgramPoint × SelectorState) :=
  ((updatePairs mp alreadyAdded).scanl
      (fun acc p => updateDescendant mp alreadyAdded p.1 acc p.2) (0, s.mapModifiedTx)).map
    (fun acc => (ProgramPoint.updating, { s with mapModifiedTx := acc.2 }))

/-- The state between `AddToBlock(it)` and `mapModifiedTx.erase(it)` in the commit loop. -/
def addedState (mp : CTxMemPool) (s : SelectorState) (it : Nat) : SelectorState :=
  { s with toBlockAssembler := AddToBlock mp s.toBlockAssembler it,
           peakBlockSize := max s.peakBlockSize (AddToBlock mp s.toBlockAssembler it).nBlockSize,
           peakBlockSigOps :=
             max s.peakBlockSigOps (AddToBlock mp s.toBlockAssembler it).nBlockSigOps }

/-- The states inside the commit loop of lines 561-565 run on `sortedEntries` from the state
`s`: after each `AddToBlock` and after each `erase`. -/
def commitLoopPoints (mp : CTxMemPool) :
    List Nat → SelectorState → List (ProgramPoint × SelectorState)
  | [], _ => []
  | it :: l, s =>
    (ProgramPoint.added it, addedState mp s it) ::
      (ProgramPoint.erased, addEntry mp s it) :: commitLoopPoints mp l (addEntry mp s it)

/-- The states of a commit (lines 555-570) before its last assignment: after the reset of
`nConsecutiveFailed`, inside the commit loop, and inside `UpdatePackagesForAdded`, which is
entered after `++nPackagesSelected`. -/
def commitPoints (mp : CTxMemPool) (s : SelectorState) (ancestors : List Nat) :
    List (ProgramPoint × SelectorState) :=
  let s0 := { s with nConsecutiveFailed := 0 }
  let s1 := (SortForBlock mp ancestors).foldl (addEntry mp) s0
  (ProgramPoint.outside, s0) ::
    (commitLoopPoints mp (SortForBlock mp ancestors) s0 ++
      updatePoints mp ancestors { s1 with nPackagesSelected := s1.nPackagesSelected + 1 })

/-- The states of the failure path shared by the two gates (lines 524-525 and 548-549):
after the `erase` and after the insertion into `failedTx`. -/
def failurePoints (s : SelectorState) (iter : Nat) (fUsingModified : Bool) :
    List (ProgramPoint × SelectorState) :=
  if fUsingModified then
    [(ProgramPoint.outside, { s with mapModifiedTx := modifiedErase s.mapModifiedTx iter }),
      (ProgramPoint.outside, markFailed s iter fUsingModified)]
  else []

/-- The states that the part of the loop body after the choice of the candidate (lines
501-570) passes through before the iteration is over. -/
def intermediatePoints (mp : CTxMemPool) (cfg : Params) (s : SelectorState) (iter : Nat)
    (fUsingModified : Bool) (packageSize : Nat) (packageFees : Int) (packageSigOps : Nat) :
    List (ProgramPoint × SelectorState) :=
  if iter ∈ s.inBlock then []
  else if packageFees < cfg.blockMinFeeRate.GetFee packageSize then []
  else if TestPackage cfg s.nBlockSize s.nBlockSigOps packageSize packageSigOps = false then
    failurePoints s iter fUsingModified ++
      [(ProgramPoint.outside,
        { markFailed s iter fUsingModified with
          nConsecutiveFailed := (markFailed s iter fUsingModified).nConsecutiveFailed + 1 })]
  else
    let ancestors := setInsert iter (onlyUnconfirmed s.inBlock (mp.CalculateMemPoolAncestors iter))
    if TestPackageTransactions mp ancestors = false then failurePoints s iter fUsingModified
    else commitPoints mp s ancestors

/-- The states that one iteration of the loop of `addPackageTxs` started in `s` passes
through, each with its program point, in order: after the choice of the candidate (the
cursor advanced when the candidate is the entry under it), the states of the path taken,
and the state in which the iteration is over, `step mp cfg s`.  A call of `AddToBlock`
counts as one statement: it inserts into `inBlock` last and leaves the modified index and
`failedTx` alone. -/
def iterationPoints (mp : CTxMemPool) (cfg : Params) (s : SelectorState) :
    List (ProgramPoint × SelectorState) :=
  match s.status with
  | LoopStatus.running =>
    match chosenCandidate mp s with
    | none => [(ProgramPoint.outside, step mp cfg s)]
    | some (iter, f, r) =>
      (ProgramPoint.outside, if f then s else { s with mi := s.mi.tail }) ::
        (intermediatePoints mp cfg (if f then s else { s with mi := s.mi.tail }) iter f
            r.nSizeWithAncestors r.nModFeesWithAncestors r.nSigOpCountWithAncestors ++
          [(ProgramPoint.outside, step mp cfg s)])
  | _ => []

/-- The states of `addPackageTxs` before its loop (lines 449-464): inside the call
`UpdatePackagesForAdded(inBlock, mapModifiedTx)` of line 455 on the empty index, and on
entry to the loop.  The locals declared after the call appear with their initial values. -/
def initPoints (mp : CTxMemPool) (a : BlockAssembler) (nPackagesSelected
    nDescendantsUpdated : Nat) : List (ProgramPoint × SelectorState) :=
  updatePoints mp a.inBlock
      { addPackageTxsInit mp a nPackagesSelected nDescendantsUpdated with
        mapModifiedTx := emptyModified } ++
    [(ProgramPoint.outside, addPackageTxsInit mp a nPackagesSelected nDescendantsUpdated)]

/-- The points of `addPackageTxs`: for `k = 0` those before the loop, for `k + 1` those of
the iteration that starts after `k` iterations. -/
def addPackageTxsPoints (mp : CTxMemPool) (cfg : Params) (a : BlockAssembler)
    (nPackagesSelected nDescendantsUpdated : Nat) : Nat → List (ProgramPoint × SelectorState)
  | 0 => initPoints mp a nPackagesSelected nDescendantsUpdated
  | k + 1 => iterationPoints mp cfg
      (run mp cfg k (addPackageTxsInit mp a nPackagesSelected nDescendantsUpdated))

/-- What of a point matters for the rows of the entry `D`: the program point, the block,
the row of `D` and `failedTx`. -/
def pointView (D : Nat) (q : ProgramPoint × SelectorState) :
    ProgramPoint × List Nat × Option CTxMemPoolModifiedEntry × List Nat :=
  (q.1, q.2.inBlock, q.2.mapModifiedTx D, q.2.failedTx)

/-- The ancestors of `D` that are in the block have, taken together, a modified feerate
(their total modified fees over their total size) of at least the stored ancestor feerate of
`D`, compared by cross-multiplication. -/
def IncludedFeerateGE (mp : CTxMemPool) (inBlock : List Nat) (D : Nat) : Prop :=
  (mp.entry D).nModFeesWithAncestors * (sizeSum mp (inBlockAncestors mp inBlock D) : Int) ≤
    modFeeSum mp (inBlockAncestors mp inBlock D) * ((mp.entry D).nSizeWithAncestors : Int)

instance IncludedFeerateGE_decidable (mp : CTxMemPool) (inBlock : List Nat) (D : Nat) :
    Decidable (IncludedFeerateGE mp inBlock D) :=
  inferInstanceAs (Decidable (_ ≤ _))

/-- A worker that reads the flag `isPoW` as true, false, true, ...: the second read (the
condition of the nonce loop at nonce 0) is false, all others are true, as when
`GenerateCosanta` is called again (it sets `isPoW = true` first, line 679) after a stop.
Its templates are proof of work and have no proof among the 65536 nonces. -/
def racyWorker : WorkerEnv :=
  { isPoW := fun n => n != 1, CreateNewBlock := fun _ => some missTemplate }

/-- The same reads of the flag on proof-of-stake templates whose proof check fails. -/
def racyStakeWorker : WorkerEnv :=
  { isPoW := fun n => n != 1, CreateNewBlock := fun _ => some failingStake }

/-- A `CreateCoinStake` that stamps the block with the time 1600000200 of the kernel. -/
def lateCoinStake (pblock : CBlockHeader) : CBlockHeader :=
  { pblock with nTime := 1600000200 }

/-- A `CreateCoinStake` that records the kernel in the header and leaves its time alone. -/
def plainCoinStake (pblock : CBlockHeader) : CBlockHeader :=
  { pblock with posStakeHash := 77, posStakeN := 1 }

theorem step_of_not_running (mp : CTxMemPool) (cfg : Params) (s : SelectorState)
    (h : s.status ≠ LoopStatus.running) : step mp cfg s = s := by
  unfold step
  split
  · rename_i heq; exact absurd heq h
  · rfl

theorem run_of_not_running (mp : CTxMemPool) (cfg : Params) (k : Nat) (s : SelectorState)
    (h : s.status ≠ LoopStatus.running) : run mp cfg k s = s := by
  induction k with
  | zero => rfl
  | succ k ih => simp only [run, step_of_not_running mp cfg s h, ih]

theorem run_add (mp : CTxMemPool) (cfg : Params) (j k : Nat) (s : SelectorState) :
    run mp cfg (j + k) s = run mp cfg k (run mp cfg j s) := by
  induction j generalizing s with
  | zero => simp [run]
  | succ j ih => rw [Nat.succ_add, run, ih]; rfl

/-- Invariants of `step` are invariants of `run`. -/
theorem run_invariant (mp : CTxMemPool) (cfg : Params) (P : SelectorState → Prop)
    (hstep : ∀ s, P s → P (step mp cfg s)) (k : Nat) (s : SelectorState) (h : P s) :
    P (run mp cfg k s) := by
  induction k generalizing s with
  | zero => exact h
  | succ k ih => exact ih _ (hstep s h)

theorem modifiedBegin_some (mp : CTxMemPool) (m : indexed_modified_transaction_set)
    (modit : Nat × CTxMemPoolModifiedEntry) (h : modifiedBegin mp m = some modit) :
    modit.1 < mp.size ∧ m modit.1 = some modit.2 := by
  unfold modifiedBegin at h
  have hmem : modit ∈ (modifiedRows mp m).insertionSort (modScoreLE mp) :=
    List.mem_of_mem_head? h
  rw [(List.perm_insertionSort _ _).mem_iff] at hmem
  unfold modifiedRows at hmem
  rw [List.mem_filterMap] at hmem
  obtain ⟨k, hk, hk2⟩ := hmem
  rw [List.mem_range] at hk
  cases hmk : m k with
  | none => simp [hmk] at hk2
  | some r =>
    simp [hmk] at hk2
    subst hk2
    exact ⟨hk, hmk⟩

/-- Case analysis of one loop iteration. -/
theorem step_cases (mp : CTxMemPool) (cfg : Params) (P : SelectorState → Prop)
    (s : SelectorState)
    (h_idle : s.status ≠ LoopStatus.running → P s)
    (h_exhausted : s.status = LoopStatus.running → s.mi = [] →
      modifiedBegin mp s.mapModifiedTx = none → P { s with status := LoopStatus.exhausted })
    (h_skip : ∀ it rest, s.status = LoopStatus.running → s.mi = it :: rest →
      SkipMapTxEntry it s.mapModifiedTx s.inBlock s.failedTx = true → P { s with mi := rest })
    (h_mod : ∀ modit, s.status = LoopStatus.running →
      modifiedBegin mp s.mapModifiedTx = some modit →
      (∀ it rest, s.mi = it :: rest →
        CompareModifiedEntry mp modit (it, mp.modifiedEntryOf it) = true) →
      P (evaluateModified mp cfg s modit))
    (h_map : ∀ it rest, s.status = LoopStatus.running → s.mi = it :: rest →
      SkipMapTxEntry it s.mapModifiedTx s.inBlock s.failedTx = false →
      (∀ modit, modifiedBegin mp s.mapModifiedTx = some modit →
        CompareModifiedEntry mp modit (it, mp.modifiedEntryOf it) = false) →
      P (evaluateMapTx mp cfg s it rest)) :
    P (step mp cfg s) := by
  unfold step
  split
  · rename_i hrun
    split
    · rename_i hmi hb
      exact h_exhausted hrun hmi hb
    · rename_i modit hmi hb
      exact h_mod modit hrun hb (fun it rest h => by rw [hmi] at h; cases h)
    · rename_i it rest hmi hb
      split
      · rename_i hskip; exact h_skip it rest hrun hmi hskip
      · rename_i hskip
        exact h_map it rest hrun hmi (by simpa using hskip)
          (fun modit h => by rw [hb] at h; cases h)
    · rename_i it rest modit hmi hb
      split
      · rename_i hskip; exact h_skip it rest hrun hmi hskip
      · rename_i hskip
        split
        · rename_i hcmp
          exact h_mod modit hrun hb (fun it2 rest2 h => by
            rw [hmi] at h; cases h; exact hcmp)
        · rename_i hcmp
          exact h_map it rest hrun hmi (by simpa using hskip)
            (fun modit2 h => by rw [hb] at h; cases h; simpa using hcmp)
  · rename_i hne
    exact h_idle (fun h => hne h)

/-- Case analysis of the evaluation of a chosen candidate. -/
theorem evaluateCandidate_cases (mp : CTxMemPool) (cfg : Params) (P : SelectorState → Prop)
    (s : SelectorState) (iter : Nat) (fUsingModified : Bool) (packageSize : Nat)
    (packageFees : Int) (packageSigOps : Nat)
    (h_assert : iter ∈ s.inBlock → P { s with status := LoopStatus.assertFailed })
    (h_return : iter ∉ s.inBlock → packageFees < cfg.blockMinFeeRate.GetFee packageSize →
      P { s with status := LoopStatus.returned })
    (h_full : iter ∉ s.inBlock → ¬ packageFees < cfg.blockMinFeeRate.GetFee packageSize →
      TestPackage cfg s.nBlockSize s.nBlockSigOps packageSize packageSigOps = false →
      ∀ st, (st = s.status ∨ st = LoopStatus.gaveUp) →
      P { markFailed s iter fUsingModified with
          nConsecutiveFailed := (markFailed s iter fUsingModified).nConsecutiveFailed + 1,
          status := st })
    (h_invalid : iter ∉ s.inBlock → ¬ packageFees < cfg.blockMinFeeRate.GetFee packageSize →
      TestPackage cfg s.nBlockSize s.nBlockSigOps packageSize packageSigOps = true →
      TestPackageTransactions mp (setInsert iter
        (onlyUnconfirmed s.inBlock (mp.CalculateMemPoolAncestors iter))) = false →
      P (markFailed s iter fUsingModified))
    (h_commit : iter ∉ s.inBlock → ¬ packageFees < cfg.blockMinFeeRate.GetFee packageSize →
      TestPackage cfg s.nBlockSize s.nBlockSigOps packageSize packageSigOps = true →
      TestPackageTransactions mp (setInsert iter
        (onlyUnconfirmed s.inBlock (mp.CalculateMemPoolAncestors iter))) = true →
      P (commitPackage mp s iter fUsingModified packageSize packageFees packageSigOps
        (setInsert iter (onlyUnconfirmed s.inBlock (mp.CalculateMemPoolAncestors iter))))) :
    P (evaluateCandidate mp cfg s iter fUsingModified packageSize packageFees packageSigOps) := by
  unfold evaluateCandidate
  split
  · rename_i h; exact h_assert h
  · rename_i hnin
    split
    · rename_i h; exact h_return hnin h
    · rename_i hfee
      split
      · rename_i htp
        simp only []
        split
        · have := h_full hnin hfee htp LoopStatus.gaveUp (Or.inr rfl)
          exact this
        · have := h_full hnin hfee htp s.status (Or.inl rfl)
          have hst : (markFailed s iter fUsingModified).status = s.status := by
            unfold markFailed; split <;> rfl
          rw [← hst] at this
          exact this
      · rename_i htp
        simp only []
        split
        · rename_i hv; exact h_invalid hnin hfee (by simpa using htp) hv
        · rename_i hv; exact h_commit hnin hfee (by simpa using htp) (by simpa using hv)

/-! ## Field lemmas -/

@[simp] theorem markFailed_toBlockAssembler (s : SelectorState) (iter : Nat) (f : Bool) :
    (markFailed s iter f).toBlockAssembler = s.toBlockAssembler := by
  unfold markFailed; split <;> rfl

@[simp] theorem markFailed_mi (s : SelectorState) (iter : Nat) (f : Bool) :
    (markFailed s iter f).mi = s.mi := by
  unfold markFailed; split <;> rfl

@[simp] theorem markFailed_status (s : SelectorState) (iter : Nat) (f : Bool) :
    (markFailed s iter f).status = s.status := by
  unfold markFailed; split <;> rfl

@[simp] theorem markFailed_committed (s : SelectorState) (iter : Nat) (f : Bool) :
    (markFailed s iter f).committed = s.committed := by
  unfold markFailed; split <;> rfl

@[simp] theorem markFailed_nConsecutiveFailed (s : SelectorState) (iter : Nat) (f : Bool) :
    (markFailed s iter f).nConsecutiveFailed = s.nConsecutiveFailed := by
  unfold markFailed; split <;> rfl

@[simp] theorem markFailed_peakBlockSize (s : SelectorState) (iter : Nat) (f : Bool) :
    (markFailed s iter f).peakBlockSize = s.peakBlockSize := by
  unfold markFailed; split <;> rfl

@[simp] theorem markFailed_peakBlockSigOps (s : SelectorState) (iter : Nat) (f : Bool) :
    (markFailed s iter f).peakBlockSigOps = s.peakBlockSigOps := by
  unfold markFailed; split <;> rfl

theorem markFailed_mapModifiedTx (s : SelectorState) (iter : Nat) (f : Bool) :
    (markFailed s iter f).mapModifiedTx =
      if f then modifiedErase s.mapModifiedTx iter else s.mapModifiedTx := by
  unfold markFailed; split <;> rfl

theorem markFailed_failedTx (s : SelectorState) (iter : Nat) (f : Bool) :
    (markFailed s iter f).failedTx = if f then setInsert iter s.failedTx else s.failedTx := by
  unfold markFailed; split <;> rfl

theorem mem_setInsert (x it : Nat) (l : List Nat) : x ∈ setInsert it l ↔ x = it ∨ x ∈ l := by
  unfold setInsert
  split
  · rename_i h
    constructor
    · exact Or.inr
    · rintro (rfl | h2)
      · exact h
      · exact h2
  · simp [or_comm]

theorem nodup_setInsert (it : Nat) (l : List Nat) (h : l.Nodup) : (setInsert it l).Nodup := by
  unfold setInsert
  split
  · exact h
  · rename_i hn
    rw [List.nodup_append]
    refine ⟨h, List.nodup_singleton _, ?_⟩
    intro a ha hb
    simp at hb
    subst hb
    exact hn ha

/-- The set `inBlock` after the entries of `l` have been added. -/
theorem foldl_addEntry_inBlock (mp : CTxMemPool) (l : List Nat) (s : SelectorState) :
    (l.foldl (addEntry mp) s).inBlock = l.foldl (fun b x => setInsert x b) s.inBlock := by
  induction l generalizing s with
  | nil => rfl
  | cons x l ih => simp only [List.foldl_cons]; rw [ih]; rfl

theorem mem_foldl_setInsert (l : List Nat) (b : List Nat) (x : Nat) :
    x ∈ l.foldl (fun b x => setInsert x b) b ↔ x ∈ b ∨ x ∈ l := by
  induction l generalizing b with
  | nil => simp
  | cons y l ih =>
    simp only [List.foldl_cons, ih, mem_setInsert, List.mem_cons]
    tauto

theorem nodup_foldl_setInsert (l : List Nat) (b : List Nat) (h : b.Nodup) :
    (l.foldl (fun b x => setInsert x b) b).Nodup := by
  induction l generalizing b with
  | nil => exact h
  | cons y l ih => exact ih _ (nodup_setInsert y b h)

theorem mem_foldl_addEntry_inBlock (mp : CTxMemPool) (l : List Nat) (s : SelectorState)
    (x : Nat) : x ∈ (l.foldl (addEntry mp) s).inBlock ↔ x ∈ s.inBlock ∨ x ∈ l := by
  rw [foldl_addEntry_inBlock, mem_foldl_setInsert]

theorem foldl_addEntry_vtx (mp : CTxMemPool) (l : List Nat) (s : SelectorState) :
    (l.foldl (addEntry mp) s).vtx = s.vtx ++ l.map CTransactionRef.pool := by
  induction l generalizing s with
  | nil => simp
  | cons x l ih =>
    simp only [List.foldl_cons]; rw [ih]
    simp [addEntry, AddToBlock]

@[simp] theorem foldl_addEntry_mi (mp : CTxMemPool) (l : List Nat) (s : SelectorState) :
    (l.foldl (addEntry mp) s).mi = s.mi := by
  induction l generalizing s with
  | nil => rfl
  | cons x l ih => simp only [List.foldl_cons]; rw [ih]; rfl

@[simp] theorem foldl_addEntry_failedTx (mp : CTxMemPool) (l : List Nat) (s : SelectorState) :
    (l.foldl (addEntry mp) s).failedTx = s.failedTx := by
  induction l generalizing s with
  | nil => rfl
  | cons x l ih => simp only [List.foldl_cons]; rw [ih]; rfl

@[simp] theorem foldl_addEntry_status (mp : CTxMemPool) (l : List Nat) (s : SelectorState) :
    (l.foldl (addEntry mp) s).status = s.status := by
  induction l generalizing s with
  | nil => rfl
  | cons x l ih => simp only [List.foldl_cons]; rw [ih]; rfl

@[simp] theorem foldl_addEntry_committed (mp : CTxMemPool) (l : List Nat) (s : SelectorState) :
    (l.foldl (addEntry mp) s).committed = s.committed := by
  induction l generalizing s with
  | nil => rfl
  | cons x l ih => simp only [List.foldl_cons]; rw [ih]; rfl

@[simp] theorem foldl_addEntry_nConsecutiveFailed (mp : CTxMemPool) (l : List Nat)
    (s : SelectorState) :
    (l.foldl (addEntry mp) s).nConsecutiveFailed = s.nConsecutiveFailed := by
  induction l generalizing s with
  | nil => rfl
  | cons x l ih => simp only [List.foldl_cons]; rw [ih]; rfl

theorem foldl_addEntry_mapModifiedTx (mp : CTxMemPool) (l : List Nat) (s : SelectorState)
    (k : Nat) :
    (l.foldl (addEntry mp) s).mapModifiedTx k = if k ∈ l then none else s.mapModifiedTx k := by
  induction l generalizing s with
  | nil => simp
  | cons x l ih =>
    simp only [List.foldl_cons]; rw [ih]
    by_cases hk : k ∈ l
    · simp [hk]
    · by_cases hx : k = x
      · simp [hk, hx, addEntry, modifiedErase]
      · simp [hk, hx, addEntry, modifiedErase]

theorem foldl_addEntry_nFees (mp : CTxMemPool) (l : List Nat) (s : SelectorState) :
    (l.foldl (addEntry mp) s).nFees = s.nFees + (l.map (fun x => (mp.entry x).nFee)).sum := by
  induction l generalizing s with
  | nil => simp
  | cons x l ih =>
    simp only [List.foldl_cons]; rw [ih]
    simp [addEntry, AddToBlock]; ring

/-! Fields of the state after a commit. -/

theorem commitPackage_inBlock_mem (mp : CTxMemPool) (s : SelectorState) (iter : Nat) (f : Bool)
    (ps : Nat) (pf : Int) (pso : Nat) (anc : List Nat) (x : Nat) :
    x ∈ (commitPackage mp s iter f ps pf pso anc).inBlock ↔ x ∈ s.inBlock ∨ x ∈ anc := by
  unfold commitPackage
  simp only []
  rw [mem_foldl_addEntry_inBlock]
  unfold SortForBlock
  rw [(List.perm_insertionSort _ _).mem_iff]

theorem commitPackage_inBlock (mp : CTxMemPool) (s : SelectorState) (iter : Nat) (f : Bool)
    (ps : Nat) (pf : Int) (pso : Nat) (anc : List Nat) :
    (commitPackage mp s iter f ps pf pso anc).inBlock =
      (SortForBlock mp anc).foldl (fun b x => setInsert x b) s.inBlock := by
  unfold commitPackage
  simp only []
  rw [foldl_addEntry_inBlock]

theorem commitPackage_vtx (mp : CTxMemPool) (s : SelectorState) (iter : Nat) (f : Bool)
    (ps : Nat) (pf : Int) (pso : Nat) (anc : List Nat) :
    (commitPackage mp s iter f ps pf pso anc).vtx =
      s.vtx ++ (SortForBlock mp anc).map CTransactionRef.pool := by
  unfold commitPackage
  simp only []
  rw [foldl_addEntry_vtx]

theorem commitPackage_committed (mp : CTxMemPool) (s : SelectorState) (iter : Nat) (f : Bool)
    (ps : Nat) (pf : Int) (pso : Nat) (anc : List Nat) :
    (commitPackage mp s iter f ps pf pso anc).committed =
      s.committed ++ [PackageRecord.mk iter f ps pf pso (SortForBlock mp anc)] := by
  unfold commitPackage
  simp only [foldl_addEntry_committed]

@[simp] theorem commitPackage_mi (mp : CTxMemPool) (s : SelectorState) (iter : Nat) (f : Bool)
    (ps : Nat) (pf : Int) (pso : Nat) (anc : List Nat) :
    (commitPackage mp s iter f ps pf pso anc).mi = s.mi := by
  unfold commitPackage
  simp only [foldl_addEntry_mi]

@[simp] theorem commitPackage_failedTx (mp : CTxMemPool) (s : SelectorState) (iter : Nat)
    (f : Bool) (ps : Nat) (pf : Int) (pso : Nat) (anc : List Nat) :
    (commitPackage mp s iter f ps pf pso anc).failedTx = s.failedTx := by
  unfold commitPackage
  simp only [foldl_addEntry_failedTx]

@[simp] theorem commitPackage_status (mp : CTxMemPool) (s : SelectorState) (iter : Nat)
    (f : Bool) (ps : Nat) (pf : Int) (pso : Nat) (anc : List Nat) :
    (commitPackage mp s iter f ps pf pso anc).status = s.status := by
  unfold commitPackage
  simp only [foldl_addEntry_status]

@[simp] theorem commitPackage_nConsecutiveFailed (mp : CTxMemPool) (s : SelectorState)
    (iter : Nat) (f : Bool) (ps : Nat) (pf : Int) (pso : Nat) (anc : List Nat) :
    (commitPackage mp s iter f ps pf pso anc).nConsecutiveFailed = 0 := by
  unfold commitPackage
  simp only [foldl_addEntry_nConsecutiveFailed]

theorem commitPackage_nFees (mp : CTxMemPool) (s : SelectorState) (iter : Nat) (f : Bool)
    (ps : Nat) (pf : Int) (pso : Nat) (anc : List Nat) :
    (commitPackage mp s iter f ps pf pso anc).nFees =
      s.nFees + ((SortForBlock mp anc).map (fun x => (mp.entry x).nFee)).sum := by
  unfold commitPackage
  simp only []
  rw [foldl_addEntry_nFees]

theorem mem_SortForBlock (mp : CTxMemPool) (l : List Nat) (x : Nat) :
    x ∈ SortForBlock mp l ↔ x ∈ l := by
  unfold SortForBlock
  rw [(List.perm_insertionSort _ _).mem_iff]

/-- Case analysis of one loop iteration, with the two candidate sources merged. -/
theorem step_eval_cases (mp : CTxMemPool) (cfg : Params) (P : SelectorState → Prop)
    (s : SelectorState)
    (h_idle : s.status ≠ LoopStatus.running → P s)
    (h_exhausted : s.status = LoopStatus.running → s.mi = [] →
      modifiedBegin mp s.mapModifiedTx = none → P { s with status := LoopStatus.exhausted })
    (h_skip : ∀ it rest, s.status = LoopStatus.running → s.mi = it :: rest →
      SkipMapTxEntry it s.mapModifiedTx s.inBlock s.failedTx = true → P { s with mi := rest })
    (h_eval : ∀ s0 iter f ps pf pso, s.status = LoopStatus.running →
      ((f = true ∧ s0 = s ∧ iter < mp.size ∧
          s.mapModifiedTx iter = some ⟨ps, pf, pso⟩) ∨
        (f = false ∧ ∃ rest, s.mi = iter :: rest ∧ s0 = { s with mi := rest } ∧
          SkipMapTxEntry iter s.mapModifiedTx s.inBlock s.failedTx = false ∧
          ps = (mp.entry iter).nSizeWithAncestors ∧
          pf = (mp.entry iter).nModFeesWithAncestors ∧
          pso = (mp.entry iter).nSigOpCountWithAncestors)) →
      P (evaluateCandidate mp cfg s0 iter f ps pf pso)) :
    P (step mp cfg s) := by
  apply step_cases mp cfg P s h_idle h_exhausted h_skip
  · intro modit hrun hb _
    obtain ⟨h1, h2⟩ := modifiedBegin_some mp _ _ hb
    exact h_eval s modit.1 true _ _ _ hrun (Or.inl ⟨rfl, rfl, h1, h2⟩)
  · intro it rest hrun hmi hskip _
    exact h_eval _ it false _ _ _ hrun (Or.inr ⟨rfl, rest, hmi, rfl, hskip, rfl, rfl, rfl⟩)

/-- A property of the assembler fields and the commit history is an invariant of `step` as
soon as every commit preserves it. -/
theorem step_commit_invariant (mp : CTxMemPool) (cfg : Params)
    (Q : BlockAssembler → List PackageRecord → Prop) (s : SelectorState)
    (hQ : Q s.toBlockAssembler s.committed)
    (h_commit : ∀ s0 iter f ps pf pso, s0.toBlockAssembler = s.toBlockAssembler →
      s0.committed = s.committed → iter ∉ s.inBlock →
      ¬ pf < cfg.blockMinFeeRate.GetFee ps →
      (f = false → ps = (mp.entry iter).nSizeWithAncestors ∧
        pf = (mp.entry iter).nModFeesWithAncestors ∧
        pso = (mp.entry iter).nSigOpCountWithAncestors) →
      TestPackageTransactions mp (setInsert iter
        (onlyUnconfirmed s.inBlock (mp.CalculateMemPoolAncestors iter))) = true →
      Q (commitPackage mp s0 iter f ps pf pso (setInsert iter
          (onlyUnconfirmed s.inBlock (mp.CalculateMemPoolAncestors iter)))).toBlockAssembler
        (commitPackage mp s0 iter f ps pf pso (setInsert iter
          (onlyUnconfirmed s.inBlock (mp.CalculateMemPoolAncestors iter)))).committed) :
    Q (step mp cfg s).toBlockAssembler (step mp cfg s).committed := by
  apply step_eval_cases mp cfg (fun t => Q t.toBlockAssembler t.committed) s
  · intro _; exact hQ
  · intro _ _ _; exact hQ
  · intro _ _ _ _ _; exact hQ
  · intro s0 iter f ps pf pso _ hsrc
    have hasm : s0.toBlockAssembler = s.toBlockAssembler := by
      rcases hsrc with ⟨_, h, _⟩ | ⟨_, rest, _, h, _⟩ <;> rw [h]
    have hcom : s0.committed = s.committed := by
      rcases hsrc with ⟨_, h, _⟩ | ⟨_, rest, _, h, _⟩ <;> rw [h]
    have hin : s0.inBlock = s.inBlock := by rw [hasm]
    have hstored : f = false → ps = (mp.entry iter).nSizeWithAncestors ∧
        pf = (mp.entry iter).nModFeesWithAncestors ∧
        pso = (mp.entry iter).nSigOpCountWithAncestors := by
      intro hf
      rcases hsrc with ⟨h, _⟩ | ⟨_, rest, _, _, _, h1, h2, h3⟩
      · rw [hf] at h; cases h
      · exact ⟨h1, h2, h3⟩
    apply evaluateCandidate_cases mp cfg (fun t => Q t.toBlockAssembler t.committed)
    · intro _; simpa [hasm, hcom] using hQ
    · intro _ _; simpa [hasm, hcom] using hQ
    · intro _ _ _ st _; simpa [hasm, hcom] using hQ
    · intro _ _ _ _; simpa [hasm, hcom] using hQ
    · intro h1 h2 _ h4
      rw [hin] at h1 h4 ⊢
      exact h_commit s0 iter f ps pf pso hasm hcom h1 h2 hstored h4

theorem addPackageTxsInit_toBlockAssembler (mp : CTxMemPool) (a : BlockAssembler)
    (np nd : Nat) : (addPackageTxsInit mp a np nd).toBlockAssembler = a := rfl

theorem addPackageTxsInit_committed (mp : CTxMemPool) (a : BlockAssembler)
    (np nd : Nat) : (addPackageTxsInit mp a np nd).committed = [] := rfl

/-- An invariant of the assembler fields and the commit history holds after every number
of iterations. -/
theorem run_commit_invariant (mp : CTxMemPool) (cfg : Params)
    (Q : BlockAssembler → List PackageRecord → Prop)
    (h_commit : ∀ (s s0 : SelectorState) iter f ps pf pso,
      Q s.toBlockAssembler s.committed →
      s0.toBlockAssembler = s.toBlockAssembler →
      s0.committed = s.committed → iter ∉ s.inBlock →
      ¬ pf < cfg.blockMinFeeRate.GetFee ps →
      (f = false → ps = (mp.entry iter).nSizeWithAncestors ∧
        pf = (mp.entry iter).nModFeesWithAncestors ∧
        pso = (mp.entry iter).nSigOpCountWithAncestors) →
      TestPackageTransactions mp (setInsert iter
        (onlyUnconfirmed s.inBlock (mp.CalculateMemPoolAncestors iter))) = true →
      Q (commitPackage mp s0 iter f ps pf pso (setInsert iter
          (onlyUnconfirmed s.inBlock (mp.CalculateMemPoolAncestors iter)))).toBlockAssembler
        (commitPackage mp s0 iter f ps pf pso (setInsert iter
          (onlyUnconfirmed s.inBlock (mp.CalculateMemPoolAncestors iter)))).committed)
    (k : Nat) (s : SelectorState) (h : Q s.toBlockAssembler s.committed) :
    Q (run mp cfg k s).toBlockAssembler (run mp cfg k s).committed := by
  apply run_invariant mp cfg (fun t => Q t.toBlockAssembler t.committed) _ k s h
  intro t ht
  exact step_commit_invariant mp cfg Q t ht (fun s0 iter f ps pf pso h1 h2 h3 h4 h5 h6 =>
    h_commit t s0 iter f ps pf pso ht h1 h2 h3 h4 h5 h6)

/-- C3: every package committed by `addPackageTxs` passed the minimum-feerate test at the
moment it was committed: its package fees are at least `blockMinFeeRate.GetFee` of its package
size, where for a candidate taken from the mempool cursor these are the stored aggregates
of the anchor (for a candidate taken from the modified index they are the adjusted values
of its row, which is what the record holds). -/
theorem C3_committed_packages_meet_min_feerate (mp : CTxMemPool) (cfg : Params)
    (a : BlockAssembler) (np nd k : Nat) :
    ∀ r ∈ (run mp cfg k (addPackageTxsInit mp a np nd)).committed,
      cfg.blockMinFeeRate.GetFee r.packageSize ≤ r.packageFees ∧
      (r.fUsingModified = false →
        r.packageSize = (mp.entry r.iter).nSizeWithAncestors ∧
        r.packageFees = (mp.entry r.iter).nModFeesWithAncestors) := by
  apply run_commit_invariant mp cfg (fun _ c => ∀ r ∈ c,
      cfg.blockMinFeeRate.GetFee r.packageSize ≤ r.packageFees ∧
      (r.fUsingModified = false →
        r.packageSize = (mp.entry r.iter).nSizeWithAncestors ∧
        r.packageFees = (mp.entry r.iter).nModFeesWithAncestors))
  · intro s s0 iter f ps pf pso hQ _ hcom _ hfee hstored _ r hr
    rw [commitPackage_committed, hcom, List.mem_append, List.mem_singleton] at hr
    rcases hr with hr | hr
    · exact hQ r hr
    · subst hr
      exact ⟨not_lt.mp hfee, fun hf => ⟨(hstored hf).1, (hstored hf).2.1⟩⟩
  · intro r hr
    simp [addPackageTxsInit_committed] at hr

theorem SortForBlock_perm (mp : CTxMemPool) (l : List Nat) : (SortForBlock mp l).Perm l :=
  List.perm_insertionSort _ _

theorem mem_onlyUnconfirmed (inBlock testSet : List Nat) (x : Nat) :
    x ∈ onlyUnconfirmed inBlock testSet ↔ x ∈ testSet ∧ x ∉ inBlock := by
  unfold onlyUnconfirmed
  simp [List.mem_filter]

/-- Members of the package of `iter`: the anchor and its ancestors that are not in the block. -/
theorem mem_package (mp : CTxMemPool) (inBlock : List Nat) (iter x : Nat) :
    x ∈ setInsert iter (onlyUnconfirmed inBlock (mp.CalculateMemPoolAncestors iter)) ↔
      x = iter ∨ (x ∈ (mp.entry iter).ancestors ∧ x ∉ inBlock) := by
  rw [mem_setInsert, mem_onlyUnconfirmed]
  unfold CTxMemPool.CalculateMemPoolAncestors
  rw [List.mem_dedup]

theorem package_nodup (mp : CTxMemPool) (inBlock : List Nat) (iter : Nat) :
    (setInsert iter (onlyUnconfirmed inBlock (mp.CalculateMemPoolAncestors iter))).Nodup := by
  apply nodup_setInsert
  unfold onlyUnconfirmed CTxMemPool.CalculateMemPoolAncestors
  exact List.Nodup.filter _ (List.nodup_dedup _)

theorem package_not_inBlock (mp : CTxMemPool) (inBlock : List Nat) (iter : Nat)
    (h : iter ∉ inBlock) :
    ∀ x ∈ setInsert iter (onlyUnconfirmed inBlock (mp.CalculateMemPoolAncestors iter)),
      x ∉ inBlock := by
  intro x hx
  rw [mem_package] at hx
  rcases hx with rfl | ⟨_, h2⟩
  · exact h
  · exact h2

/-- Bookkeeping invariant: the block's transaction list is the initial list followed by the
committed entries, `inBlock` is the initial set together with the committed entries, and no
entry is committed twice or committed although it was in the initial `inBlock`. -/
theorem run_bookkeeping (mp : CTxMemPool) (cfg : Params) (a : BlockAssembler) (np nd k : Nat)
    (ha : a.inBlock.Nodup) :
    (run mp cfg k (addPackageTxsInit mp a np nd)).vtx =
        a.vtx ++ (committedEntries (run mp cfg k (addPackageTxsInit mp a np nd))).map
          CTransactionRef.pool ∧
    (∀ x, x ∈ (run mp cfg k (addPackageTxsInit mp a np nd)).inBlock ↔
      x ∈ a.inBlock ∨ x ∈ committedEntries (run mp cfg k (addPackageTxsInit mp a np nd))) ∧
    (committedEntries (run mp cfg k (addPackageTxsInit mp a np nd))).Nodup ∧
    (∀ x ∈ committedEntries (run mp cfg k (addPackageTxsInit mp a np nd)), x ∉ a.inBlock) ∧
    (run mp cfg k (addPackageTxsInit mp a np nd)).inBlock.Nodup := by
  unfold committedEntries
  apply run_commit_invariant mp cfg (fun b c =>
    b.vtx = a.vtx ++ ((c.map (fun r => r.sortedEntries)).flatten).map CTransactionRef.pool ∧
    (∀ x, x ∈ b.inBlock ↔ x ∈ a.inBlock ∨ x ∈ (c.map (fun r => r.sortedEntries)).flatten) ∧
    ((c.map (fun r => r.sortedEntries)).flatten).Nodup ∧
    (∀ x ∈ (c.map (fun r => r.sortedEntries)).flatten, x ∉ a.inBlock) ∧
    b.inBlock.Nodup)
  · intro s s0 iter f ps pf pso hQ hasm hcom hnin _ _ _
    obtain ⟨h1, h2, h3, h4, h5⟩ := hQ
    have hin : s0.inBlock = s.inBlock := by rw [hasm]
    have hvtx : s0.vtx = s.vtx := by rw [hasm]
    have hpk := package_not_inBlock mp s.inBlock iter hnin
    have hnd := package_nodup mp s.inBlock iter
    generalize setInsert iter (onlyUnconfirmed s.inBlock (mp.CalculateMemPoolAncestors iter))
      = pkg at hpk hnd ⊢
    refine ⟨?_, ?_, ?_, ?_, ?_⟩
    · show (commitPackage mp s0 iter f ps pf pso pkg).vtx = _
      rw [commitPackage_vtx, commitPackage_committed, hvtx, h1, hcom]
      simp
    · intro x
      show x ∈ (commitPackage mp s0 iter f ps pf pso pkg).inBlock ↔ _
      rw [commitPackage_inBlock_mem, commitPackage_committed, hin, h2 x, hcom]
      simp [mem_SortForBlock, or_assoc]
    · rw [commitPackage_committed, hcom]
      simp only [List.map_append, List.flatten_append, List.map_cons, List.map_nil,
        List.flatten_cons, List.flatten_nil, List.append_nil]
      rw [List.nodup_append]
      refine ⟨h3, (SortForBlock_perm mp pkg).nodup_iff.mpr hnd, ?_⟩
      intro x hx hx2
      rw [mem_SortForBlock] at hx2
      exact hpk x hx2 ((h2 x).mpr (Or.inr hx))
    · intro x hx
      rw [commitPackage_committed, hcom] at hx
      simp only [List.map_append, List.flatten_append, List.map_cons, List.map_nil,
        List.flatten_cons, List.flatten_nil, List.append_nil, List.mem_append] at hx
      rcases hx with hx | hx
      · exact h4 x hx
      · rw [mem_SortForBlock] at hx
        exact fun hxa => hpk x hx ((h2 x).mpr (Or.inl hxa))
    · show (commitPackage mp s0 iter f ps pf pso pkg).inBlock.Nodup
      rw [commitPackage_inBlock, hin]
      exact nodup_foldl_setInsert _ _ h5
  · simp [addPackageTxsInit_toBlockAssembler, addPackageTxsInit_committed, ha]

/-- C4: `addPackageTxs` never commits a mempool entry twice.  The entries handed to
`AddToBlock` (in commit order) are pairwise distinct and none of them was in `inBlock` when
`addPackageTxs` started; `inBlock` has no repeats; and the block's transaction list is the
initial list followed by exactly these entries, so that a mempool transaction that was not in
the list initially occurs in it at most once. -/
theorem C4_no_duplicate_commit (mp : CTxMemPool) (cfg : Params) (a : BlockAssembler)
    (np nd k : Nat) (ha : a.inBlock.Nodup) :
    (committedEntries (run mp cfg k (addPackageTxsInit mp a np nd))).Nodup ∧
    (∀ x ∈ committedEntries (run mp cfg k (addPackageTxsInit mp a np nd)), x ∉ a.inBlock) ∧
    (run mp cfg k (addPackageTxsInit mp a np nd)).inBlock.Nodup ∧
    (run mp cfg k (addPackageTxsInit mp a np nd)).vtx =
        a.vtx ++ (committedEntries (run mp cfg k (addPackageTxsInit mp a np nd))).map
          CTransactionRef.pool ∧
    (∀ h, CTransactionRef.pool h ∉ a.vtx →
      (run mp cfg k (addPackageTxsInit mp a np nd)).vtx.count (CTransactionRef.pool h) ≤ 1) := by
  obtain ⟨h1, _, h3, h4, h5⟩ := run_bookkeeping mp cfg a np nd k ha
  refine ⟨h3, h4, h5, h1, ?_⟩
  intro h hh
  rw [h1, List.count_append, List.count_eq_zero_of_not_mem hh, Nat.zero_add]
  have hinj : Function.Injective CTransactionRef.pool := by
    intro x y hxy; cases hxy; rfl
  rw [List.count_map_of_injective _ _ hinj]
  exact List.nodup_iff_count_le_one.mp h3 h

theorem TestPackageTransactions_true (mp : CTxMemPool) (package : List Nat)
    (h : TestPackageTransactions mp package = true) :
    ∀ x ∈ package, (mp.entry x).isFinalTx = true ∧ (mp.entry x).isTxSafeForMining = true := by
  intro x hx
  unfold TestPackageTransactions at h
  rw [List.all_eq_true] at h
  simpa using h x hx

/-- C5: every mempool transaction committed by `addPackageTxs` is final and safe for mining.
The entries of each committed package (the set that passed `TestPackageTransactions`, handed
to `AddToBlock` in sorted order) all satisfy both predicates, and so does every mempool
transaction of the block's transaction list that was not in the list initially. -/
theorem C5_committed_final_and_safe (mp : CTxMemPool) (cfg : Params) (a : BlockAssembler)
    (np nd k : Nat) :
    (∀ r ∈ (run mp cfg k (addPackageTxsInit mp a np nd)).committed, ∀ h ∈ r.sortedEntries,
      (mp.entry h).isFinalTx = true ∧ (mp.entry h).isTxSafeForMining = true) ∧
    (∀ h, CTransactionRef.pool h ∈ (run mp cfg k (addPackageTxsInit mp a np nd)).vtx →
      CTransactionRef.pool h ∈ a.vtx ∨
        ((mp.entry h).isFinalTx = true ∧ (mp.entry h).isTxSafeForMining = true)) := by
  apply run_commit_invariant mp cfg (fun b c =>
    (∀ r ∈ c, ∀ h ∈ r.sortedEntries,
      (mp.entry h).isFinalTx = true ∧ (mp.entry h).isTxSafeForMining = true) ∧
    (∀ h, CTransactionRef.pool h ∈ b.vtx →
      CTransactionRef.pool h ∈ a.vtx ∨
        ((mp.entry h).isFinalTx = true ∧ (mp.entry h).isTxSafeForMining = true)))
  · intro s s0 iter f ps pf pso hQ hasm hcom _ _ _ htest
    obtain ⟨h1, h2⟩ := hQ
    have hvtx : s0.vtx = s.vtx := by rw [hasm]
    have hok := TestPackageTransactions_true mp _ htest
    generalize setInsert iter (onlyUnconfirmed s.inBlock (mp.CalculateMemPoolAncestors iter))
      = pkg at hok ⊢
    constructor
    · intro r hr h hh
      rw [commitPackage_committed, hcom, List.mem_append, List.mem_singleton] at hr
      rcases hr with hr | hr
      · exact h1 r hr h hh
      · subst hr
        exact hok h ((mem_SortForBlock mp pkg h).mp hh)
    · intro h hh
      have hh2 : CTransactionRef.pool h ∈ (commitPackage mp s0 iter f ps pf pso pkg).vtx := hh
      rw [commitPackage_vtx, hvtx, List.mem_append] at hh2
      rcases hh2 with hh2 | hh2
      · exact h2 h hh2
      · rw [List.mem_map] at hh2
        obtain ⟨y, hy, hyh⟩ := hh2
        cases hyh
        exact Or.inr (hok h ((mem_SortForBlock mp pkg h).mp hy))
  · constructor
    · intro r hr; simp [addPackageTxsInit_committed] at hr
    · intro h hh; exact Or.inl hh

theorem SortForBlock_sorted (mp : CTxMemPool) (l : List Nat) :
    (SortForBlock mp l).Pairwise mp.countLE := by
  unfold SortForBlock
  have htotal : IsTotal Nat mp.countLE := ⟨by
    intro a b
    unfold CTxMemPool.countLE
    omega⟩
  have htrans : IsTrans Nat mp.countLE := ⟨by
    intro a b c
    unfold CTxMemPool.countLE
    omega⟩
  exact List.sorted_insertionSort mp.countLE l

/-- Topological-order invariant of the selector. -/
theorem run_topological (mp : CTxMemPool) (cfg : Params) (a : BlockAssembler) (np nd k : Nat)
    (hcount : ∀ A B, B ∈ (mp.entry A).ancestors →
      (mp.entry B).nCountWithAncestors < (mp.entry A).nCountWithAncestors)
    (htrans : ∀ A B C, B ∈ (mp.entry A).ancestors → C ∈ (mp.entry B).ancestors →
      C ∈ (mp.entry A).ancestors)
    (hin : a.inBlock = []) (hvtx : ∀ h, CTransactionRef.pool h ∉ a.vtx) :
    (run mp cfg k (addPackageTxsInit mp a np nd)).vtx.Pairwise
      (fun x y => ∀ A B, x = CTransactionRef.pool A → y = CTransactionRef.pool B →
        B ∉ (mp.entry A).ancestors) ∧
    (∀ h, CTransactionRef.pool h ∈ (run mp cfg k (addPackageTxsInit mp a np nd)).vtx →
      h ∈ (run mp cfg k (addPackageTxsInit mp a np nd)).inBlock) ∧
    (∀ A ∈ (run mp cfg k (addPackageTxsInit mp a np nd)).inBlock,
      ∀ B ∈ (mp.entry A).ancestors,
        B ∈ (run mp cfg k (addPackageTxsInit mp a np nd)).inBlock) := by
  apply run_commit_invariant mp cfg (fun b _ =>
    b.vtx.Pairwise (fun x y => ∀ A B, x = CTransactionRef.pool A → y = CTransactionRef.pool B →
        B ∉ (mp.entry A).ancestors) ∧
    (∀ h, CTransactionRef.pool h ∈ b.vtx → h ∈ b.inBlock) ∧
    (∀ A ∈ b.inBlock, ∀ B ∈ (mp.entry A).ancestors, B ∈ b.inBlock))
  · intro s s0 iter f ps pf pso hQ hasm _ hnin _ _ _
    obtain ⟨h1, h2, h3⟩ := hQ
    have hinb : s0.inBlock = s.inBlock := by rw [hasm]
    have hvtx0 : s0.vtx = s.vtx := by rw [hasm]
    have hmem := mem_package mp s.inBlock iter
    generalize setInsert iter (onlyUnconfirmed s.inBlock (mp.CalculateMemPoolAncestors iter))
      = pkg at hmem ⊢
    refine ⟨?_, ?_, ?_⟩
    · show (commitPackage mp s0 iter f ps pf pso pkg).vtx.Pairwise _
      rw [commitPackage_vtx, hvtx0, List.pairwise_append]
      refine ⟨h1, ?_, ?_⟩
      · rw [List.pairwise_map]
        apply (SortForBlock_sorted mp pkg).imp
        intro x y hxy A B hA hB hdep
        cases hA; cases hB
        have := hcount x y hdep
        unfold CTxMemPool.countLE at hxy
        omega
      · intro x hx y hy A B hA hB hdep
        subst hA; subst hB
        rw [List.mem_map] at hy
        obtain ⟨z, hz, hzB⟩ := hy
        cases hzB
        rw [mem_SortForBlock, hmem] at hz
        have hBin : B ∈ s.inBlock := h3 A (h2 A hx) B hdep
        rcases hz with rfl | ⟨_, hz⟩
        · exact hnin hBin
        · exact hz hBin
    · intro h hh
      have hh2 : CTransactionRef.pool h ∈ (commitPackage mp s0 iter f ps pf pso pkg).vtx := hh
      show h ∈ (commitPackage mp s0 iter f ps pf pso pkg).inBlock
      rw [commitPackage_inBlock_mem, hinb]
      rw [commitPackage_vtx, hvtx0, List.mem_append] at hh2
      rcases hh2 with hh2 | hh2
      · exact Or.inl (h2 h hh2)
      · rw [List.mem_map] at hh2
        obtain ⟨y, hy, hyh⟩ := hh2
        cases hyh
        exact Or.inr ((mem_SortForBlock mp pkg h).mp hy)
    · intro A hA B hB
      have hA2 : A ∈ (commitPackage mp s0 iter f ps pf pso pkg).inBlock := hA
      show B ∈ (commitPackage mp s0 iter f ps pf pso pkg).inBlock
      rw [commitPackage_inBlock_mem, hinb] at hA2 ⊢
      by_cases hBin : B ∈ s.inBlock
      · exact Or.inl hBin
      · right
        rw [hmem]
        right
        refine ⟨?_, hBin⟩
        rcases hA2 with hA2 | hA2
        · exact absurd (h3 A hA2 B hB) hBin
        · rw [hmem] at hA2
          rcases hA2 with rfl | ⟨hA2, _⟩
          · exact hB
          · exact htrans iter A B hA2 hB
  · refine ⟨?_, ?_, ?_⟩
    · rw [addPackageTxsInit_toBlockAssembler]
      rw [List.pairwise_iff_forall_sublist]
      intro x y hxy A B hA hB
      subst hA
      exact absurd (hxy.subset (List.mem_cons_self _ _)) (hvtx A)
    · intro h hh
      rw [addPackageTxsInit_toBlockAssembler] at hh
      exact absurd hh (hvtx h)
    · intro A hA
      rw [addPackageTxsInit_toBlockAssembler, hin] at hA
      cases hA

/-- C1: the transaction list produced by `addPackageTxs` is topologically ordered.  For a
snapshot in which an entry has a larger ancestor count than each of its ancestors and in
which the ancestor sets are closed (an ancestor of an ancestor is an ancestor), started with
an empty `inBlock` and no mempool transaction in the list: whenever `A` and `B` are both in
the block and `A` depends on `B`, the index of `B` is smaller than the index of `A`. -/
theorem C1_topological_order (mp : CTxMemPool) (cfg : Params) (a : BlockAssembler)
    (np nd k : Nat)
    (hcount : ∀ A B, B ∈ (mp.entry A).ancestors →
      (mp.entry B).nCountWithAncestors < (mp.entry A).nCountWithAncestors)
    (htrans : ∀ A B C, B ∈ (mp.entry A).ancestors → C ∈ (mp.entry B).ancestors →
      C ∈ (mp.entry A).ancestors)
    (hin : a.inBlock = []) (hvtx : ∀ h, CTransactionRef.pool h ∉ a.vtx)
    (i j A B : Nat)
    (hi : (run mp cfg k (addPackageTxsInit mp a np nd)).vtx[i]? = some (CTransactionRef.pool B))
    (hj : (run mp cfg k (addPackageTxsInit mp a np nd)).vtx[j]? = some (CTransactionRef.pool A))
    (hdep : B ∈ mp.CalculateMemPoolAncestors A) : i < j := by
  obtain ⟨hpw, _, _⟩ := run_topological mp cfg a np nd k hcount htrans hin hvtx
  have hdep2 : B ∈ (mp.entry A).ancestors := by
    unfold CTxMemPool.CalculateMemPoolAncestors at hdep
    exact List.mem_dedup.mp hdep
  generalize (run mp cfg k (addPackageTxsInit mp a np nd)).vtx = l at hi hj hpw
  rw [List.pairwise_iff_getElem] at hpw
  obtain ⟨hil, hie⟩ := List.getElem?_eq_some_iff.mp hi
  obtain ⟨hjl, hje⟩ := List.getElem?_eq_some_iff.mp hj
  by_contra hij
  rcases Nat.lt_or_eq_of_le (Nat.le_of_not_lt hij) with hlt | heq
  · exact hpw j i hjl hil hlt A B hje hie hdep2
  · subst heq
    rw [hie] at hje
    have hAB : B = A := by injection hje
    rw [hAB] at hdep2
    exact absurd (hcount A A hdep2) (Nat.lt_irrefl _)

/-! ## Termination -/

theorem length_filter_le_of_imp (l : List Nat) (p q : Nat → Bool)
    (h : ∀ x ∈ l, q x = true → p x = true) : (l.filter q).length ≤ (l.filter p).length := by
  rw [← List.countP_eq_length_filter, ← List.countP_eq_length_filter]
  exact List.countP_mono_left h

theorem length_filter_lt_of_imp (l : List Nat) (p q : Nat → Bool)
    (h : ∀ x ∈ l, q x = true → p x = true) (k : Nat) (hk : k ∈ l) (hp : p k = true)
    (hq : q k = false) : (l.filter q).length < (l.filter p).length := by
  induction l with
  | nil => cases hk
  | cons x l ih =>
    have hl : ∀ y ∈ l, q y = true → p y = true := fun y hy => h y (List.mem_cons_of_mem _ hy)
    have hle := length_filter_le_of_imp l p q hl
    rcases List.mem_cons.mp hk with rfl | hk2
    · simp only [List.filter_cons, hp, hq, if_true, List.length_cons]
      simp only [Bool.false_eq_true, if_false]
      omega
    · have ih2 := ih hl hk2
      have hx := h x (List.mem_cons_self _ _)
      simp only [List.filter_cons]
      by_cases hqx : q x = true
      · simp only [hqx, hx hqx, if_true, List.length_cons]; omega
      · by_cases hpx : p x = true
        · simp [hqx, hpx]; omega
        · simp [hqx, hpx]; omega

theorem rowCount_le (mp : CTxMemPool) (m : indexed_modified_transaction_set) :
    rowCount mp m ≤ mp.size := by
  unfold rowCount
  calc ((List.range mp.size).filter _).length ≤ (List.range mp.size).length :=
        List.length_filter_le _ _
    _ = mp.size := List.length_range _

theorem unconfirmedCount_le (mp : CTxMemPool) (b : List Nat) :
    unconfirmedCount mp b ≤ mp.size := by
  unfold unconfirmedCount
  calc ((List.range mp.size).filter _).length ≤ (List.range mp.size).length :=
        List.length_filter_le _ _
    _ = mp.size := List.length_range _

theorem rowCount_erase_lt (mp : CTxMemPool) (m : indexed_modified_transaction_set) (k : Nat)
    (hk : k < mp.size) (hm : (m k).isSome = true) :
    rowCount mp (modifiedErase m k) < rowCount mp m := by
  unfold rowCount
  apply length_filter_lt_of_imp _ _ _ _ k (List.mem_range.mpr hk) hm
  · simp [modifiedErase]
  · intro x _ hx
    unfold modifiedErase at hx
    by_cases hxk : x = k
    · simp [hxk] at hx
    · simpa [hxk] using hx

theorem unconfirmedCount_lt (mp : CTxMemPool) (b c : List Nat) (k : Nat) (hk : k < mp.size)
    (hsub : ∀ x, x ∈ b → x ∈ c) (hkb : k ∉ b) (hkc : k ∈ c) :
    unconfirmedCount mp c < unconfirmedCount mp b := by
  unfold unconfirmedCount
  apply length_filter_lt_of_imp _ _ _ _ k (List.mem_range.mpr hk)
  · simpa using hkb
  · simpa using hkc
  · intro x _ hx
    simp only [decide_eq_true_eq] at hx ⊢
    exact fun hxb => hx (hsub x hxb)

theorem ancestorScoreIndex_perm (mp : CTxMemPool) :
    mp.ancestorScoreIndex.Perm (List.range mp.size) :=
  List.perm_insertionSort _ _

/-- Effect of the evaluation of a candidate on the termination measure. -/
theorem evaluateCandidate_progress (mp : CTxMemPool) (cfg : Params) (s0 : SelectorState)
    (iter : Nat) (f : Bool) (ps : Nat) (pf : Int) (pso : Nat) (hiter : iter < mp.size)
    (hrow : f = true → (s0.mapModifiedTx iter).isSome = true)
    (hst : s0.status = LoopStatus.running) :
    (evaluateCandidate mp cfg s0 iter f ps pf pso).status ≠ s0.status ∨
    ((evaluateCandidate mp cfg s0 iter f ps pf pso).mi = s0.mi ∧
      (mp.size + 2) * unconfirmedCount mp (evaluateCandidate mp cfg s0 iter f ps pf pso).inBlock
          + rowCount mp (evaluateCandidate mp cfg s0 iter f ps pf pso).mapModifiedTx ≤
        (mp.size + 2) * unconfirmedCount mp s0.inBlock + rowCount mp s0.mapModifiedTx ∧
      (f = true →
        (mp.size + 2) * unconfirmedCount mp (evaluateCandidate mp cfg s0 iter f ps pf pso).inBlock
            + rowCount mp (evaluateCandidate mp cfg s0 iter f ps pf pso).mapModifiedTx <
          (mp.size + 2) * unconfirmedCount mp s0.inBlock + rowCount mp s0.mapModifiedTx)) := by
  have hfail : ∀ st, (st = s0.status ∨ st = LoopStatus.gaveUp) →
      ∀ t : SelectorState, t.status = st → t.mi = s0.mi → t.inBlock = s0.inBlock →
      t.mapModifiedTx = (markFailed s0 iter f).mapModifiedTx →
      t.status ≠ s0.status ∨ (t.mi = s0.mi ∧
        (mp.size + 2) * unconfirmedCount mp t.inBlock + rowCount mp t.mapModifiedTx ≤
          (mp.size + 2) * unconfirmedCount mp s0.inBlock + rowCount mp s0.mapModifiedTx ∧
        (f = true →
          (mp.size + 2) * unconfirmedCount mp t.inBlock + rowCount mp t.mapModifiedTx <
            (mp.size + 2) * unconfirmedCount mp s0.inBlock + rowCount mp s0.mapModifiedTx)) := by
    intro st hst2 t h1 h2 h3 h4
    rcases hst2 with hst2 | hst2
    · right
      refine ⟨h2, ?_, ?_⟩
      · rw [h3, h4, markFailed_mapModifiedTx]
        cases f with
        | false => simp
        | true =>
          have := rowCount_erase_lt mp s0.mapModifiedTx iter hiter (hrow rfl)
          simp only [if_true]
          omega
      · intro hf
        rw [h3, h4, markFailed_mapModifiedTx, hf]
        have := rowCount_erase_lt mp s0.mapModifiedTx iter hiter (hrow hf)
        simp only [if_true]
        omega
    · left
      rw [h1, hst2, hst]
      decide
  apply evaluateCandidate_cases mp cfg (fun t => t.status ≠ s0.status ∨ (t.mi = s0.mi ∧
        (mp.size + 2) * unconfirmedCount mp t.inBlock + rowCount mp t.mapModifiedTx ≤
          (mp.size + 2) * unconfirmedCount mp s0.inBlock + rowCount mp s0.mapModifiedTx ∧
        (f = true →
          (mp.size + 2) * unconfirmedCount mp t.inBlock + rowCount mp t.mapModifiedTx <
            (mp.size + 2) * unconfirmedCount mp s0.inBlock + rowCount mp s0.mapModifiedTx)))
  · intro _; left; simp [hst]
  · intro _ _; left; simp [hst]
  · intro _ _ _ st hst2
    exact hfail st hst2 _ rfl (by simp) (by simp) rfl
  · intro _ _ _ _
    exact hfail s0.status (Or.inl rfl) _ (by simp) (by simp) (by simp) rfl
  · intro hnin _ _ _
    right
    have hpkg := mem_package mp s0.inBlock iter iter
    generalize setInsert iter (onlyUnconfirmed s0.inBlock (mp.CalculateMemPoolAncestors iter))
      = pkg at hpkg
    have hlt : unconfirmedCount mp (commitPackage mp s0 iter f ps pf pso pkg).inBlock <
        unconfirmedCount mp s0.inBlock := by
      apply unconfirmedCount_lt mp _ _ iter hiter
      · intro x hx; rw [commitPackage_inBlock_mem]; exact Or.inl hx
      · exact hnin
      · rw [commitPackage_inBlock_mem, hpkg]; exact Or.inr (Or.inl rfl)
    have hrows := rowCount_le mp (commitPackage mp s0 iter f ps pf pso pkg).mapModifiedTx
    have hmul : (mp.size + 2) *
        (unconfirmedCount mp (commitPackage mp s0 iter f ps pf pso pkg).inBlock + 1) ≤
        (mp.size + 2) * unconfirmedCount mp s0.inBlock := Nat.mul_le_mul_left _ hlt
    rw [Nat.mul_add, Nat.mul_one] at hmul
    refine ⟨commitPackage_mi _ _ _ _ _ _ _ _, ?_, ?_⟩
    · show (mp.size + 2) * unconfirmedCount mp (commitPackage mp s0 iter f ps pf pso pkg).inBlock
          + rowCount mp (commitPackage mp s0 iter f ps pf pso pkg).mapModifiedTx ≤ _
      omega
    · intro _
      show (mp.size + 2) * unconfirmedCount mp (commitPackage mp s0 iter f ps pf pso pkg).inBlock
          + rowCount mp (commitPackage mp s0 iter f ps pf pso pkg).mapModifiedTx < _
      omega

theorem evaluateCandidate_mi (mp : CTxMemPool) (cfg : Params) (s0 : SelectorState)
    (iter : Nat) (f : Bool) (ps : Nat) (pf : Int) (pso : Nat) :
    (evaluateCandidate mp cfg s0 iter f ps pf pso).mi = s0.mi := by
  apply evaluateCandidate_cases mp cfg (fun t => t.mi = s0.mi)
  · intro _; rfl
  · intro _ _; rfl
  · intro _ _ _ st _; simp
  · intro _ _ _ _; simp
  · intro _ _ _ _; simp

/-- The mempool cursor only moves forward, one entry at a time. -/
theorem step_mi (mp : CTxMemPool) (cfg : Params) (s : SelectorState) :
    (step mp cfg s).mi = s.mi ∨ ∃ it, s.mi = it :: (step mp cfg s).mi := by
  apply step_eval_cases mp cfg (fun t => t.mi = s.mi ∨ ∃ it, s.mi = it :: t.mi)
  · intro _; exact Or.inl rfl
  · intro _ _ _; exact Or.inl rfl
  · intro it rest _ hmi _; exact Or.inr ⟨it, hmi⟩
  · intro s0 iter f ps pf pso _ hsrc
    show (evaluateCandidate mp cfg s0 iter f ps pf pso).mi = s.mi ∨
      ∃ it, s.mi = it :: (evaluateCandidate mp cfg s0 iter f ps pf pso).mi
    rw [evaluateCandidate_mi]
    rcases hsrc with ⟨_, h, _⟩ | ⟨_, rest, hmi, h, _⟩
    · left; rw [h]
    · right; rw [h]; exact ⟨iter, hmi⟩

theorem step_mi_mem (mp : CTxMemPool) (cfg : Params) (s : SelectorState) (x : Nat)
    (hx : x ∈ (step mp cfg s).mi) : x ∈ s.mi := by
  rcases step_mi mp cfg s with h | ⟨it, h⟩
  · rw [← h]; exact hx
  · rw [h]; exact List.mem_cons_of_mem _ hx

theorem step_mi_nodup (mp : CTxMemPool) (cfg : Params) (s : SelectorState)
    (h : s.mi.Nodup) : (step mp cfg s).mi.Nodup := by
  rcases step_mi mp cfg s with h2 | ⟨it, h2⟩
  · rw [h2]; exact h
  · rw [h2] at h; exact (List.nodup_cons.mp h).2

/-- Every iteration that leaves the loop running lowers the termination measure. -/
theorem step_progress (mp : CTxMemPool) (cfg : Params) (s : SelectorState)
    (hmi : ∀ x ∈ s.mi, x < mp.size) (hrun : s.status = LoopStatus.running) :
    (step mp cfg s).status ≠ LoopStatus.running ∨
      loopMeasure mp (step mp cfg s) < loopMeasure mp s := by
  apply step_eval_cases mp cfg (fun t => t.status ≠ LoopStatus.running ∨
      loopMeasure mp t < loopMeasure mp s)
  · intro h; exact absurd hrun h
  · intro _ _ _; left; simp
  · intro it rest _ hmi2 _
    right
    unfold loopMeasure
    simp only [hmi2, List.length_cons]
    omega
  · intro s0 iter f ps pf pso _ hsrc
    have hiter : iter < mp.size := by
      rcases hsrc with ⟨_, _, h, _⟩ | ⟨_, rest, h, _⟩
      · exact h
      · exact hmi iter (by rw [h]; exact List.mem_cons_self _ _)
    have hrow : f = true → (s0.mapModifiedTx iter).isSome = true := by
      intro hf
      rcases hsrc with ⟨_, h1, _, h2⟩ | ⟨h, _⟩
      · rw [h1, h2]; rfl
      · rw [hf] at h; cases h
    have hst0 : s0.status = LoopStatus.running := by
      rcases hsrc with ⟨_, h, _⟩ | ⟨_, rest, _, h, _⟩ <;> rw [h] <;> exact hrun
    rcases evaluateCandidate_progress mp cfg s0 iter f ps pf pso hiter hrow hst0 with
      h | ⟨h1, h2, h3⟩
    · left
      rw [hst0] at h
      exact h
    · right
      unfold loopMeasure
      rw [h1]
      rcases hsrc with ⟨hf, h, _⟩ | ⟨_, rest, hmi2, h, _⟩
      · have := h3 hf
        rw [h] at this ⊢
        omega
      · have h4 : s0.inBlock = s.inBlock := by rw [h]
        have h5 : s0.mapModifiedTx = s.mapModifiedTx := by rw [h]
        have h6 : s0.mi = rest := by rw [h]
        rw [h4, h5] at h2
        rw [h6, hmi2, List.length_cons]
        omega

/-- Enough fuel ends the loop. -/
theorem run_terminates (mp : CTxMemPool) (cfg : Params) (fuel : Nat) (s : SelectorState)
    (hmi : ∀ x ∈ s.mi, x < mp.size) (hfuel : loopMeasure mp s < fuel) :
    (run mp cfg fuel s).status ≠ LoopStatus.running := by
  induction fuel generalizing s with
  | zero => omega
  | succ fuel ih =>
    by_cases hrun : s.status = LoopStatus.running
    · rw [run]
      rcases step_progress mp cfg s hmi hrun with h | h
      · rw [run_of_not_running mp cfg fuel _ h]; exact h
      · exact ih _ (fun x hx => hmi x (step_mi_mem mp cfg s x hx)) (by omega)
    · rw [run_of_not_running mp cfg _ s hrun]; exact hrun

theorem loopMeasure_init (mp : CTxMemPool) (a : BlockAssembler) (np nd : Nat) :
    loopMeasure mp (addPackageTxsInit mp a np nd) < fuelBound mp := by
  unfold loopMeasure fuelBound
  have h1 := unconfirmedCount_le mp (addPackageTxsInit mp a np nd).inBlock
  have h2 := rowCount_le mp (addPackageTxsInit mp a np nd).mapModifiedTx
  have h3 : (addPackageTxsInit mp a np nd).mi.length = mp.size := by
    show mp.ancestorScoreIndex.length = mp.size
    rw [(ancestorScoreIndex_perm mp).length_eq, List.length_range]
  have h4 := Nat.mul_le_mul_left (mp.size + 2) h1
  omega

theorem addPackageTxsInit_mi_lt (mp : CTxMemPool) (a : BlockAssembler) (np nd : Nat) :
    ∀ x ∈ (addPackageTxsInit mp a np nd).mi, x < mp.size := by
  intro x hx
  have hx2 : x ∈ mp.ancestorScoreIndex := hx
  rw [(ancestorScoreIndex_perm mp).mem_iff, List.mem_range] at hx2
  exact hx2

theorem addPackageTxsInit_mi_nodup (mp : CTxMemPool) (a : BlockAssembler) (np nd : Nat) :
    (addPackageTxsInit mp a np nd).mi.Nodup := by
  show mp.ancestorScoreIndex.Nodup
  rw [(ancestorScoreIndex_perm mp).nodup_iff]
  exact List.nodup_range _

/-- The loop of `addPackageTxs` has ended in the state that `addPackageTxs` returns. -/
theorem addPackageTxs_status (mp : CTxMemPool) (cfg : Params) (a : BlockAssembler)
    (np nd : Nat) : (addPackageTxs mp cfg a np nd).status ≠ LoopStatus.running :=
  run_terminates mp cfg _ _ (addPackageTxsInit_mi_lt mp a np nd) (loopMeasure_init mp a np nd)

/-- More iterations than `fuelBound` do not change the result. -/
theorem run_fuelBound_add (mp : CTxMemPool) (cfg : Params) (a : BlockAssembler)
    (np nd j : Nat) :
    run mp cfg (fuelBound mp + j) (addPackageTxsInit mp a np nd) =
      addPackageTxs mp cfg a np nd := by
  rw [run_add]
  exact run_of_not_running mp cfg j _ (addPackageTxs_status mp cfg a np nd)

/-! ## Bound on `nConsecutiveFailed` -/

theorem pendingCount_le_size (mp : CTxMemPool) (s : SelectorState) :
    pendingCount mp s ≤ mp.size := by
  unfold pendingCount
  calc ((List.range mp.size).filter _).length ≤ (List.range mp.size).length :=
        List.length_filter_le _ _
    _ = mp.size := List.length_range _

theorem pendingCount_le (mp : CTxMemPool) (t s : SelectorState)
    (h : ∀ x, x < mp.size →
      ((t.mapModifiedTx x).isSome = true ∨ (x ∈ t.mi ∧ x ∉ t.failedTx ∧ x ∉ t.inBlock)) →
      ((s.mapModifiedTx x).isSome = true ∨ (x ∈ s.mi ∧ x ∉ s.failedTx ∧ x ∉ s.inBlock))) :
    pendingCount mp t ≤ pendingCount mp s := by
  unfold pendingCount
  apply length_filter_le_of_imp
  intro x hx hq
  have := h x (List.mem_range.mp hx) (by simpa [and_assoc] using hq)
  simpa [and_assoc] using this

theorem pendingCount_lt (mp : CTxMemPool) (t s : SelectorState)
    (h : ∀ x, x < mp.size →
      ((t.mapModifiedTx x).isSome = true ∨ (x ∈ t.mi ∧ x ∉ t.failedTx ∧ x ∉ t.inBlock)) →
      ((s.mapModifiedTx x).isSome = true ∨ (x ∈ s.mi ∧ x ∉ s.failedTx ∧ x ∉ s.inBlock)))
    (k : Nat) (hk : k < mp.size)
    (hs : (s.mapModifiedTx k).isSome = true ∨ (k ∈ s.mi ∧ k ∉ s.failedTx ∧ k ∉ s.inBlock))
    (ht : ¬ ((t.mapModifiedTx k).isSome = true ∨ (k ∈ t.mi ∧ k ∉ t.failedTx ∧ k ∉ t.inBlock))) :
    pendingCount mp t < pendingCount mp s := by
  unfold pendingCount
  apply length_filter_lt_of_imp _ _ _ _ k (List.mem_range.mpr hk)
  · simpa [and_assoc] using hs
  · have : ¬ (((t.mapModifiedTx k).isSome ||
        (decide (k ∈ t.mi) && !decide (k ∈ t.failedTx) && !decide (k ∈ t.inBlock))) = true) := by
      intro hq; exact ht (by simpa [and_assoc] using hq)
    simpa using this
  · intro x hx hq
    have := h x (List.mem_range.mp hx) (by simpa [and_assoc] using hq)
    simpa [and_assoc] using this

theorem SkipMapTxEntry_false (it : Nat) (m : indexed_modified_transaction_set)
    (inBlock failedTx : List Nat) (h : SkipMapTxEntry it m inBlock failedTx = false) :
    m it = none ∧ it ∉ inBlock ∧ it ∉ failedTx := by
  unfold SkipMapTxEntry at h
  simp only [Bool.or_eq_false_iff, decide_eq_false_iff_not] at h
  obtain ⟨⟨h1, h2⟩, h3⟩ := h
  refine ⟨?_, h2, h3⟩
  cases hm : m it with
  | none => rfl
  | some r => rw [hm] at h1; cases h1

/-- A failed candidate leaves the set of pending anchors. -/
theorem pendingCount_markFailed (mp : CTxMemPool) (s s0 : SelectorState) (iter : Nat)
    (f : Bool) (ps : Nat) (pf : Int) (pso : Nat) (hnd : s.mi.Nodup)
    (hmi : ∀ x ∈ s.mi, x < mp.size)
    (hsrc : (f = true ∧ s0 = s ∧ iter < mp.size ∧
          s.mapModifiedTx iter = some ⟨ps, pf, pso⟩) ∨
        (f = false ∧ ∃ rest, s.mi = iter :: rest ∧ s0 = { s with mi := rest } ∧
          SkipMapTxEntry iter s.mapModifiedTx s.inBlock s.failedTx = false ∧
          ps = (mp.entry iter).nSizeWithAncestors ∧
          pf = (mp.entry iter).nModFeesWithAncestors ∧
          pso = (mp.entry iter).nSigOpCountWithAncestors))
    (t : SelectorState) (h1 : t.mapModifiedTx = (markFailed s0 iter f).mapModifiedTx)
    (h2 : t.mi = s0.mi) (h3 : t.failedTx = (markFailed s0 iter f).failedTx)
    (h4 : t.inBlock = s0.inBlock) :
    pendingCount mp t < pendingCount mp s := by
  rcases hsrc with ⟨hf, hs0, hlt, hrow⟩ | ⟨hf, rest, hmi2, hs0, hskip, _⟩
  · subst hf; subst hs0
    rw [markFailed_mapModifiedTx] at h1
    rw [markFailed_failedTx] at h3
    simp only [if_true] at h1 h3
    apply pendingCount_lt mp t s0 _ iter hlt
    · left; rw [hrow]; rfl
    · rw [h1, h3]
      simp [modifiedErase, mem_setInsert]
    · intro x _ hx
      rw [h1, h2, h3, h4] at hx
      rcases hx with hx | ⟨hx1, hx2, hx3⟩
      · left
        unfold modifiedErase at hx
        by_cases hxi : x = iter
        · simp [hxi] at hx
        · simpa [hxi] using hx
      · right
        refine ⟨hx1, ?_, hx3⟩
        intro hxf
        exact hx2 ((mem_setInsert _ _ _).mpr (Or.inr hxf))
  · subst hf
    obtain ⟨hk1, hk2, hk3⟩ := SkipMapTxEntry_false _ _ _ _ hskip
    rw [markFailed_mapModifiedTx] at h1
    rw [markFailed_failedTx] at h3
    simp only [Bool.false_eq_true, if_false] at h1 h3
    have e1 : s0.mapModifiedTx = s.mapModifiedTx := by rw [hs0]
    have e2 : s0.mi = rest := by rw [hs0]
    have e3 : s0.failedTx = s.failedTx := by rw [hs0]
    have e4 : s0.inBlock = s.inBlock := by rw [hs0]
    rw [e1] at h1; rw [e2] at h2; rw [e3] at h3; rw [e4] at h4
    have hiter : iter < mp.size := hmi iter (by rw [hmi2]; exact List.mem_cons_self _ _)
    rw [hmi2] at hnd
    apply pendingCount_lt mp t s _ iter hiter
    · right
      exact ⟨by rw [hmi2]; exact List.mem_cons_self _ _, hk3, hk2⟩
    · rw [h1, h2, hk1]
      simp only [Option.isSome_none, Bool.false_eq_true, false_or, not_and]
      intro hr
      exact absurd hr (List.nodup_cons.mp hnd).1
    · intro x _ hx
      rw [h1, h2, h3, h4] at hx
      rcases hx with hx | ⟨hx1, hx2, hx3⟩
      · exact Or.inl hx
      · right
        exact ⟨by rw [hmi2]; exact List.mem_cons_of_mem _ hx1, hx2, hx3⟩

/-- Without a failure the set of pending anchors does not grow, as long as the modified index
and the block are left alone. -/
theorem pendingCount_source (mp : CTxMemPool) (s s0 : SelectorState) (iter : Nat)
    (f : Bool) (ps : Nat) (pf : Int) (pso : Nat)
    (hsrc : (f = true ∧ s0 = s ∧ iter < mp.size ∧
          s.mapModifiedTx iter = some ⟨ps, pf, pso⟩) ∨
        (f = false ∧ ∃ rest, s.mi = iter :: rest ∧ s0 = { s with mi := rest } ∧
          SkipMapTxEntry iter s.mapModifiedTx s.inBlock s.failedTx = false ∧
          ps = (mp.entry iter).nSizeWithAncestors ∧
          pf = (mp.entry iter).nModFeesWithAncestors ∧
          pso = (mp.entry iter).nSigOpCountWithAncestors))
    (t : SelectorState) (h1 : t.mapModifiedTx = s0.mapModifiedTx)
    (h2 : t.mi = s0.mi) (h3 : t.failedTx = s0.failedTx)
    (h4 : t.inBlock = s0.inBlock) :
    pendingCount mp t ≤ pendingCount mp s := by
  apply pendingCount_le
  intro x _ hx
  rw [h1, h2, h3, h4] at hx
  rcases hsrc with ⟨_, hs0, _⟩ | ⟨_, rest, hmi2, hs0, _⟩
  · rw [hs0] at hx; exact hx
  · have e1 : s0.mapModifiedTx = s.mapModifiedTx := by rw [hs0]
    have e2 : s0.mi = rest := by rw [hs0]
    have e3 : s0.failedTx = s.failedTx := by rw [hs0]
    have e4 : s0.inBlock = s.inBlock := by rw [hs0]
    rw [e1, e2, e3, e4] at hx
    rcases hx with hx | ⟨hx1, hx2, hx3⟩
    · exact Or.inl hx
    · right
      exact ⟨by rw [hmi2]; exact List.mem_cons_of_mem _ hx1, hx2, hx3⟩

theorem source_nConsecutiveFailed (mp : CTxMemPool) (s s0 : SelectorState) (iter : Nat)
    (f : Bool) (ps : Nat) (pf : Int) (pso : Nat)
    (hsrc : (f = true ∧ s0 = s ∧ iter < mp.size ∧
          s.mapModifiedTx iter = some ⟨ps, pf, pso⟩) ∨
        (f = false ∧ ∃ rest, s.mi = iter :: rest ∧ s0 = { s with mi := rest } ∧
          SkipMapTxEntry iter s.mapModifiedTx s.inBlock s.failedTx = false ∧
          ps = (mp.entry iter).nSizeWithAncestors ∧
          pf = (mp.entry iter).nModFeesWithAncestors ∧
          pso = (mp.entry iter).nSigOpCountWithAncestors)) :
    s0.nConsecutiveFailed = s.nConsecutiveFailed := by
  rcases hsrc with ⟨_, hs0, _⟩ | ⟨_, rest, _, hs0, _⟩ <;> rw [hs0]

/-- The failure counter and the number of pending anchors together never exceed the size of
the snapshot. -/
theorem step_failure_bound (mp : CTxMemPool) (cfg : Params) (s : SelectorState)
    (hnd : s.mi.Nodup) (hmi : ∀ x ∈ s.mi, x < mp.size)
    (h : s.nConsecutiveFailed + pendingCount mp s ≤ mp.size) :
    (step mp cfg s).nConsecutiveFailed + pendingCount mp (step mp cfg s) ≤ mp.size := by
  apply step_eval_cases mp cfg (fun t => t.nConsecutiveFailed + pendingCount mp t ≤ mp.size)
  · intro _; exact h
  · intro _ _ _; exact h
  · intro it rest _ hmi2 _
    have : pendingCount mp { s with mi := rest } ≤ pendingCount mp s := by
      apply pendingCount_le
      intro x _ hx
      rcases hx with hx | ⟨hx1, hx2, hx3⟩
      · exact Or.inl hx
      · right
        exact ⟨by rw [hmi2]; exact List.mem_cons_of_mem _ hx1, hx2, hx3⟩
    show s.nConsecutiveFailed + _ ≤ _
    omega
  · intro s0 iter f ps pf pso _ hsrc
    have hncf := source_nConsecutiveFailed mp s s0 iter f ps pf pso hsrc
    apply evaluateCandidate_cases mp cfg
      (fun t => t.nConsecutiveFailed + pendingCount mp t ≤ mp.size)
    · intro _
      have := pendingCount_source mp s s0 iter f ps pf pso hsrc
        { s0 with status := LoopStatus.assertFailed } rfl rfl rfl rfl
      show s0.nConsecutiveFailed + _ ≤ _
      omega
    · intro _ _
      have := pendingCount_source mp s s0 iter f ps pf pso hsrc
        { s0 with status := LoopStatus.returned } rfl rfl rfl rfl
      show s0.nConsecutiveFailed + _ ≤ _
      omega
    · intro _ _ _ st _
      have := pendingCount_markFailed mp s s0 iter f ps pf pso hnd hmi hsrc
        { markFailed s0 iter f with
          nConsecutiveFailed := (markFailed s0 iter f).nConsecutiveFailed + 1,
          status := st } rfl (by simp) rfl (by simp)
      have e := markFailed_nConsecutiveFailed s0 iter f
      show (markFailed s0 iter f).nConsecutiveFailed + 1 + _ ≤ _
      omega
    · intro _ _ _ _
      have := pendingCount_markFailed mp s s0 iter f ps pf pso hnd hmi hsrc
        (markFailed s0 iter f) rfl (by simp) rfl (by simp)
      rw [markFailed_nConsecutiveFailed]
      omega
    · intro _ _ _ _
      rw [commitPackage_nConsecutiveFailed]
      have := pendingCount_le_size mp (commitPackage mp s0 iter f ps pf pso (setInsert iter
        (onlyUnconfirmed s0.inBlock (mp.CalculateMemPoolAncestors iter))))
      omega

/-- C6: the main loop of `addPackageTxs` terminates on every mempool snapshot: the state
returned after `fuelBound` iterations is no longer running (and further iterations leave it
unchanged), and at every point `nConsecutiveFailed` is at most
`MAX_CONSECUTIVE_FAILURES + |mempool|`, with `MAX_CONSECUTIVE_FAILURES = 1000`. -/
theorem C6_loop_terminates_failures_bounded (mp : CTxMemPool) (cfg : Params)
    (a : BlockAssembler) (np nd : Nat) :
    (addPackageTxs mp cfg a np nd).status ≠ LoopStatus.running ∧
    (∀ j, run mp cfg (fuelBound mp + j) (addPackageTxsInit mp a np nd) =
      addPackageTxs mp cfg a np nd) ∧
    MAX_CONSECUTIVE_FAILURES = 1000 ∧
    (∀ k, (run mp cfg k (addPackageTxsInit mp a np nd)).nConsecutiveFailed ≤
      MAX_CONSECUTIVE_FAILURES + mp.size) := by
  refine ⟨addPackageTxs_status mp cfg a np nd, run_fuelBound_add mp cfg a np nd, rfl, ?_⟩
  intro k
  have hinv := run_invariant mp cfg (fun t => t.mi.Nodup ∧ (∀ x ∈ t.mi, x < mp.size) ∧
      t.nConsecutiveFailed + pendingCount mp t ≤ mp.size)
    (fun t ht => ⟨step_mi_nodup mp cfg t ht.1,
      fun x hx => ht.2.1 x (step_mi_mem mp cfg t x hx),
      step_failure_bound mp cfg t ht.1 ht.2.1 ht.2.2⟩) k
    (addPackageTxsInit mp a np nd)
    ⟨addPackageTxsInit_mi_nodup mp a np nd, addPackageTxsInit_mi_lt mp a np nd, by
      have := pendingCount_le_size mp (addPackageTxsInit mp a np nd)
      show 0 + _ ≤ _
      omega⟩
  have := hinv.2.2
  omega

/-! ## Closed form of `UpdatePackagesForAdded` -/

theorem newModifiedEntry_eq (mp : CTxMemPool) (it desc : Nat) :
    newModifiedEntry mp it desc =
      update_for_parent_inclusion mp it (mp.modifiedEntryOf desc) := rfl

theorem updateDescendant_snd (mp : CTxMemPool) (P : List Nat) (X : Nat)
    (acc : Nat × indexed_modified_transaction_set) (d D : Nat) :
    (updateDescendant mp P X acc d).2 D =
      if D = d ∧ d ∉ P then adjustRow mp D (acc.2 D) X else acc.2 D := by
  unfold updateDescendant
  by_cases hd : d ∈ P
  · simp [hd]
  · simp only [hd, if_false, not_false_eq_true, and_true]
    by_cases hDd : D = d
    · subst hDd
      cases hm : acc.2 D with
      | none => simp [modifiedSet, adjustRow, hm, newModifiedEntry_eq]
      | some r => simp [modifiedSet, adjustRow, hm]
    · cases hm : acc.2 d with
      | none => simp [modifiedSet, hDd]
      | some r => simp [modifiedSet, hDd]

theorem foldl_updateDescendant_snd (mp : CTxMemPool) (P : List Nat) (X : Nat) (L : List Nat)
    (hL : L.Nodup) (acc : Nat × indexed_modified_transaction_set) (D : Nat) :
    (L.foldl (updateDescendant mp P X) acc).2 D =
      if D ∈ L ∧ D ∉ P then adjustRow mp D (acc.2 D) X else acc.2 D := by
  induction L generalizing acc with
  | nil => simp
  | cons d L ih =>
    obtain ⟨hd, hL2⟩ := List.nodup_cons.mp hL
    simp only [List.foldl_cons]
    rw [ih hL2, updateDescendant_snd]
    by_cases hDd : D = d
    · subst hDd
      by_cases hP : D ∈ P
      · simp [hP]
      · simp [hP, hd]
    · simp [hDd]

theorem CalculateDescendants_nodup (mp : CTxMemPool) (X : Nat) :
    (mp.CalculateDescendants X).Nodup :=
  List.Nodup.filter _ (List.nodup_range _)

theorem mem_CalculateDescendants (mp : CTxMemPool) (X D : Nat) :
    D ∈ mp.CalculateDescendants X ↔ D < mp.size ∧ (D = X ∨ X ∈ (mp.entry D).ancestors) := by
  unfold CTxMemPool.CalculateDescendants
  simp [List.mem_filter]

theorem updateForAdded_snd (mp : CTxMemPool) (P : List Nat) (X : Nat)
    (acc : Nat × indexed_modified_transaction_set) (D : Nat) :
    (updateForAdded mp P acc X).2 D =
      if D ∈ mp.CalculateDescendants X ∧ D ∉ P then adjustRow mp D (acc.2 D) X
      else acc.2 D := by
  unfold updateForAdded
  exact foldl_updateDescendant_snd mp P X _ (CalculateDescendants_nodup mp X) acc D

theorem foldl_updateForAdded_snd (mp : CTxMemPool) (P L : List Nat)
    (acc : Nat × indexed_modified_transaction_set) (D : Nat) :
    (L.foldl (updateForAdded mp P) acc).2 D =
      if D ∈ P then acc.2 D
      else (L.filter (fun X => decide (D ∈ mp.CalculateDescendants X))).foldl
        (adjustRow mp D) (acc.2 D) := by
  induction L generalizing acc with
  | nil => simp
  | cons X L ih =>
    simp only [List.foldl_cons]
    rw [ih, updateForAdded_snd]
    by_cases hP : D ∈ P
    · simp [hP]
    · by_cases hX : D ∈ mp.CalculateDescendants X
      · simp [hP, hX, List.filter_cons]
      · simp [hP, hX, List.filter_cons]

/-- Closed form of `UpdatePackagesForAdded`: the row of an entry of `alreadyAdded` is left
as it is; the row of any other entry `D` is reduced once for every member of `alreadyAdded`
that has `D` among its descendants (and created first when there was none). -/
theorem UpdatePackagesForAdded_snd (mp : CTxMemPool) (P : List Nat)
    (m : indexed_modified_transaction_set) (D : Nat) :
    (UpdatePackagesForAdded mp P m).2 D =
      if D ∈ P then m D
      else (P.filter (fun X => decide (D ∈ mp.CalculateDescendants X))).foldl
        (adjustRow mp D) (m D) := by
  unfold UpdatePackagesForAdded
  exact foldl_updateForAdded_snd mp P P (0, m) D

theorem foldl_adjustRow_some (mp : CTxMemPool) (D : Nat) (L : List Nat)
    (r : CTxMemPoolModifiedEntry) :
    L.foldl (adjustRow mp D) (some r) =
      some (L.foldl (fun r Y => update_for_parent_inclusion mp Y r) r) := by
  induction L generalizing r with
  | nil => rfl
  | cons X L ih =>
    simp only [List.foldl_cons]
    exact ih _

theorem foldl_adjustRow_cons (mp : CTxMemPool) (D X : Nat) (L : List Nat)
    (o : Option CTxMemPoolModifiedEntry) :
    (X :: L).foldl (adjustRow mp D) o =
      some ((X :: L).foldl (fun r Y => update_for_parent_inclusion mp Y r)
        (o.getD (mp.modifiedEntryOf D))) := by
  simp only [List.foldl_cons]
  exact foldl_adjustRow_some mp D L _

/-- Aggregates of a row after the adjustments for the parents in `L`, in machine arithmetic. -/
theorem foldl_update_for_parent_inclusion (mp : CTxMemPool) (L : List Nat)
    (r : CTxMemPoolModifiedEntry) :
    ((L.foldl (fun r Y => update_for_parent_inclusion mp Y r) r).nSizeWithAncestors +
        sizeSum mp L) % U64 = r.nSizeWithAncestors % U64 ∧
    (L.foldl (fun r Y => update_for_parent_inclusion mp Y r) r).nModFeesWithAncestors =
        r.nModFeesWithAncestors - modFeeSum mp L ∧
    ((L.foldl (fun r Y => update_for_parent_inclusion mp Y r) r).nSigOpCountWithAncestors +
        sigOpSum mp L) % U32 = r.nSigOpCountWithAncestors % U32 ∧
    ((L ≠ [] ∨ r.nSizeWithAncestors < U64) →
      (L.foldl (fun r Y => update_for_parent_inclusion mp Y r) r).nSizeWithAncestors < U64) ∧
    ((L ≠ [] ∨ r.nSigOpCountWithAncestors < U32) →
      (L.foldl (fun r Y => update_for_parent_inclusion mp Y r) r).nSigOpCountWithAncestors
        < U32) := by
  induction L generalizing r with
  | nil => simp [sizeSum, modFeeSum, sigOpSum]
  | cons X L ih =>
    simp only [List.foldl_cons]
    obtain ⟨h1, h2, h3, h4, h5⟩ := ih (update_for_parent_inclusion mp X r)
    have e1 : sizeSum mp (X :: L) = (mp.entry X).nTxSize + sizeSum mp L := by
      simp [sizeSum]
    have e2 : modFeeSum mp (X :: L) = (mp.entry X).nModifiedFee + modFeeSum mp L := by
      simp [modFeeSum]
    have e3 : sigOpSum mp (X :: L) = (mp.entry X).sigOpCount + sigOpSum mp L := by
      simp [sigOpSum]
    have u1 : (update_for_parent_inclusion mp X r).nSizeWithAncestors =
      (r.nSizeWithAncestors + (U64 - (mp.entry X).nTxSize % U64)) % U64 := rfl
    have u2 : (update_for_parent_inclusion mp X r).nModFeesWithAncestors =
      r.nModFeesWithAncestors - (mp.entry X).nModifiedFee := rfl
    have u3 : (update_for_parent_inclusion mp X r).nSigOpCountWithAncestors =
      (r.nSigOpCountWithAncestors + (U32 - (mp.entry X).sigOpCount % U32)) % U32 := rfl
    rw [u1] at h1 h4
    rw [u2] at h2
    rw [u3] at h3 h5
    rw [e1, e2, e3]
    have m1 : (r.nSizeWithAncestors + (U64 - (mp.entry X).nTxSize % U64)) % U64 < U64 :=
      Nat.mod_lt _ (by decide)
    have m2 : (r.nSigOpCountWithAncestors + (U32 - (mp.entry X).sigOpCount % U32)) % U32 < U32 :=
      Nat.mod_lt _ (by decide)
    refine ⟨?_, ?_, ?_, fun _ => h4 (Or.inr m1), fun _ => h5 (Or.inr m2)⟩
    · simp only [U64] at h1 ⊢; omega
    · rw [h2]; ring
    · simp only [U32] at h3 ⊢; omega

/-! ## Sums over packages -/

theorem mod_sub_exact (M new S old : Nat) (h : (new + S) % M = old % M) (hn : new < M)
    (ho : old < M) (hS : S ≤ old) : new + S = old := by
  rw [Nat.mod_eq_of_lt ho] at h
  by_cases hlt : new + S < M
  · rw [Nat.mod_eq_of_lt hlt] at h; exact h
  · have hge : M ≤ new + S := Nat.le_of_not_lt hlt
    rw [Nat.mod_eq_sub_mod hge] at h
    have hlt2 : new + S - M < M := by omega
    rw [Nat.mod_eq_of_lt hlt2] at h
    omega

theorem sum_map_setInsert (f : Nat → Nat) (D : Nat) (l : List Nat) :
    ((setInsert D l).map f).sum = (l.map f).sum + (if D ∈ l then 0 else f D) := by
  unfold setInsert
  by_cases h : D ∈ l
  · simp [h]
  · simp [h]

theorem sum_map_filter_split (f : Nat → Nat) (A : List Nat) (p q : Nat → Bool) :
    ((A.filter p).map f).sum =
      ((A.filter (fun x => p x && !q x)).map f).sum +
        (((A.filter p).filter q).map f).sum := by
  induction A with
  | nil => simp
  | cons x A ih =>
    by_cases hp : p x = true
    · by_cases hq : q x = true
      · simp [List.filter_cons, hp, hq, ih]; omega
      · simp [List.filter_cons, hp, hq, ih]; omega
    · simp [List.filter_cons, hp, ih]

theorem sum_map_le_of_subset (f : Nat → Nat) (l1 l2 : List Nat) (hnd : l1.Nodup)
    (hsub : l1 ⊆ l2) : (l1.map f).sum ≤ (l2.map f).sum := by
  obtain ⟨l, hl, hl2⟩ := List.subperm_of_subset hnd hsub
  rw [← (hl.map f).sum_eq]
  exact List.Sublist.sum_le_sum (hl2.map f) (fun a _ => Nat.zero_le a)

/-- Weight of the package of `D` before and after the entries of `pkg` enter the block. -/
theorem package_sum_split (mp : CTxMemPool) (f : Nat → Nat) (B B2 pkg : List Nat) (D : Nat)
    (hD : D ∉ pkg) (hB2 : ∀ x, x ∈ B2 ↔ x ∈ B ∨ x ∈ pkg) :
    ((packageOf mp B D).map f).sum =
      ((packageOf mp B2 D).map f).sum +
        ((((mp.CalculateMemPoolAncestors D).filter (fun x => decide (x ∉ B))).filter
          (fun x => decide (x ∈ pkg))).map f).sum := by
  unfold packageOf onlyUnconfirmed
  rw [sum_map_setInsert, sum_map_setInsert,
    sum_map_filter_split f _ (fun x => decide (x ∉ B)) (fun x => decide (x ∈ pkg))]
  have e1 : (mp.CalculateMemPoolAncestors D).filter
      (fun x => decide (x ∉ B) && !decide (x ∈ pkg)) =
      (mp.CalculateMemPoolAncestors D).filter (fun x => decide (x ∉ B2)) := by
    apply List.filter_congr
    intro x _
    have := hB2 x
    by_cases h1 : x ∈ B <;> by_cases h2 : x ∈ pkg <;> simp [h1, h2, this]
  rw [e1]
  have e2 : (D ∈ (mp.CalculateMemPoolAncestors D).filter (fun x => decide (x ∉ B2))) ↔
      (D ∈ (mp.CalculateMemPoolAncestors D).filter (fun x => decide (x ∉ B))) := by
    simp only [List.mem_filter, decide_eq_true_eq, hB2 D]
    tauto
  by_cases h : D ∈ (mp.CalculateMemPoolAncestors D).filter (fun x => decide (x ∉ B))
  · simp only [h, e2.mpr h, if_true]; omega
  · simp only [h, (not_congr e2).mpr h, if_false]; omega

theorem package_sum_mono (mp : CTxMemPool) (f : Nat → Nat) (B B2 : List Nat) (D : Nat)
    (hB2 : ∀ x, x ∈ B → x ∈ B2) :
    ((packageOf mp B2 D).map f).sum ≤ ((packageOf mp B D).map f).sum := by
  apply sum_map_le_of_subset
  · exact package_nodup mp B2 D
  · intro x hx
    unfold packageOf at hx ⊢
    rw [mem_package] at hx ⊢
    rcases hx with h | ⟨h1, h2⟩
    · exact Or.inl h
    · exact Or.inr ⟨h1, fun hb => h2 (hB2 x hb)⟩

/-- The parents of `D` among a package that is disjoint from the block weigh at most as much
as the ancestors of `D` that leave its package when the package enters the block. -/
theorem parents_sum_le (mp : CTxMemPool) (f : Nat → Nat) (B pkg : List Nat) (D : Nat)
    (hD : D ∉ pkg) (hnd : pkg.Nodup) (hdisj : ∀ x ∈ pkg, x ∉ B) :
    ((pkg.filter (fun X => decide (D ∈ mp.CalculateDescendants X))).map f).sum ≤
      ((((mp.CalculateMemPoolAncestors D).filter (fun x => decide (x ∉ B))).filter
          (fun x => decide (x ∈ pkg))).map f).sum := by
  apply sum_map_le_of_subset
  · exact List.Nodup.filter _ hnd
  · intro X hX
    simp only [List.mem_filter, decide_eq_true_eq, mem_CalculateDescendants] at hX
    obtain ⟨hX1, _, hX2⟩ := hX
    simp only [List.mem_filter, decide_eq_true_eq]
    refine ⟨⟨?_, hdisj X hX1⟩, hX1⟩
    unfold CTxMemPool.CalculateMemPoolAncestors
    rw [List.mem_dedup]
    rcases hX2 with rfl | h
    · exact absurd hX1 hD
    · exact h

/-- One aggregate of a row after `UpdatePackagesForAdded` still covers the package of its
entry. -/
theorem cover_update (mp : CTxMemPool) (f : Nat → Nat) (M : Nat) (B B2 pkg : List Nat)
    (D : Nat) (hD : D ∉ pkg) (hB2 : ∀ x, x ∈ B2 ↔ x ∈ B ∨ x ∈ pkg) (hnd : pkg.Nodup)
    (hdisj : ∀ x ∈ pkg, x ∉ B) (old new stored : Nat)
    (hold1 : ((packageOf mp B D).map f).sum ≤ old) (hold2 : old ≤ stored) (hst : stored < M)
    (hnew : (new + ((pkg.filter (fun X => decide (D ∈ mp.CalculateDescendants X))).map f).sum)
      % M = old % M)
    (hnewlt : new < M) :
    ((packageOf mp B2 D).map f).sum ≤ new ∧ new ≤ stored := by
  have h1 := package_sum_split mp f B B2 pkg D hD hB2
  have h2 := parents_sum_le mp f B pkg D hD hnd hdisj
  have h3 := mod_sub_exact M new _ old hnew hnewlt (by omega) (by omega)
  omega

/-! ## Resource budget -/

theorem RowsCover_erase (mp : CTxMemPool) (B : List Nat) (m : indexed_modified_transaction_set)
    (k : Nat) (h : RowsCover mp B m) : RowsCover mp B (modifiedErase m k) := by
  intro D r hr
  unfold modifiedErase at hr
  by_cases hD : D = k
  · simp [hD] at hr
  · simp only [hD, if_false] at hr
    exact h D r hr

theorem RowsCover_fresh (mp : CTxMemPool) (B : List Nat) (D : Nat)
    (hcons : AggregatesConsistent mp) :
    sizeSum mp (packageOf mp B D) ≤ (mp.modifiedEntryOf D).nSizeWithAncestors ∧
    sigOpSum mp (packageOf mp B D) ≤ (mp.modifiedEntryOf D).nSigOpCountWithAncestors := by
  obtain ⟨h1, h2⟩ := hcons D
  constructor
  · show _ ≤ (mp.entry D).nSizeWithAncestors
    rw [h1]
    exact package_sum_mono mp _ [] B D (fun x hx => by cases hx)
  · show _ ≤ (mp.entry D).nSigOpCountWithAncestors
    rw [h2]
    exact package_sum_mono mp _ [] B D (fun x hx => by cases hx)

/-- The rows written by `UpdatePackagesForAdded` cover the packages of their entries. -/
theorem RowsCover_update (mp : CTxMemPool) (cfg : Params) (B B2 pkg : List Nat)
    (m m1 : indexed_modified_transaction_set)
    (hcons : AggregatesConsistent mp) (hwrap : NoWrap mp cfg)
    (hB2 : ∀ x, x ∈ B2 ↔ x ∈ B ∨ x ∈ pkg) (hnd : pkg.Nodup) (hdisj : ∀ x ∈ pkg, x ∉ B)
    (hm1 : ∀ k, m1 k = if k ∈ pkg then none else m k)
    (h : RowsCover mp B m) :
    RowsCover mp B2 (UpdatePackagesForAdded mp pkg m1).2 := by
  intro D r hr
  rw [UpdatePackagesForAdded_snd, hm1 D] at hr
  by_cases hD : D ∈ pkg
  · simp [hD] at hr
  · simp only [hD, if_false] at hr
    have hmono1 := package_sum_mono mp (fun x => (mp.entry x).nTxSize) B B2 D
      (fun x hx => (hB2 x).mpr (Or.inl hx))
    have hmono2 := package_sum_mono mp (fun x => (mp.entry x).sigOpCount) B B2 D
      (fun x hx => (hB2 x).mpr (Or.inl hx))
    cases hXs : pkg.filter (fun X => decide (D ∈ mp.CalculateDescendants X)) with
    | nil =>
      rw [hXs] at hr
      obtain ⟨h1, h2, h3, h4⟩ := h D r hr
      unfold sizeSum sigOpSum at *
      exact ⟨by omega, h2, by omega, h4⟩
    | cons X L =>
      rw [hXs, foldl_adjustRow_cons] at hr
      have hold : sizeSum mp (packageOf mp B D) ≤
            ((m D).getD (mp.modifiedEntryOf D)).nSizeWithAncestors ∧
          ((m D).getD (mp.modifiedEntryOf D)).nSizeWithAncestors ≤
            (mp.entry D).nSizeWithAncestors ∧
          sigOpSum mp (packageOf mp B D) ≤
            ((m D).getD (mp.modifiedEntryOf D)).nSigOpCountWithAncestors ∧
          ((m D).getD (mp.modifiedEntryOf D)).nSigOpCountWithAncestors ≤
            (mp.entry D).nSigOpCountWithAncestors := by
        cases hmD : m D with
        | none =>
          obtain ⟨f1, f2⟩ := RowsCover_fresh mp B D hcons
          exact ⟨f1, Nat.le_refl _, f2, Nat.le_refl _⟩
        | some r0 => exact h D r0 hmD
      generalize (m D).getD (mp.modifiedEntryOf D) = old at hr hold
      obtain ⟨o1, o2, o3, o4⟩ := hold
      obtain ⟨v1, _, v3, v4, v5⟩ := foldl_update_for_parent_inclusion mp (X :: L) old
      cases hr
      obtain ⟨w1, w2⟩ := hwrap D
      have c1 := cover_update mp (fun x => (mp.entry x).nTxSize) U64 B B2 pkg D hD hB2 hnd
        hdisj old.nSizeWithAncestors
        ((X :: L).foldl (fun r Y => update_for_parent_inclusion mp Y r) old).nSizeWithAncestors
        (mp.entry D).nSizeWithAncestors o1 o2 (by omega) (by rw [hXs]; exact v1)
        (v4 (Or.inl (by simp)))
      have c2 := cover_update mp (fun x => (mp.entry x).sigOpCount) U32 B B2 pkg D hD hB2 hnd
        hdisj old.nSigOpCountWithAncestors
        ((X :: L).foldl (fun r Y => update_for_parent_inclusion mp Y r)
          old).nSigOpCountWithAncestors
        (mp.entry D).nSigOpCountWithAncestors o3 o4
        (by omega) (by rw [hXs]; exact v3) (v5 (Or.inl (by simp)))
      exact ⟨c1.1, c1.2, c2.1, c2.2⟩

theorem foldl_addEntry_budget (mp : CTxMemPool) (l : List Nat) (s : SelectorState) :
    (l.foldl (addEntry mp) s).nBlockSize ≤ s.nBlockSize + sizeSum mp l ∧
    (l.foldl (addEntry mp) s).peakBlockSize ≤
      max s.peakBlockSize (s.nBlockSize + sizeSum mp l) ∧
    (l.foldl (addEntry mp) s).nBlockSigOps ≤ s.nBlockSigOps + sigOpSum mp l ∧
    (l.foldl (addEntry mp) s).peakBlockSigOps ≤
      max s.peakBlockSigOps (s.nBlockSigOps + sigOpSum mp l) := by
  induction l generalizing s with
  | nil => simp [sizeSum, sigOpSum]
  | cons x l ih =>
    simp only [List.foldl_cons]
    obtain ⟨h1, h2, h3, h4⟩ := ih (addEntry mp s x)
    have e1 : (addEntry mp s x).nBlockSize = (s.nBlockSize + (mp.entry x).nTxSize) % U64 := rfl
    have e2 : (addEntry mp s x).peakBlockSize =
      max s.peakBlockSize ((s.nBlockSize + (mp.entry x).nTxSize) % U64) := rfl
    have e3 : (addEntry mp s x).nBlockSigOps =
      (s.nBlockSigOps + (mp.entry x).sigOpCount) % U32 := rfl
    have e4 : (addEntry mp s x).peakBlockSigOps =
      max s.peakBlockSigOps ((s.nBlockSigOps + (mp.entry x).sigOpCount) % U32) := rfl
    have e5 : sizeSum mp (x :: l) = (mp.entry x).nTxSize + sizeSum mp l := by simp [sizeSum]
    have e6 : sigOpSum mp (x :: l) = (mp.entry x).sigOpCount + sigOpSum mp l := by
      simp [sigOpSum]
    have m1 := Nat.mod_le (s.nBlockSize + (mp.entry x).nTxSize) U64
    have m2 := Nat.mod_le (s.nBlockSigOps + (mp.entry x).sigOpCount) U32
    rw [e1] at h1 h2
    rw [e2] at h2
    rw [e3] at h3 h4
    rw [e4] at h4
    rw [e5, e6]
    refine ⟨by omega, ?_, by omega, ?_⟩
    · simp only [U64] at *; omega
    · simp only [U32] at *; omega

theorem commitPackage_budget (mp : CTxMemPool) (s : SelectorState) (iter : Nat) (f : Bool)
    (ps : Nat) (pf : Int) (pso : Nat) (anc : List Nat) :
    (commitPackage mp s iter f ps pf pso anc).nBlockSize ≤ s.nBlockSize + sizeSum mp anc ∧
    (commitPackage mp s iter f ps pf pso anc).peakBlockSize ≤
      max s.peakBlockSize (s.nBlockSize + sizeSum mp anc) ∧
    (commitPackage mp s iter f ps pf pso anc).nBlockSigOps ≤
      s.nBlockSigOps + sigOpSum mp anc ∧
    (commitPackage mp s iter f ps pf pso anc).peakBlockSigOps ≤
      max s.peakBlockSigOps (s.nBlockSigOps + sigOpSum mp anc) := by
  have h := foldl_addEntry_budget mp (SortForBlock mp anc) { s with nConsecutiveFailed := 0 }
  have e1 : sizeSum mp (SortForBlock mp anc) = sizeSum mp anc :=
    ((SortForBlock_perm mp anc).map _).sum_eq
  have e2 : sigOpSum mp (SortForBlock mp anc) = sigOpSum mp anc :=
    ((SortForBlock_perm mp anc).map _).sum_eq
  rw [e1, e2] at h
  exact h

theorem commitPackage_mapModifiedTx (mp : CTxMemPool) (s : SelectorState) (iter : Nat)
    (f : Bool) (ps : Nat) (pf : Int) (pso : Nat) (anc : List Nat) :
    ∃ m1 : indexed_modified_transaction_set,
      (∀ k, m1 k = if k ∈ anc then none else s.mapModifiedTx k) ∧
      (commitPackage mp s iter f ps pf pso anc).mapModifiedTx =
        (UpdatePackagesForAdded mp anc m1).2 := by
  refine ⟨((SortForBlock mp anc).foldl (addEntry mp)
    { s with nConsecutiveFailed := 0 }).mapModifiedTx, ?_, rfl⟩
  intro k
  rw [foldl_addEntry_mapModifiedTx]
  simp only [mem_SortForBlock]

theorem TestPackage_true (cfg : Params) (nBlockSize nBlockSigOps ps pso : Nat)
    (h : TestPackage cfg nBlockSize nBlockSigOps ps pso = true) :
    (nBlockSize + ps) % U64 < cfg.nBlockMaxSize ∧
      (nBlockSigOps + pso) % U32 < cfg.MaxBlockSigOps := by
  unfold TestPackage at h
  split at h
  · cases h
  · split at h
    · cases h
    · constructor <;> omega

/-- The budget invariant is preserved by every loop iteration. -/
theorem step_budget (mp : CTxMemPool) (cfg : Params) (s : SelectorState)
    (hcons : AggregatesConsistent mp) (hwrap : NoWrap mp cfg)
    (h : RowsCover mp s.inBlock s.mapModifiedTx ∧
      s.nBlockSize ≤ cfg.nBlockMaxSize ∧ s.nBlockSigOps ≤ cfg.MaxBlockSigOps ∧
      s.peakBlockSize ≤ cfg.nBlockMaxSize ∧ s.peakBlockSigOps ≤ cfg.MaxBlockSigOps) :
    RowsCover mp (step mp cfg s).inBlock (step mp cfg s).mapModifiedTx ∧
      (step mp cfg s).nBlockSize ≤ cfg.nBlockMaxSize ∧
      (step mp cfg s).nBlockSigOps ≤ cfg.MaxBlockSigOps ∧
      (step mp cfg s).peakBlockSize ≤ cfg.nBlockMaxSize ∧
      (step mp cfg s).peakBlockSigOps ≤ cfg.MaxBlockSigOps := by
  apply step_eval_cases mp cfg (fun t => RowsCover mp t.inBlock t.mapModifiedTx ∧
      t.nBlockSize ≤ cfg.nBlockMaxSize ∧ t.nBlockSigOps ≤ cfg.MaxBlockSigOps ∧
      t.peakBlockSize ≤ cfg.nBlockMaxSize ∧ t.peakBlockSigOps ≤ cfg.MaxBlockSigOps)
  · intro _; exact h
  · intro _ _ _; exact h
  · intro _ _ _ _ _; exact h
  · intro s0 iter f ps pf pso _ hsrc
    have h0 : RowsCover mp s0.inBlock s0.mapModifiedTx ∧
        s0.nBlockSize ≤ cfg.nBlockMaxSize ∧ s0.nBlockSigOps ≤ cfg.MaxBlockSigOps ∧
        s0.peakBlockSize ≤ cfg.nBlockMaxSize ∧ s0.peakBlockSigOps ≤ cfg.MaxBlockSigOps := by
      rcases hsrc with ⟨_, e, _⟩ | ⟨_, rest, _, e, _⟩ <;> rw [e] <;> exact h
    have hps : sizeSum mp (packageOf mp s0.inBlock iter) ≤ ps ∧
        ps ≤ (mp.entry iter).nSizeWithAncestors ∧
        sigOpSum mp (packageOf mp s0.inBlock iter) ≤ pso ∧
        pso ≤ (mp.entry iter).nSigOpCountWithAncestors := by
      rcases hsrc with ⟨_, e, _, hrow⟩ | ⟨_, rest, _, e, _, e1, _, e3⟩
      · rw [e]
        exact h.1 iter _ hrow
      · obtain ⟨f1, f2⟩ := RowsCover_fresh mp s0.inBlock iter hcons
        rw [e1, e3]
        exact ⟨f1, Nat.le_refl _, f2, Nat.le_refl _⟩
    obtain ⟨r0, b1, b2, b3, b4⟩ := h0
    apply evaluateCandidate_cases mp cfg (fun t => RowsCover mp t.inBlock t.mapModifiedTx ∧
      t.nBlockSize ≤ cfg.nBlockMaxSize ∧ t.nBlockSigOps ≤ cfg.MaxBlockSigOps ∧
      t.peakBlockSize ≤ cfg.nBlockMaxSize ∧ t.peakBlockSigOps ≤ cfg.MaxBlockSigOps)
    · intro _; exact ⟨r0, b1, b2, b3, b4⟩
    · intro _ _; exact ⟨r0, b1, b2, b3, b4⟩
    · intro _ _ _ st _
      refine ⟨?_, ?_, ?_, ?_, ?_⟩
      · show RowsCover mp (markFailed s0 iter f).inBlock (markFailed s0 iter f).mapModifiedTx
        rw [markFailed_mapModifiedTx, markFailed_toBlockAssembler]
        cases f
        · exact r0
        · exact RowsCover_erase mp _ _ _ r0
      · show (markFailed s0 iter f).nBlockSize ≤ _
        rw [markFailed_toBlockAssembler]; exact b1
      · show (markFailed s0 iter f).nBlockSigOps ≤ _
        rw [markFailed_toBlockAssembler]; exact b2
      · show (markFailed s0 iter f).peakBlockSize ≤ _
        rw [markFailed_peakBlockSize]; exact b3
      · show (markFailed s0 iter f).peakBlockSigOps ≤ _
        rw [markFailed_peakBlockSigOps]; exact b4
    · intro _ _ _ _
      refine ⟨?_, ?_, ?_, ?_, ?_⟩
      · rw [markFailed_mapModifiedTx, markFailed_toBlockAssembler]
        cases f
        · exact r0
        · exact RowsCover_erase mp _ _ _ r0
      · rw [markFailed_toBlockAssembler]; exact b1
      · rw [markFailed_toBlockAssembler]; exact b2
      · rw [markFailed_peakBlockSize]; exact b3
      · rw [markFailed_peakBlockSigOps]; exact b4
    · intro hnin _ htp _
      obtain ⟨t1, t2⟩ := TestPackage_true cfg _ _ _ _ htp
      obtain ⟨w1, w2⟩ := hwrap iter
      obtain ⟨p1, p2, p3, p4⟩ := hps
      have hnd := package_nodup mp s0.inBlock iter
      have hdisj := package_not_inBlock mp s0.inBlock iter hnin
      change sizeSum mp (setInsert iter (onlyUnconfirmed s0.inBlock
        (mp.CalculateMemPoolAncestors iter))) ≤ ps at p1
      change sigOpSum mp (setInsert iter (onlyUnconfirmed s0.inBlock
        (mp.CalculateMemPoolAncestors iter))) ≤ pso at p3
      generalize setInsert iter (onlyUnconfirmed s0.inBlock (mp.CalculateMemPoolAncestors iter))
        = pkg at hnd hdisj p1 p3 ⊢
      obtain ⟨c1, c2, c3, c4⟩ := commitPackage_budget mp s0 iter f ps pf pso pkg
      obtain ⟨m1, hm1, hmap⟩ := commitPackage_mapModifiedTx mp s0 iter f ps pf pso pkg
      have q1 : (s0.nBlockSize + ps) % U64 = s0.nBlockSize + ps :=
        Nat.mod_eq_of_lt (by omega)
      have q2 : (s0.nBlockSigOps + pso) % U32 = s0.nBlockSigOps + pso :=
        Nat.mod_eq_of_lt (by omega)
      rw [q1] at t1
      rw [q2] at t2
      refine ⟨?_, ?_, ?_, ?_, ?_⟩
      · rw [hmap]
        exact RowsCover_update mp cfg s0.inBlock _ pkg s0.mapModifiedTx m1 hcons hwrap
          (fun x => commitPackage_inBlock_mem mp s0 iter f ps pf pso pkg x) hnd hdisj hm1 r0
      · show (commitPackage mp s0 iter f ps pf pso pkg).nBlockSize ≤ _
        omega
      · show (commitPackage mp s0 iter f ps pf pso pkg).nBlockSigOps ≤ _
        omega
      · show (commitPackage mp s0 iter f ps pf pso pkg).peakBlockSize ≤ _
        omega
      · show (commitPackage mp s0 iter f ps pf pso pkg).peakBlockSigOps ≤ _
        omega

/-- C2: for a snapshot whose size and sigop aggregates are consistent (and small enough for
the sums of `TestPackage` not to wrap around) and a start state within the budget, after
every iteration of `addPackageTxs` the block is within the budget,
`nBlockSize ≤ nBlockMaxSize` and `nBlockSigOps ≤ MaxBlockSigOps`; the same holds for the
largest values seen after any single `AddToBlock`. -/
theorem C2_resource_budget (mp : CTxMemPool) (cfg : Params) (a : BlockAssembler)
    (np nd k : Nat) (hcons : AggregatesConsistent mp) (hwrap : NoWrap mp cfg)
    (hset : a.inBlock.Nodup) (hsize : a.nBlockSize ≤ cfg.nBlockMaxSize)
    (hsig : a.nBlockSigOps ≤ cfg.MaxBlockSigOps) :
    (run mp cfg k (addPackageTxsInit mp a np nd)).nBlockSize ≤ cfg.nBlockMaxSize ∧
    (run mp cfg k (addPackageTxsInit mp a np nd)).nBlockSigOps ≤ cfg.MaxBlockSigOps ∧
    (run mp cfg k (addPackageTxsInit mp a np nd)).peakBlockSize ≤ cfg.nBlockMaxSize ∧
    (run mp cfg k (addPackageTxsInit mp a np nd)).peakBlockSigOps ≤ cfg.MaxBlockSigOps := by
  have hinv := run_invariant mp cfg (fun t => RowsCover mp t.inBlock t.mapModifiedTx ∧
      t.nBlockSize ≤ cfg.nBlockMaxSize ∧ t.nBlockSigOps ≤ cfg.MaxBlockSigOps ∧
      t.peakBlockSize ≤ cfg.nBlockMaxSize ∧ t.peakBlockSigOps ≤ cfg.MaxBlockSigOps)
    (fun t ht => step_budget mp cfg t hcons hwrap ht) k (addPackageTxsInit mp a np nd)
    ⟨(by
      show RowsCover mp a.inBlock (UpdatePackagesForAdded mp a.inBlock emptyModified).2
      apply RowsCover_update mp cfg [] a.inBlock a.inBlock emptyModified emptyModified hcons
        hwrap (fun x => by simp) hset (fun x _ hx => by cases hx)
      · intro k; simp [emptyModified]
      · intro D r hr; cases hr),
     hsize, hsig, hsize, hsig⟩
  exact hinv.2

/-! ## Unsafe transactions -/

theorem TestPackageTransactions_false_of_mem (mp : CTxMemPool) (package : List Nat) (T : Nat)
    (hT : (mp.entry T).isTxSafeForMining = false) (hmem : T ∈ package) :
    TestPackageTransactions mp package = false := by
  cases h : TestPackageTransactions mp package with
  | false => rfl
  | true =>
    have := (TestPackageTransactions_true mp package h T hmem).2
    rw [hT] at this
    cases this

/-- State after a candidate has been rejected by the validity gate. -/
theorem evaluateCandidate_invalid (mp : CTxMemPool) (cfg : Params) (s : SelectorState)
    (iter : Nat) (f : Bool) (ps : Nat) (pf : Int) (pso : Nat) (h1 : iter ∉ s.inBlock)
    (h2 : ¬ pf < cfg.blockMinFeeRate.GetFee ps)
    (h3 : TestPackage cfg s.nBlockSize s.nBlockSigOps ps pso = true)
    (h4 : TestPackageTransactions mp (packageOf mp s.inBlock iter) = false) :
    evaluateCandidate mp cfg s iter f ps pf pso = markFailed s iter f := by
  unfold packageOf at h4
  unfold evaluateCandidate
  simp [h1, h2, h3, h4]

/-- C10 (amended): a transaction `T` for which `IsTxSafeForMining` is false is never
committed, and (the ancestor sets being closed, `T` not in the initial `inBlock`) no
descendant of `T` is committed.  A candidate package that is rejected by the validity gate
puts its anchor into `failedTx` when the candidate came from the modified index; when it
came from the mempool cursor `failedTx` is left unchanged. -/
theorem C10_unsafe_tx_excluded (mp : CTxMemPool) (cfg : Params) (a : BlockAssembler)
    (np nd : Nat) (T : Nat) (hT : (mp.entry T).isTxSafeForMining = false)
    (htrans : ∀ A B C, B ∈ (mp.entry A).ancestors → C ∈ (mp.entry B).ancestors →
      C ∈ (mp.entry A).ancestors)
    (ha : T ∉ a.inBlock) :
    (∀ k, ∀ h ∈ committedEntries (run mp cfg k (addPackageTxsInit mp a np nd)),
      h ≠ T ∧ T ∉ (mp.entry h).ancestors) ∧
    (∀ (s : SelectorState) (f : Bool) (ps : Nat) (pf : Int) (pso : Nat), T ∉ s.inBlock →
      ¬ pf < cfg.blockMinFeeRate.GetFee ps →
      TestPackage cfg s.nBlockSize s.nBlockSigOps ps pso = true →
      (evaluateCandidate mp cfg s T f ps pf pso).failedTx =
          (if f then setInsert T s.failedTx else s.failedTx) ∧
        (evaluateCandidate mp cfg s T f ps pf pso).committed = s.committed ∧
        (evaluateCandidate mp cfg s T f ps pf pso).inBlock = s.inBlock) := by
  constructor
  · intro k
    have hinv := run_commit_invariant mp cfg (fun b c => T ∉ b.inBlock ∧
        ∀ h ∈ (c.map (fun r => r.sortedEntries)).flatten, h ≠ T ∧ T ∉ (mp.entry h).ancestors)
      (by
        intro s s0 iter f ps pf pso hQ hasm hcom hnin _ _ htest
        obtain ⟨q1, q2⟩ := hQ
        have hinb : s0.inBlock = s.inBlock := by rw [hasm]
        have hpk : ∀ h, h ∈ packageOf mp s.inBlock iter → h ≠ T ∧ T ∉ (mp.entry h).ancestors := by
          intro h hh
          have hTnot : T ∉ packageOf mp s.inBlock iter := by
            intro hTm
            have := TestPackageTransactions_false_of_mem mp _ T hT hTm
            unfold packageOf at this
            rw [this] at htest
            cases htest
          constructor
          · rintro rfl; exact hTnot hh
          · intro hTa
            apply hTnot
            unfold packageOf at hh ⊢
            rw [mem_package] at hh ⊢
            right
            refine ⟨?_, q1⟩
            rcases hh with rfl | ⟨hh1, _⟩
            · exact hTa
            · exact htrans iter h T hh1 hTa
        change ∀ h, h ∈ setInsert iter (onlyUnconfirmed s.inBlock
          (mp.CalculateMemPoolAncestors iter)) → _ at hpk
        generalize setInsert iter (onlyUnconfirmed s.inBlock (mp.CalculateMemPoolAncestors iter))
          = pkg at hpk ⊢
        constructor
        · show T ∉ (commitPackage mp s0 iter f ps pf pso pkg).inBlock
          rw [commitPackage_inBlock_mem, hinb]
          rintro (h | h)
          · exact q1 h
          · exact (hpk T h).1 rfl
        · intro h hh
          rw [commitPackage_committed, hcom] at hh
          simp only [List.map_append, List.flatten_append, List.map_cons, List.map_nil,
            List.flatten_cons, List.flatten_nil, List.append_nil, List.mem_append] at hh
          rcases hh with hh | hh
          · exact q2 h hh
          · exact hpk h ((mem_SortForBlock mp pkg h).mp hh))
      k (addPackageTxsInit mp a np nd) ⟨ha, by
        intro h hh; simp [addPackageTxsInit_committed] at hh⟩
    exact hinv.2
  · intro s f ps pf pso h1 h2 h3
    have h4 : TestPackageTransactions mp (packageOf mp s.inBlock T) = false := by
      apply TestPackageTransactions_false_of_mem mp _ T hT
      unfold packageOf
      rw [mem_package]
      exact Or.inl rfl
    rw [evaluateCandidate_invalid mp cfg s T f ps pf pso h1 h2 h3 h4]
    exact ⟨markFailed_failedTx s T f, markFailed_committed s T f, by
      rw [markFailed_toBlockAssembler]⟩

/-- C10 (counterexample): in the snapshot `unsafePool` the only entry is unsafe for mining.
It is taken from the mempool cursor, passes the minimum-feerate test and the resource gate,
is rejected by the validity gate, and is not inserted into `failedTx`: the set is empty
after the iteration and when `addPackageTxs` returns. -/
theorem C10_counterexample :
    (unsafePool.entry 0).isTxSafeForMining = false ∧
    (addPackageTxsInit unsafePool freshAssembler 0 0).mi = [0] ∧
    modifiedBegin unsafePool (addPackageTxsInit unsafePool freshAssembler 0 0).mapModifiedTx
      = none ∧
    ¬ (unsafePool.entry 0).nModFeesWithAncestors <
      (paramsOf 2000000 1).blockMinFeeRate.GetFee (unsafePool.entry 0).nSizeWithAncestors ∧
    TestPackage (paramsOf 2000000 1) 1000 100 (unsafePool.entry 0).nSizeWithAncestors
      (unsafePool.entry 0).nSigOpCountWithAncestors = true ∧
    TestPackageTransactions unsafePool (packageOf unsafePool [] 0) = false ∧
    (step unsafePool (paramsOf 2000000 1)
      (addPackageTxsInit unsafePool freshAssembler 0 0)).mi = [] ∧
    (step unsafePool (paramsOf 2000000 1)
      (addPackageTxsInit unsafePool freshAssembler 0 0)).failedTx = [] ∧
    (addPackageTxs unsafePool (paramsOf 2000000 1) freshAssembler 0 0).failedTx = [] ∧
    (addPackageTxs unsafePool (paramsOf 2000000 1) freshAssembler 0 0).vtx =
      [CTransactionRef.null] := by
  decide

/-! ## Unfolding the loop body under known conditions -/

theorem step_exhausted_of (mp : CTxMemPool) (cfg : Params) (s : SelectorState)
    (hrun : s.status = LoopStatus.running) (hmi : s.mi = [])
    (hb : modifiedBegin mp s.mapModifiedTx = none) :
    step mp cfg s = { s with status := LoopStatus.exhausted } := by
  unfold step
  simp [hrun, hmi, hb]

theorem step_skip_of (mp : CTxMemPool) (cfg : Params) (s : SelectorState) (it : Nat)
    (rest : List Nat) (hrun : s.status = LoopStatus.running) (hmi : s.mi = it :: rest)
    (hskip : SkipMapTxEntry it s.mapModifiedTx s.inBlock s.failedTx = true) :
    step mp cfg s = { s with mi := rest } := by
  unfold step
  cases hb : modifiedBegin mp s.mapModifiedTx <;> simp [hrun, hmi, hb, hskip]

theorem step_mapTx_of (mp : CTxMemPool) (cfg : Params) (s : SelectorState) (it : Nat)
    (rest : List Nat) (hrun : s.status = LoopStatus.running) (hmi : s.mi = it :: rest)
    (hskip : SkipMapTxEntry it s.mapModifiedTx s.inBlock s.failedTx = false)
    (hb : ∀ modit, modifiedBegin mp s.mapModifiedTx = some modit →
      CompareModifiedEntry mp modit (it, mp.modifiedEntryOf it) = false) :
    step mp cfg s = evaluateMapTx mp cfg s it rest := by
  unfold step
  cases hbe : modifiedBegin mp s.mapModifiedTx with
  | none => simp [hrun, hmi, hbe, hskip]
  | some modit => simp [hrun, hmi, hbe, hskip, hb modit hbe]

theorem step_modified_of (mp : CTxMemPool) (cfg : Params) (s : SelectorState)
    (modit : Nat × CTxMemPoolModifiedEntry) (hrun : s.status = LoopStatus.running)
    (hb : modifiedBegin mp s.mapModifiedTx = some modit)
    (hmi : ∀ it rest, s.mi = it :: rest →
      SkipMapTxEntry it s.mapModifiedTx s.inBlock s.failedTx = false ∧
      CompareModifiedEntry mp modit (it, mp.modifiedEntryOf it) = true) :
    step mp cfg s = evaluateModified mp cfg s modit := by
  unfold step
  cases hm : s.mi with
  | nil => simp [hrun, hm, hb]
  | cons it rest =>
    obtain ⟨h1, h2⟩ := hmi it rest hm
    simp [hrun, hm, hb, h1, h2]

theorem evaluateCandidate_return (mp : CTxMemPool) (cfg : Params) (s : SelectorState)
    (iter : Nat) (f : Bool) (ps : Nat) (pf : Int) (pso : Nat) (h1 : iter ∉ s.inBlock)
    (h2 : pf < cfg.blockMinFeeRate.GetFee ps) :
    evaluateCandidate mp cfg s iter f ps pf pso = { s with status := LoopStatus.returned } := by
  unfold evaluateCandidate
  simp [h1, h2]

theorem evaluateCandidate_commit (mp : CTxMemPool) (cfg : Params) (s : SelectorState)
    (iter : Nat) (f : Bool) (ps : Nat) (pf : Int) (pso : Nat) (h1 : iter ∉ s.inBlock)
    (h2 : ¬ pf < cfg.blockMinFeeRate.GetFee ps)
    (h3 : TestPackage cfg s.nBlockSize s.nBlockSigOps ps pso = true)
    (h4 : TestPackageTransactions mp (packageOf mp s.inBlock iter) = true) :
    evaluateCandidate mp cfg s iter f ps pf pso =
      commitPackage mp s iter f ps pf pso (packageOf mp s.inBlock iter) := by
  unfold packageOf at h4 ⊢
  unfold evaluateCandidate
  simp [h1, h2, h3, h4]

theorem modifiedBegin_none (mp : CTxMemPool) (m : indexed_modified_transaction_set)
    (h : ∀ k, k < mp.size → m k = none) : modifiedBegin mp m = none := by
  unfold modifiedBegin modifiedRows
  have : (List.range mp.size).filterMap (fun k => (m k).map (fun r => (k, r))) = [] := by
    rw [List.filterMap_eq_nil_iff]
    intro k hk
    rw [h k (List.mem_range.mp hk)]
    rfl
  rw [this]
  rfl

theorem UpdatePackagesForAdded_nil (mp : CTxMemPool) (m : indexed_modified_transaction_set) :
    UpdatePackagesForAdded mp [] m = (0, m) := rfl

/-! ## Child pays for parent -/

theorem pairPool_order (P C : CTxMemPoolEntry) :
    (CTxMemPool.mk [P, C]).ancestorScoreIndex =
      if (CTxMemPool.mk [P, C]).scoreLE 0 1 then [0, 1] else [1, 0] := by
  unfold CTxMemPool.ancestorScoreIndex
  have : List.range (CTxMemPool.mk [P, C]).size = [0, 1] := rfl
  rw [this]
  simp [List.insertionSort, List.orderedInsert]

theorem pairPool_init_rows (P C : CTxMemPoolEntry) (a : BlockAssembler) (np nd : Nat)
    (ha : a.inBlock = []) :
    (addPackageTxsInit (CTxMemPool.mk [P, C]) a np nd).mapModifiedTx = emptyModified := by
  show (UpdatePackagesForAdded _ a.inBlock emptyModified).2 = emptyModified
  rw [ha]
  rfl

/-- First iteration when the first candidate of the cursor is below the minimum feerate. -/
theorem pairPool_return (P C : CTxMemPoolEntry) (cfg : Params) (a : BlockAssembler)
    (np nd : Nat) (ha : a.inBlock = []) (x : Nat) (rest : List Nat)
    (hmi : (CTxMemPool.mk [P, C]).ancestorScoreIndex = x :: rest)
    (hfee : ((CTxMemPool.mk [P, C]).entry x).nModFeesWithAncestors <
      cfg.blockMinFeeRate.GetFee ((CTxMemPool.mk [P, C]).entry x).nSizeWithAncestors) :
    (addPackageTxs (CTxMemPool.mk [P, C]) cfg a np nd).status = LoopStatus.returned ∧
    (addPackageTxs (CTxMemPool.mk [P, C]) cfg a np nd).vtx = a.vtx ∧
    (addPackageTxs (CTxMemPool.mk [P, C]) cfg a np nd).inBlock = [] ∧
    (addPackageTxs (CTxMemPool.mk [P, C]) cfg a np nd).nFees = a.nFees := by
  have hrows := pairPool_init_rows P C a np nd ha
  have hstep : step (CTxMemPool.mk [P, C]) cfg (addPackageTxsInit (CTxMemPool.mk [P, C]) a np nd)
      = { ({ addPackageTxsInit (CTxMemPool.mk [P, C]) a np nd with mi := rest } : SelectorState)
          with status := LoopStatus.returned } := by
    rw [step_mapTx_of _ cfg _ x rest rfl hmi]
    · unfold evaluateMapTx
      rw [evaluateCandidate_return]
      · show x ∉ a.inBlock
        rw [ha]; simp
      · exact hfee
    · rw [hrows]
      show SkipMapTxEntry x emptyModified a.inBlock [] = false
      rw [ha]
      simp [SkipMapTxEntry, emptyModified]
    · intro modit hm
      have hbn : modifiedBegin (CTxMemPool.mk [P, C]) emptyModified = none :=
        modifiedBegin_none _ _ (fun k _ => rfl)
      rw [hrows, hbn] at hm
      cases hm
  have hfinal : addPackageTxs (CTxMemPool.mk [P, C]) cfg a np nd =
      step (CTxMemPool.mk [P, C]) cfg (addPackageTxsInit (CTxMemPool.mk [P, C]) a np nd) := by
    unfold addPackageTxs
    have : fuelBound (CTxMemPool.mk [P, C]) = 1 + 12 := rfl
    rw [this, run_add]
    show run _ cfg 12 (step _ cfg _) = _
    apply run_of_not_running
    rw [hstep]
    simp
  rw [hfinal, hstep]
  exact ⟨rfl, rfl, ha, rfl⟩



/-- The run in which the child's package is committed. -/
theorem pairPool_commit (P C : CTxMemPoolEntry) (cfg : Params) (a : BlockAssembler)
    (np nd : Nat) (ha : a.inBlock = []) (hCa : C.ancestors = [0])
    (hcnt : P.nCountWithAncestors < C.nCountWithAncestors)
    (hPok : P.isFinalTx = true ∧ P.isTxSafeForMining = true)
    (hCok : C.isFinalTx = true ∧ C.isTxSafeForMining = true)
    (hmi : (CTxMemPool.mk [P, C]).ancestorScoreIndex = [1, 0])
    (hfee : ¬ C.nModFeesWithAncestors < cfg.blockMinFeeRate.GetFee C.nSizeWithAncestors)
    (hfit : TestPackage cfg a.nBlockSize a.nBlockSigOps C.nSizeWithAncestors
      C.nSigOpCountWithAncestors = true) :
    (addPackageTxs (CTxMemPool.mk [P, C]) cfg a np nd).status = LoopStatus.exhausted ∧
    (addPackageTxs (CTxMemPool.mk [P, C]) cfg a np nd).vtx =
      a.vtx ++ [CTransactionRef.pool 0, CTransactionRef.pool 1] ∧
    (addPackageTxs (CTxMemPool.mk [P, C]) cfg a np nd).nFees = a.nFees + P.nFee + C.nFee := by
  have hrows := pairPool_init_rows P C a np nd ha
  have hbn : modifiedBegin (CTxMemPool.mk [P, C]) emptyModified = none :=
    modifiedBegin_none _ _ (fun k _ => rfl)
  have hpkg : packageOf (CTxMemPool.mk [P, C]) [] 1 = [0, 1] := by
    unfold packageOf onlyUnconfirmed CTxMemPool.CalculateMemPoolAncestors
    have : ((CTxMemPool.mk [P, C]).entry 1).ancestors = [0] := hCa
    rw [this]
    decide
  have hsort : SortForBlock (CTxMemPool.mk [P, C]) [0, 1] = [0, 1] := by
    unfold SortForBlock
    have hle : (CTxMemPool.mk [P, C]).countLE 0 1 := Or.inl hcnt
    simp [List.insertionSort, List.orderedInsert, hle]
  have hstep1 : step (CTxMemPool.mk [P, C]) cfg
      (addPackageTxsInit (CTxMemPool.mk [P, C]) a np nd) =
      commitPackage (CTxMemPool.mk [P, C])
        { addPackageTxsInit (CTxMemPool.mk [P, C]) a np nd with mi := [0] } 1 false
        C.nSizeWithAncestors C.nModFeesWithAncestors C.nSigOpCountWithAncestors [0, 1] := by
    rw [step_mapTx_of _ cfg _ 1 [0] rfl hmi]
    · unfold evaluateMapTx
      rw [evaluateCandidate_commit]
      · show commitPackage _ _ 1 false _ _ _ (packageOf _ a.inBlock 1) = _
        rw [ha, hpkg]
        rfl
      · show 1 ∉ a.inBlock
        rw [ha]; simp
      · exact hfee
      · exact hfit
      · show TestPackageTransactions _ (packageOf _ a.inBlock 1) = true
        rw [ha, hpkg]
        unfold TestPackageTransactions
        have e0 : (CTxMemPool.mk [P, C]).entry 0 = P := rfl
        have e1 : (CTxMemPool.mk [P, C]).entry 1 = C := rfl
        simp [e0, e1, hPok, hCok]
    · rw [hrows]
      show SkipMapTxEntry 1 emptyModified a.inBlock [] = false
      rw [ha]
      simp [SkipMapTxEntry, emptyModified]
    · intro modit hm
      rw [hrows, hbn] at hm
      cases hm
  generalize hs1 : commitPackage (CTxMemPool.mk [P, C])
        { addPackageTxsInit (CTxMemPool.mk [P, C]) a np nd with mi := [0] } 1 false
        C.nSizeWithAncestors C.nModFeesWithAncestors C.nSigOpCountWithAncestors [0, 1] = s1
    at hstep1
  have f_status : s1.status = LoopStatus.running := by
    rw [← hs1, commitPackage_status]; rfl
  have f_mi : s1.mi = [0] := by rw [← hs1, commitPackage_mi]
  have f_vtx : s1.vtx = a.vtx ++ [CTransactionRef.pool 0, CTransactionRef.pool 1] := by
    rw [← hs1, commitPackage_vtx, hsort]; rfl
  have f_fees : s1.nFees = a.nFees + P.nFee + C.nFee := by
    rw [← hs1, commitPackage_nFees, hsort]
    show a.nFees + ([0, 1].map (fun x => ((CTxMemPool.mk [P, C]).entry x).nFee)).sum = _
    have e0 : (CTxMemPool.mk [P, C]).entry 0 = P := rfl
    have e1 : (CTxMemPool.mk [P, C]).entry 1 = C := rfl
    simp [e0, e1]
    ring
  have f_in : ∀ x, x ∈ s1.inBlock ↔ x = 0 ∨ x = 1 := by
    intro x
    rw [← hs1, commitPackage_inBlock_mem]
    show x ∈ a.inBlock ∨ x ∈ [0, 1] ↔ _
    rw [ha]
    simp
  have f_rows : ∀ k, k < (CTxMemPool.mk [P, C]).size → s1.mapModifiedTx k = none := by
    intro k hk
    obtain ⟨m1, hm1, hmap⟩ := commitPackage_mapModifiedTx (CTxMemPool.mk [P, C])
      { addPackageTxsInit (CTxMemPool.mk [P, C]) a np nd with mi := [0] } 1 false
      C.nSizeWithAncestors C.nModFeesWithAncestors C.nSigOpCountWithAncestors [0, 1]
    rw [hs1] at hmap
    have hk2 : k ∈ [0, 1] := by
      have : k < 2 := hk
      simp
      omega
    rw [hmap, UpdatePackagesForAdded_snd, if_pos hk2, hm1 k, if_pos hk2]
  have hstep2 : step (CTxMemPool.mk [P, C]) cfg s1 = { s1 with mi := [] } := by
    apply step_skip_of _ cfg s1 0 [] f_status f_mi
    unfold SkipMapTxEntry
    have : 0 ∈ s1.inBlock := (f_in 0).mpr (Or.inl rfl)
    simp [this]
  have hstep3 : step (CTxMemPool.mk [P, C]) cfg { s1 with mi := [] } =
      { ({ s1 with mi := [] } : SelectorState) with status := LoopStatus.exhausted } := by
    exact step_exhausted_of _ cfg { s1 with mi := [] } f_status rfl
      (modifiedBegin_none _ _ f_rows)
  have hfinal : addPackageTxs (CTxMemPool.mk [P, C]) cfg a np nd =
      { ({ s1 with mi := [] } : SelectorState) with status := LoopStatus.exhausted } := by
    unfold addPackageTxs
    have : fuelBound (CTxMemPool.mk [P, C]) = 3 + 10 := rfl
    rw [this, run_add]
    show run _ cfg 10 (step _ cfg (step _ cfg (step _ cfg _))) = _
    rw [hstep1, hstep2, hstep3]
    apply run_of_not_running
    simp
  rw [hfinal]
  exact ⟨rfl, f_vtx, f_fees⟩



/-- Child pays for parent when the parent has the smaller identity (handle 0). -/
theorem cpfp_parent_first (P C : CTxMemPoolEntry) (cfg : Params) (a : BlockAssembler)
    (np nd : Nat) (ha : a.inBlock = [])
    (hCa : C.ancestors = [0])
    (hPfee : P.nModifiedFee = 0) (hPmf : P.nModFeesWithAncestors = P.nModifiedFee)
    (hPsz : P.nSizeWithAncestors = P.nTxSize) (hPpos : 0 < P.nTxSize)
    (hCsz : C.nSizeWithAncestors = P.nTxSize + C.nTxSize)
    (hcnt : P.nCountWithAncestors < C.nCountWithAncestors)
    (hPok : P.isFinalTx = true ∧ P.isTxSafeForMining = true)
    (hCok : C.isFinalTx = true ∧ C.isTxSafeForMining = true)
    (hfit : TestPackage cfg a.nBlockSize a.nBlockSigOps C.nSizeWithAncestors
      C.nSigOpCountWithAncestors = true)
    (hrate : ∀ size, 0 < size → 0 < cfg.blockMinFeeRate.GetFee size) :
    (cfg.blockMinFeeRate.GetFee C.nSizeWithAncestors ≤ C.nModFeesWithAncestors →
      (addPackageTxs (CTxMemPool.mk [P, C]) cfg a np nd).status = LoopStatus.exhausted ∧
      (addPackageTxs (CTxMemPool.mk [P, C]) cfg a np nd).vtx =
        a.vtx ++ [CTransactionRef.pool 0, CTransactionRef.pool 1] ∧
      (addPackageTxs (CTxMemPool.mk [P, C]) cfg a np nd).nFees = a.nFees + P.nFee + C.nFee) ∧
    (C.nModFeesWithAncestors < cfg.blockMinFeeRate.GetFee C.nSizeWithAncestors →
      (addPackageTxs (CTxMemPool.mk [P, C]) cfg a np nd).status = LoopStatus.returned ∧
      (addPackageTxs (CTxMemPool.mk [P, C]) cfg a np nd).vtx = a.vtx ∧
      (addPackageTxs (CTxMemPool.mk [P, C]) cfg a np nd).inBlock = [] ∧
      (addPackageTxs (CTxMemPool.mk [P, C]) cfg a np nd).nFees = a.nFees) := by
  have hP0 : P.nModFeesWithAncestors = 0 := by rw [hPmf, hPfee]
  constructor
  · intro hfee
    have hCpos : 0 < C.nModFeesWithAncestors := by
      have := hrate C.nSizeWithAncestors (by omega)
      omega
    have horder : (CTxMemPool.mk [P, C]).ancestorScoreIndex = [1, 0] := by
      rw [pairPool_order]
      have hne : ¬ (CTxMemPool.mk [P, C]).scoreLE 0 1 := by
        unfold CTxMemPool.scoreLE CompareModifiedEntry scoreBefore
        show ¬ ((if C.nModFeesWithAncestors * (P.nSizeWithAncestors : Int) =
            P.nModFeesWithAncestors * (C.nSizeWithAncestors : Int) then _ else
            decide (P.nModFeesWithAncestors * (C.nSizeWithAncestors : Int) <
              C.nModFeesWithAncestors * (P.nSizeWithAncestors : Int))) = false)
        rw [hP0, hPsz]
        have hprod : 0 < C.nModFeesWithAncestors * (P.nTxSize : Int) :=
          Int.mul_pos hCpos (by exact_mod_cast hPpos)
        have hne0 : ¬ C.nModFeesWithAncestors * (P.nTxSize : Int) = 0 := by omega
        simp [hne0, hprod]
      rw [if_neg hne]
    exact pairPool_commit P C cfg a np nd ha hCa hcnt hPok hCok horder (by omega) hfit
  · intro hfee
    by_cases hle : (CTxMemPool.mk [P, C]).scoreLE 0 1
    · have horder : (CTxMemPool.mk [P, C]).ancestorScoreIndex = [0, 1] := by
        rw [pairPool_order, if_pos hle]
      apply pairPool_return P C cfg a np nd ha 0 [1] horder
      show P.nModFeesWithAncestors < cfg.blockMinFeeRate.GetFee P.nSizeWithAncestors
      rw [hP0, hPsz]
      exact hrate _ hPpos
    · have horder : (CTxMemPool.mk [P, C]).ancestorScoreIndex = [1, 0] := by
        rw [pairPool_order, if_neg hle]
      exact pairPool_return P C cfg a np nd ha 1 [0] horder hfee

theorem pairPool_return_swapped (P C : CTxMemPoolEntry) (cfg : Params) (a : BlockAssembler)
    (np nd : Nat) (ha : a.inBlock = []) (x : Nat) (rest : List Nat)
    (hmi : (CTxMemPool.mk [C, P]).ancestorScoreIndex = x :: rest)
    (hfee : ((CTxMemPool.mk [C, P]).entry x).nModFeesWithAncestors <
      cfg.blockMinFeeRate.GetFee ((CTxMemPool.mk [C, P]).entry x).nSizeWithAncestors) :
    (addPackageTxs (CTxMemPool.mk [C, P]) cfg a np nd).status = LoopStatus.returned ∧
    (addPackageTxs (CTxMemPool.mk [C, P]) cfg a np nd).vtx = a.vtx ∧
    (addPackageTxs (CTxMemPool.mk [C, P]) cfg a np nd).inBlock = [] ∧
    (addPackageTxs (CTxMemPool.mk [C, P]) cfg a np nd).nFees = a.nFees :=
  pairPool_return C P cfg a np nd ha x rest hmi hfee

/-- The run in which the child's package is committed, the child having the smaller
identity. -/
theorem pairPool_commit_swapped (P C : CTxMemPoolEntry) (cfg : Params) (a : BlockAssembler)
    (np nd : Nat) (ha : a.inBlock = []) (hCa : C.ancestors = [1])
    (hcnt : P.nCountWithAncestors < C.nCountWithAncestors)
    (hPok : P.isFinalTx = true ∧ P.isTxSafeForMining = true)
    (hCok : C.isFinalTx = true ∧ C.isTxSafeForMining = true)
    (hmi : (CTxMemPool.mk [C, P]).ancestorScoreIndex = [0, 1])
    (hfee : ¬ C.nModFeesWithAncestors < cfg.blockMinFeeRate.GetFee C.nSizeWithAncestors)
    (hfit : TestPackage cfg a.nBlockSize a.nBlockSigOps C.nSizeWithAncestors
      C.nSigOpCountWithAncestors = true) :
    (addPackageTxs (CTxMemPool.mk [C, P]) cfg a np nd).status = LoopStatus.exhausted ∧
    (addPackageTxs (CTxMemPool.mk [C, P]) cfg a np nd).vtx =
      a.vtx ++ [CTransactionRef.pool 1, CTransactionRef.pool 0] ∧
    (addPackageTxs (CTxMemPool.mk [C, P]) cfg a np nd).nFees = a.nFees + P.nFee + C.nFee := by
  have hrows := pairPool_init_rows C P a np nd ha
  have hbn : modifiedBegin (CTxMemPool.mk [C, P]) emptyModified = none :=
    modifiedBegin_none _ _ (fun k _ => rfl)
  have hpkg : packageOf (CTxMemPool.mk [C, P]) [] 0 = [1, 0] := by
    unfold packageOf onlyUnconfirmed CTxMemPool.CalculateMemPoolAncestors
    have : ((CTxMemPool.mk [C, P]).entry 0).ancestors = [1] := hCa
    rw [this]
    decide
  have hsort : SortForBlock (CTxMemPool.mk [C, P]) [1, 0] = [1, 0] := by
    unfold SortForBlock
    have hle : (CTxMemPool.mk [C, P]).countLE 1 0 := Or.inl hcnt
    simp [List.insertionSort, List.orderedInsert, hle]
  have hstep1 : step (CTxMemPool.mk [C, P]) cfg
      (addPackageTxsInit (CTxMemPool.mk [C, P]) a np nd) =
      commitPackage (CTxMemPool.mk [C, P])
        { addPackageTxsInit (CTxMemPool.mk [C, P]) a np nd with mi := [1] } 0 false
        C.nSizeWithAncestors C.nModFeesWithAncestors C.nSigOpCountWithAncestors [1, 0] := by
    rw [step_mapTx_of _ cfg _ 0 [1] rfl hmi]
    · unfold evaluateMapTx
      rw [evaluateCandidate_commit]
      · show commitPackage _ _ 0 false _ _ _ (packageOf _ a.inBlock 0) = _
        rw [ha, hpkg]
        rfl
      · show 0 ∉ a.inBlock
        rw [ha]; simp
      · exact hfee
      · exact hfit
      · show TestPackageTransactions _ (packageOf _ a.inBlock 0) = true
        rw [ha, hpkg]
        unfold TestPackageTransactions
        have e0 : (CTxMemPool.mk [C, P]).entry 0 = C := rfl
        have e1 : (CTxMemPool.mk [C, P]).entry 1 = P := rfl
        simp [e0, e1, hPok, hCok]
    · rw [hrows]
      show SkipMapTxEntry 0 emptyModified a.inBlock [] = false
      rw [ha]
      simp [SkipMapTxEntry, emptyModified]
    · intro modit hm
      rw [hrows, hbn] at hm
      cases hm
  generalize hs1 : commitPackage (CTxMemPool.mk [C, P])
        { addPackageTxsInit (CTxMemPool.mk [C, P]) a np nd with mi := [1] } 0 false
        C.nSizeWithAncestors C.nModFeesWithAncestors C.nSigOpCountWithAncestors [1, 0] = s1
    at hstep1
  have f_status : s1.status = LoopStatus.running := by
    rw [← hs1, commitPackage_status]; rfl
  have f_mi : s1.mi = [1] := by rw [← hs1, commitPackage_mi]
  have f_vtx : s1.vtx = a.vtx ++ [CTransactionRef.pool 1, CTransactionRef.pool 0] := by
    rw [← hs1, commitPackage_vtx, hsort]; rfl
  have f_fees : s1.nFees = a.nFees + P.nFee + C.nFee := by
    rw [← hs1, commitPackage_nFees, hsort]
    show a.nFees + ([1, 0].map (fun x => ((CTxMemPool.mk [C, P]).entry x).nFee)).sum = _
    have e0 : (CTxMemPool.mk [C, P]).entry 0 = C := rfl
    have e1 : (CTxMemPool.mk [C, P]).entry 1 = P := rfl
    simp [e0, e1]
    ring
  have f_in : ∀ x, x ∈ s1.inBlock ↔ x = 1 ∨ x = 0 := by
    intro x
    rw [← hs1, commitPackage_inBlock_mem]
    show x ∈ a.inBlock ∨ x ∈ [1, 0] ↔ _
    rw [ha]
    simp
  have f_rows : ∀ k, k < (CTxMemPool.mk [C, P]).size → s1.mapModifiedTx k = none := by
    intro k hk
    obtain ⟨m1, hm1, hmap⟩ := commitPackage_mapModifiedTx (CTxMemPool.mk [C, P])
      { addPackageTxsInit (CTxMemPool.mk [C, P]) a np nd with mi := [1] } 0 false
      C.nSizeWithAncestors C.nModFeesWithAncestors C.nSigOpCountWithAncestors [1, 0]
    rw [hs1] at hmap
    have hk2 : k ∈ [1, 0] := by
      have : k < 2 := hk
      simp
      omega
    rw [hmap, UpdatePackagesForAdded_snd, if_pos hk2, hm1 k, if_pos hk2]
  have hstep2 : step (CTxMemPool.mk [C, P]) cfg s1 = { s1 with mi := [] } := by
    apply step_skip_of _ cfg s1 1 [] f_status f_mi
    unfold SkipMapTxEntry
    have : 1 ∈ s1.inBlock := (f_in 1).mpr (Or.inl rfl)
    simp [this]
  have hstep3 : step (CTxMemPool.mk [C, P]) cfg { s1 with mi := [] } =
      { ({ s1 with mi := [] } : SelectorState) with status := LoopStatus.exhausted } := by
    exact step_exhausted_of _ cfg { s1 with mi := [] } f_status rfl
      (modifiedBegin_none _ _ f_rows)
  have hfinal : addPackageTxs (CTxMemPool.mk [C, P]) cfg a np nd =
      { ({ s1 with mi := [] } : SelectorState) with status := LoopStatus.exhausted } := by
    unfold addPackageTxs
    have : fuelBound (CTxMemPool.mk [C, P]) = 3 + 10 := rfl
    rw [this, run_add]
    show run _ cfg 10 (step _ cfg (step _ cfg (step _ cfg _))) = _
    rw [hstep1, hstep2, hstep3]
    apply run_of_not_running
    simp
  rw [hfinal]
  exact ⟨rfl, f_vtx, f_fees⟩

/-- Child pays for parent when the child has the smaller identity (handle 0). -/
theorem cpfp_child_first (P C : CTxMemPoolEntry) (cfg : Params) (a : BlockAssembler)
    (np nd : Nat) (ha : a.inBlock = [])
    (hCa : C.ancestors = [1])
    (hPfee : P.nModifiedFee = 0) (hPmf : P.nModFeesWithAncestors = P.nModifiedFee)
    (hPsz : P.nSizeWithAncestors = P.nTxSize) (hPpos : 0 < P.nTxSize)
    (hCsz : C.nSizeWithAncestors = P.nTxSize + C.nTxSize)
    (hcnt : P.nCountWithAncestors < C.nCountWithAncestors)
    (hPok : P.isFinalTx = true ∧ P.isTxSafeForMining = true)
    (hCok : C.isFinalTx = true ∧ C.isTxSafeForMining = true)
    (hfit : TestPackage cfg a.nBlockSize a.nBlockSigOps C.nSizeWithAncestors
      C.nSigOpCountWithAncestors = true)
    (hrate : ∀ size, 0 < size → 0 < cfg.blockMinFeeRate.GetFee size) :
    (cfg.blockMinFeeRate.GetFee C.nSizeWithAncestors ≤ C.nModFeesWithAncestors →
      (addPackageTxs (CTxMemPool.mk [C, P]) cfg a np nd).status = LoopStatus.exhausted ∧
      (addPackageTxs (CTxMemPool.mk [C, P]) cfg a np nd).vtx =
        a.vtx ++ [CTransactionRef.pool 1, CTransactionRef.pool 0] ∧
      (addPackageTxs (CTxMemPool.mk [C, P]) cfg a np nd).nFees = a.nFees + P.nFee + C.nFee) ∧
    (C.nModFeesWithAncestors < cfg.blockMinFeeRate.GetFee C.nSizeWithAncestors →
      (addPackageTxs (CTxMemPool.mk [C, P]) cfg a np nd).status = LoopStatus.returned ∧
      (addPackageTxs (CTxMemPool.mk [C, P]) cfg a np nd).vtx = a.vtx ∧
      (addPackageTxs (CTxMemPool.mk [C, P]) cfg a np nd).inBlock = [] ∧
      (addPackageTxs (CTxMemPool.mk [C, P]) cfg a np nd).nFees = a.nFees) := by
  have hP0 : P.nModFeesWithAncestors = 0 := by rw [hPmf, hPfee]
  constructor
  · intro hfee
    have hCpos : 0 < C.nModFeesWithAncestors := by
      have := hrate C.nSizeWithAncestors (by omega)
      omega
    have horder : (CTxMemPool.mk [C, P]).ancestorScoreIndex = [0, 1] := by
      rw [pairPool_order]
      have hle : (CTxMemPool.mk [C, P]).scoreLE 0 1 := by
        unfold CTxMemPool.scoreLE CompareModifiedEntry scoreBefore
        show (if P.nModFeesWithAncestors * (C.nSizeWithAncestors : Int) =
            C.nModFeesWithAncestors * (P.nSizeWithAncestors : Int) then _ else
            decide (C.nModFeesWithAncestors * (P.nSizeWithAncestors : Int) <
              P.nModFeesWithAncestors * (C.nSizeWithAncestors : Int))) = false
        rw [hP0, hPsz]
        have hprod : 0 < C.nModFeesWithAncestors * (P.nTxSize : Int) :=
          Int.mul_pos hCpos (by exact_mod_cast hPpos)
        have hne0 : ¬ 0 = C.nModFeesWithAncestors * (P.nTxSize : Int) := by omega
        have hnlt : ¬ C.nModFeesWithAncestors * (P.nTxSize : Int) < 0 := by omega
        simp [hne0, hnlt]
      rw [if_pos hle]
    exact pairPool_commit_swapped P C cfg a np nd ha hCa hcnt hPok hCok horder (by omega) hfit
  · intro hfee
    by_cases hle : (CTxMemPool.mk [C, P]).scoreLE 0 1
    · have horder : (CTxMemPool.mk [C, P]).ancestorScoreIndex = [0, 1] := by
        rw [pairPool_order, if_pos hle]
      exact pairPool_return_swapped P C cfg a np nd ha 0 [1] horder hfee
    · have horder : (CTxMemPool.mk [C, P]).ancestorScoreIndex = [1, 0] := by
        rw [pairPool_order, if_neg hle]
      apply pairPool_return_swapped P C cfg a np nd ha 1 [0] horder
      show P.nModFeesWithAncestors < cfg.blockMinFeeRate.GetFee P.nSizeWithAncestors
      rw [hP0, hPsz]
      exact hrate _ hPpos

/-- C9: with a positive minimum feerate (`GetFee` positive on positive sizes) and a mempool
that consists of a parent `P` (handle `p`) with zero modified fee and a child `C` (handle `c`)
that depends only on `P`, in either identity order, both final and safe, the package fitting
the block: if the child's modified fee with ancestors is at least `blockMinFeeRate.GetFee` of
its size with ancestors, the block gets `P` immediately followed by `C` and `nFees` grows by
`P.fee + C.fee`; otherwise `addPackageTxs` returns with neither of them included. -/
theorem C9_child_pays_for_parent (P C : CTxMemPoolEntry) (cfg : Params) (a : BlockAssembler)
    (np nd : Nat) (mp : CTxMemPool) (p c : Nat)
    (hlayout : (mp = CTxMemPool.mk [P, C] ∧ p = 0 ∧ c = 1) ∨
      (mp = CTxMemPool.mk [C, P] ∧ p = 1 ∧ c = 0))
    (ha : a.inBlock = [])
    (hCa : C.ancestors = [p])
    (hPfee : P.nModifiedFee = 0) (hPmf : P.nModFeesWithAncestors = P.nModifiedFee)
    (hPsz : P.nSizeWithAncestors = P.nTxSize) (hPpos : 0 < P.nTxSize)
    (hCsz : C.nSizeWithAncestors = P.nTxSize + C.nTxSize)
    (hcnt : P.nCountWithAncestors < C.nCountWithAncestors)
    (hPok : P.isFinalTx = true ∧ P.isTxSafeForMining = true)
    (hCok : C.isFinalTx = true ∧ C.isTxSafeForMining = true)
    (hfit : TestPackage cfg a.nBlockSize a.nBlockSigOps C.nSizeWithAncestors
      C.nSigOpCountWithAncestors = true)
    (hrate : ∀ size, 0 < size → 0 < cfg.blockMinFeeRate.GetFee size) :
    (cfg.blockMinFeeRate.GetFee C.nSizeWithAncestors ≤ C.nModFeesWithAncestors →
      (addPackageTxs mp cfg a np nd).status = LoopStatus.exhausted ∧
      (addPackageTxs mp cfg a np nd).vtx =
        a.vtx ++ [CTransactionRef.pool p, CTransactionRef.pool c] ∧
      (addPackageTxs mp cfg a np nd).nFees = a.nFees + P.nFee + C.nFee) ∧
    (C.nModFeesWithAncestors < cfg.blockMinFeeRate.GetFee C.nSizeWithAncestors →
      (addPackageTxs mp cfg a np nd).status = LoopStatus.returned ∧
      (addPackageTxs mp cfg a np nd).vtx = a.vtx ∧
      (addPackageTxs mp cfg a np nd).inBlock = [] ∧
      (addPackageTxs mp cfg a np nd).nFees = a.nFees) := by
  rcases hlayout with ⟨h1, h2, h3⟩ | ⟨h1, h2, h3⟩
  · subst h1; subst h2; subst h3
    exact cpfp_parent_first P C cfg a np nd ha hCa hPfee hPmf hPsz hPpos hCsz hcnt hPok hCok
      hfit hrate
  · subst h1; subst h2; subst h3
    exact cpfp_child_first P C cfg a np nd ha hCa hPfee hPmf hPsz hPpos hCsz hcnt hPok hCok
      hfit hrate

/-! ## Feerate order -/

/-- C7 (counterexample): in `siblingsPool` the package of the first child (with the parent)
is committed at feerate 1000/200, then the second child alone at feerate 900/100, which is
higher: the feerates of the committed packages are not non-increasing. -/
theorem C7_counterexample :
    (addPackageTxs siblingsPool (paramsOf 2000000 0) freshAssembler 0 0).committed =
      [{ iter := 1, fUsingModified := false, packageSize := 200, packageFees := 1000,
         packageSigOps := 0, sortedEntries := [0, 1] },
       { iter := 2, fUsingModified := true, packageSize := 100, packageFees := 900,
         packageSigOps := 0, sortedEntries := [2] }] ∧
    ¬ FeeratesNonIncreasing
      (addPackageTxs siblingsPool (paramsOf 2000000 0) freshAssembler 0 0).committed := by
  decide

theorem feerateGE_trans (fa fb fc : Int) (sa sb sc : Nat) (hb : 0 < sb)
    (h1 : fb * (sa : Int) ≤ fa * (sb : Int)) (h2 : fc * (sb : Int) ≤ fb * (sc : Int)) :
    fc * (sa : Int) ≤ fa * (sc : Int) := by
  have hsb : (0 : Int) < (sb : Int) := by exact_mod_cast hb
  have hsa : (0 : Int) ≤ (sa : Int) := Int.ofNat_nonneg _
  have hsc : (0 : Int) ≤ (sc : Int) := Int.ofNat_nonneg _
  have e1 := mul_le_mul_of_nonneg_right h1 hsc
  have e2 := mul_le_mul_of_nonneg_right h2 hsa
  have e3 : fc * (sa : Int) * (sb : Int) ≤ fa * (sc : Int) * (sb : Int) := by
    calc fc * (sa : Int) * (sb : Int) = fc * (sb : Int) * (sa : Int) := by ring
      _ ≤ fb * (sc : Int) * (sa : Int) := e2
      _ = fb * (sa : Int) * (sc : Int) := by ring
      _ ≤ fa * (sb : Int) * (sc : Int) := e1
      _ = fa * (sc : Int) * (sb : Int) := by ring
  exact le_of_mul_le_mul_right e3 hsb

theorem feerateGE_of_scoreLE (mp : CTxMemPool) (a b : Nat) (h : mp.scoreLE a b) :
    mp.feerateGE a b := by
  unfold CTxMemPool.scoreLE CompareModifiedEntry scoreBefore at h
  unfold CTxMemPool.feerateGE
  simp only [CTxMemPool.modifiedEntryOf] at h
  split at h
  · rename_i heq
    exact le_of_eq heq
  · simpa using h

theorem feerateGE_of_not_scoreLE (mp : CTxMemPool) (a b : Nat) (h : ¬ mp.scoreLE a b) :
    mp.feerateGE b a := by
  unfold CTxMemPool.scoreLE CompareModifiedEntry scoreBefore at h
  unfold CTxMemPool.feerateGE
  simp only [CTxMemPool.modifiedEntryOf] at h
  split at h
  · rename_i heq
    exact le_of_eq heq.symm
  · have : (mp.entry a).nModFeesWithAncestors * ((mp.entry b).nSizeWithAncestors : Int) <
        (mp.entry b).nModFeesWithAncestors * ((mp.entry a).nSizeWithAncestors : Int) := by
      simpa using h
    exact le_of_lt this

theorem orderedInsert_feerate_sorted (mp : CTxMemPool) (a : Nat) (t : List Nat)
    (hpos : ∀ x ∈ t, 0 < (mp.entry x).nSizeWithAncestors)
    (ht : t.Pairwise mp.feerateGE) :
    (t.orderedInsert mp.scoreLE a).Pairwise mp.feerateGE := by
  induction t with
  | nil => simp [List.orderedInsert]
  | cons b t ih =>
    obtain ⟨hb, ht2⟩ := List.pairwise_cons.mp ht
    simp only [List.orderedInsert]
    split
    · rename_i hle
      have hab := feerateGE_of_scoreLE mp a b hle
      refine List.pairwise_cons.mpr ⟨?_, ht⟩
      intro y hy
      rcases List.mem_cons.mp hy with rfl | hy2
      · exact hab
      · exact feerateGE_trans _ _ _ _ _ _ (hpos b (List.mem_cons_self _ _)) hab (hb y hy2)
    · rename_i hle
      have hba := feerateGE_of_not_scoreLE mp a b hle
      refine List.pairwise_cons.mpr ⟨?_, ih (fun x hx => hpos x (List.mem_cons_of_mem _ hx)) ht2⟩
      intro y hy
      rw [List.mem_orderedInsert] at hy
      rcases hy with rfl | hy2
      · exact hba
      · exact hb y hy2

theorem insertionSort_feerate_sorted (mp : CTxMemPool) (l : List Nat)
    (hpos : ∀ x ∈ l, 0 < (mp.entry x).nSizeWithAncestors) :
    (l.insertionSort mp.scoreLE).Pairwise mp.feerateGE := by
  induction l with
  | nil => simp
  | cons a l ih =>
    simp only [List.insertionSort]
    apply orderedInsert_feerate_sorted
    · intro x hx
      rw [(List.perm_insertionSort _ _).mem_iff] at hx
      exact hpos x (List.mem_cons_of_mem _ hx)
    · exact ih (fun x hx => hpos x (List.mem_cons_of_mem _ hx))

/-- The ancestor-score index lists the entries by non-increasing stored ancestor feerate. -/
theorem ancestorScoreIndex_sorted (mp : CTxMemPool)
    (hpos : ∀ h, h < mp.size → 0 < (mp.entry h).nSizeWithAncestors) :
    mp.ancestorScoreIndex.Pairwise mp.feerateGE := by
  unfold CTxMemPool.ancestorScoreIndex
  exact insertionSort_feerate_sorted mp _ (fun x hx => hpos x (List.mem_range.mp hx))



theorem FeeratesNonIncreasing_of_pairwise (l : List PackageRecord)
    (h : l.Pairwise PackageRecord.feerateGE) : FeeratesNonIncreasing l := by
  induction l with
  | nil => trivial
  | cons r1 l ih =>
    cases l with
    | nil => trivial
    | cons r2 rest =>
      obtain ⟨h1, h2⟩ := List.pairwise_cons.mp h
      exact ⟨h1 r2 (List.mem_cons_self _ _), ih h2⟩

theorem evaluateCandidate_committed (mp : CTxMemPool) (cfg : Params) (s : SelectorState)
    (iter : Nat) (f : Bool) (ps : Nat) (pf : Int) (pso : Nat) :
    (evaluateCandidate mp cfg s iter f ps pf pso).committed = s.committed ∨
    (evaluateCandidate mp cfg s iter f ps pf pso).committed =
      s.committed ++ [PackageRecord.mk iter f ps pf pso (SortForBlock mp
        (packageOf mp s.inBlock iter))] := by
  apply evaluateCandidate_cases mp cfg (fun t => t.committed = s.committed ∨
    t.committed = s.committed ++ [PackageRecord.mk iter f ps pf pso (SortForBlock mp
        (packageOf mp s.inBlock iter))])
  · intro _; exact Or.inl rfl
  · intro _ _; exact Or.inl rfl
  · intro _ _ _ st _; left; simp
  · intro _ _ _ _; left; simp
  · intro _ _ _ _; right; rw [commitPackage_committed]; rfl

/-- Invariant behind the amended C7: the cursor is sorted by stored ancestor feerate, the
cursor-sourced packages committed so far are sorted by feerate, and each of them has a feerate
at least that of every entry still ahead of the cursor. -/
theorem step_cursor_feerates (mp : CTxMemPool) (cfg : Params) (s : SelectorState)
    (h : s.mi.Pairwise mp.feerateGE ∧
      (cursorPackages s.committed).Pairwise PackageRecord.feerateGE ∧
      (∀ r ∈ cursorPackages s.committed, ∀ x ∈ s.mi,
        (mp.entry x).nModFeesWithAncestors * (r.packageSize : Int) ≤
          r.packageFees * ((mp.entry x).nSizeWithAncestors : Int))) :
    (step mp cfg s).mi.Pairwise mp.feerateGE ∧
      (cursorPackages (step mp cfg s).committed).Pairwise PackageRecord.feerateGE ∧
      (∀ r ∈ cursorPackages (step mp cfg s).committed, ∀ x ∈ (step mp cfg s).mi,
        (mp.entry x).nModFeesWithAncestors * (r.packageSize : Int) ≤
          r.packageFees * ((mp.entry x).nSizeWithAncestors : Int)) := by
  obtain ⟨h1, h2, h3⟩ := h
  apply step_eval_cases mp cfg (fun t => t.mi.Pairwise mp.feerateGE ∧
      (cursorPackages t.committed).Pairwise PackageRecord.feerateGE ∧
      (∀ r ∈ cursorPackages t.committed, ∀ x ∈ t.mi,
        (mp.entry x).nModFeesWithAncestors * (r.packageSize : Int) ≤
          r.packageFees * ((mp.entry x).nSizeWithAncestors : Int)))
  · intro _; exact ⟨h1, h2, h3⟩
  · intro _ _ _; exact ⟨h1, h2, h3⟩
  · intro it rest _ hmi _
    rw [hmi] at h1 h3
    exact ⟨(List.pairwise_cons.mp h1).2, h2,
      fun r hr x hx => h3 r hr x (List.mem_cons_of_mem _ hx)⟩
  · intro s0 iter f ps pf pso _ hsrc
    have hmi0 := evaluateCandidate_mi mp cfg s0 iter f ps pf pso
    have hcom0 : s0.committed = s.committed := by
      rcases hsrc with ⟨_, e, _⟩ | ⟨_, rest, _, e, _⟩ <;> rw [e]
    have hsub : ∀ x ∈ s0.mi, x ∈ s.mi := by
      rcases hsrc with ⟨_, e, _⟩ | ⟨_, rest, hmi, e, _⟩
      · rw [e]; exact fun x hx => hx
      · rw [e, hmi]; exact fun x hx => List.mem_cons_of_mem _ hx
    have hpw0 : s0.mi.Pairwise mp.feerateGE := by
      rcases hsrc with ⟨_, e, _⟩ | ⟨_, rest, hmi, e, _⟩
      · rw [e]; exact h1
      · rw [e]; rw [hmi] at h1; exact (List.pairwise_cons.mp h1).2
    refine ⟨by rw [hmi0]; exact hpw0, ?_⟩
    rw [hmi0]
    rcases evaluateCandidate_committed mp cfg s0 iter f ps pf pso with hc | hc
    · rw [hc, hcom0]
      exact ⟨h2, fun r hr x hx => h3 r hr x (hsub x hx)⟩
    · rw [hc, hcom0]
      unfold cursorPackages
      rw [List.filter_append]
      cases f with
      | true =>
        simp only [List.filter_cons, Bool.not_true, Bool.false_eq_true, if_false,
          List.filter_nil, List.append_nil]
        exact ⟨h2, fun r hr x hx => h3 r hr x (hsub x hx)⟩
      | false =>
        rcases hsrc with ⟨e, _⟩ | ⟨_, rest, hmi, e, _, e1, e2, _⟩
        · cases e
        · simp only [List.filter_cons, Bool.not_false, if_true, List.filter_nil]
          have hs0mi : s0.mi = rest := by rw [e]
          rw [hmi] at h1 h3
          constructor
          · rw [List.pairwise_append]
            refine ⟨h2, List.pairwise_singleton _ _, ?_⟩
            intro r hr r2 hr2
            rw [List.mem_singleton] at hr2
            subst hr2
            show pf * (r.packageSize : Int) ≤ r.packageFees * (ps : Int)
            rw [e1, e2]
            exact h3 r hr iter (List.mem_cons_self _ _)
          · intro r hr x hx
            rw [hs0mi] at hx
            rw [List.mem_append, List.mem_singleton] at hr
            rcases hr with hr | hr
            · exact h3 r hr x (List.mem_cons_of_mem _ hx)
            · subst hr
              show _ * (ps : Int) ≤ pf * _
              rw [e1, e2]
              exact (List.pairwise_cons.mp h1).1 x hx

/-- C7 (amended): when all stored ancestor sizes are positive, the ancestor feerates of the
committed packages whose candidate was taken from the mempool cursor (stored aggregates,
compared by cross-multiplication) form a non-increasing sequence in commit order; packages
taken from the modified index are not covered. -/
theorem C7_cursor_feerates_nonincreasing (mp : CTxMemPool) (cfg : Params) (a : BlockAssembler)
    (np nd k : Nat) (hpos : ∀ h, h < mp.size → 0 < (mp.entry h).nSizeWithAncestors) :
    FeeratesNonIncreasing
      (cursorPackages (run mp cfg k (addPackageTxsInit mp a np nd)).committed) ∧
    (cursorPackages (run mp cfg k (addPackageTxsInit mp a np nd)).committed).Pairwise
      PackageRecord.feerateGE := by
  have hinv := run_invariant mp cfg (fun t => t.mi.Pairwise mp.feerateGE ∧
      (cursorPackages t.committed).Pairwise PackageRecord.feerateGE ∧
      (∀ r ∈ cursorPackages t.committed, ∀ x ∈ t.mi,
        (mp.entry x).nModFeesWithAncestors * (r.packageSize : Int) ≤
          r.packageFees * ((mp.entry x).nSizeWithAncestors : Int)))
    (fun t ht => step_cursor_feerates mp cfg t ht) k (addPackageTxsInit mp a np nd)
    ⟨ancestorScoreIndex_sorted mp hpos, List.Pairwise.nil, fun r hr => by cases hr⟩
  exact ⟨FeeratesNonIncreasing_of_pairwise _ hinv.2.1, hinv.2.1⟩

/-! ## Modified-index soundness -/

theorem mem_inBlockAncestors (mp : CTxMemPool) (B : List Nat) (D x : Nat) :
    x ∈ inBlockAncestors mp B D ↔ x ∈ (mp.entry D).ancestors ∧ x ∈ B := by
  unfold inBlockAncestors CTxMemPool.CalculateMemPoolAncestors
  simp [List.mem_filter]

theorem inBlockAncestors_nodup (mp : CTxMemPool) (B : List Nat) (D : Nat) :
    (inBlockAncestors mp B D).Nodup :=
  List.Nodup.filter _ (List.nodup_dedup _)

/-- The in-block ancestors of `D` after a package has entered the block: those before,
and the members of the package that have `D` among their descendants. -/
theorem inBlockAncestors_perm (mp : CTxMemPool) (B B2 pkg : List Nat) (D : Nat)
    (hDn : D < mp.size) (hD : D ∉ pkg) (hB2 : ∀ x, x ∈ B2 ↔ x ∈ B ∨ x ∈ pkg)
    (hnd : pkg.Nodup) (hdisj : ∀ x ∈ pkg, x ∉ B) :
    (inBlockAncestors mp B2 D).Perm
      (inBlockAncestors mp B D ++
        pkg.filter (fun X => decide (D ∈ mp.CalculateDescendants X))) := by
  rw [List.perm_ext_iff_of_nodup (inBlockAncestors_nodup mp B2 D)]
  · intro x
    simp only [List.mem_append, mem_inBlockAncestors, List.mem_filter, decide_eq_true_eq,
      mem_CalculateDescendants, hB2 x]
    constructor
    · rintro ⟨h1, h2 | h2⟩
      · exact Or.inl ⟨h1, h2⟩
      · exact Or.inr ⟨h2, hDn, Or.inr h1⟩
    · rintro (⟨h1, h2⟩ | ⟨h1, _, h2 | h2⟩)
      · exact ⟨h1, Or.inl h2⟩
      · subst h2; exact absurd h1 hD
      · exact ⟨h2, Or.inr h1⟩
  · rw [List.nodup_append]
    refine ⟨inBlockAncestors_nodup mp B D, List.Nodup.filter _ hnd, ?_⟩
    intro x hx1 hx2
    rw [mem_inBlockAncestors] at hx1
    rw [List.mem_filter] at hx2
    exact hdisj x hx2.1 hx1.2



theorem sizeSum_append (mp : CTxMemPool) (l1 l2 : List Nat) :
    sizeSum mp (l1 ++ l2) = sizeSum mp l1 + sizeSum mp l2 := by
  simp [sizeSum]

theorem sigOpSum_append (mp : CTxMemPool) (l1 l2 : List Nat) :
    sigOpSum mp (l1 ++ l2) = sigOpSum mp l1 + sigOpSum mp l2 := by
  simp [sigOpSum]

theorem modFeeSum_append (mp : CTxMemPool) (l1 l2 : List Nat) :
    modFeeSum mp (l1 ++ l2) = modFeeSum mp l1 + modFeeSum mp l2 := by
  simp [modFeeSum]

/-- A sound row (or a fresh row of an entry without ancestors in the block) stays sound when
it is adjusted for exactly the ancestors that enter the block. -/
theorem RowSound_fold (mp : CTxMemPool) (B B2 : List Nat) (D : Nat) (Xs : List Nat)
    (old : CTxMemPoolModifiedEntry) (hXs : Xs ≠ [])
    (hperm : (inBlockAncestors mp B2 D).Perm (inBlockAncestors mp B D ++ Xs))
    (hold : RowSound mp B D old ∨
      (old = mp.modifiedEntryOf D ∧ inBlockAncestors mp B D = [])) :
    RowSound mp B2 D (Xs.foldl (fun r Y => update_for_parent_inclusion mp Y r) old) := by
  obtain ⟨v1, v2, v3, v4, v5⟩ := foldl_update_for_parent_inclusion mp Xs old
  have v4b := v4 (Or.inl hXs)
  have v5b := v5 (Or.inl hXs)
  have s1 : sizeSum mp (inBlockAncestors mp B2 D) =
      sizeSum mp (inBlockAncestors mp B D) + sizeSum mp Xs := by
    rw [← sizeSum_append]
    exact (hperm.map _).sum_eq
  have s2 : modFeeSum mp (inBlockAncestors mp B2 D) =
      modFeeSum mp (inBlockAncestors mp B D) + modFeeSum mp Xs := by
    rw [← modFeeSum_append]
    exact (hperm.map _).sum_eq
  have s3 : sigOpSum mp (inBlockAncestors mp B2 D) =
      sigOpSum mp (inBlockAncestors mp B D) + sigOpSum mp Xs := by
    rw [← sigOpSum_append]
    exact (hperm.map _).sum_eq
  unfold RowSound
  rw [s1, s2, s3, v2]
  generalize (Xs.foldl (fun r Y => update_for_parent_inclusion mp Y r) old).nSizeWithAncestors
    = rs at v1 v4b ⊢
  generalize (Xs.foldl (fun r Y => update_for_parent_inclusion mp Y r)
    old).nSigOpCountWithAncestors = rg at v3 v5b ⊢
  rcases hold with ⟨o1, o2, o3⟩ | ⟨o1, o2⟩
  · refine ⟨?_, ?_, ?_⟩
    · simp only [U64] at *
      push_cast
      omega
    · rw [o2]; ring
    · simp only [U32] at *
      push_cast
      omega
  · rw [o2]
    subst o1
    have z1 : sizeSum mp ([] : List Nat) = 0 := rfl
    have z2 : modFeeSum mp ([] : List Nat) = 0 := rfl
    have z3 : sigOpSum mp ([] : List Nat) = 0 := rfl
    rw [z1, z2, z3]
    simp only [CTxMemPool.modifiedEntryOf] at v1 v3 ⊢
    refine ⟨?_, ?_, ?_⟩
    · simp only [U64] at *
      push_cast
      omega
    · ring
    · simp only [U32] at *
      push_cast
      omega



theorem foldl_adjustRow_eq_none (mp : CTxMemPool) (D : Nat) (Xs : List Nat)
    (o : Option CTxMemPoolModifiedEntry) (h : Xs.foldl (adjustRow mp D) o = none) :
    Xs = [] ∧ o = none := by
  cases Xs with
  | nil => exact ⟨rfl, h⟩
  | cons X L => rw [foldl_adjustRow_cons] at h; cases h

/-- Soundness of the modified index is preserved when a package enters the block and
`UpdatePackagesForAdded` runs on it. -/
theorem sound_update (mp : CTxMemPool) (B B2 pkg failed : List Nat)
    (m m1 : indexed_modified_transaction_set)
    (hB2 : ∀ x, x ∈ B2 ↔ x ∈ B ∨ x ∈ pkg) (hnd : pkg.Nodup) (hdisj : ∀ x ∈ pkg, x ∉ B)
    (hm1 : ∀ k, m1 k = if k ∈ pkg then none else m k)
    (j1 : ∀ D, D < mp.size → m D = none → D ∉ failed → D ∉ B →
      inBlockAncestors mp B D = [])
    (j2 : ∀ D r, m D = some r → D ∉ failed → D ∉ B → RowSound mp B D r)
    (j3 : ∀ D r, m D = some r → D < mp.size) :
    (∀ D, D < mp.size → (UpdatePackagesForAdded mp pkg m1).2 D = none → D ∉ failed →
      D ∉ B2 → inBlockAncestors mp B2 D = []) ∧
    (∀ D r, (UpdatePackagesForAdded mp pkg m1).2 D = some r → D ∉ failed → D ∉ B2 →
      RowSound mp B2 D r) ∧
    (∀ D r, (UpdatePackagesForAdded mp pkg m1).2 D = some r → D < mp.size) := by
  refine ⟨?_, ?_, ?_⟩
  · intro D hDn hr hDf hDB2
    have hDB : D ∉ B := fun h => hDB2 ((hB2 D).mpr (Or.inl h))
    have hDp : D ∉ pkg := fun h => hDB2 ((hB2 D).mpr (Or.inr h))
    rw [UpdatePackagesForAdded_snd, hm1 D, if_neg hDp, if_neg hDp] at hr
    obtain ⟨hXs, hmD⟩ := foldl_adjustRow_eq_none mp D _ _ hr
    have hperm := inBlockAncestors_perm mp B B2 pkg D hDn hDp hB2 hnd hdisj
    rw [hXs, j1 D hDn hmD hDf hDB] at hperm
    exact List.Perm.eq_nil hperm
  · intro D r hr hDf hDB2
    have hDB : D ∉ B := fun h => hDB2 ((hB2 D).mpr (Or.inl h))
    have hDp : D ∉ pkg := fun h => hDB2 ((hB2 D).mpr (Or.inr h))
    rw [UpdatePackagesForAdded_snd, hm1 D, if_neg hDp, if_neg hDp] at hr
    cases hXs : pkg.filter (fun X => decide (D ∈ mp.CalculateDescendants X)) with
    | nil =>
      rw [hXs] at hr
      have hDn := j3 D r hr
      have hperm := inBlockAncestors_perm mp B B2 pkg D hDn hDp hB2 hnd hdisj
      rw [hXs, List.append_nil] at hperm
      have hs := j2 D r hr hDf hDB
      unfold RowSound at hs ⊢
      have e1 : sizeSum mp (inBlockAncestors mp B2 D) = sizeSum mp (inBlockAncestors mp B D) :=
        (hperm.map _).sum_eq
      have e2 : modFeeSum mp (inBlockAncestors mp B2 D) =
          modFeeSum mp (inBlockAncestors mp B D) := (hperm.map _).sum_eq
      have e3 : sigOpSum mp (inBlockAncestors mp B2 D) =
          sigOpSum mp (inBlockAncestors mp B D) := (hperm.map _).sum_eq
      rw [e1, e2, e3]
      exact hs
    | cons X L =>
      have hXmem : X ∈ pkg.filter (fun X => decide (D ∈ mp.CalculateDescendants X)) := by
        rw [hXs]; exact List.mem_cons_self _ _
      have hDn : D < mp.size := by
        simp only [List.mem_filter, decide_eq_true_eq, mem_CalculateDescendants] at hXmem
        exact hXmem.2.1
      have hperm := inBlockAncestors_perm mp B B2 pkg D hDn hDp hB2 hnd hdisj
      rw [hXs] at hr hperm
      rw [foldl_adjustRow_cons] at hr
      cases hr
      apply RowSound_fold mp B B2 D (X :: L) _ (by simp) hperm
      cases hmD : m D with
      | none => exact Or.inr ⟨rfl, j1 D hDn hmD hDf hDB⟩
      | some r0 => exact Or.inl (j2 D r0 hmD hDf hDB)
  · intro D r hr
    rw [UpdatePackagesForAdded_snd, hm1 D] at hr
    by_cases hDp : D ∈ pkg
    · simp [hDp] at hr
    · simp only [hDp, if_false] at hr
      cases hXs : pkg.filter (fun X => decide (D ∈ mp.CalculateDescendants X)) with
      | nil => rw [hXs] at hr; exact j3 D r hr
      | cons X L =>
        have hXmem : X ∈ pkg.filter (fun X => decide (D ∈ mp.CalculateDescendants X)) := by
          rw [hXs]; exact List.mem_cons_self _ _
        simp only [List.mem_filter, decide_eq_true_eq, mem_CalculateDescendants] at hXmem
        exact hXmem.2.1

/-- The soundness invariant is preserved by every loop iteration. -/
theorem step_sound (mp : CTxMemPool) (cfg : Params) (s : SelectorState)
    (h : (∀ D, D < mp.size → s.mapModifiedTx D = none → D ∉ s.failedTx → D ∉ s.inBlock →
        inBlockAncestors mp s.inBlock D = []) ∧
      (∀ D r, s.mapModifiedTx D = some r → D ∉ s.failedTx → D ∉ s.inBlock →
        RowSound mp s.inBlock D r) ∧
      (∀ D r, s.mapModifiedTx D = some r → D < mp.size)) :
    (∀ D, D < mp.size → (step mp cfg s).mapModifiedTx D = none → D ∉ (step mp cfg s).failedTx →
        D ∉ (step mp cfg s).inBlock → inBlockAncestors mp (step mp cfg s).inBlock D = []) ∧
      (∀ D r, (step mp cfg s).mapModifiedTx D = some r → D ∉ (step mp cfg s).failedTx →
        D ∉ (step mp cfg s).inBlock → RowSound mp (step mp cfg s).inBlock D r) ∧
      (∀ D r, (step mp cfg s).mapModifiedTx D = some r → D < mp.size) := by
  apply step_eval_cases mp cfg (fun t =>
    (∀ D, D < mp.size → t.mapModifiedTx D = none → D ∉ t.failedTx → D ∉ t.inBlock →
        inBlockAncestors mp t.inBlock D = []) ∧
      (∀ D r, t.mapModifiedTx D = some r → D ∉ t.failedTx → D ∉ t.inBlock →
        RowSound mp t.inBlock D r) ∧
      (∀ D r, t.mapModifiedTx D = some r → D < mp.size))
  · intro _; exact h
  · intro _ _ _; exact h
  · intro _ _ _ _ _; exact h
  · intro s0 iter f ps pf pso _ hsrc
    have h0 : (∀ D, D < mp.size → s0.mapModifiedTx D = none → D ∉ s0.failedTx →
        D ∉ s0.inBlock → inBlockAncestors mp s0.inBlock D = []) ∧
      (∀ D r, s0.mapModifiedTx D = some r → D ∉ s0.failedTx → D ∉ s0.inBlock →
        RowSound mp s0.inBlock D r) ∧
      (∀ D r, s0.mapModifiedTx D = some r → D < mp.size) := by
      rcases hsrc with ⟨_, e, _⟩ | ⟨_, rest, _, e, _⟩ <;> rw [e] <;> exact h
    obtain ⟨j1, j2, j3⟩ := h0
    have hmark : (∀ D, D < mp.size → (markFailed s0 iter f).mapModifiedTx D = none →
          D ∉ (markFailed s0 iter f).failedTx → D ∉ (markFailed s0 iter f).inBlock →
          inBlockAncestors mp (markFailed s0 iter f).inBlock D = []) ∧
        (∀ D r, (markFailed s0 iter f).mapModifiedTx D = some r →
          D ∉ (markFailed s0 iter f).failedTx → D ∉ (markFailed s0 iter f).inBlock →
          RowSound mp (markFailed s0 iter f).inBlock D r) ∧
        (∀ D r, (markFailed s0 iter f).mapModifiedTx D = some r → D < mp.size) := by
      rw [markFailed_mapModifiedTx, markFailed_failedTx, markFailed_toBlockAssembler]
      cases f with
      | false => exact ⟨j1, j2, j3⟩
      | true =>
        simp only [if_true]
        refine ⟨?_, ?_, ?_⟩
        · intro D hDn hm hDf hDB
          have hDi : D ≠ iter := fun e => hDf ((mem_setInsert _ _ _).mpr (Or.inl e))
          have hm2 : s0.mapModifiedTx D = none := by
            simpa [modifiedErase, hDi] using hm
          exact j1 D hDn hm2 (fun e => hDf ((mem_setInsert _ _ _).mpr (Or.inr e))) hDB
        · intro D r hm hDf hDB
          have hDi : D ≠ iter := fun e => hDf ((mem_setInsert _ _ _).mpr (Or.inl e))
          have hm2 : s0.mapModifiedTx D = some r := by
            simpa [modifiedErase, hDi] using hm
          exact j2 D r hm2 (fun e => hDf ((mem_setInsert _ _ _).mpr (Or.inr e))) hDB
        · intro D r hm
          by_cases hDi : D = iter
          · simp [modifiedErase, hDi] at hm
          · have hm2 : s0.mapModifiedTx D = some r := by
              simpa [modifiedErase, hDi] using hm
            exact j3 D r hm2
    apply evaluateCandidate_cases mp cfg (fun t =>
      (∀ D, D < mp.size → t.mapModifiedTx D = none → D ∉ t.failedTx → D ∉ t.inBlock →
          inBlockAncestors mp t.inBlock D = []) ∧
        (∀ D r, t.mapModifiedTx D = some r → D ∉ t.failedTx → D ∉ t.inBlock →
          RowSound mp t.inBlock D r) ∧
        (∀ D r, t.mapModifiedTx D = some r → D < mp.size))
    · intro _; exact ⟨j1, j2, j3⟩
    · intro _ _; exact ⟨j1, j2, j3⟩
    · intro _ _ _ st _; exact hmark
    · intro _ _ _ _; exact hmark
    · intro hnin _ _ _
      have hnd := package_nodup mp s0.inBlock iter
      have hdisj := package_not_inBlock mp s0.inBlock iter hnin
      generalize setInsert iter (onlyUnconfirmed s0.inBlock (mp.CalculateMemPoolAncestors iter))
        = pkg at hnd hdisj ⊢
      obtain ⟨m1, hm1, hmap⟩ := commitPackage_mapModifiedTx mp s0 iter f ps pf pso pkg
      rw [hmap, commitPackage_failedTx]
      exact sound_update mp s0.inBlock _ pkg s0.failedTx s0.mapModifiedTx m1
        (fun x => commitPackage_inBlock_mem mp s0 iter f ps pf pso pkg x) hnd hdisj hm1 j1 j2 j3

/-! ## Instances of the theorems on concrete snapshots -/

theorem cpfpPool_entry_absent (n : Nat) :
    cpfpPool.entry (n + 2) = CTxMemPoolEntry.absent := rfl

theorem cpfpPool_count (A B : Nat) (h : B ∈ (cpfpPool.entry A).ancestors) :
    (cpfpPool.entry B).nCountWithAncestors < (cpfpPool.entry A).nCountWithAncestors := by
  match A with
  | 0 => cases h
  | 1 =>
    have hB : B = 0 := by simpa [cpfpPool, CTxMemPool.entry, plainEntry] using h
    subst hB
    decide
  | n + 2 => rw [cpfpPool_entry_absent] at h; cases h

theorem cpfpPool_closed (A B C : Nat) (h1 : B ∈ (cpfpPool.entry A).ancestors)
    (h2 : C ∈ (cpfpPool.entry B).ancestors) : C ∈ (cpfpPool.entry A).ancestors := by
  match A with
  | 0 => cases h1
  | 1 =>
    have hB : B = 0 := by simpa [cpfpPool, CTxMemPool.entry, plainEntry] using h1
    subst hB
    cases h2
  | n + 2 => rw [cpfpPool_entry_absent] at h1; cases h1

theorem cpfpPool_consistent : AggregatesConsistent cpfpPool := by
  intro D
  match D with
  | 0 => decide
  | 1 => decide
  | n + 2 =>
    have h : packageOf cpfpPool [] (n + 2) = [n + 2] := by
      unfold packageOf onlyUnconfirmed CTxMemPool.CalculateMemPoolAncestors
      rw [cpfpPool_entry_absent]
      rfl
    rw [h]
    simp [sizeSum, sigOpSum, cpfpPool_entry_absent, CTxMemPoolEntry.absent]

theorem cpfpPool_noWrap : NoWrap cpfpPool (paramsOf 2000000 1) := by
  intro D
  match D with
  | 0 => decide
  | 1 => decide
  | n + 2 => rw [cpfpPool_entry_absent]; decide

/-- C1 at the snapshot of scenario 3: the parent (entry 0) is at index 1 of the transaction
list, the child (entry 1) at index 2. -/
theorem C1_topological_order_witness :
    (run cpfpPool (paramsOf 2000000 1) 3
        (addPackageTxsInit cpfpPool freshAssembler 0 0)).vtx[1]? =
      some (CTransactionRef.pool 0) ∧
    (run cpfpPool (paramsOf 2000000 1) 3
        (addPackageTxsInit cpfpPool freshAssembler 0 0)).vtx[2]? =
      some (CTransactionRef.pool 1) ∧
    0 ∈ cpfpPool.CalculateMemPoolAncestors 1 ∧ 1 < 2 :=
  ⟨by decide, by decide, by decide,
    C1_topological_order cpfpPool (paramsOf 2000000 1) freshAssembler 0 0 3 cpfpPool_count
      cpfpPool_closed rfl (by intro h; simp [freshAssembler]) 1 2 1 0 (by decide) (by decide) (by decide)⟩

/-- C2 at the snapshot of scenario 3: the block stays within the budget. -/
theorem C2_resource_budget_witness :
    freshAssembler.inBlock.Nodup ∧ freshAssembler.nBlockSize ≤ 2000000 ∧
    freshAssembler.nBlockSigOps ≤ 40000 ∧
    (run cpfpPool (paramsOf 2000000 1) 3
      (addPackageTxsInit cpfpPool freshAssembler 0 0)).nBlockSize ≤ 2000000 ∧
    (run cpfpPool (paramsOf 2000000 1) 3
      (addPackageTxsInit cpfpPool freshAssembler 0 0)).nBlockSigOps ≤ 40000 ∧
    (run cpfpPool (paramsOf 2000000 1) 3
      (addPackageTxsInit cpfpPool freshAssembler 0 0)).peakBlockSize ≤ 2000000 ∧
    (run cpfpPool (paramsOf 2000000 1) 3
      (addPackageTxsInit cpfpPool freshAssembler 0 0)).peakBlockSigOps ≤ 40000 :=
  ⟨by decide, by decide, by decide,
    C2_resource_budget cpfpPool (paramsOf 2000000 1) freshAssembler 0 0 3 cpfpPool_consistent
      cpfpPool_noWrap (by decide) (by decide) (by decide)⟩

/-- C4 at the snapshot of scenario 3: the committed entries are distinct. -/
theorem C4_no_duplicate_commit_witness :
    freshAssembler.inBlock.Nodup ∧
    (committedEntries (run cpfpPool (paramsOf 2000000 1) 3
      (addPackageTxsInit cpfpPool freshAssembler 0 0))).Nodup :=
  ⟨by decide,
    (C4_no_duplicate_commit cpfpPool (paramsOf 2000000 1) freshAssembler 0 0 3
      (by decide)).1⟩

/-- Amended C7 at `siblingsPool`: the one package taken from the cursor. -/
theorem C7_cursor_feerates_nonincreasing_witness :
    FeeratesNonIncreasing (cursorPackages
      (run siblingsPool (paramsOf 2000000 0) 5
        (addPackageTxsInit siblingsPool freshAssembler 0 0)).committed) :=
  (C7_cursor_feerates_nonincreasing siblingsPool (paramsOf 2000000 0) freshAssembler 0 0 5
    (by
      intro h hh
      have h3 : h < 3 := hh
      interval_cases h <;> decide)).1

/-- C9 at the numbers of scenario 3 (parent size 500 fee 0, child size 250 fee 1000): at
1 satoshi per byte both are included, parent first, with fees 1000; at 2 satoshis per byte
neither is included. -/
theorem C9_child_pays_for_parent_witness :
    ((addPackageTxs cpfpPool (paramsOf 2000000 1) freshAssembler 0 0).status =
        LoopStatus.exhausted ∧
      (addPackageTxs cpfpPool (paramsOf 2000000 1) freshAssembler 0 0).vtx =
        freshAssembler.vtx ++ [CTransactionRef.pool 0, CTransactionRef.pool 1] ∧
      (addPackageTxs cpfpPool (paramsOf 2000000 1) freshAssembler 0 0).nFees =
        freshAssembler.nFees + 0 + 1000) ∧
    ((addPackageTxs cpfpPool (paramsOf 2000000 2) freshAssembler 0 0).status =
        LoopStatus.returned ∧
      (addPackageTxs cpfpPool (paramsOf 2000000 2) freshAssembler 0 0).vtx =
        freshAssembler.vtx ∧
      (addPackageTxs cpfpPool (paramsOf 2000000 2) freshAssembler 0 0).inBlock = [] ∧
      (addPackageTxs cpfpPool (paramsOf 2000000 2) freshAssembler 0 0).nFees =
        freshAssembler.nFees) :=
  ⟨(C9_child_pays_for_parent (plainEntry 500 0 [] 1 500 0) (plainEntry 250 1000 [0] 2 750 1000)
      (paramsOf 2000000 1) freshAssembler 0 0 cpfpPool 0 1 (Or.inl ⟨rfl, rfl, rfl⟩)
      rfl rfl rfl rfl rfl (by decide) rfl (by decide)
      (by decide) (by decide) (by decide)
      (by intro size h; simp only [paramsOf, perByte]; omega)).1 (by decide),
   (C9_child_pays_for_parent (plainEntry 500 0 [] 1 500 0) (plainEntry 250 1000 [0] 2 750 1000)
      (paramsOf 2000000 2) freshAssembler 0 0 cpfpPool 0 1 (Or.inl ⟨rfl, rfl, rfl⟩)
      rfl rfl rfl rfl rfl (by decide) rfl (by decide)
      (by decide) (by decide) (by decide)
      (by intro size h; simp only [paramsOf, perByte]; omega)).2 (by decide)⟩

theorem unsafeParentPool_closed (A B C : Nat) (h1 : B ∈ (unsafeParentPool.entry A).ancestors)
    (h2 : C ∈ (unsafeParentPool.entry B).ancestors) :
    C ∈ (unsafeParentPool.entry A).ancestors := by
  match A with
  | 0 => cases h1
  | 1 =>
    have hB : B = 0 := by simpa [unsafeParentPool, CTxMemPool.entry, plainEntry] using h1
    subst hB
    cases h2
  | 2 => cases h1
  | n + 3 =>
    have : unsafeParentPool.entry (n + 3) = CTxMemPoolEntry.absent := rfl
    rw [this] at h1
    cases h1

/-- Amended C10 at `unsafeParentPool`: only the independent entry 2 is committed; it is not
the unsafe entry 0 and does not descend from it. -/
theorem C10_unsafe_tx_excluded_witness :
    (unsafeParentPool.entry 0).isTxSafeForMining = false ∧ 0 ∉ freshAssembler.inBlock ∧
    2 ∈ committedEntries (run unsafeParentPool (paramsOf 2000000 0) 5
      (addPackageTxsInit unsafeParentPool freshAssembler 0 0)) ∧
    (2 ≠ 0 ∧ 0 ∉ (unsafeParentPool.entry 2).ancestors) :=
  ⟨by decide, by decide, by decide,
    (C10_unsafe_tx_excluded unsafeParentPool (paramsOf 2000000 0) freshAssembler 0 0 0
      (by decide) unsafeParentPool_closed (by decide)).1 5 2 (by decide)⟩

/-- C3 at the snapshot of scenario 3: the committed package of the child has fees 1000 for
size 750, at least the 750 that one satoshi per byte asks for. -/
theorem C3_committed_packages_meet_min_feerate_witness :
    PackageRecord.mk 1 false 750 1000 0 [0, 1] ∈
      (run cpfpPool (paramsOf 2000000 1) 3
        (addPackageTxsInit cpfpPool freshAssembler 0 0)).committed ∧
    (paramsOf 2000000 1).blockMinFeeRate.GetFee 750 ≤ 1000 :=
  ⟨by decide,
    (C3_committed_packages_meet_min_feerate cpfpPool (paramsOf 2000000 1) freshAssembler 0 0 3
      (PackageRecord.mk 1 false 750 1000 0 [0, 1]) (by decide)).1⟩

/-- C5 at the snapshot of scenario 3: the parent, committed with the child's package, is
final and safe for mining. -/
theorem C5_committed_final_and_safe_witness :
    CTransactionRef.pool 0 ∈ (run cpfpPool (paramsOf 2000000 1) 3
      (addPackageTxsInit cpfpPool freshAssembler 0 0)).vtx ∧
    (CTransactionRef.pool 0 ∈ freshAssembler.vtx ∨
      ((cpfpPool.entry 0).isFinalTx = true ∧ (cpfpPool.entry 0).isTxSafeForMining = true)) :=
  ⟨by decide,
    (C5_committed_final_and_safe cpfpPool (paramsOf 2000000 1) freshAssembler 0 0 3).2 0
      (by decide)⟩

/-- C6 at the snapshot of scenario 3: the loop has ended and the failure counter is within
its bound after three iterations. -/
theorem C6_loop_terminates_failures_bounded_witness :
    (addPackageTxs cpfpPool (paramsOf 2000000 1) freshAssembler 0 0).status ≠
      LoopStatus.running ∧
    (run cpfpPool (paramsOf 2000000 1) 3
      (addPackageTxsInit cpfpPool freshAssembler 0 0)).nConsecutiveFailed ≤
      MAX_CONSECUTIVE_FAILURES + cpfpPool.size :=
  ⟨(C6_loop_terminates_failures_bounded cpfpPool (paramsOf 2000000 1) freshAssembler 0 0).1,
    (C6_loop_terminates_failures_bounded cpfpPool (paramsOf 2000000 1) freshAssembler 0
      0).2.2.2 3⟩

/-! ## The size limit of the constructor -/

/-- C14: for every option value the constructor sets `nBlockMaxSize` to
`max(1000, min(MaxBlockSize - 1000, options.nBlockMaxSize))` computed in `unsigned int`; the
result is at least 1000, so `nBlockMaxSize - 1000` in the give-up test does not wrap; and when
`MaxBlockSize >= 2000` the result is at most `MaxBlockSize - 1000` and equals the option
whenever the option lies in `[1000, MaxBlockSize - 1000]`. -/
theorem C14_nBlockMaxSize_clamped (MaxBlockSize MaxBlockSigOps : Nat) (options : Options) :
    (BlockAssembler.construct MaxBlockSize MaxBlockSigOps options).nBlockMaxSize =
      max 1000 (min ((MaxBlockSize + (U32 - 1000)) % U32) (options.nBlockMaxSize % U32)) ∧
    1000 ≤ (BlockAssembler.construct MaxBlockSize MaxBlockSigOps options).nBlockMaxSize ∧
    (BlockAssembler.construct MaxBlockSize MaxBlockSigOps options).nBlockMaxSize < U32 ∧
    ((BlockAssembler.construct MaxBlockSize MaxBlockSigOps options).nBlockMaxSize +
        (U32 - 1000)) % U32 =
      (BlockAssembler.construct MaxBlockSize MaxBlockSigOps options).nBlockMaxSize - 1000 ∧
    (2000 ≤ MaxBlockSize → MaxBlockSize < U32 →
      (BlockAssembler.construct MaxBlockSize MaxBlockSigOps options).nBlockMaxSize ≤
        MaxBlockSize - 1000 ∧
      (1000 ≤ options.nBlockMaxSize → options.nBlockMaxSize ≤ MaxBlockSize - 1000 →
        (BlockAssembler.construct MaxBlockSize MaxBlockSigOps options).nBlockMaxSize =
          options.nBlockMaxSize)) := by
  have e : (BlockAssembler.construct MaxBlockSize MaxBlockSigOps options).nBlockMaxSize =
      max 1000 (min ((MaxBlockSize + (U32 - 1000)) % U32) (options.nBlockMaxSize % U32)) := rfl
  rw [e]
  simp only [U32]
  refine ⟨trivial, by omega, by omega, by omega, ?_⟩
  intro h1 h2
  refine ⟨by omega, ?_⟩
  intro h3 h4
  omega

/-- C14 on the default limits: `MaxBlockSize = 2000000` and the option 750000. -/
theorem C14_nBlockMaxSize_clamped_witness :
    (BlockAssembler.construct 2000000 40000 ⟨perByte 1, 750000⟩).nBlockMaxSize = 750000 :=
  ((C14_nBlockMaxSize_clamped 2000000 40000 ⟨perByte 1, 750000⟩).2.2.2.2 (by decide)
    (by decide)).2 (by decide) (by decide)

/-! ## The extra nonce -/

/-- After an invocation the static holds the `hashPrevBlock` of the block passed in. -/
theorem IncrementExtraNonce_fst (h p n : Nat) : (IncrementExtraNonce h p n).1 = p := by
  unfold IncrementExtraNonce
  by_cases e : h = p
  · simp [e]
  · simp [e]

/-- The counter after an invocation. -/
theorem IncrementExtraNonce_snd (h p n : Nat) :
    (IncrementExtraNonce h p n).2 = if h ≠ p then 1 else (n + 1) % U32 := by
  unfold IncrementExtraNonce
  by_cases e : h = p
  · simp [e]
  · simp [e, U32]

/-- After a sequence of invocations the static holds the `hashPrevBlock` of the last one. -/
theorem calls_hashPrevBlock (s : ExtraNonceState) (l : List ExtraNonceCall) :
    (s.calls l).hashPrevBlock = previousAny s.hashPrevBlock l := by
  induction l using List.reverseRecOn with
  | nil => rfl
  | append_singleton l c _ =>
    unfold ExtraNonceState.calls previousAny
    rw [List.foldl_append, List.getLast?_append]
    simp [ExtraNonceState.call, IncrementExtraNonce_fst]

/-- When one caller made all the invocations, its previous invocation is the previous
invocation. -/
theorem previousOwn_single (init : Nat) (l : List ExtraNonceCall) (caller : Nat)
    (hall : ∀ x ∈ l, x.caller = caller) (hne : l ≠ []) :
    previousOwn l caller = some (previousAny init l) := by
  unfold previousOwn previousAny
  have hf : l.filter (fun c => decide (c.caller = caller)) = l := by
    rw [List.filter_eq_self]
    intro x hx
    simp [hall x hx]
  rw [hf]
  cases hl : l.getLast? with
  | none => exact absurd (List.getLast?_eq_none_iff.mp hl) hne
  | some c => rfl

/-- C15, the claim as stated fails: (1) caller 0 mines on parent 1, caller 1 on parent 2, then
caller 0 again on parent 1: the parent is that of its previous invocation and its counter
was 1, yet the counter is 1 again after the call, not 2; (2) callers 0 and 1 mine on parent 1,
caller 0 moves to parent 2, then caller 1 moves to parent 2: its parent differs from that of
its previous invocation, yet its counter becomes 2, not 1; (3) a counter that holds
`2^32 - 1` becomes 0 on an unchanged parent. -/
theorem C15_counterexample :
    (previousOwn [⟨0, 1⟩, ⟨1, 2⟩] 0 = some 1 ∧
      ((ExtraNonceState.initial.calls [⟨0, 1⟩, ⟨1, 2⟩]).nExtraNonce 0 = 1) ∧
      ((ExtraNonceState.initial.calls [⟨0, 1⟩, ⟨1, 2⟩]).call ⟨0, 1⟩).nExtraNonce 0 = 1) ∧
    (previousOwn [⟨0, 1⟩, ⟨1, 1⟩, ⟨0, 2⟩] 1 = some 1 ∧
      ((ExtraNonceState.initial.calls [⟨0, 1⟩, ⟨1, 1⟩, ⟨0, 2⟩]).call ⟨1, 2⟩).nExtraNonce 1 = 2) ∧
    IncrementExtraNonce 5 5 4294967295 = (5, 0) := by
  decide

/-- C15 (amended): after any sequence `pre` of invocations from any state, an invocation
resets the counter of its caller to 0 before the bump (so the counter is 1 afterwards)
exactly when the `hashPrevBlock` of its block differs from the `hashPrevBlock` of the
previous invocation by any caller (from the initial value of the static when there was
none); otherwise the counter increases by 1 modulo `2^32`.  The counters of the other callers
are untouched.  When all invocations so far were made by the caller itself, the previous
invocation is its own previous invocation. -/
theorem C15_extra_nonce_reset_on_shared_parent (s : ExtraNonceState)
    (pre : List ExtraNonceCall) (c : ExtraNonceCall) :
    ((s.calls pre).call c).nExtraNonce c.caller =
      (if previousAny s.hashPrevBlock pre ≠ c.hashPrevBlock then 1
       else ((s.calls pre).nExtraNonce c.caller + 1) % U32) ∧
    ((s.calls pre).call c).hashPrevBlock = c.hashPrevBlock ∧
    (∀ who, who ≠ c.caller →
      ((s.calls pre).call c).nExtraNonce who = (s.calls pre).nExtraNonce who) ∧
    ((∀ x ∈ pre, x.caller = c.caller) → pre ≠ [] →
      previousOwn pre c.caller = some (previousAny s.hashPrevBlock pre)) := by
  refine ⟨?_, ?_, ?_, ?_⟩
  · have e : ((s.calls pre).call c).nExtraNonce c.caller =
        (IncrementExtraNonce (s.calls pre).hashPrevBlock c.hashPrevBlock
          ((s.calls pre).nExtraNonce c.caller)).2 := by
      simp [ExtraNonceState.call]
    rw [e, IncrementExtraNonce_snd, calls_hashPrevBlock]
  · simp [ExtraNonceState.call, IncrementExtraNonce_fst]
  · intro who hwho
    simp [ExtraNonceState.call, hwho]
  · intro hall hne
    exact previousOwn_single s.hashPrevBlock pre c.caller hall hne

/-- C15 (amended) on a run of one caller: two templates on parent 7, then one on parent 9. -/
theorem C15_extra_nonce_reset_on_shared_parent_witness :
    ((ExtraNonceState.initial.calls [⟨0, 7⟩, ⟨0, 7⟩]).call ⟨0, 9⟩).nExtraNonce 0 = 1 ∧
    ((ExtraNonceState.initial.calls [⟨0, 7⟩]).call ⟨0, 7⟩).nExtraNonce 0 = 2 ∧
    previousOwn [⟨0, 7⟩, ⟨0, 7⟩] 0 = some 7 :=
  ⟨(C15_extra_nonce_reset_on_shared_parent ExtraNonceState.initial [⟨0, 7⟩, ⟨0, 7⟩]
      ⟨0, 9⟩).1.trans (by decide),
    (C15_extra_nonce_reset_on_shared_parent ExtraNonceState.initial [⟨0, 7⟩] ⟨0, 7⟩).1.trans
      (by decide),
    ((C15_extra_nonce_reset_on_shared_parent ExtraNonceState.initial [⟨0, 7⟩, ⟨0, 7⟩]
      ⟨0, 9⟩).2.2.2 (by decide) (by decide)).trans (by decide)⟩

/-! ## The template builder -/

/-- The assembler after a commit loop is the fold of `AddToBlock`. -/
theorem foldl_addEntry_toBlockAssembler (mp : CTxMemPool) (l : List Nat) (s : SelectorState) :
    (l.foldl (addEntry mp) s).toBlockAssembler = l.foldl (AddToBlock mp) s.toBlockAssembler := by
  induction l generalizing s with
  | nil => rfl
  | cons x l ih =>
    simp only [List.foldl_cons]
    rw [ih]
    rfl

/-- The assembler after the commit of a package. -/
theorem commitPackage_toBlockAssembler (mp : CTxMemPool) (s : SelectorState) (iter : Nat)
    (f : Bool) (ps : Nat) (pf : Int) (pso : Nat) (anc : List Nat) :
    (commitPackage mp s iter f ps pf pso anc).toBlockAssembler =
      (SortForBlock mp anc).foldl (AddToBlock mp) s.toBlockAssembler := by
  unfold commitPackage
  simp only []
  rw [foldl_addEntry_toBlockAssembler]

/-- After any number of iterations the assembler is the one handed to `addPackageTxs` with
`AddToBlock` applied to the committed entries in order. -/
theorem run_assembler_fold (mp : CTxMemPool) (cfg : Params) (a : BlockAssembler)
    (np nd k : Nat) :
    (run mp cfg k (addPackageTxsInit mp a np nd)).toBlockAssembler =
      (committedEntries (run mp cfg k (addPackageTxsInit mp a np nd))).foldl (AddToBlock mp) a := by
  unfold committedEntries
  apply run_commit_invariant mp cfg (fun b c =>
    b = ((c.map (fun r => r.sortedEntries)).flatten).foldl (AddToBlock mp) a)
  · intro s s0 iter f ps pf pso hQ hasm hcom _ _ _ _
    rw [commitPackage_toBlockAssembler, commitPackage_committed, hasm, hcom, hQ]
    simp [List.foldl_append]
  · rfl

/-- A property kept by `f` holds after a fold. -/
theorem foldl_forall {β : Type} (P : BlockAssembler → Prop) (f : BlockAssembler → β → BlockAssembler)
    (hf : ∀ a x, P a → P (f a x)) (l : List β) (a : BlockAssembler) (ha : P a) :
    P (l.foldl f a) := by
  induction l generalizing a with
  | nil => exact ha
  | cons x l ih => exact ih (f a x) (hf a x ha)

/-- One pass of the loop over the quorum types leaves `inBlock`, `nFees` and `nBlockSigOps`
alone. -/
theorem addCommitment_scratch (ctx : ChainContext) (a : BlockAssembler) (t : Nat) :
    (addCommitment ctx a t).inBlock = a.inBlock ∧
    (addCommitment ctx a t).nFees = a.nFees ∧
    (addCommitment ctx a t).nBlockSigOps = a.nBlockSigOps := by
  unfold addCommitment
  cases ctx.GetMinableCommitmentTx t (ctx.tipHeight + 1) <;> simp

/-- The loop over the quorum types leaves `inBlock`, `nFees` and `nBlockSigOps` alone. -/
theorem addCommitments_scratch (ctx : ChainContext) (a : BlockAssembler) :
    (addCommitments ctx a).inBlock = a.inBlock ∧
    (addCommitments ctx a).nFees = a.nFees ∧
    (addCommitments ctx a).nBlockSigOps = a.nBlockSigOps := by
  unfold addCommitments
  split
  · exact foldl_forall (fun b => b.inBlock = a.inBlock ∧ b.nFees = a.nFees ∧
      b.nBlockSigOps = a.nBlockSigOps) (addCommitment ctx)
      (fun b x hb => by
        obtain ⟨h1, h2, h3⟩ := addCommitment_scratch ctx b x
        exact ⟨h1.trans hb.1, h2.trans hb.2.1, h3.trans hb.2.2⟩) ctx.llmqs a ⟨rfl, rfl, rfl⟩
  · exact ⟨rfl, rfl, rfl⟩

/-- `nFees` is 0 when `addPackageTxs` is called. -/
theorem beforeSelection_nFees (ctx : ChainContext) (a : BlockAssembler) :
    (beforeSelection ctx a).nFees = 0 := by
  unfold beforeSelection
  rw [(addCommitments_scratch ctx _).2.1]
  unfold reserveCoinstake
  split <;> rfl

/-- An entry of a list stays where it is when the list is extended. -/
theorem getElem?_append_of_some {α : Type} (l m : List α) (i : Nat) (v : α)
    (h : l[i]? = some v) : (l ++ m)[i]? = some v := by
  have hi : i < l.length := by
    by_contra hc
    rw [List.getElem?_eq_none (by omega)] at h
    cases h
  rw [List.getElem?_append_left hi, h]

/-- A reserved slot stays reserved when one entry is appended to each list. -/
theorem SlotReserved_append (a b : BlockAssembler) (i : Nat) (x : CTransactionRef) (f so : Int)
    (hv : b.vtx = a.vtx ++ [x]) (hf : b.vTxFees = a.vTxFees ++ [f])
    (hs : b.vTxSigOps = a.vTxSigOps ++ [so]) (h : SlotReserved a i) : SlotReserved b i := by
  obtain ⟨h1, h2, h3⟩ := h
  unfold SlotReserved
  rw [hv, hf, hs]
  exact ⟨getElem?_append_of_some _ _ _ _ h1, getElem?_append_of_some _ _ _ _ h2,
    getElem?_append_of_some _ _ _ _ h3⟩

/-- The lists stay aligned when one entry is appended to each of them. -/
theorem Aligned_append (a b : BlockAssembler) (x : CTransactionRef) (f so : Int)
    (hv : b.vtx = a.vtx ++ [x]) (hf : b.vTxFees = a.vTxFees ++ [f])
    (hs : b.vTxSigOps = a.vTxSigOps ++ [so]) (h : Aligned a) : Aligned b := by
  obtain ⟨h1, h2⟩ := h
  unfold Aligned
  rw [hv, hf, hs]
  simp [h1, h2]

/-- `addCommitment` keeps the lists aligned and the reserved slots reserved. -/
theorem addCommitment_keeps (ctx : ChainContext) (a : BlockAssembler) (t : Nat) (P : Prop)
    (h : Aligned a ∧ SlotReserved a 0 ∧ (P → SlotReserved a 1)) :
    Aligned (addCommitment ctx a t) ∧ SlotReserved (addCommitment ctx a t) 0 ∧
      (P → SlotReserved (addCommitment ctx a t) 1) := by
  unfold addCommitment
  cases ctx.GetMinableCommitmentTx t (ctx.tipHeight + 1) with
  | none => exact h
  | some sz =>
    exact ⟨Aligned_append a _ _ 0 0 rfl rfl rfl h.1,
      SlotReserved_append a _ 0 _ 0 0 rfl rfl rfl h.2.1,
      fun hp => SlotReserved_append a _ 1 _ 0 0 rfl rfl rfl (h.2.2 hp)⟩

/-- `AddToBlock` keeps the lists aligned and the reserved slots reserved. -/
theorem AddToBlock_keeps (mp : CTxMemPool) (a : BlockAssembler) (it : Nat) (P : Prop)
    (h : Aligned a ∧ SlotReserved a 0 ∧ (P → SlotReserved a 1)) :
    Aligned (AddToBlock mp a it) ∧ SlotReserved (AddToBlock mp a it) 0 ∧
      (P → SlotReserved (AddToBlock mp a it) 1) :=
  ⟨Aligned_append a _ _ _ _ rfl rfl rfl h.1,
    SlotReserved_append a _ 0 _ _ _ rfl rfl rfl h.2.1,
    fun hp => SlotReserved_append a _ 1 _ _ _ rfl rfl rfl (h.2.2 hp)⟩

/-- After the coinstake placeholder the lists are aligned and the slots are reserved. -/
theorem reserveCoinstake_start (ctx : ChainContext) (a : BlockAssembler) :
    Aligned (reserveCoinstake ctx (reserveSlot (startTemplate a))) ∧
    SlotReserved (reserveCoinstake ctx (reserveSlot (startTemplate a))) 0 ∧
    (ctx.pblock.IsProofOfStake = true →
      SlotReserved (reserveCoinstake ctx (reserveSlot (startTemplate a))) 1) := by
  unfold reserveCoinstake
  by_cases hp : ctx.pblock.IsProofOfStake = true
  · rw [if_pos hp]
    exact ⟨⟨rfl, rfl⟩, ⟨rfl, rfl, rfl⟩, fun _ => ⟨rfl, rfl, rfl⟩⟩
  · rw [if_neg hp]
    exact ⟨⟨rfl, rfl⟩, ⟨rfl, rfl, rfl⟩, fun h => absurd h hp⟩

/-- The assembler handed to `addPackageTxs` is aligned with its slots reserved. -/
theorem beforeSelection_keeps (ctx : ChainContext) (a : BlockAssembler) :
    Aligned (beforeSelection ctx a) ∧ SlotReserved (beforeSelection ctx a) 0 ∧
    (ctx.pblock.IsProofOfStake = true → SlotReserved (beforeSelection ctx a) 1) := by
  unfold beforeSelection addCommitments
  split
  · exact foldl_forall (fun p => Aligned p ∧ SlotReserved p 0 ∧
      (ctx.pblock.IsProofOfStake = true → SlotReserved p 1)) (addCommitment ctx)
      (fun b x hb => addCommitment_keeps ctx b x _ hb) ctx.llmqs _ (reserveCoinstake_start ctx a)
  · exact reserveCoinstake_start ctx a

/-- The proof-of-stake path keeps the lists aligned and slot 0 reserved. -/
theorem stakeSlot_keeps (ctx : ChainContext) (a : BlockAssembler)
    (h : Aligned a ∧ SlotReserved a 0) :
    Aligned (stakeSlot ctx a) ∧ SlotReserved (stakeSlot ctx a) 0 := by
  obtain ⟨⟨h1, h2⟩, h3, h4, h5⟩ := h
  unfold stakeSlot
  split
  · refine ⟨⟨?_, ?_⟩, ?_, ?_, ?_⟩
    · simp [h1]
    · simp [h2]
    · show (a.vtx.set 1 _)[0]? = _
      rw [List.getElem?_set_ne (by decide)]; exact h3
    · show (a.vTxFees.set 1 _)[0]? = _
      rw [List.getElem?_set_ne (by decide)]; exact h4
    · show (a.vTxSigOps.set 1 _)[0]? = _
      rw [List.getElem?_set_ne (by decide)]; exact h5
  · refine ⟨⟨?_, ?_⟩, ?_, ?_, ?_⟩
    · show (a.vTxFees.eraseIdx 1).length = (a.vtx.eraseIdx 1).length
      rw [List.length_eraseIdx, List.length_eraseIdx, h1]
    · show (a.vTxSigOps.eraseIdx 1).length = (a.vtx.eraseIdx 1).length
      rw [List.length_eraseIdx, List.length_eraseIdx, h2]
    · show (a.vtx.eraseIdx 1)[0]? = _
      rw [List.getElem?_eraseIdx_of_lt _ _ _ (by decide)]; exact h3
    · show (a.vTxFees.eraseIdx 1)[0]? = _
      rw [List.getElem?_eraseIdx_of_lt _ _ _ (by decide)]; exact h4
    · show (a.vTxSigOps.eraseIdx 1)[0]? = _
      rw [List.getElem?_eraseIdx_of_lt _ _ _ (by decide)]; exact h5

/-- The proof-of-stake path leaves `nFees` alone. -/
theorem stakePath_nFees (ctx : ChainContext) (a a1 : BlockAssembler)
    (h : stakePath ctx a = some a1) : a1.nFees = a.nFees := by
  unfold stakePath at h
  split at h
  · split at h
    · injection h with h
      rw [← h]
      unfold stakeSlot
      split <;> rfl
    · cases h
  · injection h with h
    rw [h]

/-- What the proof-of-stake path returns is aligned with slot 0 reserved. -/
theorem stakePath_keeps (ctx : ChainContext) (a a1 : BlockAssembler)
    (h : stakePath ctx a = some a1) (ha : Aligned a ∧ SlotReserved a 0) :
    Aligned a1 ∧ SlotReserved a1 0 := by
  unfold stakePath at h
  split at h
  · split at h
    · injection h with h
      rw [← h]
      exact stakeSlot_keeps ctx a ha
    · cases h
  · injection h with h
    rw [← h]
    exact ha

/-- The completed block: the lists are aligned, slot 0 holds the coinbase and the fee
`-nFees`. -/
theorem completeBlock_keeps (ctx : ChainContext) (reward : Int) (a : BlockAssembler)
    (h : Aligned a ∧ SlotReserved a 0) :
    Aligned (completeBlock ctx reward a) ∧
    (completeBlock ctx reward a).vtx[0]? = some (CTransactionRef.coinbase reward) ∧
    (completeBlock ctx reward a).vTxFees[0]? = some (-a.nFees) ∧
    (completeBlock ctx reward a).vTxSigOps[0]? = some ctx.coinbaseSigOps := by
  obtain ⟨⟨h1, h2⟩, h3, h4, h5⟩ := h
  have l3 : 0 < a.vtx.length := by
    by_contra hc
    rw [List.getElem?_eq_none (by omega)] at h3
    cases h3
  unfold completeBlock
  refine ⟨⟨?_, ?_⟩, ?_, ?_, ?_⟩
  · simp [h1]
  · simp [h2]
  · show (a.vtx.set 0 _)[0]? = _
    rw [List.getElem?_set_self l3]
  · show (a.vTxFees.set 0 _)[0]? = _
    rw [List.getElem?_set_self (by omega)]
  · show (a.vTxSigOps.set 0 _)[0]? = _
    rw [List.getElem?_set_self (by omega)]

/-- A template that `CreateNewBlock` returns is the completed block of the state in which
the selection ended, passed through the proof-of-stake path. -/
theorem CreateNewBlock_returned (mp : CTxMemPool) (cfg : Params) (ctx : ChainContext)
    (a : BlockAssembler) (t : CBlockTemplate)
    (h : CreateNewBlock mp cfg ctx a = CreateNewBlockResult.returned t) :
    ∃ a1, stakePath ctx (selection mp cfg ctx a).toBlockAssembler = some a1 ∧
      t.vtx = (completeBlock ctx (blockReward ctx (selection mp cfg ctx a).toBlockAssembler)
        a1).vtx ∧
      t.vTxFees = (completeBlock ctx (blockReward ctx (selection mp cfg ctx a).toBlockAssembler)
        a1).vTxFees ∧
      t.vTxSigOps = (completeBlock ctx
        (blockReward ctx (selection mp cfg ctx a).toBlockAssembler) a1).vTxSigOps := by
  unfold CreateNewBlock at h
  simp only [] at h
  split at h
  · cases h
  · split at h
    · cases h
    · cases hs : stakePath ctx (selection mp cfg ctx a).toBlockAssembler with
      | none => rw [hs] at h; cases h
      | some a1 =>
        rw [hs] at h
        simp only [] at h
        injection h with h
        refine ⟨a1, rfl, ?_, ?_, ?_⟩ <;> rw [← h]

/-- The paid fees of the entries committed so far. -/
theorem run_nFees (mp : CTxMemPool) (cfg : Params) (a : BlockAssembler) (np nd k : Nat) :
    (run mp cfg k (addPackageTxsInit mp a np nd)).nFees = a.nFees +
      ((committedEntries (run mp cfg k (addPackageTxsInit mp a np nd))).map
        (fun it => (mp.entry it).nFee)).sum := by
  unfold committedEntries
  apply run_commit_invariant mp cfg (fun b c =>
    b.nFees = a.nFees + (((c.map (fun r => r.sortedEntries)).flatten).map
      (fun it => (mp.entry it).nFee)).sum)
  · intro s s0 iter f ps pf pso hQ hasm hcom _ _ _ _
    have e : s0.nFees = s.nFees := by
      show s0.toBlockAssembler.nFees = s.toBlockAssembler.nFees
      rw [hasm]
    rw [commitPackage_nFees, commitPackage_committed, hcom, e, hQ]
    simp [List.sum_append]
    ring
  · simp [addPackageTxsInit]

/-- The version of `powHeader` has no proof-of-stake bit. -/
theorem powHeader_IsProofOfStake : powHeader.IsProofOfStake = false := by decide

/-- The assembler that `addPackageTxs` receives before the special-transaction rules. -/
theorem beforeSelection_plainContext (subsidy : Int) (a : BlockAssembler) :
    beforeSelection (plainContext subsidy) a = freshAssembler := by
  have hp : (plainContext subsidy).pblock.IsProofOfStake = false := powHeader_IsProofOfStake
  unfold beforeSelection addCommitments reserveCoinstake
  rw [hp]
  rfl

/-- The template of a proof-of-work block before the special-transaction rules. -/
theorem CreateNewBlock_plain (mp : CTxMemPool) (cfg : Params) (ctx : ChainContext)
    (a : BlockAssembler) (hp : ctx.pblock.IsProofOfStake = false)
    (hd : ctx.fDIP0003Active_context = false)
    (hs : (selection mp cfg ctx a).status ≠ LoopStatus.assertFailed) :
    CreateNewBlock mp cfg ctx a = CreateNewBlockResult.returned
      { vtx := (selection mp cfg ctx a).vtx.set 0
          (CTransactionRef.coinbase (blockReward ctx (selection mp cfg ctx a).toBlockAssembler)),
        vTxFees := (selection mp cfg ctx a).vTxFees.set 0 (-(selection mp cfg ctx a).nFees),
        vTxSigOps := (selection mp cfg ctx a).vTxSigOps.set 0 ctx.coinbaseSigOps,
        sign_block := false } := by
  unfold CreateNewBlock
  simp only []
  rw [if_neg hs]
  unfold stakePath
  simp [hp, hd, completeBlock]

/-- The selection before the special-transaction rules starts from `freshAssembler`. -/
theorem selection_plainContext (mp : CTxMemPool) (cfg : Params) (subsidy : Int)
    (a : BlockAssembler) :
    selection mp cfg (plainContext subsidy) a = addPackageTxs mp cfg freshAssembler 0 0 := by
  unfold selection
  rw [beforeSelection_plainContext]

/-- Scenario 2: the state in which the selection ends. -/
theorem twoFeeratesPool_selection :
    (addPackageTxs twoFeeratesPool (paramsOf 2000000 1) freshAssembler 0 0).status =
      LoopStatus.exhausted ∧
    (addPackageTxs twoFeeratesPool (paramsOf 2000000 1) freshAssembler 0 0).vtx =
      [CTransactionRef.null, CTransactionRef.pool 1, CTransactionRef.pool 0] ∧
    (addPackageTxs twoFeeratesPool (paramsOf 2000000 1) freshAssembler 0 0).vTxFees =
      [-1, 1000, 200] ∧
    (addPackageTxs twoFeeratesPool (paramsOf 2000000 1) freshAssembler 0 0).vTxSigOps =
      [-1, 0, 0] ∧
    (addPackageTxs twoFeeratesPool (paramsOf 2000000 1) freshAssembler 0 0).nFees = 1200 := by
  decide

/-- Scenario 2: the template that `CreateNewBlock` returns. -/
theorem twoFeeratesPool_template (subsidy : Int) (a : BlockAssembler) :
    CreateNewBlock twoFeeratesPool (paramsOf 2000000 1) (plainContext subsidy) a =
      CreateNewBlockResult.returned
        { vtx := [CTransactionRef.coinbase (1200 + subsidy), CTransactionRef.pool 1,
            CTransactionRef.pool 0],
          vTxFees := [-1200, 1000, 200], vTxSigOps := [1, 0, 0], sign_block := false } := by
  obtain ⟨h1, h2, h3, h4, h5⟩ := twoFeeratesPool_selection
  have e := selection_plainContext twoFeeratesPool (paramsOf 2000000 1) subsidy a
  rw [← e] at h1 h2 h3 h4 h5
  rw [CreateNewBlock_plain _ _ _ _ powHeader_IsProofOfStake rfl (by rw [h1]; decide)]
  unfold blockReward
  rw [h2, h3, h4, h5]
  rfl

/-- C12: in every run of `CreateNewBlock`, `nFees` after the selection is the sum of the paid
fees `nFee` (not of the modified fees) of the mempool entries committed by `AddToBlock`; the
value assigned to output 0 of the coinbase before the payments split is that sum plus
`GetBlockSubsidy(tip.nBits, tip.nHeight)`, and a returned template carries it in slot 0 with
the fee `-nFees`.  For the two independent transactions of scenario 2 the template is
coinbase, T2, T1 with coinbase value subsidy + 1200. -/
theorem C12_fees_and_coinbase_value (mp : CTxMemPool) (cfg : Params) (ctx : ChainContext)
    (a : BlockAssembler) :
    (selection mp cfg ctx a).nFees =
      ((committedEntries (selection mp cfg ctx a)).map (fun it => (mp.entry it).nFee)).sum ∧
    blockReward ctx (selection mp cfg ctx a).toBlockAssembler =
      ((committedEntries (selection mp cfg ctx a)).map (fun it => (mp.entry it).nFee)).sum +
        ctx.GetBlockSubsidy ctx.tipBits ctx.tipHeight ∧
    (∀ t, CreateNewBlock mp cfg ctx a = CreateNewBlockResult.returned t →
      t.vtx[0]? = some (CTransactionRef.coinbase
        (((committedEntries (selection mp cfg ctx a)).map (fun it => (mp.entry it).nFee)).sum +
          ctx.GetBlockSubsidy ctx.tipBits ctx.tipHeight)) ∧
      t.vTxFees[0]? = some
        (-((committedEntries (selection mp cfg ctx a)).map (fun it => (mp.entry it).nFee)).sum)) ∧
    (∀ subsidy : Int,
      CreateNewBlock twoFeeratesPool (paramsOf 2000000 1) (plainContext subsidy) a =
        CreateNewBlockResult.returned
          { vtx := [CTransactionRef.coinbase (1200 + subsidy), CTransactionRef.pool 1,
              CTransactionRef.pool 0],
            vTxFees := [-1200, 1000, 200], vTxSigOps := [1, 0, 0], sign_block := false }) := by
  have hfees : (selection mp cfg ctx a).nFees =
      ((committedEntries (selection mp cfg ctx a)).map (fun it => (mp.entry it).nFee)).sum := by
    unfold selection addPackageTxs
    rw [run_nFees, beforeSelection_nFees]
    simp
  have hreward : blockReward ctx (selection mp cfg ctx a).toBlockAssembler =
      ((committedEntries (selection mp cfg ctx a)).map (fun it => (mp.entry it).nFee)).sum +
        ctx.GetBlockSubsidy ctx.tipBits ctx.tipHeight := by
    unfold blockReward
    rw [← hfees]
  refine ⟨hfees, hreward, ?_, fun subsidy => twoFeeratesPool_template subsidy a⟩
  intro t ht
  obtain ⟨a1, hs, hv, hf, _⟩ := CreateNewBlock_returned mp cfg ctx a t ht
  have hsel : Aligned (selection mp cfg ctx a).toBlockAssembler ∧
      SlotReserved (selection mp cfg ctx a).toBlockAssembler 0 := by
    unfold selection addPackageTxs
    rw [run_assembler_fold]
    have h := foldl_forall (fun p => Aligned p ∧ SlotReserved p 0 ∧ (False → SlotReserved p 1))
      (AddToBlock mp) (fun b x hb => AddToBlock_keeps mp b x False hb)
      (committedEntries (run mp cfg (fuelBound mp)
        (addPackageTxsInit mp (beforeSelection ctx a) 0 0))) (beforeSelection ctx a)
      ⟨(beforeSelection_keeps ctx a).1, (beforeSelection_keeps ctx a).2.1, fun h => h.elim⟩
    exact ⟨h.1, h.2.1⟩
  obtain ⟨_, c2, c3, _⟩ := completeBlock_keeps ctx
    (blockReward ctx (selection mp cfg ctx a).toBlockAssembler) a1
    (stakePath_keeps ctx _ a1 hs hsel)
  rw [hv, hf, c2, c3, hreward, stakePath_nFees ctx _ a1 hs]
  have e : (selection mp cfg ctx a).toBlockAssembler.nFees = (selection mp cfg ctx a).nFees := rfl
  rw [e, hfees]
  exact ⟨rfl, rfl⟩

/-- C12 on scenario 2 with subsidy 5000: fees 1200, coinbase value 6200. -/
theorem C12_fees_and_coinbase_value_witness :
    (selection twoFeeratesPool (paramsOf 2000000 1) (plainContext 5000) freshAssembler).nFees =
      1200 ∧
    CreateNewBlock twoFeeratesPool (paramsOf 2000000 1) (plainContext 5000) freshAssembler =
      CreateNewBlockResult.returned
        { vtx := [CTransactionRef.coinbase 6200, CTransactionRef.pool 1, CTransactionRef.pool 0],
          vTxFees := [-1200, 1000, 200], vTxSigOps := [1, 0, 0], sign_block := false } :=
  ⟨(C12_fees_and_coinbase_value twoFeeratesPool (paramsOf 2000000 1) (plainContext 5000)
      freshAssembler).1.trans (by decide),
    (C12_fees_and_coinbase_value twoFeeratesPool (paramsOf 2000000 1) (plainContext 5000)
      freshAssembler).2.2.2 5000⟩

/-- C18: for every decodable block with a coinbase the result of `submitblock` is
"duplicate" when the hash is indexed with valid scripts, "duplicate-invalid" when it is
indexed (without valid scripts) with a failed status, and for a hash indexed otherwise
"duplicate-inconclusive" when the block was accepted and no `BlockChecked` callback was seen,
"duplicate" in every other case; for a hash that is not indexed it is "inconclusive" when no
callback was seen, else `null` for a valid captured state and the reject reason ("rejected"
when empty) for an invalid one.  An error state, a decode failure and a missing coinbase
raise an RPC error. -/
theorem C18_submitblock_result (i : SubmitBlockInput) :
    (i.decoded = false → submitblock i =
      Except.error ⟨RPCErrorCode.RPC_DESERIALIZATION_ERROR, "Block decode failed"⟩) ∧
    (i.decoded = true → i.HasCoinBase = false → submitblock i =
      Except.error ⟨RPCErrorCode.RPC_DESERIALIZATION_ERROR,
        "Block does not start with a coinbase"⟩) ∧
    (i.decoded = true → i.HasCoinBase = true →
      (∀ st, i.pindex = some st → st.validScripts = true →
        submitblock i = Except.ok (UniValue.str "duplicate")) ∧
      (∀ st, i.pindex = some st → st.validScripts = false → st.failed = true →
        submitblock i = Except.ok (UniValue.str "duplicate-invalid")) ∧
      (∀ st, i.pindex = some st → st.validScripts = false → st.failed = false →
        submitblock i =
          if i.fAccepted = true ∧ i.found = false then
            Except.ok (UniValue.str "duplicate-inconclusive")
          else Except.ok (UniValue.str "duplicate")) ∧
      (i.pindex = none → i.found = false →
        submitblock i = Except.ok (UniValue.str "inconclusive")) ∧
      (i.pindex = none → i.found = true → i.state.IsValid = true →
        submitblock i = Except.ok UniValue.null) ∧
      (i.pindex = none → i.found = true → i.state.IsValid = false → i.state.IsError = false →
        i.state.IsInvalid = true →
        submitblock i = Except.ok (UniValue.str
          (if i.state.GetRejectReason.isEmpty then "rejected" else i.state.GetRejectReason))) ∧
      (i.pindex = none → i.found = true → i.state.IsValid = false → i.state.IsError = true →
        submitblock i =
          Except.error ⟨RPCErrorCode.RPC_VERIFY_ERROR, i.state.GetRejectReason⟩)) := by
  refine ⟨?_, ?_, ?_⟩
  · intro h
    simp [submitblock, h]
  · intro h1 h2
    simp [submitblock, h1, h2]
  · intro h1 h2
    refine ⟨?_, ?_, ?_, ?_, ?_, ?_, ?_⟩
    · intro st hp hv
      simp [submitblock, h1, h2, hp, hv]
    · intro st hp hv hf
      simp [submitblock, h1, h2, hp, hv, hf]
    · intro st hp hv hf
      simp [submitblock, h1, h2, hp, hv, hf]
    · intro hp hf
      simp [submitblock, h1, h2, hp, hf]
    · intro hp hf hv
      simp [submitblock, h1, h2, hp, hf, BIP22ValidationResult, hv]
    · intro hp hf hv he hi
      simp [submitblock, h1, h2, hp, hf, BIP22ValidationResult, hv, he, hi]
      split <;> rfl
    · intro hp hf hv he
      simp [submitblock, h1, h2, hp, hf, BIP22ValidationResult, hv, he]

/-- C18 on a block that is not indexed and is rejected with the reason "bad-txns". -/
theorem C18_submitblock_result_witness :
    submitblock rejectedSubmission = Except.ok (UniValue.str "bad-txns") :=
  ((C18_submitblock_result rejectedSubmission).2.2 rfl rfl).2.2.2.2.2.1 rfl rfl rfl rfl rfl

/-! ## The tries of `generateBlocks` -/

/-- The nonce loop uses one try per nonce and ends at `nInnerLoopCount` at the latest. -/
theorem grind_spec (cp : Nat → Bool) (fuel nMaxTries nNonce : Nat)
    (h : nNonce ≤ nInnerLoopCount) :
    (grind cp fuel nMaxTries nNonce).1 + (grind cp fuel nMaxTries nNonce).2 =
      nMaxTries + nNonce ∧
    (grind cp fuel nMaxTries nNonce).2 ≤ nInnerLoopCount ∧
    nNonce ≤ (grind cp fuel nMaxTries nNonce).2 := by
  induction fuel generalizing nMaxTries nNonce with
  | zero => exact ⟨rfl, h, le_refl _⟩
  | succ fuel ih =>
    unfold grind
    split
    · rename_i hc
      have hlt : nNonce < nInnerLoopCount := hc.2.1
      have e : (nNonce + 1) % U32 = nNonce + 1 := by
        unfold nInnerLoopCount at hlt
        simp only [U32]
        omega
      rw [e]
      obtain ⟨h1, h2, h3⟩ := ih (nMaxTries - 1) (nNonce + 1) (by omega)
      refine ⟨?_, h2, by omega⟩
      have := hc.1
      omega
    · exact ⟨rfl, h, le_refl _⟩

/-- A state whose loop has ended is left as it is. -/
theorem generateStep_of_not_running (C : Nat → Option MiningTemplate) (nHeightEnd : Int)
    (s : GenerateState) (h : s.status ≠ GenerateStatus.running) :
    generateStep C nHeightEnd s = s := by
  unfold generateStep
  cases hs : s.status with
  | running => exact absurd hs h
  | returned => rfl
  | threw => rfl

/-- What one pass of the loop keeps when `nMaxTries` is positive on entry: the tries used and
the tries left add up to the same number, a running loop has tries left, the number of hashes
is the number of blocks added and stays within the number asked for, and every hash is the
hash of a block that `ProcessNewBlock` accepted. -/
theorem generateStep_invariant (C : Nat → Option MiningTemplate) (h0 nGenerate : Int)
    (total : Nat) (htotal : total < U64) (s : GenerateState)
    (h1 : s.nTried + s.nMaxTries = total)
    (h2 : s.status = GenerateStatus.running → 1 ≤ s.nMaxTries)
    (h3 : (s.blockHashes.length : Int) = s.nHeight - h0)
    (h4 : s.nHeight ≤ max h0 (h0 + nGenerate))
    (h5 : ∀ h ∈ s.blockHashes, ∃ j t n, C j = some t ∧ t.ProcessNewBlock = true ∧
      h = t.GetHash n) :
    (generateStep C (h0 + nGenerate) s).nTried + (generateStep C (h0 + nGenerate) s).nMaxTries =
      total ∧
    ((generateStep C (h0 + nGenerate) s).status = GenerateStatus.running →
      1 ≤ (generateStep C (h0 + nGenerate) s).nMaxTries) ∧
    (((generateStep C (h0 + nGenerate) s).blockHashes.length : Int) =
      (generateStep C (h0 + nGenerate) s).nHeight - h0) ∧
    (generateStep C (h0 + nGenerate) s).nHeight ≤ max h0 (h0 + nGenerate) ∧
    (∀ h ∈ (generateStep C (h0 + nGenerate) s).blockHashes,
      ∃ j t n, C j = some t ∧ t.ProcessNewBlock = true ∧ h = t.GetHash n) := by
  by_cases hrun : s.status = GenerateStatus.running
  swap
  · rw [generateStep_of_not_running C _ s hrun]
    exact ⟨h1, h2, h3, h4, h5⟩
  have hpos := h2 hrun
  have hsub : ∀ (t : MiningTemplate) (n : Nat) (s1 : GenerateState),
      C s.nTemplates = some t → s.nHeight < h0 + nGenerate →
      s1.nTried + s1.nMaxTries = total → 1 ≤ s1.nMaxTries →
      s1.blockHashes = s.blockHashes → s1.nHeight = s.nHeight →
      (submitGenerated t n s1).nTried + (submitGenerated t n s1).nMaxTries = total ∧
      ((submitGenerated t n s1).status = GenerateStatus.running →
        1 ≤ (submitGenerated t n s1).nMaxTries) ∧
      (((submitGenerated t n s1).blockHashes.length : Int) =
        (submitGenerated t n s1).nHeight - h0) ∧
      (submitGenerated t n s1).nHeight ≤ max h0 (h0 + nGenerate) ∧
      (∀ h ∈ (submitGenerated t n s1).blockHashes,
        ∃ j t n, C j = some t ∧ t.ProcessNewBlock = true ∧ h = t.GetHash n) := by
    intro t n s1 hC hlt g1 g2 g3 g4
    unfold submitGenerated
    by_cases hp : t.ProcessNewBlock = true
    · rw [if_pos hp]
      refine ⟨g1, fun _ => g2, ?_, ?_, ?_⟩
      · simp only [List.length_append, List.length_singleton, g3, g4]
        push_cast
        omega
      · simp only [g4]
        have := le_max_right h0 (h0 + nGenerate)
        omega
      · intro h hh
        simp only [g3] at hh
        rcases List.mem_append.mp hh with hh | hh
        · exact h5 h hh
        · rw [List.mem_singleton] at hh
          exact ⟨s.nTemplates, t, n, hC, hp, hh⟩
    · rw [if_neg hp]
      refine ⟨g1, fun _ => g2, ?_, ?_, ?_⟩
      · simp only [g3, g4]; exact h3
      · simp only [g4]; exact h4
      · simp only [g3]; exact h5
  unfold generateStep
  rw [hrun]
  simp only []
  by_cases hlt : s.nHeight < h0 + nGenerate
  swap
  · rw [if_neg hlt]
    exact ⟨h1, (fun hc => by cases hc), h3, h4, h5⟩
  rw [if_pos hlt]
  cases hC : C s.nTemplates with
  | none => exact ⟨h1, (fun hc => by cases hc), h3, h4, h5⟩
  | some t =>
    simp only []
    by_cases hw : t.IsProofOfWork = true
    · rw [if_pos hw]
      obtain ⟨e1, e2, _⟩ := grind_spec t.CheckProof nInnerLoopCount s.nMaxTries 0 (Nat.zero_le _)
      generalize grind t.CheckProof nInnerLoopCount s.nMaxTries 0 = g at e1 e2 ⊢
      by_cases hz : g.1 = 0
      · rw [if_pos hz]
        refine ⟨?_, (fun hc => by cases hc), h3, h4, h5⟩
        show s.nTried + g.2 + g.1 = total
        omega
      · rw [if_neg hz]
        by_cases hn : g.2 = nInnerLoopCount
        · rw [if_pos hn]
          refine ⟨?_, fun _ => ?_, h3, h4, h5⟩
          · show s.nTried + g.2 + g.1 = total
            omega
          · show 1 ≤ g.1
            omega
        · rw [if_neg hn]
          apply hsub t g.2 _ hC hlt
          · show s.nTried + g.2 + g.1 = total
            omega
          · show 1 ≤ g.1
            omega
          · rfl
          · rfl
    · rw [if_neg hw]
      by_cases hcp : t.CheckProof 0 = false
      · rw [if_pos hcp]
        have e : (s.nMaxTries + (U64 - 1)) % U64 = s.nMaxTries - 1 := by
          simp only [U64] at htotal ⊢
          omega
        simp only [e]
        by_cases hz : s.nMaxTries - 1 = 0
        · rw [if_pos hz]
          refine ⟨?_, (fun hc => by cases hc), h3, h4, h5⟩
          show s.nTried + 1 + (s.nMaxTries - 1) = total
          omega
        · rw [if_neg hz]
          refine ⟨?_, fun _ => ?_, h3, h4, h5⟩
          · show s.nTried + 1 + (s.nMaxTries - 1) = total
            omega
          · show 1 ≤ s.nMaxTries - 1
            omega
      · rw [if_neg hcp]
        exact hsub t 0 _ hC hlt h1 hpos rfl rfl

/-- With `1 <= nMaxTries < 2^64`, after any number of passes of the loop `generateBlocks` has
ground at most `nMaxTries` nonces and failed proof checks in total, its array holds at most
`nGenerate` hashes, and each of them is the hash of a block that `ProcessNewBlock`
accepted. -/
theorem generateBlocks_bounds (C : Nat → Option MiningTemplate) (h0 nGenerate : Int)
    (nMaxTries : Nat) (hpos : 1 ≤ nMaxTries) (hlt : nMaxTries < U64) (k : Nat) :
    (generateBlocks C h0 nGenerate nMaxTries k).nTried ≤ nMaxTries ∧
    (generateBlocks C h0 nGenerate nMaxTries k).blockHashes.length ≤ nGenerate.toNat ∧
    (∀ h ∈ (generateBlocks C h0 nGenerate nMaxTries k).blockHashes,
      ∃ j t n, C j = some t ∧ t.ProcessNewBlock = true ∧ h = t.GetHash n) := by
  have inv : ∀ k,
      (generateBlocks C h0 nGenerate nMaxTries k).nTried +
        (generateBlocks C h0 nGenerate nMaxTries k).nMaxTries = nMaxTries ∧
      ((generateBlocks C h0 nGenerate nMaxTries k).status = GenerateStatus.running →
        1 ≤ (generateBlocks C h0 nGenerate nMaxTries k).nMaxTries) ∧
      (((generateBlocks C h0 nGenerate nMaxTries k).blockHashes.length : Int) =
        (generateBlocks C h0 nGenerate nMaxTries k).nHeight - h0) ∧
      (generateBlocks C h0 nGenerate nMaxTries k).nHeight ≤ max h0 (h0 + nGenerate) ∧
      (∀ h ∈ (generateBlocks C h0 nGenerate nMaxTries k).blockHashes,
        ∃ j t n, C j = some t ∧ t.ProcessNewBlock = true ∧ h = t.GetHash n) := by
    intro k
    induction k with
    | zero =>
      refine ⟨?_, fun _ => hpos, ?_, le_max_left _ _, ?_⟩
      · show 0 + nMaxTries = nMaxTries
        omega
      · show ((0 : Nat) : Int) = h0 - h0
        omega
      · intro h hh
        cases hh
    | succ k ih =>
      obtain ⟨a1, a2, a3, a4, a5⟩ := ih
      exact generateStep_invariant C h0 nGenerate nMaxTries hlt _ a1 a2 a3 a4 a5
  obtain ⟨a1, _, a3, a4, a5⟩ := inv k
  refine ⟨by omega, ?_, a5⟩
  rcases le_total h0 (h0 + nGenerate) with hm | hm
  · rw [max_eq_right hm] at a4
    omega
  · rw [max_eq_left hm] at a4
    omega

/-- C19, the code at the failing input `nGenerate = 1`, `nMaxTries = 0` with three
proof-of-stake templates whose proof check fails, followed by a good one: the first failed
check decrements `nMaxTries` from 0 to `2^64 - 1`, the loop goes on, and the call returns one
hash after 3 failed proof checks, more than `nMaxTries`. -/
theorem C19_generateBlocks_zero_tries_wrap :
    (generateBlocks stakeTemplates 100 1 0 1).nMaxTries = 18446744073709551615 ∧
    (generateBlocks stakeTemplates 100 1 0 1).status = GenerateStatus.running ∧
    (generateBlocks stakeTemplates 100 1 0 5).status = GenerateStatus.returned ∧
    (generateBlocks stakeTemplates 100 1 0 5).blockHashes = [12] ∧
    (generateBlocks stakeTemplates 100 1 0 5).nTried = 3 := by
  decide

/-- The bounds on a proof-of-work run with `nMaxTries = 10`: three nonces are ground and the
hash of the accepted block is returned. -/
theorem generateBlocks_bounds_example :
    (generateBlocks (fun _ => some goodWork) 100 1 10 2).nTried = 3 ∧
    (generateBlocks (fun _ => some goodWork) 100 1 10 2).blockHashes = [103] ∧
    (generateBlocks (fun _ => some goodWork) 100 1 10 2).status = GenerateStatus.returned ∧
    (generateBlocks (fun _ => some goodWork) 100 1 10 2).nTried ≤ 10 :=
  ⟨by decide, by decide, by decide,
    (generateBlocks_bounds (fun _ => some goodWork) 100 1 10 (by decide) (by decide) 2).1⟩

/-! ## The `depends` arrays of `getblocktemplate` -/

/-- The invariant of the loop is kept by a pass for a transaction that is no coinbase, has
no input spending itself and no input spending the first transaction of the block. -/
theorem transactionsStep_inv (cb : CTransaction) (r : List CTransaction) (s : TransactionsLoop)
    (tx : CTransaction) (h : TransactionsInv (cb :: r) s) (hcb : tx.IsCoinBase = false)
    (hself : tx.GetHash ∉ tx.vin) (hncb : cb.GetHash ∉ tx.vin) :
    TransactionsInv (cb :: r ++ [tx]) (transactionsStep s tx) := by
  obtain ⟨h1, h2, h3, h4⟩ := h
  have hstep : transactionsStep s tx =
      { i := s.i + 1,
        setTxIndex := fun h => if h = tx.GetHash then some s.i else s.setTxIndex h,
        transactions := s.transactions ++
          [{ hash := tx.GetHash,
             depends := tx.vin.filterMap
               (fun h => if h = tx.GetHash then some s.i else s.setTxIndex h),
             index_in_template := s.i }] } := by
    unfold transactionsStep
    simp [hcb]
  rw [hstep]
  have hlast : (cb :: r ++ [tx])[(cb :: r).length]? = some tx := by
    rw [List.getElem?_append_right (le_refl _)]
    simp
  refine ⟨?_, ?_, ?_, ?_⟩
  · show s.i + 1 = (cb :: r ++ [tx]).length
    rw [List.length_append, h1]
    rfl
  · intro k j hk
    simp only [] at hk
    by_cases e : k = tx.GetHash
    · rw [if_pos e] at hk
      injection hk with hk
      rw [← hk, h1]
      exact ⟨tx, hlast, e.symm⟩
    · rw [if_neg e] at hk
      obtain ⟨t, ht1, ht2⟩ := h2 k j hk
      exact ⟨t, getElem?_append_of_some _ _ _ _ ht1, ht2⟩
  · intro q e hq
    simp only [] at hq
    by_cases hlt : q < s.transactions.length
    · rw [List.getElem?_append_left hlt] at hq
      obtain ⟨t, ht1, ht2, ht3, ht4⟩ := h3 q e hq
      refine ⟨t, getElem?_append_of_some _ _ _ _ ht1, ht2, ht3, ?_⟩
      intro d hd
      obtain ⟨g1, g2, t1, g3, g4⟩ := ht4 d hd
      exact ⟨g1, g2, t1, getElem?_append_of_some _ _ _ _ g3, g4⟩
    · rw [List.getElem?_append_right (by omega)] at hq
      have hq0 : q = s.transactions.length := by
        by_contra hc
        have : 1 ≤ q - s.transactions.length := by omega
        rw [List.getElem?_eq_none (by simp; omega)] at hq
        cases hq
      rw [hq0] at hq ⊢
      simp only [Nat.sub_self, List.getElem?_cons_zero] at hq
      injection hq with hq
      rw [← hq]
      have hidx : s.transactions.length + 1 = (cb :: r).length := h4
      refine ⟨tx, ?_, rfl, ?_, ?_⟩
      · rw [hidx]; exact hlast
      · show s.i = s.transactions.length + 1
        rw [h1, hidx]
      · intro d hd
        simp only [List.mem_filterMap] at hd
        obtain ⟨k, hk1, hk2⟩ := hd
        have hne : k ≠ tx.GetHash := fun e => hself (e ▸ hk1)
        rw [if_neg hne] at hk2
        obtain ⟨t, ht1, ht2⟩ := h2 k d hk2
        have hdlt : d < (cb :: r).length := by
          by_contra hc
          rw [List.getElem?_eq_none (by omega)] at ht1
          cases ht1
        refine ⟨?_, by omega, t, getElem?_append_of_some _ _ _ _ ht1, ht2 ▸ hk1⟩
        by_contra hc
        have hd0 : d = 0 := by omega
        rw [hd0] at ht1
        simp only [List.getElem?_cons_zero] at ht1
        injection ht1 with ht1
        rw [← ht1] at ht2
        exact hncb (ht2 ▸ hk1)
  · show (s.transactions ++ [_]).length + 1 = (cb :: r ++ [tx]).length
    rw [List.length_append, List.length_append, ← h4]
    rfl

/-- The invariant of the loop holds after any further transactions of that kind. -/
theorem foldl_transactionsStep_inv (cb : CTransaction) (l r : List CTransaction)
    (s : TransactionsLoop) (h : TransactionsInv (cb :: r) s)
    (hl : ∀ tx ∈ l, tx.IsCoinBase = false ∧ tx.GetHash ∉ tx.vin ∧ cb.GetHash ∉ tx.vin) :
    TransactionsInv (cb :: (r ++ l)) (l.foldl transactionsStep s) := by
  induction l generalizing r s with
  | nil => simpa using h
  | cons tx l ih =>
    obtain ⟨a1, a2, a3⟩ := hl tx (List.mem_cons_self _ _)
    have hstep := transactionsStep_inv cb r s tx h a1 a2 a3
    have := ih (r ++ [tx]) (transactionsStep s tx) (by simpa using hstep)
      (fun t ht => hl t (List.mem_cons_of_mem _ ht))
    simpa using this

/-- C20: for a template block whose first transaction is its only coinbase (and in which no
transaction spends itself or that coinbase), the `transactions` array of `getblocktemplate`
has one entry per transaction behind the coinbase, in order; every entry `d` of the
`depends` array of the entry at 1-based position `q + 1` satisfies `1 <= d < q + 1`, and the
entry at 1-based position `d` has the hash of the prevout of one of the inputs of that
transaction; no entry of a `depends` array is 0, the position of the coinbase in the block. -/
theorem C20_depends_one_based (cb : CTransaction) (rest : List CTransaction)
    (hcb : cb.IsCoinBase = true) (hrest : ∀ tx ∈ rest, tx.IsCoinBase = false)
    (hself : ∀ tx ∈ rest, tx.GetHash ∉ tx.vin) (hncb : ∀ tx ∈ rest, cb.GetHash ∉ tx.vin) :
    (templateTransactions (cb :: rest)).length = rest.length ∧
    (∀ q e, (templateTransactions (cb :: rest))[q]? = some e →
      ∃ tx, rest[q]? = some tx ∧ e.hash = tx.GetHash ∧ e.index_in_template = q + 1 ∧
        ∀ d ∈ e.depends, 1 ≤ d ∧ d < q + 1 ∧
          ∃ e1, (templateTransactions (cb :: rest))[d - 1]? = some e1 ∧ e1.hash ∈ tx.vin) := by
  have h0 : TransactionsInv (cb :: [])
      (transactionsStep { i := 0, setTxIndex := fun _ => none, transactions := [] } cb) := by
    unfold transactionsStep
    simp only [hcb, if_true]
    refine ⟨rfl, ?_, ?_, rfl⟩
    · intro h j hj
      simp only [] at hj
      by_cases e : h = cb.GetHash
      · rw [if_pos e] at hj
        injection hj with hj
        rw [← hj]
        exact ⟨cb, rfl, e.symm⟩
      · rw [if_neg e] at hj
        cases hj
    · intro q e hq
      simp at hq
  have hinv := foldl_transactionsStep_inv cb rest [] _ h0
    (fun tx ht => ⟨hrest tx ht, hself tx ht, hncb tx ht⟩)
  have hT : templateTransactions (cb :: rest) =
      (rest.foldl transactionsStep (transactionsStep
        { i := 0, setTxIndex := fun _ => none, transactions := [] } cb)).transactions := rfl
  rw [hT]
  simp only [List.nil_append] at hinv
  obtain ⟨_, _, h3, h4⟩ := hinv
  generalize (rest.foldl transactionsStep (transactionsStep
    { i := 0, setTxIndex := fun _ => none, transactions := [] } cb)).transactions = T at h3 h4 ⊢
  have hlen : T.length = rest.length := by
    simp only [List.length_cons] at h4
    omega
  refine ⟨hlen, ?_⟩
  intro q e hq
  obtain ⟨tx, ht1, ht2, ht3, ht4⟩ := h3 q e hq
  refine ⟨tx, by simpa using ht1, ht2, ht3, ?_⟩
  intro d hd
  obtain ⟨g1, g2, t1, g3, g4⟩ := ht4 d hd
  have hqlt : q < T.length := by
    by_contra hc
    rw [List.getElem?_eq_none (by omega)] at hq
    cases hq
  have hd1 : d - 1 < T.length := by omega
  obtain ⟨e1, he1⟩ : ∃ e1, T[d - 1]? = some e1 := ⟨T[d - 1], List.getElem?_eq_getElem hd1⟩
  obtain ⟨t2, k1, k2, _, _⟩ := h3 (d - 1) e1 he1
  have hdd : d - 1 + 1 = d := by omega
  rw [hdd, g3] at k1
  injection k1 with k1
  refine ⟨g1, g2, e1, he1, ?_⟩
  rw [k2, ← k1]
  exact g4

/-- C20 on `dependsBlock`: the third transaction behind the coinbase depends on the
transactions at 1-based positions 2 and 1. -/
theorem C20_depends_one_based_witness :
    templateTransactions dependsBlock =
      [{ hash := 901, depends := [], index_in_template := 1 },
       { hash := 902, depends := [1], index_in_template := 2 },
       { hash := 903, depends := [2, 1], index_in_template := 3 }] ∧
    (templateTransactions dependsBlock).length = 3 :=
  ⟨by decide,
    (C20_depends_one_based ⟨900, true, [0]⟩ [⟨901, false, [77]⟩, ⟨902, false, [901, 78]⟩,
      ⟨903, false, [902, 901]⟩] rfl (by decide) (by decide) (by decide)).1⟩

/-! ## Serialisation of the block header -/

/-- A field of width `k` takes `k` bytes. -/
theorem length_toLE (k n : Nat) : (toLE k n).length = k := by
  induction k generalizing n with
  | zero => rfl
  | succ k ih => simp [toLE, ih]

/-- Reading the bytes of a field gives its value modulo `256^k`. -/
theorem fromLE_toLE (k n : Nat) : fromLE (toLE k n) = n % 256 ^ k := by
  induction k generalizing n with
  | zero => simp [toLE, fromLE, Nat.mod_one]
  | succ k ih =>
    simp only [toLE, fromLE, ih]
    rw [pow_succ, mul_comm (256 ^ k) 256, Nat.mod_mul]

/-- A field is read back from any stream that starts with its bytes. -/
theorem readLE_toLE (k n : Nat) (rest : List Nat) (h : n < 256 ^ k) :
    readLE k (toLE k n ++ rest) = some (n, rest) := by
  unfold readLE
  have hl := length_toLE k n
  rw [if_neg (by rw [List.length_append]; omega)]
  rw [List.take_append_of_le_length (by omega), List.take_of_length_le (by omega),
    List.drop_append_of_le_length (by omega), List.drop_of_length_le (by omega), fromLE_toLE,
    Nat.mod_eq_of_lt h]
  rfl

/-- An `int32_t` survives the conversion to `uint32_t` and back. -/
theorem toInt32_toUInt32 (v : Int) (h1 : -2147483648 ≤ v) (h2 : v < 2147483648) :
    toInt32 (toUInt32 v) = v := by
  unfold toInt32 toUInt32
  simp only [U32]
  split <;> omega

/-- The conversion to `uint32_t` gives a 32-bit value. -/
theorem toUInt32_lt (v : Int) : toUInt32 v < 256 ^ 4 := by
  unfold toUInt32
  simp only [U32]
  omega

/-- The base header occupies exactly 80 bytes. -/
theorem baseBytes_length (h : CBlockHeader) : h.baseBytes.length = 80 := by
  unfold CBlockHeader.baseBytes
  simp [length_toLE]

/-- `IsProofOfStake` depends on the version only. -/
theorem IsProofOfStake_congr (h1 h2 : CBlockHeader) (h : h1.nVersion = h2.nVersion) :
    h1.IsProofOfStake = h2.IsProofOfStake := by
  unfold CBlockHeader.IsProofOfStake
  rw [h]

/-- Reading a header from a network or disk stream that starts with the serialisation of `h`
gives the base fields of `h`; the proof-of-stake fields are those of `h` when `h` has the
proof-of-stake bit (and the public key is reset), and are left as they were otherwise. -/
theorem Unserialize_Serialize (sig : Codec (List Nat)) (nType : Nat) (h h0 : CBlockHeader)
    (rest : List Nat) (hr : h.InRange) (ht : nType &&& SER_GETHASH = 0)
    (hs : h.IsProofOfStake = true → sig.RoundTrips h.posBlockSig) :
    CBlockHeader.Unserialize sig nType h0 (h.Serialize sig nType ++ rest) =
      some (if h.IsProofOfStake then { h with posPubKey := none }
        else { h with posStakeHash := h0.posStakeHash, posStakeN := h0.posStakeN,
                      posBlockSig := h0.posBlockSig, posPubKey := h0.posPubKey }, rest) := by
  obtain ⟨r1, r2, r3, r4, r5, r6, r7, r8, r9⟩ := hr
  unfold CBlockHeader.Unserialize CBlockHeader.Serialize CBlockHeader.baseBytes
  simp only [List.append_assoc]
  rw [readLE_toLE 4 _ _ (toUInt32_lt _)]
  simp only [Option.some_bind]
  rw [readLE_toLE 32 _ _ r3]
  simp only [Option.some_bind]
  rw [readLE_toLE 32 _ _ r4]
  simp only [Option.some_bind]
  rw [readLE_toLE 4 _ _ r5]
  simp only [Option.some_bind]
  rw [readLE_toLE 4 _ _ r6]
  simp only [Option.some_bind]
  rw [readLE_toLE 4 _ _ r7]
  simp only [Option.some_bind, toInt32_toUInt32 _ r1 r2]
  have hp : CBlockHeader.IsProofOfStake
      { h0 with nVersion := h.nVersion, hashPrevBlock := h.hashPrevBlock,
                hashMerkleRoot := h.hashMerkleRoot, nTime := h.nTime, nBits := h.nBits,
                nNonce := h.nNonce } = h.IsProofOfStake :=
    IsProofOfStake_congr _ _ rfl
  rw [hp]
  by_cases hpos : h.IsProofOfStake = true
  · simp only [hpos, if_true]
    unfold CBlockHeader.posBytes
    simp only [List.append_assoc, ht, if_true]
    rw [readLE_toLE 32 _ _ r8]
    simp only [Option.some_bind]
    rw [readLE_toLE 4 _ _ r9]
    simp only [Option.some_bind]
    rw [hs hpos rest]
    simp only [Option.some_bind]
  · simp only [hpos]
    simp

/-- The writer leaves exactly the data when the data is at least as long as the vector. -/
theorem CVectorWriter_zero (vchData data : List Nat) (h : vchData.length ≤ data.length) :
    CVectorWriter vchData 0 data = data := by
  unfold CVectorWriter
  simp [List.drop_of_length_le h]

/-- The serialisation of a header is at least 80 bytes long. -/
theorem Serialize_length (sig : Codec (List Nat)) (nType : Nat) (h : CBlockHeader) :
    80 ≤ (h.Serialize sig nType).length := by
  unfold CBlockHeader.Serialize
  rw [List.length_append, baseBytes_length]
  omega

/-- The bytes hashed by `GetHash` are the network serialisation of the header. -/
theorem hashedBytes_eq (sig : Codec (List Nat)) (h : CBlockHeader) :
    h.hashedBytes sig = h.Serialize sig SER_NETWORK := by
  unfold CBlockHeader.hashedBytes
  apply CVectorWriter_zero
  rw [List.length_replicate]
  exact Serialize_length sig SER_NETWORK h

/-- For a proof-of-work header `GetHash` is `HashX11` of the 80 bytes of the base header. -/
theorem GetHash_proofOfWork (HashX11 : List Nat → Nat) (sig : Codec (List Nat))
    (h : CBlockHeader) (hp : h.IsProofOfStake = false) :
    h.GetHash HashX11 sig = HashX11 h.baseBytes ∧ h.baseBytes.length = 80 := by
  unfold CBlockHeader.GetHash
  rw [hashedBytes_eq]
  unfold CBlockHeader.Serialize
  simp [hp, baseBytes_length]

/-- For a proof-of-stake header `GetHash` is `HashX11` of the base header followed by
`posStakeHash`, `posStakeN` and the encoded `posBlockSig`: at least 116 bytes. -/
theorem GetHash_proofOfStake (HashX11 : List Nat → Nat) (sig : Codec (List Nat))
    (h : CBlockHeader) (hp : h.IsProofOfStake = true) :
    h.GetHash HashX11 sig = HashX11 (h.baseBytes ++ (toLE 32 h.posStakeHash ++
      toLE 4 h.posStakeN ++ sig.write h.posBlockSig)) ∧
    116 ≤ (h.hashedBytes sig).length := by
  have e : h.hashedBytes sig = h.baseBytes ++ (toLE 32 h.posStakeHash ++
      toLE 4 h.posStakeN ++ sig.write h.posBlockSig) := by
    rw [hashedBytes_eq]
    unfold CBlockHeader.Serialize CBlockHeader.posBytes
    rw [if_pos hp, if_pos (by decide)]
  refine ⟨?_, ?_⟩
  · unfold CBlockHeader.GetHash
    rw [e]
  · rw [e]
    simp only [List.length_append, baseBytes_length, length_toLE]
    omega

/-- C16: for every block `b` (with fields of their machine types, with transactions that
their codec reads back and, in a proof-of-stake block, a signature that its codec reads
back), deserialising the network or disk serialisation of `b`
into a freshly constructed block consumes the whole stream and yields the same `nVersion`,
`hashPrevBlock`, `hashMerkleRoot`, `nTime`, `nBits`, `nNonce` and transactions; when
`nVersion` has the proof-of-stake bit it also yields the same `posStakeHash`, `posStakeN`
and `posBlockSig`, otherwise these fields are null as in a fresh block; the hash is the same;
the base header occupies exactly 80 bytes, and the proof-of-stake extension is written
exactly when the bit is set. -/
theorem C16_block_round_trip (HashX11 : List Nat → Nat) (sig : Codec (List Nat))
    (txs : Codec (List CTransaction)) (nType : Nat) (b : CBlock)
    (hr : b.toCBlockHeader.InRange) (ht : nType = SER_NETWORK ∨ nType = SER_DISK)
    (hs : b.IsProofOfStake = true → sig.RoundTrips b.posBlockSig)
    (hv : txs.RoundTrips b.vtx) :
    ∃ b1, CBlock.Unserialize sig txs nType CBlock.SetNull (b.Serialize sig txs nType) =
        some (b1, []) ∧
      b1.nVersion = b.nVersion ∧ b1.hashPrevBlock = b.hashPrevBlock ∧
      b1.hashMerkleRoot = b.hashMerkleRoot ∧ b1.nTime = b.nTime ∧ b1.nBits = b.nBits ∧
      b1.nNonce = b.nNonce ∧ b1.vtx = b.vtx ∧
      (b.IsProofOfStake = true → b1.posStakeHash = b.posStakeHash ∧
        b1.posStakeN = b.posStakeN ∧ b1.posBlockSig = b.posBlockSig) ∧
      (b.IsProofOfStake = false → b1.posStakeHash = 0 ∧ b1.posStakeN = 0 ∧
        b1.posBlockSig = []) ∧
      b1.toCBlockHeader.GetHash HashX11 sig = b.toCBlockHeader.GetHash HashX11 sig ∧
      b.baseBytes.length = 80 ∧
      b.Serialize sig txs nType = b.baseBytes ++
        (if b.IsProofOfStake then b.toCBlockHeader.posBytes sig nType else []) ++
        txs.write b.vtx := by
  have hty : nType &&& SER_GETHASH = 0 := by
    rcases ht with h | h <;> rw [h] <;> decide
  have hu := Unserialize_Serialize sig nType b.toCBlockHeader CBlockHeader.SetNull
    (txs.write b.vtx) hr hty hs
  have hv0 := hv []
  rw [List.append_nil] at hv0
  have hread : ∀ h1, CBlockHeader.Unserialize sig nType CBlockHeader.SetNull
      (b.toCBlockHeader.Serialize sig nType ++ txs.write b.vtx) = some (h1, txs.write b.vtx) →
      CBlock.Unserialize sig txs nType CBlock.SetNull (b.Serialize sig txs nType) =
        some ({ CBlock.SetNull with toCBlockHeader := h1, vtx := b.vtx }, []) := by
    intro h1 hh
    unfold CBlock.Unserialize CBlock.Serialize
    have e : CBlock.SetNull.toCBlockHeader = CBlockHeader.SetNull := rfl
    rw [e, hh]
    simp only [Option.some_bind]
    rw [hv0]
    simp only [Option.some_bind]
  by_cases hp : b.IsProofOfStake = true
  · rw [if_pos hp] at hu
    refine ⟨_, hread _ hu, rfl, rfl, rfl, rfl, rfl, rfl, rfl, fun _ => ⟨rfl, rfl, rfl⟩,
      (fun hc => by rw [hp] at hc; cases hc), ?_, baseBytes_length _, ?_⟩
    · unfold CBlockHeader.GetHash
      rw [hashedBytes_eq, hashedBytes_eq]
      rfl
    · unfold CBlock.Serialize CBlockHeader.Serialize
      rw [if_pos hp]
  · have hp0 : b.IsProofOfStake = false := by
      cases hb : b.IsProofOfStake
      · rfl
      · exact absurd hb hp
    rw [if_neg hp] at hu
    refine ⟨_, hread _ hu, rfl, rfl, rfl, rfl, rfl, rfl, rfl,
      (fun hc => by rw [hp0] at hc; cases hc), fun _ => ⟨rfl, rfl, rfl⟩, ?_,
      baseBytes_length _, ?_⟩
    · rw [(GetHash_proofOfWork HashX11 sig b.toCBlockHeader hp0).1]
      rw [(GetHash_proofOfWork HashX11 sig _ (by
        rw [← hp0]; exact IsProofOfStake_congr _ _ rfl)).1]
      rfl
    · unfold CBlock.Serialize CBlockHeader.Serialize
      rw [hp0]

set_option maxRecDepth 100000 in
/-- C16 on `stakeBlock`, a proof-of-stake block with a signature and a coinbase, serialised
for the network: 121 bytes of header and 3 of transactions, read back in full. -/
theorem C16_block_round_trip_witness :
    CBlock.Unserialize shortBytes coinbaseOnly SER_NETWORK CBlock.SetNull
        (stakeBlock.Serialize shortBytes coinbaseOnly SER_NETWORK) =
      some ({ stakeBlock with posPubKey := none, fChecked := false }, []) ∧
    (stakeBlock.Serialize shortBytes coinbaseOnly SER_NETWORK).length = 123 ∧
    stakeBlock.baseBytes.length = 80 := by
  obtain ⟨b1, _, _, _, _, _, _, _, _, _, _, _, h3, _⟩ := C16_block_round_trip plainHash
    shortBytes coinbaseOnly SER_NETWORK stakeBlock (by unfold CBlockHeader.InRange; decide)
    (Or.inl rfl) (by intro _ rest; simp [shortBytes, stakeBlock])
    (by intro rest; simp [coinbaseOnly, stakeBlock])
  exact ⟨by decide, by decide, h3⟩

set_option maxRecDepth 100000 in
/-- C17, the code at the failing input `stakeHeader` (a proof-of-stake header without a
signature): `GetHash` hashes 117 bytes, the base header followed by `posStakeHash`,
`posStakeN` and the encoded `posBlockSig`, not the 80 bytes of the base header; a header that
differs only in `posStakeN` has other hashed bytes and another hash; `SignBlock` succeeds,
the bytes hashed after the signature has been filled in differ from those hashed for
signing, and `CheckBlockSignature` with the signing key fails. -/
theorem C17_GetHash_covers_stake_extension :
    (stakeHeader.hashedBytes shortBytes).length = 117 ∧
    stakeHeader.hashedBytes shortBytes ≠ stakeHeader.baseBytes ∧
    stakeHeaderOther.hashedBytes shortBytes ≠ stakeHeader.hashedBytes shortBytes ∧
    stakeHeaderOther.GetHash plainHash shortBytes ≠ stakeHeader.GetHash plainHash shortBytes ∧
    (stakeHeader.SignBlock plainHash shortBytes (fun pub => pub) (fun id => some id)
      plainSignCompact).1 = true ∧
    signedStakeHeader.hashedBytes shortBytes ≠ stakeHeader.hashedBytes shortBytes ∧
    signedStakeHeader.GetHash plainHash shortBytes ≠ stakeHeader.GetHash plainHash shortBytes ∧
    (signedStakeHeader.CheckBlockSignature plainHash shortBytes (fun pub => pub)
      plainRecoverCompact 5).1 = false := by
  decide

/-! ## Upsert semantics of `UpdatePackagesForAdded` -/

/-- The count returned by the inner loop: one for every descendant outside `P`. -/
theorem foldl_updateDescendant_fst (mp : CTxMemPool) (P : List Nat) (X : Nat) (L : List Nat)
    (acc : Nat × indexed_modified_transaction_set) :
    (L.foldl (updateDescendant mp P X) acc).1 =
      acc.1 + (L.filter (fun D => decide (D ∉ P))).length := by
  induction L generalizing acc with
  | nil => simp
  | cons d L ih =>
    simp only [List.foldl_cons]
    rw [ih]
    unfold updateDescendant
    by_cases hd : d ∈ P
    · simp [hd]
    · simp [hd]
      omega

/-- The count returned by the outer loop. -/
theorem foldl_updateForAdded_fst (mp : CTxMemPool) (P L : List Nat)
    (acc : Nat × indexed_modified_transaction_set) :
    (L.foldl (updateForAdded mp P) acc).1 =
      acc.1 + (L.map (fun X =>
        ((mp.CalculateDescendants X).filter (fun D => decide (D ∉ P))).length)).sum := by
  induction L generalizing acc with
  | nil => simp
  | cons X L ih =>
    simp only [List.foldl_cons, List.map_cons, List.sum_cons]
    rw [ih]
    unfold updateForAdded
    rw [foldl_updateDescendant_fst]
    omega

/-- One upsert: the row (or, when absent, a row made from the stored aggregates) with the
contribution of `X` subtracted. -/
theorem adjustRow_spec (mp : CTxMemPool) (D X : Nat) (row : Option CTxMemPoolModifiedEntry) :
    ∃ r1, adjustRow mp D row X = some r1 ∧
      r1.nModFeesWithAncestors =
        (row.getD (mp.modifiedEntryOf D)).nModFeesWithAncestors - (mp.entry X).nModifiedFee ∧
      ((mp.entry X).nTxSize ≤ (row.getD (mp.modifiedEntryOf D)).nSizeWithAncestors →
        (row.getD (mp.modifiedEntryOf D)).nSizeWithAncestors < U64 →
        r1.nSizeWithAncestors =
          (row.getD (mp.modifiedEntryOf D)).nSizeWithAncestors - (mp.entry X).nTxSize) ∧
      ((mp.entry X).sigOpCount ≤ (row.getD (mp.modifiedEntryOf D)).nSigOpCountWithAncestors →
        (row.getD (mp.modifiedEntryOf D)).nSigOpCountWithAncestors < U32 →
        r1.nSigOpCountWithAncestors =
          (row.getD (mp.modifiedEntryOf D)).nSigOpCountWithAncestors -
            (mp.entry X).sigOpCount) := by
  refine ⟨_, rfl, rfl, ?_, ?_⟩
  · intro h1 h2
    show ((row.getD (mp.modifiedEntryOf D)).nSizeWithAncestors +
      (U64 - (mp.entry X).nTxSize % U64)) % U64 = _
    generalize (row.getD (mp.modifiedEntryOf D)).nSizeWithAncestors = a at h1 h2 ⊢
    generalize (mp.entry X).nTxSize = b at h1 ⊢
    simp only [U64] at h2 ⊢
    omega
  · intro h1 h2
    show ((row.getD (mp.modifiedEntryOf D)).nSigOpCountWithAncestors +
      (U32 - (mp.entry X).sigOpCount % U32)) % U32 = _
    generalize (row.getD (mp.modifiedEntryOf D)).nSigOpCountWithAncestors = a at h1 h2 ⊢
    generalize (mp.entry X).sigOpCount = b at h1 ⊢
    simp only [U32] at h2 ⊢
    omega

/-- C22: `UpdatePackagesForAdded` applies upsert semantics.  The row of an entry `D` outside
`alreadyAdded` is the old row (a row made from the stored aggregates of `D` when there was
none) with one adjustment applied for every `X` in `alreadyAdded` that has `D` among its
descendants, the adjustments of several `X` accumulating in the order of the set; one
adjustment subtracts the size, the modified fee and the sigop count of `X`; the rows of
entries without such an `X`, and of the entries of `alreadyAdded`, are unchanged; the count
returned is the number of pairs `(X, D)` with `X` in `alreadyAdded` and `D` a descendant of
`X` outside `alreadyAdded`. -/
theorem C22_upsert_semantics (mp : CTxMemPool) (alreadyAdded : List Nat)
    (m : indexed_modified_transaction_set) :
    (∀ D, D ∉ alreadyAdded →
      (UpdatePackagesForAdded mp alreadyAdded m).2 D =
        (alreadyAdded.filter (fun X => decide (D ∈ mp.CalculateDescendants X))).foldl
          (adjustRow mp D) (m D)) ∧
    (∀ D X row, ∃ r1, adjustRow mp D row X = some r1 ∧
      r1.nModFeesWithAncestors =
        (row.getD (mp.modifiedEntryOf D)).nModFeesWithAncestors - (mp.entry X).nModifiedFee ∧
      ((mp.entry X).nTxSize ≤ (row.getD (mp.modifiedEntryOf D)).nSizeWithAncestors →
        (row.getD (mp.modifiedEntryOf D)).nSizeWithAncestors < U64 →
        r1.nSizeWithAncestors =
          (row.getD (mp.modifiedEntryOf D)).nSizeWithAncestors - (mp.entry X).nTxSize) ∧
      ((mp.entry X).sigOpCount ≤ (row.getD (mp.modifiedEntryOf D)).nSigOpCountWithAncestors →
        (row.getD (mp.modifiedEntryOf D)).nSigOpCountWithAncestors < U32 →
        r1.nSigOpCountWithAncestors =
          (row.getD (mp.modifiedEntryOf D)).nSigOpCountWithAncestors -
            (mp.entry X).sigOpCount)) ∧
    (∀ D, D ∉ alreadyAdded → (∀ X ∈ alreadyAdded, D ∉ mp.CalculateDescendants X) →
      (UpdatePackagesForAdded mp alreadyAdded m).2 D = m D) ∧
    (∀ D, D ∈ alreadyAdded → (UpdatePackagesForAdded mp alreadyAdded m).2 D = m D) ∧
    (UpdatePackagesForAdded mp alreadyAdded m).1 =
      (alreadyAdded.map (fun X =>
        ((mp.CalculateDescendants X).filter
          (fun D => decide (D ∉ alreadyAdded))).length)).sum := by
  refine ⟨?_, adjustRow_spec mp, ?_, ?_, ?_⟩
  · intro D hD
    rw [UpdatePackagesForAdded_snd, if_neg hD]
  · intro D hD hno
    rw [UpdatePackagesForAdded_snd, if_neg hD]
    have e : alreadyAdded.filter (fun X => decide (D ∈ mp.CalculateDescendants X)) = [] := by
      rw [List.filter_eq_nil_iff]
      intro X hX
      simp [hno X hX]
    rw [e]
    rfl
  · intro D hD
    rw [UpdatePackagesForAdded_snd, if_pos hD]
  · unfold UpdatePackagesForAdded
    rw [foldl_updateForAdded_fst]
    simp

/-- C22 on `twoParentsPool` with both parents added: the child gets a row made from its
stored aggregates (size 10200, fees 101100) reduced by both parents, and the count is 2. -/
theorem C22_upsert_semantics_witness :
    (UpdatePackagesForAdded twoParentsPool [0, 2] emptyModified).2 1 =
      some { nSizeWithAncestors := 10000, nModFeesWithAncestors := 100000,
             nSigOpCountWithAncestors := 0 } ∧
    (UpdatePackagesForAdded twoParentsPool [0, 2] emptyModified).1 = 2 :=
  ⟨((C22_upsert_semantics twoParentsPool [0, 2] emptyModified).1 1 (by decide)).trans
      (by decide),
    (C22_upsert_semantics twoParentsPool [0, 2] emptyModified).2.2.2.2.trans (by decide)⟩

/-! ## The failure counter -/

/-- A candidate rejected by the resource gate: the failure path, the counter incremented,
and the loop given up when the counter exceeds `MAX_CONSECUTIVE_FAILURES` and the block is
within 1000 bytes of the limit. -/
theorem evaluateCandidate_full (mp : CTxMemPool) (cfg : Params) (s : SelectorState)
    (iter : Nat) (f : Bool) (ps : Nat) (pf : Int) (pso : Nat) (h1 : iter ∉ s.inBlock)
    (h2 : ¬ pf < cfg.blockMinFeeRate.GetFee ps)
    (h3 : TestPackage cfg s.nBlockSize s.nBlockSigOps ps pso = false) :
    evaluateCandidate mp cfg s iter f ps pf pso =
      { markFailed s iter f with
        nConsecutiveFailed := s.nConsecutiveFailed + 1,
        status := if MAX_CONSECUTIVE_FAILURES < s.nConsecutiveFailed + 1 ∧
            (cfg.nBlockMaxSize + (U32 - 1000)) % U32 < s.nBlockSize then LoopStatus.gaveUp
          else s.status } := by
  unfold evaluateCandidate
  simp only [h1, h2, h3, if_false, if_true]
  have e1 : (markFailed s iter f).nConsecutiveFailed = s.nConsecutiveFailed :=
    markFailed_nConsecutiveFailed s iter f
  have e2 : (markFailed s iter f).nBlockSize = s.nBlockSize := by
    show (markFailed s iter f).toBlockAssembler.nBlockSize = _
    rw [markFailed_toBlockAssembler]
  have e3 : (markFailed s iter f).status = s.status := markFailed_status s iter f
  simp only [e1, e2]
  split
  · rfl
  · simp only [e3]

/-- C26: for a candidate that reaches the gates (not in the block, not below the minimum
feerate), `nConsecutiveFailed` is incremented by one when the resource gate rejects it, is
left unchanged when the validity gate rejects it, and is reset to 0 when it is committed.
The loop gives up exactly when, after a rejection by the resource gate, the incremented
counter exceeds 1000 and `nBlockSize > nBlockMaxSize - 1000` (in `unsigned int`, which is the
plain difference for `1000 <= nBlockMaxSize < 2^32`); the other two outcomes leave the status
of the loop alone, and no iteration of the loop gives up in another way. -/
theorem C26_failure_counter (mp : CTxMemPool) (cfg : Params) (s : SelectorState)
    (iter : Nat) (f : Bool) (ps : Nat) (pf : Int) (pso : Nat) (h1 : iter ∉ s.inBlock)
    (h2 : ¬ pf < cfg.blockMinFeeRate.GetFee ps) :
    (TestPackage cfg s.nBlockSize s.nBlockSigOps ps pso = false →
      (evaluateCandidate mp cfg s iter f ps pf pso).nConsecutiveFailed =
        s.nConsecutiveFailed + 1 ∧
      (evaluateCandidate mp cfg s iter f ps pf pso).status =
        (if 1000 < s.nConsecutiveFailed + 1 ∧
            (cfg.nBlockMaxSize + (U32 - 1000)) % U32 < s.nBlockSize then LoopStatus.gaveUp
         else s.status) ∧
      (evaluateCandidate mp cfg s iter f ps pf pso).committed = s.committed) ∧
    (TestPackage cfg s.nBlockSize s.nBlockSigOps ps pso = true →
      TestPackageTransactions mp (packageOf mp s.inBlock iter) = false →
      (evaluateCandidate mp cfg s iter f ps pf pso).nConsecutiveFailed = s.nConsecutiveFailed ∧
      (evaluateCandidate mp cfg s iter f ps pf pso).status = s.status ∧
      (evaluateCandidate mp cfg s iter f ps pf pso).committed = s.committed) ∧
    (TestPackage cfg s.nBlockSize s.nBlockSigOps ps pso = true →
      TestPackageTransactions mp (packageOf mp s.inBlock iter) = true →
      (evaluateCandidate mp cfg s iter f ps pf pso).nConsecutiveFailed = 0 ∧
      (evaluateCandidate mp cfg s iter f ps pf pso).status = s.status ∧
      (evaluateCandidate mp cfg s iter f ps pf pso).committed ≠ s.committed) ∧
    (1000 ≤ cfg.nBlockMaxSize → cfg.nBlockMaxSize < U32 →
      (cfg.nBlockMaxSize + (U32 - 1000)) % U32 = cfg.nBlockMaxSize - 1000) ∧
    (∀ t : SelectorState, t.status = LoopStatus.running →
      (step mp cfg t).status = LoopStatus.gaveUp →
      (step mp cfg t).nConsecutiveFailed = t.nConsecutiveFailed + 1 ∧
      1000 < (step mp cfg t).nConsecutiveFailed ∧
      (cfg.nBlockMaxSize + (U32 - 1000)) % U32 < (step mp cfg t).nBlockSize) := by
  refine ⟨?_, ?_, ?_, ?_, ?_⟩
  · intro h3
    rw [evaluateCandidate_full mp cfg s iter f ps pf pso h1 h2 h3]
    refine ⟨rfl, rfl, ?_⟩
    exact markFailed_committed s iter f
  · intro h3 h4
    rw [evaluateCandidate_invalid mp cfg s iter f ps pf pso h1 h2 h3 h4]
    exact ⟨markFailed_nConsecutiveFailed s iter f, markFailed_status s iter f,
      markFailed_committed s iter f⟩
  · intro h3 h4
    rw [evaluateCandidate_commit mp cfg s iter f ps pf pso h1 h2 h3 h4]
    refine ⟨commitPackage_nConsecutiveFailed _ _ _ _ _ _ _ _, commitPackage_status _ _ _ _ _ _ _ _,
      ?_⟩
    rw [commitPackage_committed]
    intro hc
    have := congrArg List.length hc
    simp at this
  · intro h3 h4
    simp only [U32] at h4 ⊢
    omega
  · intro t ht
    apply step_eval_cases mp cfg (fun u => u.status = LoopStatus.gaveUp →
      u.nConsecutiveFailed = t.nConsecutiveFailed + 1 ∧ 1000 < u.nConsecutiveFailed ∧
      (cfg.nBlockMaxSize + (U32 - 1000)) % U32 < u.nBlockSize) t
    · intro hn; exact absurd ht hn
    · intro _ _ _ hc; cases hc
    · intro it rest _ _ _ hc
      rw [ht] at hc; cases hc
    · intro s0 it g qs qf qso _ hsrc
      have hs0 : s0.status = LoopStatus.running ∧ s0.nConsecutiveFailed = t.nConsecutiveFailed ∧
          s0.nBlockSize = t.nBlockSize := by
        rcases hsrc with ⟨_, e, _⟩ | ⟨_, rest, _, e, _⟩
        · rw [e]; exact ⟨ht, rfl, rfl⟩
        · rw [e]; exact ⟨ht, rfl, rfl⟩
      obtain ⟨r1, r2, r3⟩ := hs0
      intro hgu
      by_cases g1 : it ∈ s0.inBlock
      · have e : evaluateCandidate mp cfg s0 it g qs qf qso =
            { s0 with status := LoopStatus.assertFailed } := by
          unfold evaluateCandidate
          simp [g1]
        rw [e] at hgu; cases hgu
      by_cases g2 : qf < cfg.blockMinFeeRate.GetFee qs
      · rw [evaluateCandidate_return mp cfg s0 it g qs qf qso g1 g2] at hgu; cases hgu
      cases g3 : TestPackage cfg s0.nBlockSize s0.nBlockSigOps qs qso with
      | false =>
        rw [evaluateCandidate_full mp cfg s0 it g qs qf qso g1 g2 g3] at hgu ⊢
        simp only [] at hgu
        by_cases hcond : MAX_CONSECUTIVE_FAILURES < s0.nConsecutiveFailed + 1 ∧
            (cfg.nBlockMaxSize + (U32 - 1000)) % U32 < s0.nBlockSize
        · have hb : (markFailed s0 it g).nBlockSize = s0.nBlockSize := by
            show (markFailed s0 it g).toBlockAssembler.nBlockSize = _
            rw [markFailed_toBlockAssembler]
          refine ⟨?_, ?_, ?_⟩
          · show s0.nConsecutiveFailed + 1 = _
            rw [r2]
          · exact hcond.1
          · show (cfg.nBlockMaxSize + (U32 - 1000)) % U32 < (markFailed s0 it g).nBlockSize
            rw [hb]
            exact hcond.2
        · rw [if_neg hcond, r1] at hgu; cases hgu
      | true =>
        cases g4 : TestPackageTransactions mp (packageOf mp s0.inBlock it) with
        | false =>
          rw [evaluateCandidate_invalid mp cfg s0 it g qs qf qso g1 g2 g3 g4,
            markFailed_status, r1] at hgu
          cases hgu
        | true =>
          rw [evaluateCandidate_commit mp cfg s0 it g qs qf qso g1 g2 g3 g4,
            commitPackage_status, r1] at hgu
          cases hgu

set_option maxRecDepth 100000 in
/-- C26 on scenario 4 (`nBlockMaxSize` 1500): T1 is committed, T2 is rejected by the resource
gate, the counter is 1 and the loop ends without giving up. -/
theorem C26_failure_counter_witness :
    committedEntries (addPackageTxs resourceCapPool (paramsOf 1500 0) freshAssembler 0 0) = [0] ∧
    (addPackageTxs resourceCapPool (paramsOf 1500 0) freshAssembler 0 0).nConsecutiveFailed = 1 ∧
    (addPackageTxs resourceCapPool (paramsOf 1500 0) freshAssembler 0 0).status =
      LoopStatus.exhausted ∧
    (evaluateCandidate resourceCapPool (paramsOf 1500 0)
      (run resourceCapPool (paramsOf 1500 0) 1
        (addPackageTxsInit resourceCapPool freshAssembler 0 0)) 1 false 400 100
      0).nConsecutiveFailed = 0 + 1 :=
  ⟨by decide, by decide, by decide,
    ((C26_failure_counter resourceCapPool (paramsOf 1500 0)
      (run resourceCapPool (paramsOf 1500 0) 1
        (addPackageTxsInit resourceCapPool freshAssembler 0 0)) 1 false 400 100 0 (by decide)
      (by decide)).1 (by decide)).1⟩

/-! ## The choice of the candidate -/

set_option maxRecDepth 100000 in
/-- C25, the claim as stated fails: in `tiePool` after two iterations the parent 0 is in the
block, the mempool cursor stands at entry 1 and the best modified row is that of entry 2
with fees 200 and size 100; the stored aggregates of entry 1 are fees 400 and size 200, the
same feerate.  The third iteration commits the package anchored at entry 1 taken from the
mempool cursor (`fUsingModified = false`), not the modified row. -/
theorem C25_counterexample :
    (run tiePool (paramsOf 2000000 0) 2 (addPackageTxsInit tiePool freshAssembler 0 0)).mi =
      [1, 3] ∧
    modifiedBegin tiePool
      (run tiePool (paramsOf 2000000 0) 2
        (addPackageTxsInit tiePool freshAssembler 0 0)).mapModifiedTx =
      some (2, { nSizeWithAncestors := 100, nModFeesWithAncestors := 200,
                 nSigOpCountWithAncestors := 0 }) ∧
    (tiePool.entry 1).nModFeesWithAncestors = 400 ∧
    (tiePool.entry 1).nSizeWithAncestors = 200 ∧
    (200 : Int) * 200 = 400 * 100 ∧
    (run tiePool (paramsOf 2000000 0) 3
      (addPackageTxsInit tiePool freshAssembler 0 0)).committed =
      [{ iter := 0, fUsingModified := false, packageSize := 100, packageFees := 1000,
         packageSigOps := 0, sortedEntries := [0] },
       { iter := 1, fUsingModified := false, packageSize := 200, packageFees := 400,
         packageSigOps := 0, sortedEntries := [3, 1] }] := by
  decide

/-- The comparator on a row and a mempool entry: the higher feerate (by cross-multiplication)
sorts first, and a tie goes to the larger ancestor count, then to the smaller identity. -/
theorem CompareModifiedEntry_eq (mp : CTxMemPool) (M T : Nat × CTxMemPoolModifiedEntry) :
    CompareModifiedEntry mp M T =
      if M.2.nModFeesWithAncestors * (T.2.nSizeWithAncestors : Int) =
          T.2.nModFeesWithAncestors * (M.2.nSizeWithAncestors : Int) then
        decide ((mp.entry T.1).nCountWithAncestors < (mp.entry M.1).nCountWithAncestors ∨
          ((mp.entry M.1).nCountWithAncestors = (mp.entry T.1).nCountWithAncestors ∧
            M.1 < T.1))
      else decide (T.2.nModFeesWithAncestors * (M.2.nSizeWithAncestors : Int) <
        M.2.nModFeesWithAncestors * (T.2.nSizeWithAncestors : Int)) := by
  unfold CompareModifiedEntry scoreBefore
  by_cases h1 : M.2.nModFeesWithAncestors * (T.2.nSizeWithAncestors : Int) =
      T.2.nModFeesWithAncestors * (M.2.nSizeWithAncestors : Int)
  · rw [if_pos h1, if_pos h1]
    by_cases h2 : (mp.entry M.1).nCountWithAncestors = (mp.entry T.1).nCountWithAncestors
    · rw [if_pos h2]
      simp [h2]
    · rw [if_neg h2]
      simp [h2]
  · rw [if_neg h1, if_neg h1]

/-- C25 (amended): when the mempool cursor stands at an entry `it` that is not skipped and
the modified index has a best row `M`, the candidate is `M` (`fUsingModified = true`) when
the adjusted ancestor feerate of `M` is strictly higher than the stored ancestor feerate of
`it`, and the mempool entry when it is strictly lower; when the two feerates are equal the
tie-break of the comparator decides: `M` is the candidate exactly when its entry has the
larger ancestor count or, at equal counts, the smaller identity. -/
theorem C25_candidate_choice (mp : CTxMemPool) (cfg : Params) (s : SelectorState)
    (M : Nat × CTxMemPoolModifiedEntry) (it : Nat) (rest : List Nat)
    (hrun : s.status = LoopStatus.running) (hmi : s.mi = it :: rest)
    (hskip : SkipMapTxEntry it s.mapModifiedTx s.inBlock s.failedTx = false)
    (hb : modifiedBegin mp s.mapModifiedTx = some M) :
    ((mp.entry it).nModFeesWithAncestors * (M.2.nSizeWithAncestors : Int) <
        M.2.nModFeesWithAncestors * ((mp.entry it).nSizeWithAncestors : Int) →
      step mp cfg s = evaluateCandidate mp cfg s M.1 true M.2.nSizeWithAncestors
        M.2.nModFeesWithAncestors M.2.nSigOpCountWithAncestors) ∧
    (M.2.nModFeesWithAncestors * ((mp.entry it).nSizeWithAncestors : Int) <
        (mp.entry it).nModFeesWithAncestors * (M.2.nSizeWithAncestors : Int) →
      step mp cfg s = evaluateCandidate mp cfg { s with mi := rest } it false
        (mp.entry it).nSizeWithAncestors (mp.entry it).nModFeesWithAncestors
        (mp.entry it).nSigOpCountWithAncestors) ∧
    (M.2.nModFeesWithAncestors * ((mp.entry it).nSizeWithAncestors : Int) =
        (mp.entry it).nModFeesWithAncestors * (M.2.nSizeWithAncestors : Int) →
      step mp cfg s =
        if (mp.entry it).nCountWithAncestors < (mp.entry M.1).nCountWithAncestors ∨
            ((mp.entry M.1).nCountWithAncestors = (mp.entry it).nCountWithAncestors ∧
              M.1 < it) then
          evaluateCandidate mp cfg s M.1 true M.2.nSizeWithAncestors
            M.2.nModFeesWithAncestors M.2.nSigOpCountWithAncestors
        else
          evaluateCandidate mp cfg { s with mi := rest } it false
            (mp.entry it).nSizeWithAncestors (mp.entry it).nModFeesWithAncestors
            (mp.entry it).nSigOpCountWithAncestors) := by
  have hstep : step mp cfg s =
      if CompareModifiedEntry mp M (it, mp.modifiedEntryOf it) = true then
        evaluateModified mp cfg s M
      else evaluateMapTx mp cfg s it rest := by
    unfold step
    simp [hrun, hmi, hb, hskip]
  have hcmp := CompareModifiedEntry_eq mp M (it, mp.modifiedEntryOf it)
  have e1 : (mp.modifiedEntryOf it).nSizeWithAncestors = (mp.entry it).nSizeWithAncestors := rfl
  have e2 : (mp.modifiedEntryOf it).nModFeesWithAncestors =
      (mp.entry it).nModFeesWithAncestors := rfl
  simp only [e1, e2] at hcmp
  refine ⟨?_, ?_, ?_⟩
  · intro hlt
    have hv : CompareModifiedEntry mp M (it, mp.modifiedEntryOf it) = true := by
      rw [hcmp, if_neg (ne_of_gt hlt)]
      exact decide_eq_true hlt
    rw [hstep, if_pos hv]
    rfl
  · intro hlt
    have hv : ¬ CompareModifiedEntry mp M (it, mp.modifiedEntryOf it) = true := by
      rw [hcmp, if_neg (ne_of_lt hlt)]
      simp only [decide_eq_true_eq]
      exact not_lt.mpr (le_of_lt hlt)
    rw [hstep, if_neg hv]
    rfl
  · intro heq
    rw [hstep, hcmp, if_pos heq]
    by_cases hc : (mp.entry it).nCountWithAncestors < (mp.entry M.1).nCountWithAncestors ∨
        ((mp.entry M.1).nCountWithAncestors = (mp.entry it).nCountWithAncestors ∧ M.1 < it)
    · rw [if_pos (decide_eq_true hc), if_pos hc]
      rfl
    · rw [if_neg (by simpa using hc), if_neg hc]
      rfl

set_option maxRecDepth 100000 in
/-- C25 (amended) on `tiePool`: at the tie of the third iteration the counts are equal and
the row belongs to the entry with the larger identity, so the mempool entry is evaluated. -/
theorem C25_candidate_choice_witness :
    step tiePool (paramsOf 2000000 0)
        (run tiePool (paramsOf 2000000 0) 2 (addPackageTxsInit tiePool freshAssembler 0 0)) =
      evaluateCandidate tiePool (paramsOf 2000000 0)
        { run tiePool (paramsOf 2000000 0) 2 (addPackageTxsInit tiePool freshAssembler 0 0)
          with mi := [3] } 1 false 200 400 0 :=
  ((C25_candidate_choice tiePool (paramsOf 2000000 0)
    (run tiePool (paramsOf 2000000 0) 2 (addPackageTxsInit tiePool freshAssembler 0 0))
    (2, ⟨100, 200, 0⟩) 1 [3] (by decide) (by decide) (by decide) (by decide)).2.2
    (by decide)).trans (by rw [if_neg (by decide)]; rfl)

/-! ## The header time -/

/-- The time and the result of `UpdateTime`. -/
theorem UpdateTime_spec (pblock : CBlockHeader) (mtp adj : Int) (fmin : Bool)
    (gnwr : CBlockHeader → Nat) :
    (UpdateTime pblock mtp adj fmin gnwr).2 = max (mtp + 1) adj - (pblock.nTime : Int) ∧
    (max (mtp + 1) adj < (U32 : Int) →
      ((UpdateTime pblock mtp adj fmin gnwr).1.nTime : Int) =
        max (pblock.nTime : Int) (max (mtp + 1) adj) ∧
      pblock.nTime ≤ (UpdateTime pblock mtp adj fmin gnwr).1.nTime) := by
  refine ⟨rfl, ?_⟩
  intro hfit
  have hT : (UpdateTime pblock mtp adj fmin gnwr).1.nTime =
      if (pblock.nTime : Int) < max (mtp + 1) adj then toUInt32 (max (mtp + 1) adj)
      else pblock.nTime := by
    unfold UpdateTime
    simp only []
    by_cases h1 : (pblock.nTime : Int) < max (mtp + 1) adj <;> cases fmin <;> simp [h1]
  rw [hT]
  generalize max (mtp + 1) adj = n at hfit ⊢
  by_cases h1 : (pblock.nTime : Int) < n
  · rw [if_pos h1]
    have e : ((toUInt32 n : Nat) : Int) = n := by
      unfold toUInt32
      simp only [U32] at hfit ⊢
      omega
    refine ⟨?_, ?_⟩
    · rw [e]; omega
    · have : ((pblock.nTime : Nat) : Int) ≤ ((toUInt32 n : Nat) : Int) := by rw [e]; omega
      exact_mod_cast this
  · rw [if_neg h1]
    exact ⟨by omega, le_refl _⟩

/-- `UpdateTime` leaves the version alone. -/
theorem UpdateTime_nVersion (pblock : CBlockHeader) (mtp adj : Int) (fmin : Bool)
    (gnwr : CBlockHeader → Nat) :
    (UpdateTime pblock mtp adj fmin gnwr).1.nVersion = pblock.nVersion := by
  unfold UpdateTime
  simp only []
  by_cases h1 : (pblock.nTime : Int) < max (mtp + 1) adj <;> cases fmin <;> simp [h1]

/-! ## The miner drivers -/

/-- C28, the code at the failing inputs: after any call of `GenerateCosanta` the flag `isPoW`
is true exactly when no thread group existed before the call, whatever was requested.  A
stop request in the initial state leaves `isPoW` true; a start request with 2 threads while
workers exist leaves `isPoW` false although a new group of 2 workers has been created, so
the new workers find the condition of their loop false. -/
theorem C28_isPoW_after_GenerateCosanta :
    (∀ (fGenerate : Bool) (genproclimit : Int) (hardware_concurrency : Nat) (s : MinerControl),
      (GenerateCosanta fGenerate genproclimit hardware_concurrency s).isPoW =
        s.minerThreads.isNone) ∧
    (GenerateCosanta false 2 4 MinerControl.initial).isPoW = true ∧
    (GenerateCosanta false 2 4 MinerControl.initial).minerThreads = none ∧
    GenerateCosanta true 2 4 MinerControl.initial =
      { isPoW := true, isLastPoW := false, pow_cpu := 2, minerThreads := some 2 } ∧
    GenerateCosanta true 2 4 (GenerateCosanta true 2 4 MinerControl.initial) =
      { isPoW := false, isLastPoW := false, pow_cpu := 2, minerThreads := some 2 } := by
  refine ⟨?_, by decide, by decide, by decide, by decide⟩
  intro fGenerate genproclimit hc s
  unfold GenerateCosanta
  simp only []
  cases hm : s.minerThreads <;> simp only [] <;> split <;> (try split) <;> rfl

/-- In every iteration of `PoSMiner` the local `last_height` keeps the value `-1`. -/
theorem PoSMinerStep_last_height (s : PoSMinerState) (i : PoSMinerInput) :
    (PoSMinerStep s i).1.last_height = s.last_height := by
  unfold PoSMinerStep
  simp only []
  repeat' split
  all_goals rfl

/-- On entry to every iteration of `PoSMiner` the local `last_height` is `-1`. -/
theorem PoSMinerRun_last_height (inputs : List PoSMinerInput) :
    (PoSMinerRun inputs).last_height = -1 := by
  unfold PoSMinerRun
  induction inputs using List.reverseRecOn with
  | nil => rfl
  | append_singleton l i ih =>
    rw [List.foldl_append]
    simp only [List.foldl_cons, List.foldl_nil]
    rw [PoSMinerStep_last_height]
    exact ih

/-- An iteration entered with `last_height = -1` never takes the 5 second branch. -/
theorem PoSMinerStep_never_five (s : PoSMinerState) (i : PoSMinerInput)
    (h : s.last_height = -1) : (PoSMinerStep s i).2 ≠ PoSMinerAction.sleep_for 5 := by
  unfold PoSMinerStep
  simp only []
  repeat' split
  all_goals first
    | (intro hc; cases hc; done)
    | (rename_i hc; exfalso; have h1 := hc.1; simp only [] at h1; omega)

/-- C29, the code at the failing input: `last_height` is initialised to `-1` and never
assigned, and a tip height is not negative, so no iteration of `PoSMiner` sleeps 5 seconds,
whatever the earlier iterations read.  With the tip at the height of the previous kernel
attempt and the next attempt not yet due (clock 1000, last search at 1000, hash interval
22) the iteration calls `CreateNewBlock` again instead. -/
theorem C29_PoSMiner_backoff :
    (∀ (inputs : List PoSMinerInput) (i : PoSMinerInput),
      (PoSMinerStep (PoSMinerRun inputs) i).2 ≠ PoSMinerAction.sleep_for 5) ∧
    (PoSMinerStep PoSMinerState.initial notDueInput).2 = PoSMinerAction.CreateNewBlock ∧
    (PoSMinerStep (PoSMinerRun [notDueInput]) notDueInput).2 = PoSMinerAction.CreateNewBlock ∧
    (max notDueInput.nHashInterval 1 : Nat) = 22 ∧
    notDueInput.GetTime 2 - 22 < notDueInput.nLastCoinStakeSearchTime :=
  ⟨fun inputs i => PoSMinerStep_never_five _ i (PoSMinerRun_last_height inputs),
    by decide, by decide, by decide, by decide⟩

/-! ## The proof-of-work worker -/

/-- The nonce loop of the worker reads the flag at least once, ends at `nInnerLoopCount` at
the latest, and ends only when the last read of the flag was false, the nonces are used up,
or `CheckProof` holds at the final nonce; all earlier reads of the flag were true. -/
theorem workerGrind_spec (isPoW cp : Nat → Bool) (fuel nReads nNonce : Nat)
    (h : nNonce ≤ nInnerLoopCount) (hf : nInnerLoopCount + 1 ≤ fuel + nNonce) :
    nReads < (workerGrind isPoW cp fuel nReads nNonce).1 ∧
    (workerGrind isPoW cp fuel nReads nNonce).2 ≤ nInnerLoopCount ∧
    (isPoW ((workerGrind isPoW cp fuel nReads nNonce).1 - 1) = false ∨
      (workerGrind isPoW cp fuel nReads nNonce).2 = nInnerLoopCount ∨
      cp (workerGrind isPoW cp fuel nReads nNonce).2 = true) ∧
    (∀ r, nReads ≤ r → r + 1 < (workerGrind isPoW cp fuel nReads nNonce).1 →
      isPoW r = true) := by
  induction fuel generalizing nReads nNonce with
  | zero =>
    exfalso
    omega
  | succ fuel ih =>
    unfold workerGrind
    split
    · rename_i hc
      have hlt : nNonce < nInnerLoopCount := hc.2.1
      have e : (nNonce + 1) % U32 = nNonce + 1 := by
        unfold nInnerLoopCount at hlt
        simp only [U32]
        omega
      rw [e]
      obtain ⟨h1, h2, h3, h4⟩ := ih (nReads + 1) (nNonce + 1) (by omega) (by omega)
      refine ⟨by omega, h2, h3, ?_⟩
      intro r hr1 hr2
      by_cases hr : r = nReads
      · rw [hr]
        exact hc.1
      · exact h4 r (by omega) hr2
    · rename_i hc
      refine ⟨by simp, h, ?_, ?_⟩
      · show isPoW (nReads + 1 - 1) = false ∨ nNonce = nInnerLoopCount ∨ cp nNonce = true
        rw [Nat.add_sub_cancel]
        by_cases h1 : isPoW nReads = true
        · by_cases h2 : nNonce < nInnerLoopCount
          · right
            right
            cases h3 : cp nNonce
            · exact absurd ⟨h1, h2, h3⟩ hc
            · rfl
          · right
            left
            omega
        · left
          simpa using h1
      · intro r hr1 hr2
        exfalso
        simp only [] at hr2
        omega

/-- A pass of the worker loop only appends to the record of submissions and never reads
fewer times. -/
theorem workerStep_cases (e : WorkerEnv) (s : WorkerState) :
    s.nReads ≤ (workerStep e s).nReads ∧
    ((workerStep e s).submitted = s.submitted ∨
      ∃ n, (workerStep e s).submitted = s.submitted ++ [(s.nTemplates, n)] ∧
        (workerStep e s).status = WorkerStatus.running ∧
        (workerStep e s).nTemplates = s.nTemplates + 1 ∧
        ∃ t, e.CreateNewBlock s.nTemplates = some t ∧
          (t.IsProofOfWork = true →
            n = (workerGrind e.isPoW t.CheckProof (nInnerLoopCount + 1) (s.nReads + 1) 0).2 ∧
            n ≠ nInnerLoopCount ∧
            e.isPoW (workerGrind e.isPoW t.CheckProof (nInnerLoopCount + 1)
              (s.nReads + 1) 0).1 = true)) ∧
    s.nTemplates ≤ (workerStep e s).nTemplates ∧
    (workerStep e s).nTemplates ≤ s.nTemplates + 1 := by
  unfold workerStep
  cases hs : s.status with
  | left => exact ⟨le_refl _, Or.inl rfl, le_refl _, Nat.le_succ _⟩
  | running =>
    simp only []
    by_cases h0 : e.isPoW s.nReads = true
    · rw [if_pos h0]
      cases ht : e.CreateNewBlock s.nTemplates with
      | none => exact ⟨Nat.le_succ _, Or.inl rfl, le_refl _, Nat.le_succ _⟩
      | some t =>
        simp only []
        by_cases hp : t.IsProofOfWork = true
        · rw [if_pos hp]
          obtain ⟨g1, _, _, _⟩ := workerGrind_spec e.isPoW t.CheckProof (nInnerLoopCount + 1)
            (s.nReads + 1) 0 (Nat.zero_le _) (le_refl _)
          by_cases h1 : e.isPoW (workerGrind e.isPoW t.CheckProof (nInnerLoopCount + 1)
              (s.nReads + 1) 0).1 = false
          · rw [if_pos h1]
            exact ⟨by show s.nReads ≤ _ + 1; omega, Or.inl rfl, Nat.le_succ _, le_refl _⟩
          · rw [if_neg h1]
            by_cases h2 : (workerGrind e.isPoW t.CheckProof (nInnerLoopCount + 1)
                (s.nReads + 1) 0).2 = nInnerLoopCount
            · rw [if_pos h2]
              exact ⟨by show s.nReads ≤ _ + 1; omega, Or.inl rfl, Nat.le_succ _, le_refl _⟩
            · rw [if_neg h2]
              refine ⟨by show s.nReads ≤ _ + 1; omega, Or.inr ⟨_, rfl, rfl, rfl, t, rfl, ?_⟩,
                Nat.le_succ _, le_refl _⟩
              intro _
              exact ⟨rfl, h2, by simpa using h1⟩
        · rw [if_neg hp]
          by_cases hc : t.CheckProof 0 = false
          · rw [if_pos hc]
            split
            · exact ⟨by show s.nReads ≤ s.nReads + 1 + 1; omega, Or.inl rfl, Nat.le_succ _,
                le_refl _⟩
            · exact ⟨by show s.nReads ≤ s.nReads + 1 + 1; omega, Or.inl rfl, Nat.le_succ _,
                le_refl _⟩
          · rw [if_neg hc]
            refine ⟨Nat.le_succ _, Or.inr ⟨0, rfl, rfl, rfl, t, rfl, ?_⟩, Nat.le_succ _,
              le_refl _⟩
            intro hp2
            exact absurd hp2 hp
    · rw [if_neg h0]
      exact ⟨Nat.le_succ _, Or.inl rfl, le_refl _, Nat.le_succ _⟩

/-- In the worker loop of `CosantaMiner`, provided that the flag `isPoW`, once read false
by the worker, is read false afterwards (stopping is a one-shot flip): every block
handed to `ProcessNewBlock` from a proof-of-work template has a nonce below 65536 at which
`CheckProof` holds; a pass over a proof-of-work template with no proof among the 65536
nonces, with the flag staying set, submits nothing and goes on to the next template; and a
pass in which some read of the flag is false leaves the loop without submitting. -/
theorem worker_submits_only_proven_of_one_shot (e : WorkerEnv)
    (hstop : ∀ i j, i ≤ j → e.isPoW i = false → e.isPoW j = false) :
    (∀ k p, p ∈ (workerRun e k).submitted →
      ∃ t, e.CreateNewBlock p.1 = some t ∧
        (t.IsProofOfWork = true → p.2 < nInnerLoopCount ∧ t.CheckProof p.2 = true)) ∧
    (∀ s t, s.status = WorkerStatus.running → e.CreateNewBlock s.nTemplates = some t →
      t.IsProofOfWork = true → (∀ n, n < nInnerLoopCount → t.CheckProof n = false) →
      (∀ r, e.isPoW r = true) →
      (workerStep e s).submitted = s.submitted ∧
      (workerStep e s).nTemplates = s.nTemplates + 1 ∧
      (workerStep e s).status = WorkerStatus.running) ∧
    (∀ s r, s.status = WorkerStatus.running → s.nReads ≤ r → r < (workerStep e s).nReads →
      e.isPoW r = false →
      (workerStep e s).status = WorkerStatus.left ∧
      (workerStep e s).submitted = s.submitted) := by
  have hlive : ∀ i j, i ≤ j → e.isPoW j = true → e.isPoW i = true := by
    intro i j hij hj
    cases hi : e.isPoW i
    · rw [hstop i j hij hi] at hj
      cases hj
    · rfl
  refine ⟨?_, ?_, ?_⟩
  · intro k
    induction k with
    | zero =>
      intro p hp
      cases hp
    | succ k ih =>
      intro p hp
      show ∃ t, _
      have hp' : p ∈ (workerStep e (workerRun e k)).submitted := hp
      obtain ⟨_, hc, _, _⟩ := workerStep_cases e (workerRun e k)
      rcases hc with hc | ⟨n, hn, _, _, t, ht, hpow⟩
      · rw [hc] at hp'
        exact ih p hp'
      · rw [hn, List.mem_append, List.mem_singleton] at hp'
        rcases hp' with hp' | hp'
        · exact ih p hp'
        · rw [hp']
          refine ⟨t, ht, ?_⟩
          intro hpw
          obtain ⟨e1, e2, e3⟩ := hpow hpw
          obtain ⟨g1, g2, g3, _⟩ := workerGrind_spec e.isPoW t.CheckProof
            (nInnerLoopCount + 1) ((workerRun e k).nReads + 1) 0 (Nat.zero_le _) (le_refl _)
          show n < nInnerLoopCount ∧ t.CheckProof n = true
          rw [← e1] at g2 g3
          rcases g3 with g3 | g3 | g3
          · rw [hlive _ _ (Nat.sub_le _ _) e3] at g3
            cases g3
          · exact absurd g3 e2
          · exact ⟨by omega, g3⟩
  · intro s t hs ht hp hmiss hall
    obtain ⟨g1, g2, g3, _⟩ := workerGrind_spec e.isPoW t.CheckProof
      (nInnerLoopCount + 1) (s.nReads + 1) 0 (Nat.zero_le _) (le_refl _)
    have hN : (workerGrind e.isPoW t.CheckProof (nInnerLoopCount + 1) (s.nReads + 1) 0).2 =
        nInnerLoopCount := by
      rcases g3 with g3 | g3 | g3
      · rw [hall] at g3
        cases g3
      · exact g3
      · by_contra hne
        rw [hmiss _ (by omega)] at g3
        cases g3
    unfold workerStep
    rw [hs]
    simp only []
    rw [if_pos (hall _), ht]
    simp only []
    rw [if_pos hp, if_neg (by rw [hall]; simp), if_pos hN]
    exact ⟨rfl, rfl, rfl⟩
  · intro s r hs hr1 hr2 hr
    unfold workerStep at hr2 ⊢
    rw [hs] at hr2 ⊢
    simp only [] at hr2 ⊢
    by_cases h0 : e.isPoW s.nReads = true
    · rw [if_pos h0] at hr2 ⊢
      cases ht : e.CreateNewBlock s.nTemplates with
      | none => exact ⟨rfl, rfl⟩
      | some t =>
        rw [ht] at hr2
        simp only [] at hr2 ⊢
        by_cases hp : t.IsProofOfWork = true
        · rw [if_pos hp] at hr2 ⊢
          have h1 : e.isPoW (workerGrind e.isPoW t.CheckProof (nInnerLoopCount + 1)
              (s.nReads + 1) 0).1 = false := by
            refine hstop r _ ?_ hr
            by_cases hx : e.isPoW (workerGrind e.isPoW t.CheckProof (nInnerLoopCount + 1)
                (s.nReads + 1) 0).1 = false
            · rw [if_pos hx] at hr2
              exact Nat.lt_succ_iff.mp hr2
            · rw [if_neg hx] at hr2
              split at hr2
              · exact Nat.lt_succ_iff.mp hr2
              · exact Nat.lt_succ_iff.mp hr2
          rw [if_pos h1]
          exact ⟨rfl, rfl⟩
        · rw [if_neg hp] at hr2 ⊢
          by_cases hc : t.CheckProof 0 = false
          · rw [if_pos hc] at hr2 ⊢
            have h1 : e.isPoW (s.nReads + 1) = false := by
              refine hstop r _ ?_ hr
              split at hr2
              · exact Nat.lt_succ_iff.mp hr2
              · exact Nat.lt_succ_iff.mp hr2
            rw [if_pos h1]
            exact ⟨rfl, rfl⟩
          · rw [if_neg hc] at hr2
            exfalso
            have hr3 : r < s.nReads + 1 := hr2
            have e1 : r = s.nReads := by omega
            rw [e1, h0] at hr
            cases hr
    · rw [if_neg h0]
      exact ⟨rfl, rfl⟩

/-- Once the flag of `stoppedWorker` is read false it stays false. -/
theorem stoppedWorker_stop (i j : Nat) (hij : i ≤ j)
    (h : stoppedWorker.isPoW i = false) : stoppedWorker.isPoW j = false := by
  have h1 : decide (i < 12) = false := h
  show decide (j < 12) = false
  rw [decide_eq_false_iff_not] at h1 ⊢
  omega

set_option maxRecDepth 100000 in
/-- One-shot stop: the worker whose flag is cleared after 12 reads submits template 0 at
nonce 3 and template 1 at nonce 3, where `CheckProof` holds, and then leaves the loop in
its third pass, in which the read number 12 of the flag is false, without submitting. -/
theorem worker_one_shot_example :
    (workerRun stoppedWorker 3).submitted = [(0, 3), (1, 3)] ∧
    (∃ t, stoppedWorker.CreateNewBlock 1 = some t ∧
      (t.IsProofOfWork = true → 3 < nInnerLoopCount ∧ t.CheckProof 3 = true)) ∧
    (workerRun stoppedWorker 2).nReads = 12 ∧
    stoppedWorker.isPoW 12 = false ∧
    (workerStep stoppedWorker (workerRun stoppedWorker 2)).status = WorkerStatus.left ∧
    (workerStep stoppedWorker (workerRun stoppedWorker 2)).submitted =
      (workerRun stoppedWorker 2).submitted :=
  ⟨by decide,
    (worker_submits_only_proven_of_one_shot stoppedWorker stoppedWorker_stop).1 3 (1, 3) (by decide),
    by decide, by decide,
    (worker_submits_only_proven_of_one_shot stoppedWorker stoppedWorker_stop).2.2
      (workerRun stoppedWorker 2) 12 (by decide) (by decide) (by decide) (by decide)⟩

/-! ## Soundness of the rows between iterations -/

/-- When a package disjoint from an ancestor-closed block enters the block and
`UpdatePackagesForAdded` runs on it, every row afterwards belongs to an entry outside the
block that has an ancestor in the block. -/
theorem rows_update (mp : CTxMemPool) (B B2 pkg : List Nat)
    (m m1 : indexed_modified_transaction_set)
    (hB2 : ∀ x, x ∈ B2 ↔ x ∈ B ∨ x ∈ pkg) (hdisj : ∀ x ∈ pkg, x ∉ B)
    (hm1 : ∀ k, m1 k = if k ∈ pkg then none else m k)
    (hclosed : ∀ x ∈ B, ∀ y ∈ (mp.entry x).ancestors, y ∈ B)
    (hrows : ∀ D r, m D = some r → D ∉ B ∧ ∃ A, A ∈ (mp.entry D).ancestors ∧ A ∈ B) :
    ∀ D r, (UpdatePackagesForAdded mp pkg m1).2 D = some r →
      D ∉ B2 ∧ ∃ A, A ∈ (mp.entry D).ancestors ∧ A ∈ B2 := by
  intro D r hr
  rw [UpdatePackagesForAdded_snd, hm1 D] at hr
  by_cases hDp : D ∈ pkg
  · simp [hDp] at hr
  · simp only [hDp, if_false] at hr
    cases hXs : pkg.filter (fun X => decide (D ∈ mp.CalculateDescendants X)) with
    | nil =>
      rw [hXs] at hr
      obtain ⟨h1, A, hA1, hA2⟩ := hrows D r hr
      refine ⟨?_, A, hA1, (hB2 A).mpr (Or.inl hA2)⟩
      intro h
      rcases (hB2 D).mp h with h | h
      · exact h1 h
      · exact hDp h
    | cons X L =>
      have hXmem : X ∈ pkg.filter (fun X => decide (D ∈ mp.CalculateDescendants X)) := by
        rw [hXs]; exact List.mem_cons_self _ _
      simp only [List.mem_filter, decide_eq_true_eq, mem_CalculateDescendants] at hXmem
      obtain ⟨hXp, _, hDX⟩ := hXmem
      have hXa : X ∈ (mp.entry D).ancestors := by
        rcases hDX with hDX | hDX
        · rw [hDX] at hDp
          exact absurd hXp hDp
        · exact hDX
      refine ⟨?_, X, hXa, (hB2 X).mpr (Or.inr hXp)⟩
      intro h
      rcases (hB2 D).mp h with h | h
      · exact hdisj X hXp (hclosed D h X hXa)
      · exact hDp h

/-- The invariant of the modified index and the block: the block is closed under
ancestors, every row belongs to an entry outside the block with an ancestor in the block,
and the assertion on the candidate has not failed. -/
theorem step_rows (mp : CTxMemPool) (cfg : Params) (s : SelectorState)
    (htrans : ∀ A B C, B ∈ (mp.entry A).ancestors → C ∈ (mp.entry B).ancestors →
      C ∈ (mp.entry A).ancestors)
    (h : (∀ x ∈ s.inBlock, ∀ y ∈ (mp.entry x).ancestors, y ∈ s.inBlock) ∧
      (∀ D r, s.mapModifiedTx D = some r →
        D ∉ s.inBlock ∧ ∃ A, A ∈ (mp.entry D).ancestors ∧ A ∈ s.inBlock) ∧
      s.status ≠ LoopStatus.assertFailed) :
    (∀ x ∈ (step mp cfg s).inBlock, ∀ y ∈ (mp.entry x).ancestors, y ∈ (step mp cfg s).inBlock) ∧
      (∀ D r, (step mp cfg s).mapModifiedTx D = some r →
        D ∉ (step mp cfg s).inBlock ∧
          ∃ A, A ∈ (mp.entry D).ancestors ∧ A ∈ (step mp cfg s).inBlock) ∧
      (step mp cfg s).status ≠ LoopStatus.assertFailed := by
  obtain ⟨hc, hr, hs⟩ := h
  apply step_eval_cases mp cfg (fun t =>
    (∀ x ∈ t.inBlock, ∀ y ∈ (mp.entry x).ancestors, y ∈ t.inBlock) ∧
      (∀ D r, t.mapModifiedTx D = some r →
        D ∉ t.inBlock ∧ ∃ A, A ∈ (mp.entry D).ancestors ∧ A ∈ t.inBlock) ∧
      t.status ≠ LoopStatus.assertFailed)
  · intro _
    exact ⟨hc, hr, hs⟩
  · intro _ _ _
    exact ⟨hc, hr, fun hx => by cases hx⟩
  · intro it rest _ _ _
    exact ⟨hc, hr, hs⟩
  · intro s0 iter f ps pf pso hrun hsrc
    have hasm : s0.toBlockAssembler = s.toBlockAssembler := by
      rcases hsrc with ⟨_, h, _⟩ | ⟨_, rest, _, h, _⟩ <;> rw [h]
    have hmap : s0.mapModifiedTx = s.mapModifiedTx := by
      rcases hsrc with ⟨_, h, _⟩ | ⟨_, rest, _, h, _⟩ <;> rw [h]
    have hst : s0.status = s.status := by
      rcases hsrc with ⟨_, h, _⟩ | ⟨_, rest, _, h, _⟩ <;> rw [h]
    have hin : s0.inBlock = s.inBlock := by rw [hasm]
    have hnot : iter ∉ s.inBlock := by
      rcases hsrc with ⟨_, _, _, hrow⟩ | ⟨_, rest, _, _, hskip, _⟩
      · exact (hr iter _ hrow).1
      · unfold SkipMapTxEntry at hskip
        simp only [Bool.or_eq_false_iff, decide_eq_false_iff_not] at hskip
        exact hskip.1.2
    have hfail : ∀ t : SelectorState, t.toBlockAssembler = s.toBlockAssembler →
        (∀ D, t.mapModifiedTx D = s.mapModifiedTx D ∨ t.mapModifiedTx D = none) →
        t.status ≠ LoopStatus.assertFailed →
        (∀ x ∈ t.inBlock, ∀ y ∈ (mp.entry x).ancestors, y ∈ t.inBlock) ∧
          (∀ D r, t.mapModifiedTx D = some r →
            D ∉ t.inBlock ∧ ∃ A, A ∈ (mp.entry D).ancestors ∧ A ∈ t.inBlock) ∧
          t.status ≠ LoopStatus.assertFailed := by
      intro t h1 h2 h3
      have e : t.inBlock = s.inBlock := by rw [h1]
      rw [e]
      refine ⟨hc, ?_, h3⟩
      intro D r hD
      rcases h2 D with h2 | h2
      · rw [h2] at hD
        exact hr D r hD
      · rw [h2] at hD
        cases hD
    have hmark : ∀ D, (markFailed s0 iter f).mapModifiedTx D = s.mapModifiedTx D ∨
        (markFailed s0 iter f).mapModifiedTx D = none := by
      intro D
      rw [markFailed_mapModifiedTx, hmap]
      cases f
      · exact Or.inl rfl
      · simp only [if_true]
        unfold modifiedErase
        by_cases hD : D = iter
        · exact Or.inr (by simp [hD])
        · exact Or.inl (by simp [hD])
    apply evaluateCandidate_cases mp cfg (fun t =>
      (∀ x ∈ t.inBlock, ∀ y ∈ (mp.entry x).ancestors, y ∈ t.inBlock) ∧
        (∀ D r, t.mapModifiedTx D = some r →
          D ∉ t.inBlock ∧ ∃ A, A ∈ (mp.entry D).ancestors ∧ A ∈ t.inBlock) ∧
        t.status ≠ LoopStatus.assertFailed)
    · intro hmem
      rw [hin] at hmem
      exact absurd hmem hnot
    · intro _ _
      exact hfail _ hasm (fun D => Or.inl (by rw [← hmap])) (fun hx => by cases hx)
    · intro _ _ _ st hstc
      refine hfail _ (by simp [hasm]) hmark ?_
      show st ≠ LoopStatus.assertFailed
      rcases hstc with e | e
      · rw [e, hst, hrun]
        intro hx
        cases hx
      · rw [e]
        intro hx
        cases hx
    · intro _ _ _ _
      exact hfail _ (by simp [hasm]) hmark (by rw [markFailed_status, hst]; exact hs)
    · intro _ _ _ _
      obtain ⟨m1, hm1, hm2⟩ := commitPackage_mapModifiedTx mp s0 iter f ps pf pso
        (setInsert iter (onlyUnconfirmed s0.inBlock (mp.CalculateMemPoolAncestors iter)))
      have hB2 : ∀ x, x ∈ (commitPackage mp s0 iter f ps pf pso (setInsert iter
            (onlyUnconfirmed s0.inBlock (mp.CalculateMemPoolAncestors iter)))).inBlock ↔
          x ∈ s.inBlock ∨ x ∈ setInsert iter
            (onlyUnconfirmed s0.inBlock (mp.CalculateMemPoolAncestors iter)) := by
        intro x
        rw [commitPackage_inBlock_mem, hin]
      have hdisj : ∀ x ∈ setInsert iter
          (onlyUnconfirmed s0.inBlock (mp.CalculateMemPoolAncestors iter)), x ∉ s.inBlock := by
        intro x hx
        rw [mem_package, hin] at hx
        rcases hx with hx | hx
        · rw [hx]
          exact hnot
        · exact hx.2
      refine ⟨?_, ?_, ?_⟩
      · intro x hx y hy
        rw [hB2] at hx ⊢
        by_cases hyB : y ∈ s.inBlock
        · exact Or.inl hyB
        · right
          rw [mem_package, hin]
          right
          refine ⟨?_, hyB⟩
          rcases hx with hx | hx
          · exact absurd (hc x hx y hy) hyB
          · rw [mem_package] at hx
            rcases hx with hx | hx
            · rw [← hx]
              exact hy
            · exact htrans iter x y hx.1 hy
      · rw [hm2]
        exact rows_update mp s.inBlock _ _ s.mapModifiedTx m1 hB2 hdisj
          (fun k => by rw [hm1 k, hmap]) hc hr
      · rw [commitPackage_status, hst]
        exact hs

theorem siblingsPool_entry_absent (n : Nat) :
    siblingsPool.entry (n + 3) = CTxMemPoolEntry.absent := rfl

theorem siblingsPool_closed (A B C : Nat) (h1 : B ∈ (siblingsPool.entry A).ancestors)
    (h2 : C ∈ (siblingsPool.entry B).ancestors) : C ∈ (siblingsPool.entry A).ancestors := by
  have hB : B = 0 := by
    match A with
    | 0 => cases h1
    | 1 => simpa [siblingsPool, CTxMemPool.entry, plainEntry] using h1
    | 2 => simpa [siblingsPool, CTxMemPool.entry, plainEntry] using h1
    | n + 3 => rw [siblingsPool_entry_absent] at h1; cases h1
  subst hB
  cases h2

/-! ## Rejected anchors -/

/-- Without wrap-around the commit loop adds exactly the sizes and the sigop counts of the
entries it is given. -/
theorem foldl_addEntry_exact (mp : CTxMemPool) (l : List Nat) (s : SelectorState)
    (h1 : s.nBlockSize + sizeSum mp l < U64) (h2 : s.nBlockSigOps + sigOpSum mp l < U32) :
    (l.foldl (addEntry mp) s).nBlockSize = s.nBlockSize + sizeSum mp l ∧
    (l.foldl (addEntry mp) s).nBlockSigOps = s.nBlockSigOps + sigOpSum mp l := by
  induction l generalizing s with
  | nil => simp [sizeSum, sigOpSum]
  | cons x l ih =>
    simp only [List.foldl_cons]
    have e1 : (addEntry mp s x).nBlockSize = (s.nBlockSize + (mp.entry x).nTxSize) % U64 := rfl
    have e2 : (addEntry mp s x).nBlockSigOps =
        (s.nBlockSigOps + (mp.entry x).sigOpCount) % U32 := rfl
    have e3 : sizeSum mp (x :: l) = (mp.entry x).nTxSize + sizeSum mp l := by
      simp [sizeSum]
    have e4 : sigOpSum mp (x :: l) = (mp.entry x).sigOpCount + sigOpSum mp l := by
      simp [sigOpSum]
    rw [e3] at h1 ⊢
    rw [e4] at h2 ⊢
    have f1 : (s.nBlockSize + (mp.entry x).nTxSize) % U64 =
        s.nBlockSize + (mp.entry x).nTxSize := Nat.mod_eq_of_lt (by omega)
    have f2 : (s.nBlockSigOps + (mp.entry x).sigOpCount) % U32 =
        s.nBlockSigOps + (mp.entry x).sigOpCount := Nat.mod_eq_of_lt (by omega)
    obtain ⟨g1, g2⟩ := ih (addEntry mp s x) (by rw [e1, f1]; omega) (by rw [e2, f2]; omega)
    rw [g1, g2, e1, e2, f1, f2]
    constructor <;> omega

theorem commitPackage_exact (mp : CTxMemPool) (s : SelectorState) (iter : Nat) (f : Bool)
    (ps : Nat) (pf : Int) (pso : Nat) (anc : List Nat)
    (h1 : s.nBlockSize + sizeSum mp anc < U64) (h2 : s.nBlockSigOps + sigOpSum mp anc < U32) :
    (commitPackage mp s iter f ps pf pso anc).nBlockSize = s.nBlockSize + sizeSum mp anc ∧
    (commitPackage mp s iter f ps pf pso anc).nBlockSigOps =
      s.nBlockSigOps + sigOpSum mp anc := by
  have e1 : sizeSum mp (SortForBlock mp anc) = sizeSum mp anc :=
    ((SortForBlock_perm mp anc).map _).sum_eq
  have e2 : sigOpSum mp (SortForBlock mp anc) = sigOpSum mp anc :=
    ((SortForBlock_perm mp anc).map _).sum_eq
  have h := foldl_addEntry_exact mp (SortForBlock mp anc) { s with nConsecutiveFailed := 0 }
    (by rw [e1]; exact h1) (by rw [e2]; exact h2)
  rw [e1, e2] at h
  exact h

/-- The stored aggregate of an entry outside the block is the weight of what is left of its
package plus the weight of its ancestors in the block. -/
theorem package_sum_inBlock (mp : CTxMemPool) (f : Nat → Nat) (B : List Nat) (T : Nat)
    (hT : T ∉ B) :
    ((packageOf mp [] T).map f).sum =
      ((packageOf mp B T).map f).sum + ((inBlockAncestors mp B T).map f).sum := by
  have h := package_sum_split mp f [] B B T hT (fun x => by simp)
  rw [h]
  unfold inBlockAncestors
  have e : (mp.CalculateMemPoolAncestors T).filter (fun x => decide (x ∉ ([] : List Nat))) =
      mp.CalculateMemPoolAncestors T := by
    rw [List.filter_eq_self]
    intro x _
    simp
  rw [e]

/-- When a package enters the block, what is left of the package of another entry loses at
most the weight of the package that entered. -/
theorem package_sum_shrink (mp : CTxMemPool) (f : Nat → Nat) (B B2 pkg : List Nat) (T : Nat)
    (hT : T ∉ pkg) (hB2 : ∀ x, x ∈ B2 ↔ x ∈ B ∨ x ∈ pkg) :
    ((packageOf mp B T).map f).sum ≤ ((packageOf mp B2 T).map f).sum + (pkg.map f).sum := by
  rw [package_sum_split mp f B B2 pkg T hT hB2]
  apply Nat.add_le_add_left
  apply sum_map_le_of_subset
  · apply List.Nodup.filter
    apply List.Nodup.filter
    unfold CTxMemPool.CalculateMemPoolAncestors
    exact List.nodup_dedup _
  · intro x hx
    simp only [List.mem_filter, decide_eq_true_eq] at hx
    exact hx.2

/-- A package that contains `T` contains what is left of the package of `T`. -/
theorem package_sum_member (mp : CTxMemPool) (f : Nat → Nat) (B : List Nat) (iter T : Nat)
    (htrans : ∀ A B C, B ∈ (mp.entry A).ancestors → C ∈ (mp.entry B).ancestors →
      C ∈ (mp.entry A).ancestors)
    (hT : T ∈ packageOf mp B iter) :
    ((packageOf mp B T).map f).sum ≤ ((packageOf mp B iter).map f).sum := by
  apply sum_map_le_of_subset
  · exact package_nodup mp B T
  · intro x hx
    unfold packageOf at hx hT ⊢
    rw [mem_package] at hx hT ⊢
    rcases hx with hx | ⟨hx1, hx2⟩
    · rw [hx]
      exact hT
    · rcases hT with hT | ⟨hT1, _⟩
      · rw [← hT]
        exact Or.inr ⟨hx1, hx2⟩
      · exact Or.inr ⟨htrans iter T x hT1 hx1, hx2⟩

theorem TestPackage_false (cfg : Params) (nBlockSize nBlockSigOps ps pso : Nat)
    (h : TestPackage cfg nBlockSize nBlockSigOps ps pso = false) :
    cfg.nBlockMaxSize ≤ (nBlockSize + ps) % U64 ∨
      cfg.MaxBlockSigOps ≤ (nBlockSigOps + pso) % U32 := by
  unfold TestPackage at h
  split at h
  · rename_i h1
    exact Or.inl h1
  · split at h
    · rename_i h2
      exact Or.inr h2
    · cases h

theorem TestPackageTransactions_false (mp : CTxMemPool) (package : List Nat)
    (h : TestPackageTransactions mp package = false) :
    ∃ Z ∈ package, ((mp.entry Z).isFinalTx && (mp.entry Z).isTxSafeForMining) = false := by
  unfold TestPackageTransactions at h
  rw [List.all_eq_false] at h
  obtain ⟨Z, hZ, hv⟩ := h
  exact ⟨Z, hZ, by simpa using hv⟩

/-- An entry that is not in the snapshot has no ancestors in the block. -/
theorem inBlockAncestors_absent (mp : CTxMemPool) (B : List Nat) (D : Nat)
    (h : ¬ D < mp.size) : inBlockAncestors mp B D = [] := by
  have e : mp.entry D = CTxMemPoolEntry.absent := by
    unfold CTxMemPool.entry CTxMemPool.size at *
    rw [List.getD_eq_getElem?_getD, List.getElem?_eq_none (by omega)]
    rfl
  unfold inBlockAncestors CTxMemPool.CalculateMemPoolAncestors
  rw [e]
  rfl

/-- The aggregates of a sound row, and the stored aggregates of an entry without ancestors
in the block, are the weight of what is left of the package of the entry. -/
theorem candidate_exact (mp : CTxMemPool) (cfg : Params) (B : List Nat) (T : Nat)
    (hcons : AggregatesConsistent mp) (hwrap : NoWrap mp cfg) (hT : T ∉ B) :
    (∀ r, RowSound mp B T r →
      r.nSizeWithAncestors = sizeSum mp (packageOf mp B T) ∧
      r.nSigOpCountWithAncestors = sigOpSum mp (packageOf mp B T)) ∧
    (inBlockAncestors mp B T = [] →
      (mp.entry T).nSizeWithAncestors = sizeSum mp (packageOf mp B T) ∧
      (mp.entry T).nSigOpCountWithAncestors = sigOpSum mp (packageOf mp B T)) := by
  obtain ⟨c1, c2⟩ := hcons T
  obtain ⟨w1, w2⟩ := hwrap T
  have s1 := package_sum_inBlock mp (fun x => (mp.entry x).nTxSize) B T hT
  have s2 := package_sum_inBlock mp (fun x => (mp.entry x).sigOpCount) B T hT
  have s1' : sizeSum mp (packageOf mp [] T) =
      sizeSum mp (packageOf mp B T) + sizeSum mp (inBlockAncestors mp B T) := s1
  have s2' : sigOpSum mp (packageOf mp [] T) =
      sigOpSum mp (packageOf mp B T) + sigOpSum mp (inBlockAncestors mp B T) := s2
  constructor
  · intro r hr
    obtain ⟨h1, _, h3⟩ := hr
    rw [c1, s1'] at h1
    rw [c2, s2'] at h3
    rw [c1, s1'] at w1
    rw [c2, s2'] at w2
    constructor
    · simp only [U64] at *
      omega
    · simp only [U32] at *
      omega
  · intro h0
    rw [h0] at s1' s2'
    rw [c1, c2, s1', s2']
    simp [sizeSum, sigOpSum]

/-- Whether an entry is doomed depends on the block only. -/
theorem Doomed_congr (mp : CTxMemPool) (cfg : Params) (s t : SelectorState) (T : Nat)
    (h : t.toBlockAssembler = s.toBlockAssembler) (hd : Doomed mp cfg s T) :
    Doomed mp cfg t T := by
  have e1 : t.inBlock = s.inBlock := by rw [h]
  have e2 : t.nBlockSize = s.nBlockSize := by rw [h]
  have e3 : t.nBlockSigOps = s.nBlockSigOps := by rw [h]
  unfold Doomed at hd ⊢
  rw [e1, e2, e3]
  exact hd

/-- A candidate that a gate rejects is doomed, when its aggregates are those of a sound row
or the stored ones of an entry without ancestors in the block, or when its anchor is
doomed already. -/
theorem Doomed_of_rejected (mp : CTxMemPool) (cfg : Params) (s : SelectorState) (T : Nat)
    (ps pso : Nat) (hcons : AggregatesConsistent mp) (hwrap : NoWrap mp cfg)
    (hsize : s.nBlockSize ≤ cfg.nBlockMaxSize) (hsig : s.nBlockSigOps ≤ cfg.MaxBlockSigOps)
    (hT : T ∉ s.inBlock)
    (hexact : Doomed mp cfg s T ∨
      (ps = sizeSum mp (packageOf mp s.inBlock T) ∧
        pso = sigOpSum mp (packageOf mp s.inBlock T)))
    (hgate : TestPackage cfg s.nBlockSize s.nBlockSigOps ps pso = false ∨
      TestPackageTransactions mp (packageOf mp s.inBlock T) = false) :
    Doomed mp cfg s T := by
  rcases hexact with hd | ⟨e1, e2⟩
  · exact hd
  · rcases hgate with hg | hg
    · right
      refine ⟨hT, ?_⟩
      obtain ⟨c1, c2⟩ := hcons T
      obtain ⟨w1, w2⟩ := hwrap T
      have m1 := package_sum_mono mp (fun x => (mp.entry x).nTxSize) [] s.inBlock T
        (fun x hx => by cases hx)
      have m2 := package_sum_mono mp (fun x => (mp.entry x).sigOpCount) [] s.inBlock T
        (fun x hx => by cases hx)
      have m1' : sizeSum mp (packageOf mp s.inBlock T) ≤ sizeSum mp (packageOf mp [] T) := m1
      have m2' : sigOpSum mp (packageOf mp s.inBlock T) ≤ sigOpSum mp (packageOf mp [] T) := m2
      rw [← c1] at m1'
      rw [← c2] at m2'
      rcases TestPackage_false cfg _ _ _ _ hg with h | h
      · left
        rw [e1, Nat.mod_eq_of_lt (by omega)] at h
        exact h
      · right
        rw [e2, Nat.mod_eq_of_lt (by omega)] at h
        exact h
    · left
      obtain ⟨Z, hZ, hv⟩ := TestPackageTransactions_false mp _ hg
      unfold packageOf at hZ
      rw [mem_package] at hZ
      rcases hZ with hZ | ⟨hZ1, hZ2⟩
      · exact ⟨Z, Or.inl hZ, by rw [hZ]; exact hT, hv⟩
      · exact ⟨Z, Or.inr hZ1, hZ2, hv⟩

/-- A doomed entry stays doomed when a package is committed. -/
theorem Doomed_commit (mp : CTxMemPool) (cfg : Params) (s : SelectorState) (iter : Nat)
    (f : Bool) (ps : Nat) (pf : Int) (pso : Nat) (T : Nat)
    (hwrap : NoWrap mp cfg)
    (htrans : ∀ A B C, B ∈ (mp.entry A).ancestors → C ∈ (mp.entry B).ancestors →
      C ∈ (mp.entry A).ancestors)
    (hsize : s.nBlockSize ≤ cfg.nBlockMaxSize) (hsig : s.nBlockSigOps ≤ cfg.MaxBlockSigOps)
    (hps : sizeSum mp (packageOf mp s.inBlock iter) ≤ ps ∧
      ps ≤ (mp.entry iter).nSizeWithAncestors ∧
      sigOpSum mp (packageOf mp s.inBlock iter) ≤ pso ∧
      pso ≤ (mp.entry iter).nSigOpCountWithAncestors)
    (h3 : TestPackage cfg s.nBlockSize s.nBlockSigOps ps pso = true)
    (h4 : TestPackageTransactions mp (packageOf mp s.inBlock iter) = true)
    (hd : Doomed mp cfg s T) :
    Doomed mp cfg (commitPackage mp s iter f ps pf pso (packageOf mp s.inBlock iter)) T := by
  have hB2 : ∀ x, x ∈ (commitPackage mp s iter f ps pf pso
      (packageOf mp s.inBlock iter)).inBlock ↔ x ∈ s.inBlock ∨ x ∈ packageOf mp s.inBlock iter :=
    fun x => commitPackage_inBlock_mem mp s iter f ps pf pso _ x
  rcases hd with ⟨Z, hZ1, hZ2, hZ3⟩ | ⟨hT, hfull⟩
  · left
    refine ⟨Z, hZ1, ?_, hZ3⟩
    intro hc
    rcases (hB2 Z).mp hc with hc | hc
    · exact hZ2 hc
    · obtain ⟨v1, v2⟩ := TestPackageTransactions_true mp _ h4 Z hc
      rw [v1, v2] at hZ3
      cases hZ3
  · right
    obtain ⟨w1, w2⟩ := hwrap iter
    obtain ⟨t1, t2⟩ := TestPackage_true cfg _ _ _ _ h3
    obtain ⟨p1, p2, p3, p4⟩ := hps
    rw [Nat.mod_eq_of_lt (by omega)] at t1
    rw [Nat.mod_eq_of_lt (by omega)] at t2
    have hTp : T ∉ packageOf mp s.inBlock iter := by
      intro hc
      have m1 := package_sum_member mp (fun x => (mp.entry x).nTxSize) s.inBlock iter T
        htrans hc
      have m2 := package_sum_member mp (fun x => (mp.entry x).sigOpCount) s.inBlock iter T
        htrans hc
      have m1' : sizeSum mp (packageOf mp s.inBlock T) ≤
        sizeSum mp (packageOf mp s.inBlock iter) := m1
      have m2' : sigOpSum mp (packageOf mp s.inBlock T) ≤
        sigOpSum mp (packageOf mp s.inBlock iter) := m2
      omega
    obtain ⟨x1, x2⟩ := commitPackage_exact mp s iter f ps pf pso (packageOf mp s.inBlock iter)
      (by omega) (by omega)
    have k1 := package_sum_shrink mp (fun x => (mp.entry x).nTxSize) s.inBlock
      (commitPackage mp s iter f ps pf pso (packageOf mp s.inBlock iter)).inBlock
      (packageOf mp s.inBlock iter) T hTp hB2
    have k2 := package_sum_shrink mp (fun x => (mp.entry x).sigOpCount) s.inBlock
      (commitPackage mp s iter f ps pf pso (packageOf mp s.inBlock iter)).inBlock
      (packageOf mp s.inBlock iter) T hTp hB2
    have k1' : sizeSum mp (packageOf mp s.inBlock T) ≤
      sizeSum mp (packageOf mp (commitPackage mp s iter f ps pf pso
        (packageOf mp s.inBlock iter)).inBlock T) +
        sizeSum mp (packageOf mp s.inBlock iter) := k1
    have k2' : sigOpSum mp (packageOf mp s.inBlock T) ≤
      sigOpSum mp (packageOf mp (commitPackage mp s iter f ps pf pso
        (packageOf mp s.inBlock iter)).inBlock T) +
        sigOpSum mp (packageOf mp s.inBlock iter) := k2
    refine ⟨?_, ?_⟩
    · intro hc
      rcases (hB2 T).mp hc with hc | hc
      · exact hT hc
      · exact hTp hc
    · rw [x1, x2]
      rcases hfull with h | h
      · left
        omega
      · right
        omega

/-- Every loop iteration preserves the invariant behind the fate of rejected anchors and
keeps doomed entries doomed. -/
theorem step_rejection (mp : CTxMemPool) (cfg : Params) (s : SelectorState)
    (hcons : AggregatesConsistent mp) (hwrap : NoWrap mp cfg)
    (htrans : ∀ A B C, B ∈ (mp.entry A).ancestors → C ∈ (mp.entry B).ancestors →
      C ∈ (mp.entry A).ancestors)
    (h : RejectionInvariant mp cfg s) :
    RejectionInvariant mp cfg (step mp cfg s) ∧
      (∀ T, Doomed mp cfg s T → Doomed mp cfg (step mp cfg s) T) := by
  obtain ⟨hA, hB, hC, hE⟩ := h
  have key : (∀ T, Doomed mp cfg s T → Doomed mp cfg (step mp cfg s) T) ∧
      (∀ T ∈ (step mp cfg s).failedTx, Doomed mp cfg (step mp cfg s) T) := by
    have hsame : ∀ t : SelectorState, t.toBlockAssembler = s.toBlockAssembler →
        (∀ T ∈ t.failedTx, T ∈ s.failedTx ∨ Doomed mp cfg s T) →
        (∀ T, Doomed mp cfg s T → Doomed mp cfg t T) ∧
          (∀ T ∈ t.failedTx, Doomed mp cfg t T) := by
      intro t h1 h2
      refine ⟨fun T hd => Doomed_congr mp cfg s t T h1 hd, ?_⟩
      intro T hT
      rcases h2 T hT with h2 | h2
      · exact Doomed_congr mp cfg s t T h1 (hE T h2)
      · exact Doomed_congr mp cfg s t T h1 h2
    apply step_eval_cases mp cfg (fun t =>
      (∀ T, Doomed mp cfg s T → Doomed mp cfg t T) ∧ (∀ T ∈ t.failedTx, Doomed mp cfg t T))
    · intro _
      exact hsame s rfl (fun T hT => Or.inl hT)
    · intro _ _ _
      exact hsame _ rfl (fun T hT => Or.inl hT)
    · intro it rest _ _ _
      exact hsame _ rfl (fun T hT => Or.inl hT)
    · intro s0 iter f ps pf pso hrun hsrc
      have hasm : s0.toBlockAssembler = s.toBlockAssembler := by
        rcases hsrc with ⟨_, h, _⟩ | ⟨_, rest, _, h, _⟩ <;> rw [h]
      have hfl : s0.failedTx = s.failedTx := by
        rcases hsrc with ⟨_, h, _⟩ | ⟨_, rest, _, h, _⟩ <;> rw [h]
      have hin : s0.inBlock = s.inBlock := by rw [hasm]
      have hsz : s0.nBlockSize = s.nBlockSize := by rw [hasm]
      have hso : s0.nBlockSigOps = s.nBlockSigOps := by rw [hasm]
      have hps : sizeSum mp (packageOf mp s.inBlock iter) ≤ ps ∧
          ps ≤ (mp.entry iter).nSizeWithAncestors ∧
          sigOpSum mp (packageOf mp s.inBlock iter) ≤ pso ∧
          pso ≤ (mp.entry iter).nSigOpCountWithAncestors := by
        rcases hsrc with ⟨_, _, _, hrow⟩ | ⟨_, rest, _, _, _, e1, _, e3⟩
        · exact hC.1 iter _ hrow
        · obtain ⟨f1, f2⟩ := RowsCover_fresh mp s.inBlock iter hcons
          rw [e1, e3]
          exact ⟨f1, Nat.le_refl _, f2, Nat.le_refl _⟩
      have hexact : iter ∉ s.inBlock → (Doomed mp cfg s iter ∨
          (ps = sizeSum mp (packageOf mp s.inBlock iter) ∧
            pso = sigOpSum mp (packageOf mp s.inBlock iter))) := by
        intro hnot
        rcases hsrc with ⟨_, _, _, hrow⟩ | ⟨_, rest, _, _, hskip, e1, _, e3⟩
        · by_cases hf : iter ∈ s.failedTx
          · exact Or.inl (hE iter hf)
          · right
            exact (candidate_exact mp cfg s.inBlock iter hcons hwrap hnot).1 _
              (hB.2.1 iter _ hrow hf hnot)
        · right
          unfold SkipMapTxEntry at hskip
          simp only [Bool.or_eq_false_iff, decide_eq_false_iff_not] at hskip
          obtain ⟨⟨hrow, _⟩, hf⟩ := hskip
          have hnone : s.mapModifiedTx iter = none := by
            cases hm : s.mapModifiedTx iter with
            | none => rfl
            | some r => rw [hm] at hrow; cases hrow
          have h0 : inBlockAncestors mp s.inBlock iter = [] := by
            by_cases hlt : iter < mp.size
            · exact hB.1 iter hlt hnone hf hnot
            · exact inBlockAncestors_absent mp _ _ hlt
          rw [e1, e3]
          exact (candidate_exact mp cfg s.inBlock iter hcons hwrap hnot).2 h0
      have hmarked : ∀ t : SelectorState, t.toBlockAssembler = s.toBlockAssembler →
          t.failedTx = (markFailed s0 iter f).failedTx → Doomed mp cfg s iter →
          (∀ T, Doomed mp cfg s T → Doomed mp cfg t T) ∧
            (∀ T ∈ t.failedTx, Doomed mp cfg t T) := by
        intro t h1 h2 hd
        apply hsame t h1
        intro T hT
        rw [h2, markFailed_failedTx, hfl] at hT
        cases f
        · exact Or.inl hT
        · simp only [if_true, mem_setInsert] at hT
          rcases hT with hT | hT
          · rw [hT]
            exact Or.inr hd
          · exact Or.inl hT
      apply evaluateCandidate_cases mp cfg (fun t =>
        (∀ T, Doomed mp cfg s T → Doomed mp cfg t T) ∧ (∀ T ∈ t.failedTx, Doomed mp cfg t T))
      · intro _
        exact hsame _ hasm (fun T hT => Or.inl (by rw [← hfl]; exact hT))
      · intro _ _
        exact hsame _ hasm (fun T hT => Or.inl (by rw [← hfl]; exact hT))
      · intro hnot _ hgate st _
        rw [hin] at hnot
        rw [hsz, hso] at hgate
        exact hmarked _ (by simp [hasm]) rfl
          (Doomed_of_rejected mp cfg s iter ps pso hcons hwrap hC.2.1 hC.2.2.1 hnot
            (hexact hnot) (Or.inl hgate))
      · intro hnot _ _ hgate
        rw [hin] at hnot hgate
        exact hmarked _ (by simp [hasm]) rfl
          (Doomed_of_rejected mp cfg s iter ps pso hcons hwrap hC.2.1 hC.2.2.1 hnot
            (hexact hnot) (Or.inr hgate))
      · intro hnot _ h3 h4
        have hd0 : ∀ T, Doomed mp cfg s T → Doomed mp cfg s0 T :=
          fun T hd => Doomed_congr mp cfg s s0 T hasm hd
        have hcommit : ∀ T, Doomed mp cfg s T →
            Doomed mp cfg (commitPackage mp s0 iter f ps pf pso
              (packageOf mp s0.inBlock iter)) T := by
          intro T hd
          exact Doomed_commit mp cfg s0 iter f ps pf pso T hwrap htrans
            (by rw [hsz]; exact hC.2.1) (by rw [hso]; exact hC.2.2.1)
            (by rw [hin]; exact hps) h3 h4 (hd0 T hd)
        refine ⟨hcommit, ?_⟩
        intro T hT
        have hT2 : T ∈ (commitPackage mp s0 iter f ps pf pso
            (packageOf mp s0.inBlock iter)).failedTx := hT
        rw [commitPackage_failedTx, hfl] at hT2
        exact hcommit T (hE T hT2)
  exact ⟨⟨step_rows mp cfg s htrans hA, step_sound mp cfg s hB,
    step_budget mp cfg s hcons hwrap hC, key.2⟩, key.1⟩

/-- Where the chosen candidate comes from: the modified index, with its row, or the head of
the mempool cursor, not skipped, with the stored aggregates. -/
theorem chosenCandidate_source (mp : CTxMemPool) (s : SelectorState) (T : Nat) (f : Bool)
    (r : CTxMemPoolModifiedEntry) (h : chosenCandidate mp s = some (T, f, r)) :
    (f = true ∧ s.mapModifiedTx T = some r) ∨
      (f = false ∧ (∃ rest, s.mi = T :: rest) ∧
        SkipMapTxEntry T s.mapModifiedTx s.inBlock s.failedTx = false ∧
        r = mp.modifiedEntryOf T) := by
  unfold chosenCandidate at h
  split at h
  · cases h
  · rename_i modit _ hb
    cases h
    exact Or.inl ⟨rfl, (modifiedBegin_some mp _ _ hb).2⟩
  · rename_i it rest hmi _
    split at h
    · cases h
    · rename_i hskip
      cases h
      exact Or.inr ⟨rfl, ⟨rest, hmi⟩, by simpa using hskip, rfl⟩
  · rename_i it rest modit hmi hb
    split at h
    · cases h
    · rename_i hskip
      split at h
      · cases h
        exact Or.inl ⟨rfl, (modifiedBegin_some mp _ _ hb).2⟩
      · cases h
        exact Or.inr ⟨rfl, ⟨rest, hmi⟩, by simpa using hskip, rfl⟩

/-- The loop iteration evaluates the chosen candidate. -/
theorem step_chosenCandidate (mp : CTxMemPool) (cfg : Params) (s : SelectorState) (T : Nat)
    (f : Bool) (r : CTxMemPoolModifiedEntry) (hrun : s.status = LoopStatus.running)
    (h : chosenCandidate mp s = some (T, f, r)) :
    step mp cfg s = evaluateCandidate mp cfg (if f then s else { s with mi := s.mi.tail }) T f
      r.nSizeWithAncestors r.nModFeesWithAncestors r.nSigOpCountWithAncestors := by
  unfold chosenCandidate at h
  split at h
  · cases h
  · rename_i modit hmi hb
    cases h
    rw [step_modified_of mp cfg s modit hrun hb (fun it rest e => by rw [hmi] at e; cases e)]
    rfl
  · rename_i it rest hmi hb
    split at h
    · cases h
    · rename_i hskip
      cases h
      rw [step_mapTx_of mp cfg s _ rest hrun hmi (by simpa using hskip)
        (fun modit e => by rw [hb] at e; cases e), hmi]
      rfl
  · rename_i it rest modit hmi hb
    split at h
    · cases h
    · rename_i hskip
      split at h
      · rename_i hcmp
        cases h
        rw [step_modified_of mp cfg s modit hrun hb (fun it2 rest2 e => by
          rw [hmi] at e
          cases e
          exact ⟨by simpa using hskip, hcmp⟩)]
        rfl
      · rename_i hcmp
        cases h
        rw [step_mapTx_of mp cfg s _ rest hrun hmi (by simpa using hskip)
          (fun modit2 e => by
            rw [hb] at e
            cases e
            simpa using hcmp), hmi]
        rfl

/-- What `rejectedAnchor` records. -/
theorem rejectedAnchor_some (mp : CTxMemPool) (cfg : Params) (s : SelectorState) (T : Nat)
    (h : rejectedAnchor mp cfg s = some T) :
    s.status = LoopStatus.running ∧ ∃ f r, chosenCandidate mp s = some (T, f, r) ∧
      T ∉ s.inBlock ∧
      ¬ r.nModFeesWithAncestors < cfg.blockMinFeeRate.GetFee r.nSizeWithAncestors ∧
      (TestPackage cfg s.nBlockSize s.nBlockSigOps r.nSizeWithAncestors
          r.nSigOpCountWithAncestors = false ∨
        TestPackageTransactions mp (packageOf mp s.inBlock T) = false) := by
  unfold rejectedAnchor at h
  split at h
  · rename_i iter f r hrun hc
    split at h
    · rename_i hcond
      cases h
      exact ⟨hrun, f, r, hc, hcond⟩
    · cases h
  · cases h

/-- The iteration that `rejectedAnchor` speaks of commits nothing: the block and the record
of committed packages are as before, and the anchor is recorded in `failedTx` when the
candidate came from the modified index. -/
theorem rejectedAnchor_step (mp : CTxMemPool) (cfg : Params) (s : SelectorState) (T : Nat)
    (h : rejectedAnchor mp cfg s = some T) :
    (step mp cfg s).toBlockAssembler = s.toBlockAssembler ∧
      (step mp cfg s).committed = s.committed ∧
      (s.mapModifiedTx T ≠ none → T ∈ (step mp cfg s).failedTx) := by
  obtain ⟨hrun, f, r, hc, hnot, hfee, hgate⟩ := rejectedAnchor_some mp cfg s T h
  rw [step_chosenCandidate mp cfg s T f r hrun hc]
  have hsrc := chosenCandidate_source mp s T f r hc
  have hrow : s.mapModifiedTx T ≠ none → f = true := by
    intro hne
    rcases hsrc with ⟨e, _⟩ | ⟨_, _, hskip, _⟩
    · exact e
    · unfold SkipMapTxEntry at hskip
      simp only [Bool.or_eq_false_iff] at hskip
      cases hm : s.mapModifiedTx T with
      | none => exact absurd hm hne
      | some r0 =>
        rw [hm] at hskip
        cases hskip.1.1
  have e0 : ∀ t : SelectorState, t = (if f = true then s else { s with mi := s.mi.tail }) →
      t.toBlockAssembler = s.toBlockAssembler ∧ t.committed = s.committed ∧
      t.failedTx = s.failedTx := by
    intro t ht
    cases f
    · rw [ht]
      exact ⟨rfl, rfl, rfl⟩
    · rw [ht]
      exact ⟨rfl, rfl, rfl⟩
  generalize (if f = true then s else { s with mi := s.mi.tail }) = s0 at e0 ⊢
  obtain ⟨a1, a2, a3⟩ := e0 s0 rfl
  have hin : s0.inBlock = s.inBlock := by rw [a1]
  have hsz : s0.nBlockSize = s.nBlockSize := by rw [a1]
  have hso : s0.nBlockSigOps = s.nBlockSigOps := by rw [a1]
  have hmark : (markFailed s0 T f).toBlockAssembler = s.toBlockAssembler ∧
      (markFailed s0 T f).committed = s.committed ∧
      (s.mapModifiedTx T ≠ none → T ∈ (markFailed s0 T f).failedTx) := by
    refine ⟨by rw [markFailed_toBlockAssembler, a1], by rw [markFailed_committed, a2], ?_⟩
    intro hne
    rw [markFailed_failedTx, hrow hne]
    simp [mem_setInsert]
  by_cases hg : TestPackage cfg s.nBlockSize s.nBlockSigOps r.nSizeWithAncestors
      r.nSigOpCountWithAncestors = false
  · rw [evaluateCandidate_full mp cfg s0 T f _ _ _ (by rw [hin]; exact hnot) hfee
      (by rw [hsz, hso]; exact hg)]
    exact hmark
  · have hg2 : TestPackageTransactions mp (packageOf mp s.inBlock T) = false := by
      rcases hgate with h1 | h1
      · exact absurd h1 hg
      · exact h1
    rw [evaluateCandidate_invalid mp cfg s0 T f _ _ _ (by rw [hin]; exact hnot) hfee
      (by rw [hsz, hso]; simpa using hg) (by rw [hin]; exact hg2)]
    exact hmark

/-- The anchor of a rejected candidate is doomed. -/
theorem rejectedAnchor_doomed (mp : CTxMemPool) (cfg : Params) (s : SelectorState) (T : Nat)
    (hcons : AggregatesConsistent mp) (hwrap : NoWrap mp cfg)
    (hinv : RejectionInvariant mp cfg s) (h : rejectedAnchor mp cfg s = some T) :
    T ∉ s.inBlock ∧ Doomed mp cfg s T := by
  obtain ⟨_, hB, hC, hE⟩ := hinv
  obtain ⟨_, f, r, hc, hnot, _, hgate⟩ := rejectedAnchor_some mp cfg s T h
  refine ⟨hnot, ?_⟩
  apply Doomed_of_rejected mp cfg s T r.nSizeWithAncestors r.nSigOpCountWithAncestors hcons
    hwrap hC.2.1 hC.2.2.1 hnot ?_ hgate
  rcases chosenCandidate_source mp s T f r hc with ⟨_, hrow⟩ | ⟨_, _, hskip, hr⟩
  · by_cases hf : T ∈ s.failedTx
    · exact Or.inl (hE T hf)
    · right
      exact (candidate_exact mp cfg s.inBlock T hcons hwrap hnot).1 _
        (hB.2.1 T _ hrow hf hnot)
  · right
    unfold SkipMapTxEntry at hskip
    simp only [Bool.or_eq_false_iff, decide_eq_false_iff_not] at hskip
    obtain ⟨⟨hrow, _⟩, hf⟩ := hskip
    have hnone : s.mapModifiedTx T = none := by
      cases hm : s.mapModifiedTx T with
      | none => rfl
      | some r0 => rw [hm] at hrow; cases hrow
    have h0 : inBlockAncestors mp s.inBlock T = [] := by
      by_cases hlt : T < mp.size
      · exact hB.1 T hlt hnone hf hnot
      · exact inBlockAncestors_absent mp _ _ hlt
    rw [hr]
    exact (candidate_exact mp cfg s.inBlock T hcons hwrap hnot).2 h0

/-- A doomed entry is not in a block that is closed under ancestors. -/
theorem Doomed_not_inBlock (mp : CTxMemPool) (cfg : Params) (s : SelectorState) (T : Nat)
    (hclosed : ∀ x ∈ s.inBlock, ∀ y ∈ (mp.entry x).ancestors, y ∈ s.inBlock)
    (hd : Doomed mp cfg s T) : T ∉ s.inBlock := by
  rcases hd with ⟨Z, hZ1, hZ2, _⟩ | ⟨hT, _⟩
  · intro hc
    rcases hZ1 with hZ1 | hZ1
    · rw [hZ1] at hZ2
      exact hZ2 hc
    · exact hZ2 (hclosed T hc Z hZ1)
  · exact hT

/-- The invariant behind the fate of rejected anchors holds on entry to the loop. -/
theorem RejectionInvariant_init (mp : CTxMemPool) (cfg : Params) (a : BlockAssembler)
    (np nd : Nat) (hcons : AggregatesConsistent mp) (hwrap : NoWrap mp cfg)
    (hset : a.inBlock.Nodup)
    (hclosed : ∀ x ∈ a.inBlock, ∀ y ∈ (mp.entry x).ancestors, y ∈ a.inBlock)
    (hsize : a.nBlockSize ≤ cfg.nBlockMaxSize) (hsig : a.nBlockSigOps ≤ cfg.MaxBlockSigOps) :
    RejectionInvariant mp cfg (addPackageTxsInit mp a np nd) := by
  refine ⟨⟨hclosed, ?_, fun hx => by cases hx⟩, ?_, ⟨?_, hsize, hsig, hsize, hsig⟩, ?_⟩
  · exact rows_update mp [] a.inBlock a.inBlock emptyModified emptyModified (fun x => by simp)
      (fun x _ hx => by cases hx) (fun k => by simp [emptyModified])
      (fun x hx => by cases hx) (fun D r hr => by cases hr)
  · show (∀ D, D < mp.size → (UpdatePackagesForAdded mp a.inBlock emptyModified).2 D = none →
        D ∉ [] → D ∉ a.inBlock → inBlockAncestors mp a.inBlock D = []) ∧
      (∀ D r, (UpdatePackagesForAdded mp a.inBlock emptyModified).2 D = some r →
        D ∉ [] → D ∉ a.inBlock → RowSound mp a.inBlock D r) ∧
      (∀ D r, (UpdatePackagesForAdded mp a.inBlock emptyModified).2 D = some r →
        D < mp.size)
    apply sound_update mp [] a.inBlock a.inBlock [] emptyModified emptyModified
      (fun x => by simp) hset (fun x _ hx => by cases hx)
    · intro k; simp [emptyModified]
    · intro D _ _ _ _
      unfold inBlockAncestors
      simp
    · intro D r hr; cases hr
    · intro D r hr; cases hr
  · show RowsCover mp a.inBlock (UpdatePackagesForAdded mp a.inBlock emptyModified).2
    apply RowsCover_update mp cfg [] a.inBlock a.inBlock emptyModified emptyModified hcons
      hwrap (fun x => by simp) hset (fun x _ hx => by cases hx)
    · intro k; simp [emptyModified]
    · intro D r hr; cases hr
  · intro T hT
    cases hT

/-- The block only grows. -/
theorem run_inBlock_mono (mp : CTxMemPool) (cfg : Params) (i : Nat) (s : SelectorState)
    (x : Nat) (h : x ∈ s.inBlock) : x ∈ (run mp cfg i s).inBlock := by
  apply run_commit_invariant mp cfg (fun b _ => x ∈ b.inBlock) ?_ i s h
  intro t s0 iter f ps pf pso hQ hasm _ _ _ _ _
  rw [commitPackage_inBlock_mem]
  left
  have e : s0.inBlock = t.inBlock := by rw [hasm]
  rw [e]
  exact hQ

/-- From the iteration that rejects it on, the anchor stays doomed. -/
theorem run_doomed (mp : CTxMemPool) (cfg : Params) (i : Nat) (s : SelectorState) (T : Nat)
    (hcons : AggregatesConsistent mp) (hwrap : NoWrap mp cfg)
    (htrans : ∀ A B C, B ∈ (mp.entry A).ancestors → C ∈ (mp.entry B).ancestors →
      C ∈ (mp.entry A).ancestors)
    (hinv : RejectionInvariant mp cfg s) (hd : Doomed mp cfg s T) :
    RejectionInvariant mp cfg (run mp cfg i s) ∧ Doomed mp cfg (run mp cfg i s) T := by
  induction i generalizing s with
  | zero => exact ⟨hinv, hd⟩
  | succ i ih =>
    obtain ⟨h1, h2⟩ := step_rejection mp cfg s hcons hwrap htrans hinv
    exact ih (step mp cfg s) h1 (h2 T hd)

theorem twoParentsPool_entry_absent (n : Nat) :
    twoParentsPool.entry (n + 3) = CTxMemPoolEntry.absent := rfl

theorem twoParentsPool_closed (A B C : Nat) (h1 : B ∈ (twoParentsPool.entry A).ancestors)
    (h2 : C ∈ (twoParentsPool.entry B).ancestors) :
    C ∈ (twoParentsPool.entry A).ancestors := by
  have hB : B = 0 ∨ B = 2 := by
    match A with
    | 0 => cases h1
    | 1 => simpa [twoParentsPool, CTxMemPool.entry, plainEntry] using h1
    | 2 => cases h1
    | n + 3 => rw [twoParentsPool_entry_absent] at h1; cases h1
  rcases hB with hB | hB
  · subst hB
    cases h2
  · subst hB
    cases h2

theorem twoParentsPool_consistent : AggregatesConsistent twoParentsPool := by
  intro D
  match D with
  | 0 => decide
  | 1 => decide
  | 2 => decide
  | n + 3 =>
    have h : packageOf twoParentsPool [] (n + 3) = [n + 3] := by
      unfold packageOf onlyUnconfirmed CTxMemPool.CalculateMemPoolAncestors
      rw [twoParentsPool_entry_absent]
      rfl
    rw [h]
    simp [sizeSum, sigOpSum, twoParentsPool_entry_absent, CTxMemPoolEntry.absent]

theorem twoParentsPool_noWrap : NoWrap twoParentsPool (paramsOf 5000 0) := by
  intro D
  match D with
  | 0 => decide
  | 1 => decide
  | 2 => decide
  | n + 3 => rw [twoParentsPool_entry_absent]; decide

/-- C30: in a consistent snapshot (size and sigop aggregates are the sums over the entry and
its ancestors and do not wrap the sums of `TestPackage`, ancestor sets are closed under the
ancestor relation) started within the budget on a block that contains the ancestors of its
entries, an entry `T` that is the anchor of a candidate package rejected by the resource gate
or by the validity gate in some iteration `k` of `addPackageTxs` is in the block after no
number `n` of iterations, and is in no committed package: neither as the anchor of a
candidate from a re-created row nor as an ancestor in the package of another anchor.  The
validity predicates are fields of the snapshot and so fixed during the run. -/
theorem C30_rejected_anchor_never_committed (mp : CTxMemPool) (cfg : Params)
    (a : BlockAssembler) (np nd k n T : Nat)
    (hcons : AggregatesConsistent mp) (hwrap : NoWrap mp cfg)
    (htrans : ∀ A B C, B ∈ (mp.entry A).ancestors → C ∈ (mp.entry B).ancestors →
      C ∈ (mp.entry A).ancestors)
    (hset : a.inBlock.Nodup)
    (hclosed : ∀ x ∈ a.inBlock, ∀ y ∈ (mp.entry x).ancestors, y ∈ a.inBlock)
    (hsize : a.nBlockSize ≤ cfg.nBlockMaxSize) (hsig : a.nBlockSigOps ≤ cfg.MaxBlockSigOps)
    (hrej : rejectedAnchor mp cfg (run mp cfg k (addPackageTxsInit mp a np nd)) = some T) :
    T ∉ (run mp cfg n (addPackageTxsInit mp a np nd)).inBlock ∧
      T ∉ committedEntries (run mp cfg n (addPackageTxsInit mp a np nd)) := by
  have hinit := RejectionInvariant_init mp cfg a np nd hcons hwrap hset hclosed hsize hsig
  have hk : RejectionInvariant mp cfg (run mp cfg k (addPackageTxsInit mp a np nd)) :=
    run_invariant mp cfg (RejectionInvariant mp cfg)
      (fun t ht => (step_rejection mp cfg t hcons hwrap htrans ht).1) k _ hinit
  obtain ⟨hnot, hd⟩ := rejectedAnchor_doomed mp cfg _ T hcons hwrap hk hrej
  have hmain : T ∉ (run mp cfg n (addPackageTxsInit mp a np nd)).inBlock := by
    by_cases hle : n ≤ k
    · intro hc
      have e : k = n + (k - n) := by omega
      rw [e, run_add] at hnot
      exact hnot (run_inBlock_mono mp cfg (k - n) _ T hc)
    · have e : n = k + (n - k) := by omega
      rw [e, run_add]
      obtain ⟨hi, hdn⟩ := run_doomed mp cfg (n - k) _ T hcons hwrap htrans hk hd
      exact Doomed_not_inBlock mp cfg _ T hi.1.1 hdn
  refine ⟨hmain, ?_⟩
  intro hc
  exact hmain ((run_bookkeeping mp cfg a np nd n hset).2.1 T |>.mpr (Or.inr hc))

set_option maxRecDepth 100000 in
/-- C30 at `twoParentsPool` with a block size limit of 5000: the third iteration rejects the
child (entry 1), taken from the modified index, at the resource gate; its row is created
again when the second parent is committed and the fifth iteration rejects it again; when
the loop is over the child is neither in the block nor in a committed package. -/
theorem C30_rejected_anchor_never_committed_witness :
    rejectedAnchor twoParentsPool (paramsOf 5000 0)
      (run twoParentsPool (paramsOf 5000 0) 2
        (addPackageTxsInit twoParentsPool freshAssembler 0 0)) = some 1 ∧
    (run twoParentsPool (paramsOf 5000 0) 4
      (addPackageTxsInit twoParentsPool freshAssembler 0 0)).mapModifiedTx 1 ≠ none ∧
    (addPackageTxs twoParentsPool (paramsOf 5000 0) freshAssembler 0 0).inBlock = [0, 2] ∧
    (1 ∉ (run twoParentsPool (paramsOf 5000 0) (fuelBound twoParentsPool)
        (addPackageTxsInit twoParentsPool freshAssembler 0 0)).inBlock ∧
      1 ∉ committedEntries (run twoParentsPool (paramsOf 5000 0) (fuelBound twoParentsPool)
        (addPackageTxsInit twoParentsPool freshAssembler 0 0))) :=
  ⟨by decide, by decide, by decide,
    C30_rejected_anchor_never_committed twoParentsPool (paramsOf 5000 0) freshAssembler 0 0 2
      (fuelBound twoParentsPool) 1 twoParentsPool_consistent twoParentsPool_noWrap
      twoParentsPool_closed (by decide) (fun x hx => by cases hx) (by decide) (by decide)
      (by decide)⟩

/-! ## The points of `addPackageTxs` -/

theorem mem_updatePairs (mp : CTxMemPool) (P : List Nat) (p : Nat × Nat) :
    p ∈ updatePairs mp P ↔ p.1 ∈ P ∧ p.2 ∈ mp.CalculateDescendants p.1 := by
  unfold updatePairs
  rw [List.mem_flatMap]
  constructor
  · rintro ⟨it, hit, hp⟩
    rw [List.mem_map] at hp
    obtain ⟨desc, hd, e⟩ := hp
    rw [← e]
    exact ⟨hit, hd⟩
  · rintro ⟨h1, h2⟩
    exact ⟨p.1, h1, List.mem_map.mpr ⟨p.2, h2, rfl⟩⟩

/-- The nested loops of `UpdatePackagesForAdded` are one loop over the pairs they visit. -/
theorem foldl_updatePairs (mp : CTxMemPool) (P L : List Nat)
    (acc : Nat × indexed_modified_transaction_set) :
    (L.flatMap (fun it => (mp.CalculateDescendants it).map (fun desc => (it, desc)))).foldl
        (fun acc p => updateDescendant mp P p.1 acc p.2) acc =
      L.foldl (updateForAdded mp P) acc := by
  induction L generalizing acc with
  | nil => rfl
  | cons it L ih =>
    rw [List.flatMap_cons, List.foldl_append, List.foldl_cons, ih, List.foldl_map]
    rfl

/-- The last state inside `UpdatePackagesForAdded` is the one it returns in. -/
theorem updatePairs_foldl (mp : CTxMemPool) (P : List Nat)
    (m : indexed_modified_transaction_set) :
    (updatePairs mp P).foldl (fun acc p => updateDescendant mp P p.1 acc p.2) (0, m) =
      UpdatePackagesForAdded mp P m := by
  unfold updatePairs UpdatePackagesForAdded
  exact foldl_updatePairs mp P P (0, m)

theorem updatePoints_kind (mp : CTxMemPool) (P : List Nat) (s : SelectorState)
    (q : ProgramPoint × SelectorState) (h : q ∈ updatePoints mp P s) :
    q.1 = ProgramPoint.updating ∧ q.2.toBlockAssembler = s.toBlockAssembler ∧
      q.2.status = s.status ∧ q.2.failedTx = s.failedTx := by
  unfold updatePoints at h
  rw [List.mem_map] at h
  obtain ⟨acc, _, e⟩ := h
  rw [← e]
  exact ⟨rfl, rfl, rfl, rfl⟩

theorem commitLoopPoints_kind (mp : CTxMemPool) (l : List Nat) (s : SelectorState)
    (q : ProgramPoint × SelectorState) (h : q ∈ commitLoopPoints mp l s) :
    q.1 ≠ ProgramPoint.outside ∧ q.2.status = s.status := by
  induction l generalizing s with
  | nil => cases h
  | cons it l ih =>
    unfold commitLoopPoints at h
    rw [List.mem_cons, List.mem_cons] at h
    rcases h with h | h | h
    · rw [h]
      exact ⟨(fun hc => by cases hc), rfl⟩
    · rw [h]
      exact ⟨(fun hc => by cases hc), rfl⟩
    · exact ⟨(ih _ h).1, (ih _ h).2⟩

theorem failurePoints_spec (s : SelectorState) (iter : Nat) (f : Bool)
    (q : ProgramPoint × SelectorState) (h : q ∈ failurePoints s iter f) :
    q.1 = ProgramPoint.outside ∧ q.2.toBlockAssembler = s.toBlockAssembler ∧
      q.2.status = s.status ∧
      (∀ D, q.2.mapModifiedTx D = s.mapModifiedTx D ∨ q.2.mapModifiedTx D = none) ∧
      (∀ x ∈ s.failedTx, x ∈ q.2.failedTx) := by
  have herase : ∀ D, modifiedErase s.mapModifiedTx iter D = s.mapModifiedTx D ∨
      modifiedErase s.mapModifiedTx iter D = none := by
    intro D
    unfold modifiedErase
    by_cases hD : D = iter
    · exact Or.inr (by simp [hD])
    · exact Or.inl (by simp [hD])
  unfold failurePoints at h
  cases f with
  | false => cases h
  | true =>
    simp only [if_true, List.mem_cons, List.mem_singleton, List.not_mem_nil, or_false] at h
    rcases h with h | h
    · rw [h]
      exact ⟨rfl, rfl, rfl, herase, fun x hx => hx⟩
    · rw [h]
      refine ⟨rfl, markFailed_toBlockAssembler _ _ _, markFailed_status _ _ _, ?_, ?_⟩
      · intro D
        rw [markFailed_mapModifiedTx]
        exact herase D
      · intro x hx
        rw [markFailed_failedTx]
        simp only [if_true, mem_setInsert]
        exact Or.inr hx

/-- The points of an iteration before its end that are outside a commit: the block is the
one at the start of the iteration, rows have at most been erased, and `failedTx` has at most
grown; the loop is still running. -/
theorem intermediatePoints_outside (mp : CTxMemPool) (cfg : Params) (s : SelectorState)
    (iter : Nat) (f : Bool) (ps : Nat) (pf : Int) (pso : Nat)
    (q : ProgramPoint × SelectorState) (h : q ∈ intermediatePoints mp cfg s iter f ps pf pso)
    (ho : q.1 = ProgramPoint.outside) :
    q.2.toBlockAssembler = s.toBlockAssembler ∧ q.2.status = s.status ∧
      (∀ D, q.2.mapModifiedTx D = s.mapModifiedTx D ∨ q.2.mapModifiedTx D = none) ∧
      (∀ x ∈ s.failedTx, x ∈ q.2.failedTx) := by
  unfold intermediatePoints at h
  split at h
  · cases h
  · split at h
    · cases h
    · split at h
      · rw [List.mem_append, List.mem_singleton] at h
        rcases h with h | h
        · exact (failurePoints_spec s iter f q h).2
        · rw [h]
          have h2 := failurePoints_spec s iter f (ProgramPoint.outside, markFailed s iter f)
          refine ⟨markFailed_toBlockAssembler _ _ _, markFailed_status _ _ _, ?_, ?_⟩
          · intro D
            show (markFailed s iter f).mapModifiedTx D = _ ∨ _
            rw [markFailed_mapModifiedTx]
            cases f
            · exact Or.inl rfl
            · simp only [if_true]
              unfold modifiedErase
              by_cases hD : D = iter
              · exact Or.inr (by simp [hD])
              · exact Or.inl (by simp [hD])
          · intro x hx
            show x ∈ (markFailed s iter f).failedTx
            rw [markFailed_failedTx]
            cases f
            · exact hx
            · simp only [if_true, mem_setInsert]
              exact Or.inr hx
      · simp only [] at h
        split at h
        · exact (failurePoints_spec s iter f q h).2
        · unfold commitPoints at h
          simp only [] at h
          rw [List.mem_cons, List.mem_append] at h
          rcases h with h | h | h
          · rw [h]
            exact ⟨rfl, rfl, fun D => Or.inl rfl, fun x hx => hx⟩
          · exact absurd ho (commitLoopPoints_kind mp _ _ q h).1
          · have := (updatePoints_kind mp _ _ q h).1
            rw [this] at ho
            cases ho

/-- Inside the commit loop: a row belongs to an entry with an ancestor in the block, and to
an entry of the block only between the `AddToBlock` of that entry and the `erase` of its
row. -/
theorem commitLoopPoints_rows (mp : CTxMemPool) (l : List Nat) (s : SelectorState)
    (h : ∀ D r, s.mapModifiedTx D = some r →
      D ∉ s.inBlock ∧ ∃ A, A ∈ (mp.entry D).ancestors ∧ A ∈ s.inBlock) :
    (∀ q ∈ commitLoopPoints mp l s, ∀ D r, q.2.mapModifiedTx D = some r →
      (∃ A, A ∈ (mp.entry D).ancestors ∧ A ∈ q.2.inBlock) ∧
      (D ∈ q.2.inBlock → q.1 = ProgramPoint.added D)) ∧
    (∀ D r, (l.foldl (addEntry mp) s).mapModifiedTx D = some r →
      D ∉ (l.foldl (addEntry mp) s).inBlock ∧
        ∃ A, A ∈ (mp.entry D).ancestors ∧ A ∈ (l.foldl (addEntry mp) s).inBlock) := by
  induction l generalizing s with
  | nil =>
    exact ⟨(fun q hq => by cases hq), h⟩
  | cons it l ih =>
    have hnext : ∀ D r, (addEntry mp s it).mapModifiedTx D = some r →
        D ∉ (addEntry mp s it).inBlock ∧
          ∃ A, A ∈ (mp.entry D).ancestors ∧ A ∈ (addEntry mp s it).inBlock := by
      intro D r hr
      have hr2 : modifiedErase s.mapModifiedTx it D = some r := hr
      unfold modifiedErase at hr2
      by_cases hD : D = it
      · simp [hD] at hr2
      · simp only [hD, if_false] at hr2
        obtain ⟨h1, A, hA1, hA2⟩ := h D r hr2
        refine ⟨?_, A, hA1, ?_⟩
        · show D ∉ setInsert it s.inBlock
          rw [mem_setInsert]
          intro hc
          rcases hc with hc | hc
          · exact hD hc
          · exact h1 hc
        · show A ∈ setInsert it s.inBlock
          rw [mem_setInsert]
          exact Or.inr hA2
    obtain ⟨ih1, ih2⟩ := ih (addEntry mp s it) hnext
    refine ⟨?_, ih2⟩
    intro q hq
    unfold commitLoopPoints at hq
    rw [List.mem_cons, List.mem_cons] at hq
    rcases hq with hq | hq | hq
    · rw [hq]
      intro D r hr
      have hr2 : s.mapModifiedTx D = some r := hr
      obtain ⟨h1, A, hA1, hA2⟩ := h D r hr2
      refine ⟨⟨A, hA1, ?_⟩, ?_⟩
      · show A ∈ setInsert it s.inBlock
        rw [mem_setInsert]
        exact Or.inr hA2
      · intro hc
        have hc2 : D ∈ setInsert it s.inBlock := hc
        rw [mem_setInsert] at hc2
        rcases hc2 with hc2 | hc2
        · rw [hc2]
        · exact absurd hc2 h1
    · rw [hq]
      intro D r hr
      obtain ⟨h1, hA⟩ := hnext D r hr
      exact ⟨hA, fun hc => absurd hc h1⟩
    · exact ih1 q hq

/-- One pass of the inner loop of `UpdatePackagesForAdded` keeps every row with an entry
outside the block that has an ancestor in the block. -/
theorem updateDescendant_rows (mp : CTxMemPool) (P B2 : List Nat) (it desc : Nat)
    (acc : Nat × indexed_modified_transaction_set)
    (hit : it ∈ P) (hdesc : desc ∈ mp.CalculateDescendants it)
    (hP : ∀ x ∈ P, x ∈ B2)
    (hside : ∀ d, d ∉ P → d ∈ B2 → ∀ x ∈ P, x ∉ (mp.entry d).ancestors)
    (h : ∀ D r, acc.2 D = some r → D ∉ B2 ∧ ∃ A, A ∈ (mp.entry D).ancestors ∧ A ∈ B2) :
    ∀ D r, (updateDescendant mp P it acc desc).2 D = some r →
      D ∉ B2 ∧ ∃ A, A ∈ (mp.entry D).ancestors ∧ A ∈ B2 := by
  intro D r hr
  rw [updateDescendant_snd] at hr
  by_cases hc : D = desc ∧ desc ∉ P
  · obtain ⟨hD, hdP⟩ := hc
    rw [mem_CalculateDescendants] at hdesc
    have hanc : it ∈ (mp.entry desc).ancestors := by
      rcases hdesc.2 with e | e
      · rw [e] at hdP
        exact absurd hit hdP
      · exact e
    rw [hD]
    refine ⟨?_, it, hanc, hP it hit⟩
    intro hB
    exact hside desc hdP hB it hit hanc
  · rw [if_neg hc] at hr
    exact h D r hr

theorem scanl_updateDescendant_rows (mp : CTxMemPool) (P B2 : List Nat) (L : List (Nat × Nat))
    (acc : Nat × indexed_modified_transaction_set)
    (hL : ∀ p ∈ L, p.1 ∈ P ∧ p.2 ∈ mp.CalculateDescendants p.1)
    (hP : ∀ x ∈ P, x ∈ B2)
    (hside : ∀ d, d ∉ P → d ∈ B2 → ∀ x ∈ P, x ∉ (mp.entry d).ancestors)
    (h : ∀ D r, acc.2 D = some r → D ∉ B2 ∧ ∃ A, A ∈ (mp.entry D).ancestors ∧ A ∈ B2) :
    ∀ x ∈ L.scanl (fun acc p => updateDescendant mp P p.1 acc p.2) acc,
      ∀ D r, x.2 D = some r → D ∉ B2 ∧ ∃ A, A ∈ (mp.entry D).ancestors ∧ A ∈ B2 := by
  induction L generalizing acc with
  | nil =>
    intro x hx
    simp only [List.scanl_nil, List.mem_singleton] at hx
    rw [hx]
    exact h
  | cons p L ih =>
    intro x hx
    rw [List.scanl_cons, List.mem_append, List.mem_singleton] at hx
    rcases hx with hx | hx
    · rw [hx]
      exact h
    · obtain ⟨hp1, hp2⟩ := hL p (List.mem_cons_self _ _)
      exact ih _ (fun p2 hp => hL p2 (List.mem_cons_of_mem _ hp))
        (updateDescendant_rows mp P B2 p.1 p.2 acc hp1 hp2 hP hside h) x hx

/-- Inside `UpdatePackagesForAdded`: every row belongs to an entry outside the block with an
ancestor in the block. -/
theorem updatePoints_rows (mp : CTxMemPool) (P : List Nat) (s : SelectorState)
    (hP : ∀ x ∈ P, x ∈ s.inBlock)
    (hside : ∀ d, d ∉ P → d ∈ s.inBlock → ∀ x ∈ P, x ∉ (mp.entry d).ancestors)
    (h : ∀ D r, s.mapModifiedTx D = some r →
      D ∉ s.inBlock ∧ ∃ A, A ∈ (mp.entry D).ancestors ∧ A ∈ s.inBlock) :
    ∀ q ∈ updatePoints mp P s, ∀ D r, q.2.mapModifiedTx D = some r →
      D ∉ q.2.inBlock ∧ ∃ A, A ∈ (mp.entry D).ancestors ∧ A ∈ q.2.inBlock := by
  intro q hq
  unfold updatePoints at hq
  rw [List.mem_map] at hq
  obtain ⟨acc, hacc, e⟩ := hq
  rw [← e]
  exact scanl_updateDescendant_rows mp P s.inBlock (updatePairs mp P) (0, s.mapModifiedTx)
    (fun p hp => (mem_updatePairs mp P p).mp hp) hP hside h acc hacc

/-- Inside a commit, entered from a state with an ancestor-closed block whose rows belong to
entries outside the block with an ancestor in it: at every point a row belongs to an entry
with an ancestor in the block, and to an entry of the block only between the `AddToBlock`
of that entry and the `erase` of its row. -/
theorem commitPoints_rows (mp : CTxMemPool) (s : SelectorState) (iter : Nat)
    (hnot : iter ∉ s.inBlock)
    (hc : ∀ x ∈ s.inBlock, ∀ y ∈ (mp.entry x).ancestors, y ∈ s.inBlock)
    (hr : ∀ D r, s.mapModifiedTx D = some r →
      D ∉ s.inBlock ∧ ∃ A, A ∈ (mp.entry D).ancestors ∧ A ∈ s.inBlock) :
    ∀ q ∈ commitPoints mp s (packageOf mp s.inBlock iter),
      (∀ D r, q.2.mapModifiedTx D = some r →
        (∃ A, A ∈ (mp.entry D).ancestors ∧ A ∈ q.2.inBlock) ∧
        (D ∈ q.2.inBlock → q.1 = ProgramPoint.added D)) ∧
      q.2.status = s.status := by
  intro q hq
  unfold commitPoints at hq
  simp only [] at hq
  rw [List.mem_cons, List.mem_append] at hq
  obtain ⟨l1, l2⟩ := commitLoopPoints_rows mp (SortForBlock mp (packageOf mp s.inBlock iter))
    { s with nConsecutiveFailed := 0 } hr
  rcases hq with hq | hq | hq
  · rw [hq]
    refine ⟨?_, rfl⟩
    intro D r hD
    obtain ⟨h1, hA⟩ := hr D r hD
    exact ⟨hA, fun hc2 => absurd hc2 h1⟩
  · exact ⟨l1 q hq, (commitLoopPoints_kind mp _ _ q hq).2⟩
  · obtain ⟨_, k2, k3, _⟩ := updatePoints_kind mp _ _ q hq
    refine ⟨?_, ?_⟩
    · intro D r hD
      have hmem : ∀ x, x ∈ ((SortForBlock mp (packageOf mp s.inBlock iter)).foldl (addEntry mp)
          { s with nConsecutiveFailed := 0 }).inBlock ↔
          x ∈ s.inBlock ∨ x ∈ packageOf mp s.inBlock iter := by
        intro x
        rw [mem_foldl_addEntry_inBlock, mem_SortForBlock]
      have hrows : ∀ D r, q.2.mapModifiedTx D = some r →
          D ∉ q.2.inBlock ∧ ∃ A, A ∈ (mp.entry D).ancestors ∧ A ∈ q.2.inBlock := by
        refine updatePoints_rows mp _ _ ?_ ?_ ?_ q hq
        · intro x hx
          exact (hmem x).mpr (Or.inr hx)
        · intro d hd hdB x hx hanc
          rcases (hmem d).mp hdB with hdB | hdB
          · have hxB := hc d hdB x hanc
            unfold packageOf at hx
            rw [mem_package] at hx
            rcases hx with hx | hx
            · rw [hx] at hxB
              exact hnot hxB
            · exact hx.2 hxB
          · exact hd hdB
        · exact l2
      obtain ⟨h1, hA⟩ := hrows D r hD
      exact ⟨hA, fun hc2 => absurd hc2 h1⟩
    · rw [k3]
      show ((SortForBlock mp (packageOf mp s.inBlock iter)).foldl (addEntry mp)
        { s with nConsecutiveFailed := 0 }).status = s.status
      rw [foldl_addEntry_status]

/-- The points of an iteration before its end, entered with the invariant of the modified
index and the block: at every point a row belongs to an entry with an ancestor in the block,
and to an entry of the block only between the `AddToBlock` of that entry and the `erase` of
its row. -/
theorem intermediatePoints_rows (mp : CTxMemPool) (cfg : Params) (s : SelectorState)
    (iter : Nat) (f : Bool) (ps : Nat) (pf : Int) (pso : Nat)
    (hc : ∀ x ∈ s.inBlock, ∀ y ∈ (mp.entry x).ancestors, y ∈ s.inBlock)
    (hr : ∀ D r, s.mapModifiedTx D = some r →
      D ∉ s.inBlock ∧ ∃ A, A ∈ (mp.entry D).ancestors ∧ A ∈ s.inBlock) :
    ∀ q ∈ intermediatePoints mp cfg s iter f ps pf pso,
      (∀ D r, q.2.mapModifiedTx D = some r →
        (∃ A, A ∈ (mp.entry D).ancestors ∧ A ∈ q.2.inBlock) ∧
        (D ∈ q.2.inBlock → q.1 = ProgramPoint.added D)) ∧
      q.2.status = s.status := by
  intro q hq
  by_cases ho : q.1 = ProgramPoint.outside
  · obtain ⟨b1, b2, b3, _⟩ := intermediatePoints_outside mp cfg s iter f ps pf pso q hq ho
    refine ⟨?_, b2⟩
    intro D r hD
    have e : q.2.inBlock = s.inBlock := by rw [b1]
    rw [e]
    rcases b3 D with b3 | b3
    · rw [b3] at hD
      obtain ⟨h1, hA⟩ := hr D r hD
      exact ⟨hA, fun hc2 => absurd hc2 h1⟩
    · rw [b3] at hD
      cases hD
  · unfold intermediatePoints at hq
    split at hq
    · cases hq
    · rename_i hnot
      split at hq
      · cases hq
      · split at hq
        · rw [List.mem_append, List.mem_singleton] at hq
          rcases hq with hq | hq
          · exact absurd (failurePoints_spec s iter f q hq).1 ho
          · rw [hq] at ho
            exact absurd rfl ho
        · simp only [] at hq
          split at hq
          · exact absurd (failurePoints_spec s iter f q hq).1 ho
          · exact commitPoints_rows mp s iter hnot hc hr q hq

/-- At every point of an iteration entered with the invariant of the modified index and the
block, a row belongs to an entry with an ancestor in the block, and to an entry of the block
only between the `AddToBlock` of that entry and the `erase` of its row; the assertion on the
candidate has not failed. -/
theorem iterationPoints_rows (mp : CTxMemPool) (cfg : Params) (s : SelectorState)
    (htrans : ∀ A B C, B ∈ (mp.entry A).ancestors → C ∈ (mp.entry B).ancestors →
      C ∈ (mp.entry A).ancestors)
    (h : (∀ x ∈ s.inBlock, ∀ y ∈ (mp.entry x).ancestors, y ∈ s.inBlock) ∧
      (∀ D r, s.mapModifiedTx D = some r →
        D ∉ s.inBlock ∧ ∃ A, A ∈ (mp.entry D).ancestors ∧ A ∈ s.inBlock) ∧
      s.status ≠ LoopStatus.assertFailed) :
    ∀ q ∈ iterationPoints mp cfg s,
      (∀ D r, q.2.mapModifiedTx D = some r →
        (∃ A, A ∈ (mp.entry D).ancestors ∧ A ∈ q.2.inBlock) ∧
        (D ∈ q.2.inBlock → q.1 = ProgramPoint.added D)) ∧
      q.2.status ≠ LoopStatus.assertFailed := by
  obtain ⟨hc, hr, hs⟩ := h
  have hend := step_rows mp cfg s htrans ⟨hc, hr, hs⟩
  have hfinal : (∀ D r, (step mp cfg s).mapModifiedTx D = some r →
      (∃ A, A ∈ (mp.entry D).ancestors ∧ A ∈ (step mp cfg s).inBlock) ∧
      (D ∈ (step mp cfg s).inBlock → ProgramPoint.outside = ProgramPoint.added D)) ∧
      (step mp cfg s).status ≠ LoopStatus.assertFailed := by
    refine ⟨?_, hend.2.2⟩
    intro D r hD
    obtain ⟨h1, hA⟩ := hend.2.1 D r hD
    exact ⟨hA, fun hc2 => absurd hc2 h1⟩
  intro q hq
  unfold iterationPoints at hq
  split at hq
  · split at hq
    · rw [List.mem_singleton] at hq
      rw [hq]
      exact hfinal
    · rename_i iter f r _
      rw [List.mem_cons, List.mem_append, List.mem_singleton] at hq
      have hs0 : ∀ t : SelectorState, t = (if f = true then s else { s with mi := s.mi.tail }) →
          t.inBlock = s.inBlock ∧ t.status = s.status ∧
          t.mapModifiedTx = s.mapModifiedTx := by
        intro t ht
        cases f
        · rw [ht]
          exact ⟨rfl, rfl, rfl⟩
        · rw [ht]
          exact ⟨rfl, rfl, rfl⟩
      generalize (if f = true then s else { s with mi := s.mi.tail }) = s0 at hs0 hq
      obtain ⟨a1, a2, a3⟩ := hs0 s0 rfl
      have hc0 : ∀ x ∈ s0.inBlock, ∀ y ∈ (mp.entry x).ancestors, y ∈ s0.inBlock := by
        rw [a1]
        exact hc
      have hr0 : ∀ D r, s0.mapModifiedTx D = some r →
          D ∉ s0.inBlock ∧ ∃ A, A ∈ (mp.entry D).ancestors ∧ A ∈ s0.inBlock := by
        rw [a1, a3]
        exact hr
      rcases hq with hq | hq | hq
      · rw [hq]
        refine ⟨?_, by show s0.status ≠ _; rw [a2]; exact hs⟩
        intro D r hD
        obtain ⟨h1, hA⟩ := hr0 D r hD
        exact ⟨hA, fun hc2 => absurd hc2 h1⟩
      · obtain ⟨b1, b2⟩ := intermediatePoints_rows mp cfg s0 iter f _ _ _ hc0 hr0 q hq
        exact ⟨b1, by rw [b2, a2]; exact hs⟩
      · rw [hq]
        exact hfinal
  · cases hq

/-- At every point of `addPackageTxs`, in a snapshot with ancestor sets closed under the
ancestor relation started on an ancestor-closed block: a row belongs to an entry with an
ancestor in the block, and to an entry of the block only between the `AddToBlock` of that
entry and the `erase` of its row; the assertion on the candidate has not failed. -/
theorem addPackageTxsPoints_rows (mp : CTxMemPool) (cfg : Params) (a : BlockAssembler)
    (np nd k : Nat)
    (htrans : ∀ A B C, B ∈ (mp.entry A).ancestors → C ∈ (mp.entry B).ancestors →
      C ∈ (mp.entry A).ancestors)
    (hclosed : ∀ x ∈ a.inBlock, ∀ y ∈ (mp.entry x).ancestors, y ∈ a.inBlock) :
    ∀ q ∈ addPackageTxsPoints mp cfg a np nd k,
      (∀ D r, q.2.mapModifiedTx D = some r →
        (∃ A, A ∈ (mp.entry D).ancestors ∧ A ∈ q.2.inBlock) ∧
        (D ∈ q.2.inBlock → q.1 = ProgramPoint.added D)) ∧
      q.2.status ≠ LoopStatus.assertFailed := by
  have hinit : (∀ x ∈ (addPackageTxsInit mp a np nd).inBlock,
        ∀ y ∈ (mp.entry x).ancestors, y ∈ (addPackageTxsInit mp a np nd).inBlock) ∧
      (∀ D r, (addPackageTxsInit mp a np nd).mapModifiedTx D = some r →
        D ∉ (addPackageTxsInit mp a np nd).inBlock ∧
          ∃ A, A ∈ (mp.entry D).ancestors ∧ A ∈ (addPackageTxsInit mp a np nd).inBlock) ∧
      (addPackageTxsInit mp a np nd).status ≠ LoopStatus.assertFailed :=
    ⟨hclosed,
      rows_update mp [] a.inBlock a.inBlock emptyModified emptyModified (fun x => by simp)
        (fun x _ hx => by cases hx) (fun k => by simp [emptyModified])
        (fun x hx => by cases hx) (fun D r hr => by cases hr),
      fun hx => by cases hx⟩
  intro q hq
  cases k with
  | zero =>
    have hq2 : q ∈ initPoints mp a np nd := hq
    unfold initPoints at hq2
    rw [List.mem_append, List.mem_singleton] at hq2
    rcases hq2 with hq2 | hq2
    · obtain ⟨_, _, k3, _⟩ := updatePoints_kind mp _ _ q hq2
      refine ⟨?_, by rw [k3]; exact fun hx => by cases hx⟩
      intro D r hD
      have hrows : ∀ D r, q.2.mapModifiedTx D = some r →
          D ∉ q.2.inBlock ∧ ∃ A, A ∈ (mp.entry D).ancestors ∧ A ∈ q.2.inBlock := by
        refine updatePoints_rows mp _ _ ?_ ?_ ?_ q hq2
        · intro x hx
          exact hx
        · intro d hd hdB
          exact absurd hdB hd
        · intro D r hr
          cases hr
      obtain ⟨h1, hA⟩ := hrows D r hD
      exact ⟨hA, fun hc2 => absurd hc2 h1⟩
    · rw [hq2]
      refine ⟨?_, hinit.2.2⟩
      intro D r hD
      obtain ⟨h1, hA⟩ := hinit.2.1 D r hD
      exact ⟨hA, fun hc2 => absurd hc2 h1⟩
  | succ k =>
    have hinv := run_invariant mp cfg (fun t =>
      (∀ x ∈ t.inBlock, ∀ y ∈ (mp.entry x).ancestors, y ∈ t.inBlock) ∧
        (∀ D r, t.mapModifiedTx D = some r →
          D ∉ t.inBlock ∧ ∃ A, A ∈ (mp.entry D).ancestors ∧ A ∈ t.inBlock) ∧
        t.status ≠ LoopStatus.assertFailed)
      (fun t ht => step_rows mp cfg t htrans ht) k (addPackageTxsInit mp a np nd) hinit
    exact iterationPoints_rows mp cfg _ htrans hinv q hq

set_option maxRecDepth 100000 in
/-- C23 (counterexample): in `twoParentsPool` with a block size limit of 2000000 the fourth
iteration takes the child (entry 1) from the modified index and commits its package
`[2, 1]`.  Between `AddToBlock(1)` and `mapModifiedTx.erase(1)` (the fifth point of the
iteration) the child is in `inBlock` and still has its row. -/
theorem C23_counterexample :
    (addPackageTxsPoints twoParentsPool (paramsOf 2000000 0) freshAssembler 0 0 3).map
        (pointView 1) =
      [(ProgramPoint.outside, [0], some ⟨10100, 100100, 0⟩, []),
        (ProgramPoint.outside, [0], some ⟨10100, 100100, 0⟩, []),
        (ProgramPoint.added 2, [0, 2], some ⟨10100, 100100, 0⟩, []),
        (ProgramPoint.erased, [0, 2], some ⟨10100, 100100, 0⟩, []),
        (ProgramPoint.added 1, [0, 2, 1], some ⟨10100, 100100, 0⟩, []),
        (ProgramPoint.erased, [0, 2, 1], none, []),
        (ProgramPoint.updating, [0, 2, 1], none, []),
        (ProgramPoint.updating, [0, 2, 1], none, []),
        (ProgramPoint.updating, [0, 2, 1], none, []),
        (ProgramPoint.updating, [0, 2, 1], none, []),
        (ProgramPoint.outside, [0, 2, 1], none, [])] ∧
    1 ∈ [0, 2, 1] := by
  decide

/-- C23 (amended): in a snapshot whose ancestor sets are closed under the ancestor relation,
started on a block that contains the ancestors of its entries, at every point of
`addPackageTxs` every entry that has a row in `mapModifiedTx` has at least one ancestor in
`inBlock`, and is itself in `inBlock` only between its own `AddToBlock` and the `erase` of
its row in the commit loop; the assertion `assert(!inBlock.count(iter))` has not failed.  In
particular, after every number of iterations of the loop no entry with a row is in
`inBlock`. -/
theorem C23_rows_have_included_ancestor (mp : CTxMemPool) (cfg : Params) (a : BlockAssembler)
    (np nd k : Nat)
    (htrans : ∀ A B C, B ∈ (mp.entry A).ancestors → C ∈ (mp.entry B).ancestors →
      C ∈ (mp.entry A).ancestors)
    (hclosed : ∀ x ∈ a.inBlock, ∀ y ∈ (mp.entry x).ancestors, y ∈ a.inBlock) :
    (∀ q ∈ addPackageTxsPoints mp cfg a np nd k,
      (∀ D r, q.2.mapModifiedTx D = some r →
        (∃ A, A ∈ (mp.entry D).ancestors ∧ A ∈ q.2.inBlock) ∧
        (D ∈ q.2.inBlock → q.1 = ProgramPoint.added D)) ∧
      q.2.status ≠ LoopStatus.assertFailed) ∧
    (∀ D r, (run mp cfg k (addPackageTxsInit mp a np nd)).mapModifiedTx D = some r →
      D ∉ (run mp cfg k (addPackageTxsInit mp a np nd)).inBlock ∧
      ∃ A, A ∈ (mp.entry D).ancestors ∧
        A ∈ (run mp cfg k (addPackageTxsInit mp a np nd)).inBlock) ∧
    (run mp cfg k (addPackageTxsInit mp a np nd)).status ≠ LoopStatus.assertFailed := by
  refine ⟨addPackageTxsPoints_rows mp cfg a np nd k htrans hclosed, ?_⟩
  have hinv := run_invariant mp cfg (fun t =>
    (∀ x ∈ t.inBlock, ∀ y ∈ (mp.entry x).ancestors, y ∈ t.inBlock) ∧
      (∀ D r, t.mapModifiedTx D = some r →
        D ∉ t.inBlock ∧ ∃ A, A ∈ (mp.entry D).ancestors ∧ A ∈ t.inBlock) ∧
      t.status ≠ LoopStatus.assertFailed)
    (fun t ht => step_rows mp cfg t htrans ht) k (addPackageTxsInit mp a np nd)
    ⟨hclosed,
      rows_update mp [] a.inBlock a.inBlock emptyModified emptyModified (fun x => by simp)
        (fun x _ hx => by cases hx) (fun k => by simp [emptyModified])
        (fun x hx => by cases hx) (fun D r hr => by cases hr),
      fun hx => by cases hx⟩
  exact ⟨hinv.2.1, hinv.2.2⟩

set_option maxRecDepth 100000 in
/-- Amended C23 at the fifth point of the fourth iteration on `twoParentsPool`: the child has
a row and is in the block, the point is the one between `AddToBlock(1)` and the `erase` of
the row, and the parent 0 is in the block.  After the first iteration on `siblingsPool` the
second child has a row and is not in the block. -/
theorem C23_rows_have_included_ancestor_witness :
    pointView 1
        ((addPackageTxsPoints twoParentsPool (paramsOf 2000000 0) freshAssembler 0 0 3).get
          ⟨4, by decide⟩) =
      (ProgramPoint.added 1, [0, 2, 1], some ⟨10100, 100100, 0⟩, []) ∧
    ((∃ A, A ∈ (twoParentsPool.entry 1).ancestors ∧
        A ∈ ((addPackageTxsPoints twoParentsPool (paramsOf 2000000 0) freshAssembler 0 0 3).get
          ⟨4, by decide⟩).2.inBlock) ∧
      (1 ∈ ((addPackageTxsPoints twoParentsPool (paramsOf 2000000 0) freshAssembler 0 0 3).get
          ⟨4, by decide⟩).2.inBlock →
        ((addPackageTxsPoints twoParentsPool (paramsOf 2000000 0) freshAssembler 0 0 3).get
          ⟨4, by decide⟩).1 = ProgramPoint.added 1)) ∧
    (run siblingsPool (paramsOf 2000000 0) 1
      (addPackageTxsInit siblingsPool freshAssembler 0 0)).mapModifiedTx 2 =
        some ⟨100, 900, 0⟩ ∧
    (2 ∉ (run siblingsPool (paramsOf 2000000 0) 1
      (addPackageTxsInit siblingsPool freshAssembler 0 0)).inBlock ∧
      ∃ A, A ∈ (siblingsPool.entry 2).ancestors ∧
        A ∈ (run siblingsPool (paramsOf 2000000 0) 1
          (addPackageTxsInit siblingsPool freshAssembler 0 0)).inBlock) :=
  ⟨by decide,
    ((C23_rows_have_included_ancestor twoParentsPool (paramsOf 2000000 0) freshAssembler 0 0 3
      twoParentsPool_closed (fun x hx => by cases hx)).1 _ (List.get_mem _ 4 _)).1 1
      ⟨10100, 100100, 0⟩ (by decide),
    by decide,
    (C23_rows_have_included_ancestor siblingsPool (paramsOf 2000000 0) freshAssembler 0 0 1
      siblingsPool_closed (fun x hx => by cases hx)).2.1 2 ⟨100, 900, 0⟩ (by decide)⟩

/-! ## The feerate of a row -/

set_option maxRecDepth 100000 in
/-- C21, the code at the failing input: the worker reads `isPoW` true at line 622, false in
the condition of the nonce loop (line 637, at nonce 0, so that `CheckProof` is not even
evaluated), and true again at line 642.  It does not leave the loop, the nonce 0 is not
`nInnerLoopCount`, and the block of template 0 is handed to `ProcessNewBlock` at nonce 0,
where `CheckProof` does not hold (it holds at no nonce of this template).  With the same
reads the proof-of-stake branch of the same loop, which submits only after `CheckProof` has
returned true, submits nothing. -/
theorem C21_worker_submits_unproven :
    racyWorker.isPoW 0 = true ∧ racyWorker.isPoW 1 = false ∧ racyWorker.isPoW 2 = true ∧
    racyWorker.CreateNewBlock 0 = some missTemplate ∧
    missTemplate.IsProofOfWork = true ∧ missTemplate.CheckProof 0 = false ∧
    workerGrind racyWorker.isPoW missTemplate.CheckProof (nInnerLoopCount + 1) 1 0 = (2, 0) ∧
    workerRun racyWorker 1 =
      { nReads := 3, nTemplates := 1, submitted := [(0, 0)],
        status := WorkerStatus.running } ∧
    workerRun racyStakeWorker 1 =
      { nReads := 2, nTemplates := 1, submitted := [], status := WorkerStatus.left } :=
  ⟨by decide, by decide, by decide, rfl, by decide, by decide, by decide, by decide,
    by decide⟩

/-! ## The header time of the template -/

/-- C27 (counterexample): a proof-of-stake template whose kernel search runs hands the
block to `CreateCoinStake` after `UpdateTime`; with a `CreateCoinStake` that stamps the block
with the time of the kernel, 1600000200, the header time of the template is that time and
not `max(MTP + 1, adjusted time)`, which is 1600000101. -/
theorem C27_counterexample :
    posHeader.IsProofOfStake = true ∧
    (templateHeader posHeader 1600000100 1600000050 1600000050 false (fun _ => 0) true
      lateCoinStake).nTime = 1600000200 ∧
    max ((1600000100 : Int) + 1) 1600000050 = 1600000101 := by
  decide

/-- C27 (amended): `UpdateTime` returns `max(MTP + 1, adjusted time) - old nTime` and, when
that maximum fits the 32-bit field, sets `nTime` to `max(old nTime, max(MTP + 1, adjusted
time))`, never decreasing it.  Consequently, with the adjusted clock constant (and not
negative) during `CreateNewBlock`, the header has the time `max(MTP + 1, adjusted time)`
after line 264; this is the header time of the template when the template is proof of work
or its kernel search does not run; when the kernel search runs, the header of the template
is what `CreateCoinStake` makes of the header with that time. -/
theorem C27_header_time (pblock : CBlockHeader) (mtp adj : Int) (fmin : Bool)
    (gnwr : CBlockHeader → Nat) :
    (UpdateTime pblock mtp adj fmin gnwr).2 = max (mtp + 1) adj - (pblock.nTime : Int) ∧
    (max (mtp + 1) adj < (U32 : Int) →
      ((UpdateTime pblock mtp adj fmin gnwr).1.nTime : Int) =
        max (pblock.nTime : Int) (max (mtp + 1) adj) ∧
      pblock.nTime ≤ (UpdateTime pblock mtp adj fmin gnwr).1.nTime) ∧
    (∀ (fSearch : Bool) (CreateCoinStake : CBlockHeader → CBlockHeader),
      0 ≤ adj → max (mtp + 1) adj < (U32 : Int) →
      (((UpdateTime { pblock with nNonce := 0, nTime := toUInt32 adj } mtp adj fmin
          gnwr).1.nTime : Int) = max (mtp + 1) adj) ∧
      ((pblock.IsProofOfStake && fSearch) = false →
        ((templateHeader pblock mtp adj adj fmin gnwr fSearch CreateCoinStake).nTime : Int) =
          max (mtp + 1) adj) ∧
      ((pblock.IsProofOfStake && fSearch) = true →
        templateHeader pblock mtp adj adj fmin gnwr fSearch CreateCoinStake =
          CreateCoinStake (UpdateTime { pblock with nNonce := 0, nTime := toUInt32 adj } mtp
            adj fmin gnwr).1)) := by
  refine ⟨(UpdateTime_spec pblock mtp adj fmin gnwr).1, (UpdateTime_spec pblock mtp adj fmin gnwr).2,
    ?_⟩
  intro fSearch ccs h0 hfit
  have hadj : adj < (U32 : Int) := lt_of_le_of_lt (le_max_right _ _) hfit
  have e1 : ((toUInt32 adj : Nat) : Int) = adj := by
    unfold toUInt32
    simp only [U32] at hadj ⊢
    omega
  have hp2 := (UpdateTime_spec { pblock with nNonce := 0, nTime := toUInt32 adj } mtp adj fmin
    gnwr).2 hfit
  have hv := UpdateTime_nVersion { pblock with nNonce := 0, nTime := toUInt32 adj } mtp adj fmin
    gnwr
  have hpos : (UpdateTime { pblock with nNonce := 0, nTime := toUInt32 adj } mtp adj fmin
      gnwr).1.IsProofOfStake = pblock.IsProofOfStake :=
    IsProofOfStake_congr _ _ hv
  have htime : ((UpdateTime { pblock with nNonce := 0, nTime := toUInt32 adj } mtp adj fmin
      gnwr).1.nTime : Int) = max (mtp + 1) adj := by
    rw [hp2.1]
    show max ((toUInt32 adj : Nat) : Int) _ = _
    rw [e1]
    have := le_max_right (mtp + 1) adj
    omega
  refine ⟨htime, ?_, ?_⟩
  · intro hc
    unfold templateHeader
    simp only []
    rw [hpos, hc]
    exact htime
  · intro hc
    unfold templateHeader
    simp only []
    rw [hpos, hc]
    rfl

/-- Amended C27 with median time past 1600000100 and clock 1600000050: the result of
`UpdateTime` on the proof-of-work header is 101, the proof-of-work template has the time
1600000101, and the proof-of-stake template whose kernel search runs is what `CreateCoinStake`
makes of a header with the time 1600000101, which here keeps that time. -/
theorem C27_header_time_witness :
    (UpdateTime powHeader 1600000100 1600000050 false (fun _ => 0)).2 = 101 ∧
    ((templateHeader powHeader 1600000100 1600000050 1600000050 false (fun _ => 0) false
      plainCoinStake).nTime : Int) = 1600000101 ∧
    (templateHeader posHeader 1600000100 1600000050 1600000050 false (fun _ => 0) true
        plainCoinStake =
      plainCoinStake (UpdateTime { posHeader with nNonce := 0, nTime := toUInt32 1600000050 }
        1600000100 1600000050 false (fun _ => 0)).1) ∧
    (templateHeader posHeader 1600000100 1600000050 1600000050 false (fun _ => 0) true
      plainCoinStake).nTime = 1600000101 ∧
    (templateHeader posHeader 1600000100 1600000050 1600000050 false (fun _ => 0) true
      plainCoinStake).posStakeN = 1 :=
  ⟨(C27_header_time powHeader 1600000100 1600000050 false (fun _ => 0)).1.trans (by decide),
    (((C27_header_time powHeader 1600000100 1600000050 false (fun _ => 0)).2.2 false
      plainCoinStake (by decide) (by decide)).2.1 (by decide)).trans (by decide),
    ((C27_header_time posHeader 1600000100 1600000050 false (fun _ => 0)).2.2 true
      plainCoinStake (by decide) (by decide)).2.2 (by decide),
    by decide, by decide⟩

/-! ## The points of a commit lead to the state after the commit -/

theorem getLast?_scanl {α β : Type} (f : β → α → β) (L : List α) (b : β) :
    (L.scanl f b).getLast? = some (L.foldl f b) := by
  induction L generalizing b with
  | nil => rfl
  | cons a L ih =>
    rw [List.scanl_cons, List.foldl_cons, List.getLast?_append, ih]
    rfl

/-- The last point inside `UpdatePackagesForAdded` carries the index that the call returns. -/
theorem updatePoints_getLast? (mp : CTxMemPool) (P : List Nat) (s : SelectorState) :
    (updatePoints mp P s).getLast? =
      some (ProgramPoint.updating,
        { s with mapModifiedTx := (UpdatePackagesForAdded mp P s.mapModifiedTx).2 }) := by
  unfold updatePoints
  rw [List.getLast?_map, getLast?_scanl, updatePairs_foldl]
  rfl

/-- The last point of the commit loop is the state after the loop. -/
theorem commitLoopPoints_getLast? (mp : CTxMemPool) (it : Nat) (l : List Nat)
    (s : SelectorState) :
    (commitLoopPoints mp (it :: l) s).getLast? =
      some (ProgramPoint.erased, (it :: l).foldl (addEntry mp) s) := by
  induction l generalizing it s with
  | nil => rfl
  | cons x l ih =>
    have e : commitLoopPoints mp (it :: x :: l) s =
        [(ProgramPoint.added it, addedState mp s it), (ProgramPoint.erased, addEntry mp s it)] ++
          commitLoopPoints mp (x :: l) (addEntry mp s it) := rfl
    rw [e, List.getLast?_append, ih]
    rfl

/-- The last point of a commit differs from the state after the commit only in the counter
`nDescendantsUpdated` and the record of committed packages: block, index and `failedTx` are
those of `commitPackage`. -/
theorem commitPoints_getLast? (mp : CTxMemPool) (s : SelectorState) (iter : Nat) (f : Bool)
    (ps : Nat) (pf : Int) (pso : Nat) (ancestors : List Nat) :
    (commitPoints mp s ancestors).getLast? =
      some (ProgramPoint.updating,
        { commitPackage mp s iter f ps pf pso ancestors with
          nDescendantsUpdated := s.nDescendantsUpdated,
          committed := s.committed }) := by
  unfold commitPoints
  simp only []
  rw [List.getLast?_cons, List.getLast?_append, updatePoints_getLast?]
  simp only [Option.or_some, Option.getD_some, commitPackage, foldl_addEntry_committed]
  congr 3
  induction (SortForBlock mp ancestors) generalizing s with
  | nil => rfl
  | cons x l ih => exact ih (addEntry mp s x)

end Miner
